import Mathlib

/-!
Fragment correction (FragCorrectOVL.c): embedding and verified properties.

The C program keeps its working data in globals (`Frag`, the configuration
variables, the alignment tables).  Here every function receives the globals it
uses as explicit arguments and returns the updated ones.

* `int` values are modelled by `Int`; the 8-bit vote counters by `Nat`
  (every increment in the source is guarded by `< MAX_VOTE`, so no counter
  wraps around).
* a `char *` argument is modelled by its indexing function `Int → Char`.
* `exit (1)` is modelled by the result `none`.
-/

namespace FragCorrectOVL

/-! ## Constants -/

/-- Highest number of votes before overflow (`MAX_VOTE`). -/
def MAX_VOTE : Nat := 255

/-- Highest degree before overflow (`MAX_DEGREE`). -/
def MAX_DEGREE : Nat := 32767

/-- This many or more votes at the same base indicate a separate haplotype
(`MIN_HAPLO_OCCURS`). -/
def MIN_HAPLO_OCCURS : Nat := 3

/-! ## Types -/

/-- Modelled from the spec: the enumeration `Vote_Value_t` is declared in
`FragCorrectOVL.h`, which is not among the sources.  The spec lists the vote
values `A/C/G/T_SUBST`, `A/C/G/T_INSERT`, `DELETE`, `NO_VOTE` and the extra
record type `EXTENSION`; the order below is the one the source relies on in
`vote_val <= T_SUBST` (deletions and substitutions come first). -/
inductive Vote_Value_t where
  | DELETE
  | A_SUBST
  | C_SUBST
  | G_SUBST
  | T_SUBST
  | A_INSERT
  | C_INSERT
  | G_INSERT
  | T_INSERT
  | NO_VOTE
  | EXTENSION
  deriving DecidableEq, Repr

/-- Numeric value of an enumerator of `Vote_Value_t`. -/
def Vote_Value_t.toInt : Vote_Value_t → Int
  | .DELETE => 0
  | .A_SUBST => 1
  | .C_SUBST => 2
  | .G_SUBST => 3
  | .T_SUBST => 4
  | .A_INSERT => 5
  | .C_INSERT => 6
  | .G_INSERT => 7
  | .T_INSERT => 8
  | .NO_VOTE => 9
  | .EXTENSION => 10

/-- The record `Vote_Tally_t`: eleven 8-bit counters. -/
structure Vote_Tally_t where
  confirmed : Nat
  deletes : Nat
  a_subst : Nat
  c_subst : Nat
  g_subst : Nat
  t_subst : Nat
  no_insert : Nat
  a_insert : Nat
  c_insert : Nat
  g_insert : Nat
  t_insert : Nat
  deriving DecidableEq, Repr

/-- The all-zero tally produced by `safe_calloc`. -/
def Vote_Tally_t.zero : Vote_Tally_t :=
  ⟨0, 0, 0, 0, 0, 0, 0, 0, 0, 0, 0⟩

/-- The record `Vote_t` of the alignment analysis. -/
structure Vote_t where
  frag_sub : Int
  align_sub : Int
  vote_val : Vote_Value_t
  deriving DecidableEq, Repr

/-- The record `Frag_Info_t`.  `sequence = none` is the `NULL` pointer of a
deleted fragment; `vote` is the tally array, indexed by position. -/
structure Frag_Info_t where
  sequence : Option (List Char)
  vote : Int → Vote_Tally_t
  clear_len : Nat
  left_degree : Nat
  right_degree : Nat
  shredded : Bool

/-- The global array `Frag`, indexed by `sub`. -/
abbrev Frag_t := Int → Frag_Info_t

/-- Modelled from the spec: `Correction_Output_t` is declared in
`FragCorrectOVL.h`, which is not among the sources.  It is a tagged record:
an ID record (`is_ID = TRUE`) carries `keep_left`, `keep_right` and `iid`, a
correction record (`is_ID = FALSE`) carries `pos` and `type`. -/
inductive Correction_Output_t where
  | frag (keep_left keep_right : Bool) (iid : Int)
  | corr (pos : Int) (type : Vote_Value_t)
  deriving DecidableEq, Repr

/-- The configuration globals read by the functions modelled here. -/
structure Config where
  Degree_Threshold : Int
  End_Exclude_Len : Int
  Extend_Fragments : Bool
  Kmer_Len : Int
  Use_Haplo_Ct : Bool
  Vote_Qualify_Len : Int
  Lo_Frag_IID : Int
  Num_Frags : Nat

/-- The defaults of the source (`DEFAULT_DEGREE_THRESHOLD` etc.) for a range of
`Num_Frags` fragments starting at `Lo_Frag_IID`. -/
def Config.default (lo : Int) (num : Nat) : Config :=
  ⟨2, 3, false, 9, true, 9, lo, num⟩

/-! ## Strings -/

/-- The character with code 0 that ends a C string. -/
def NUL : Char := Char.ofNat 0

/-- Indexing function of the C string stored in `s`: the characters of `s`,
then `NUL`. -/
def charAt (s : List Char) (i : Int) : Char :=
  if i < 0 then NUL else s.getD i.toNat NUL

/-! ## Casting votes -/

/-- Store tally `v` at `Frag [sub] . vote [p]`. -/
def setVote (Frag : Frag_t) (sub p : Int) (v : Vote_Tally_t) : Frag_t :=
  fun s => if s = sub then
    { Frag s with vote := fun q => if q = p then v else (Frag s).vote q }
  else Frag s

/-- `Cast_Vote (val, p, sub)`: add vote `val` to `Frag [sub]` at sequence
position `p`.  The `default` branch of the source only prints a message. -/
def Cast_Vote (Frag : Frag_t) (val : Vote_Value_t) (p sub : Int) : Frag_t :=
  let t := (Frag sub).vote p
  match val with
  | .DELETE =>
    if t.deletes < MAX_VOTE then setVote Frag sub p { t with deletes := t.deletes + 1 } else Frag
  | .A_SUBST =>
    if t.a_subst < MAX_VOTE then setVote Frag sub p { t with a_subst := t.a_subst + 1 } else Frag
  | .C_SUBST =>
    if t.c_subst < MAX_VOTE then setVote Frag sub p { t with c_subst := t.c_subst + 1 } else Frag
  | .G_SUBST =>
    if t.g_subst < MAX_VOTE then setVote Frag sub p { t with g_subst := t.g_subst + 1 } else Frag
  | .T_SUBST =>
    if t.t_subst < MAX_VOTE then setVote Frag sub p { t with t_subst := t.t_subst + 1 } else Frag
  | .A_INSERT =>
    if t.a_insert < MAX_VOTE then setVote Frag sub p { t with a_insert := t.a_insert + 1 } else Frag
  | .C_INSERT =>
    if t.c_insert < MAX_VOTE then setVote Frag sub p { t with c_insert := t.c_insert + 1 } else Frag
  | .G_INSERT =>
    if t.g_insert < MAX_VOTE then setVote Frag sub p { t with g_insert := t.g_insert + 1 } else Frag
  | .T_INSERT =>
    if t.t_insert < MAX_VOTE then setVote Frag sub p { t with t_insert := t.t_insert + 1 } else Frag
  | .NO_VOTE => Frag
  | .EXTENSION => Frag

/-- `Matching_Vote (ch)`: the substitution vote corresponding to `ch`. -/
def Matching_Vote (ch : Char) : Vote_Value_t :=
  let c := ch.toLower
  if c = 'a' then .A_SUBST
  else if c = 'c' then .C_SUBST
  else if c = 'g' then .G_SUBST
  else if c = 't' then .T_SUBST
  else .NO_VOTE

/-! ## Output of the corrections -/

/-- The running values `max`, `total`, `vote`, `is_change`, `haplo_ct` of one
decision in `Output_Corrections`. -/
structure Tally_Scan where
  max : Nat
  total : Nat
  vote : Vote_Value_t
  is_change : Bool
  haplo_ct : Nat
  deriving DecidableEq, Repr

/-- The start of a decision: `vote = v; total = max = tmp;` followed by
`if (max >= MIN_HAPLO_OCCURS) haplo_ct ++;` with `is_change = TRUE`. -/
def Tally_Scan.start (v : Vote_Value_t) (tmp : Nat) : Tally_Scan :=
  { max := tmp, total := tmp, vote := v, is_change := true,
    haplo_ct := if tmp ≥ MIN_HAPLO_OCCURS then 1 else 0 }

/-- One further candidate: `total += tmp; if (tmp > max) {max = tmp; vote = v;
is_change = chg;}  if (tmp >= MIN_HAPLO_OCCURS) haplo_ct ++;`. -/
def Tally_Scan.next (s : Tally_Scan) (v : Vote_Value_t) (tmp : Nat) (chg : Bool) : Tally_Scan :=
  { max := if tmp > s.max then tmp else s.max,
    total := s.total + tmp,
    vote := if tmp > s.max then v else s.vote,
    is_change := if tmp > s.max then chg else s.is_change,
    haplo_ct := if tmp ≥ MIN_HAPLO_OCCURS then s.haplo_ct + 1 else s.haplo_ct }

/-- The scan over `deletes`, `a_subst`, `c_subst`, `g_subst`, `t_subst` at a
position whose base is `ch`. -/
def subst_scan (ch : Char) (t : Vote_Tally_t) : Tally_Scan :=
  ((((Tally_Scan.start .DELETE t.deletes).next .A_SUBST t.a_subst (decide (ch ≠ 'a'))).next
    .C_SUBST t.c_subst (decide (ch ≠ 'c'))).next
    .G_SUBST t.g_subst (decide (ch ≠ 'g'))).next
    .T_SUBST t.t_subst (decide (ch ≠ 't'))

/-- The scan over `a_insert`, `c_insert`, `g_insert`, `t_insert`.  The source
keeps no `is_change` flag here; the field stays `true`. -/
def insert_scan (t : Vote_Tally_t) : Tally_Scan :=
  (((Tally_Scan.start .A_INSERT t.a_insert).next .C_INSERT t.c_insert true).next
    .G_INSERT t.g_insert true).next
    .T_INSERT t.t_insert true

/-- First half of the body of the loop over `j` in `Output_Corrections`: the
deletion / substitution record written for position `j`, if any. -/
def Output_Corrections_subst (cfg : Config) (ch : Char) (t : Vote_Tally_t) (j : Int) :
    List Correction_Output_t :=
  if t.confirmed < 2 then
    let s := subst_scan ch t
    if 2 * s.max > s.total ∧ s.total > 1 ∧ s.is_change = true
        ∧ (s.haplo_ct < 2 ∨ cfg.Use_Haplo_Ct = false)
        ∧ (t.confirmed = 0 ∨ (t.confirmed = 1 ∧ s.max > 6)) then
      [Correction_Output_t.corr j s.vote]
    else []
  else []

/-- Second half of the body of the loop over `j` in `Output_Corrections`: the
insertion record written for position `j`, if any. -/
def Output_Corrections_insert (cfg : Config) (t : Vote_Tally_t) (j : Int) :
    List Correction_Output_t :=
  if t.no_insert < 2 then
    let s := insert_scan t
    if 2 * s.max > s.total ∧ s.total > 1
        ∧ (s.haplo_ct < 2 ∨ cfg.Use_Haplo_Ct = false)
        ∧ (t.no_insert = 0 ∨ (t.no_insert = 1 ∧ s.max > 6)) then
      [Correction_Output_t.corr j s.vote]
    else []
  else []

/-- Body of the loop over `j` in `Output_Corrections`. -/
def Output_Corrections_pos (cfg : Config) (ch : Char) (t : Vote_Tally_t) (j : Int) :
    List Correction_Output_t :=
  Output_Corrections_subst cfg ch t j ++ Output_Corrections_insert cfg t j

/-- The scan `for (j = clear_len; sequence [j] != 0; j ++)` that extends the
clear range; the result is the final `last_conf`.  `fuel` bounds the number of
iterations. -/
def extend_scan (cfg : Config) (seq : List Char) (vote : Int → Vote_Tally_t) :
    Nat → Int → Int → Int
  | 0, _, last_conf => last_conf
  | fuel + 1, j, last_conf =>
    if charAt seq j ≠ NUL then
      if (vote j).confirmed > 0 then extend_scan cfg seq vote fuel (j + 1) j
      else if j - last_conf > 2 * cfg.End_Exclude_Len + 1 then last_conf
      else extend_scan cfg seq vote fuel (j + 1) last_conf
    else last_conf

/-- The value of `last_conf` when the loop over `j` starts. -/
def last_conf (cfg : Config) (f : Frag_Info_t) (seq : List Char) : Int :=
  if cfg.Extend_Fragments then
    extend_scan cfg seq f.vote (seq.length + 1) f.clear_len ((f.clear_len : Int) - 1)
  else (f.clear_len : Int) - 1

/-- The per-position records of fragment `f`: the loop
`for (j = 0; j <= last_conf; j ++)`. -/
def Output_Corrections_positions (cfg : Config) (f : Frag_Info_t) (seq : List Char) :
    List Correction_Output_t :=
  (List.range (last_conf cfg f seq + 1).toNat).flatMap
    (fun j => Output_Corrections_pos cfg (charAt seq j) (f.vote j) j)

/-- Body of the loop over `i` in `Output_Corrections`: the records written
for fragment `Frag [i]`. -/
def Output_Corrections_frag (cfg : Config) (Frag : Frag_t) (i : Int) :
    List Correction_Output_t :=
  let f := Frag i
  let id_rec := Correction_Output_t.frag (decide ((f.left_degree : Int) < cfg.Degree_Threshold))
    (decide ((f.right_degree : Int) < cfg.Degree_Threshold)) (cfg.Lo_Frag_IID + i)
  match f.sequence with
  | none => [id_rec]
  | some seq =>
    id_rec ::
      ((if cfg.Extend_Fragments then
          [Correction_Output_t.corr (1 + last_conf cfg f seq - f.clear_len) .EXTENSION]
        else []) ++ Output_Corrections_positions cfg f seq)

/-- `Output_Corrections`: the records written to the correction file. -/
def Output_Corrections (cfg : Config) (Frag : Frag_t) : List Correction_Output_t :=
  (List.range cfg.Num_Frags).flatMap (fun i => Output_Corrections_frag cfg Frag i)

/-! ## Analysis of an alignment -/

/-- The loop `for (p = lo; p < hi; p ++) body`. -/
def for_loop {σ : Type} (lo hi : Int) (body : Int → σ → σ) (s : σ) : σ :=
  (List.range (hi - lo).toNat).foldl (fun s (k : Nat) => body (lo + (k : Int)) s) s

/-- The `switch (b_part [j])` that chooses a substitution vote; `none` is the
`default` branch, which ends in `exit (1)`. -/
def subst_vote (ch : Char) : Option Vote_Value_t :=
  if ch = 'a' then some .A_SUBST
  else if ch = 'c' then some .C_SUBST
  else if ch = 'g' then some .G_SUBST
  else if ch = 't' then some .T_SUBST
  else none

/-- The `switch (b_part [j])` that chooses an insertion vote; `none` is the
`default` branch, which ends in `exit (1)`. -/
def insert_vote (ch : Char) : Option Vote_Value_t :=
  if ch = 'a' then some .A_INSERT
  else if ch = 'c' then some .C_INSERT
  else if ch = 'g' then some .G_INSERT
  else if ch = 't' then some .T_INSERT
  else none

/-- The variables `i`, `j`, `p` and the array `vote [0 .. ct - 1]` while the
vote list is built (`ct = vote.length`). -/
structure Align_Walk where
  i : Int
  j : Int
  p : Int
  vote : List Vote_t
  deriving DecidableEq, Repr

/-- One aligned column: `if (a_part [i] != b_part [j]) {record a substitution
vote}  i ++; j ++; p ++;`. -/
def walk_column (a_part b_part : Int → Char) (w : Align_Walk) : Option Align_Walk :=
  if a_part w.i ≠ b_part w.j then
    match subst_vote (b_part w.j) with
    | none => none
    | some v => some ⟨w.i + 1, w.j + 1, w.p + 1, w.vote ++ [⟨w.i, w.p, v⟩]⟩
  else some ⟨w.i + 1, w.j + 1, w.p + 1, w.vote⟩

/-- The column step repeated `k` times. -/
def walk_columns (a_part b_part : Int → Char) : Nat → Align_Walk → Option Align_Walk
  | 0, w => some w
  | k + 1, w => (walk_column a_part b_part w).bind (walk_columns a_part b_part k)

/-- Body of the loop over `k`: the `abs (delta [k]) - 1` aligned columns, then
the insertion (negative entry) or deletion vote. -/
def walk_entry (a_part b_part : Int → Char) (d : Int) (w : Align_Walk) : Option Align_Walk :=
  (walk_columns a_part b_part (d.natAbs - 1) w).bind fun w =>
    if d < 0 then
      match insert_vote (b_part w.j) with
      | none => none
      | some v => some ⟨w.i, w.j + 1, w.p + 1, w.vote ++ [⟨w.i - 1, w.p, v⟩]⟩
    else some ⟨w.i + 1, w.j, w.p + 1, w.vote ++ [⟨w.i, w.p, .DELETE⟩]⟩

/-- The loop over the entries of `delta`. -/
def walk_delta (a_part b_part : Int → Char) : List Int → Align_Walk → Option Align_Walk
  | [], w => some w
  | d :: ds, w => (walk_entry a_part b_part d w).bind (walk_delta a_part b_part ds)

/-- First part of `Analyze_Alignment`: the array `vote [0 .. ct]`, with the
two boundary entries.  `none` is `exit (1)`.  The `vote_val` of the last entry
is not set by the source and never read; it is `NO_VOTE` here. -/
def Build_Votes (delta : List Int) (a_part b_part : Int → Char) (a_len b_len : Int) :
    Option (List Vote_t) :=
  if a_len < 0 ∨ b_len < 0 then none
  else
    (walk_delta a_part b_part delta ⟨0, 0, 0, [⟨-1, -1, .A_SUBST⟩]⟩).bind fun w =>
      (walk_columns a_part b_part (a_len - w.i).toNat w).bind fun w =>
        some (w.vote ++ [⟨w.i, w.p, .NO_VOTE⟩])

/-- The statements `if (confirmed < MAX_VOTE) confirmed ++;
if (p < p_hi - 1 && no_insert < MAX_VOTE) no_insert ++;` at tally index `k`. -/
def Confirm (Frag : Frag_t) (p p_hi k sub : Int) : Frag_t :=
  let t := (Frag sub).vote k
  let Frag := if t.confirmed < MAX_VOTE then
      setVote Frag sub k { t with confirmed := t.confirmed + 1 } else Frag
  let t := (Frag sub).vote k
  if p < p_hi - 1 ∧ t.no_insert < MAX_VOTE then
    setVote Frag sub k { t with no_insert := t.no_insert + 1 } else Frag

/-- The entry `vote [i]`. -/
def vote_at (vote : List Vote_t) (i : Nat) : Vote_t :=
  vote.getD i ⟨0, 0, .NO_VOTE⟩

/-- First half of the body of the loop `for (i = 1; i <= ct; i ++)` of
`Analyze_Alignment`: the statement `if (prev_match >= Kmer_Len) {...}` with
its three loops over the matched run before `vote [i]`. -/
def Tally_Run (cfg : Config) (a_part : Int → Char) (a_offset sub : Int)
    (vote : List Vote_t) (ct i : Nat) (Frag : Frag_t) : Frag_t :=
  let prev := vote_at vote (i - 1)
  let cur := vote_at vote i
  let prev_match := cur.align_sub - prev.align_sub - 1
  let p_lo := if i = 1 then 0 else cfg.End_Exclude_Len
  let p_hi := if i = ct then prev_match else prev_match - cfg.End_Exclude_Len
  if prev_match ≥ cfg.Kmer_Len then
    let Frag := for_loop 0 p_lo (fun p F =>
      Cast_Vote F (Matching_Vote (a_part (prev.frag_sub + p + 1)))
        (a_offset + prev.frag_sub + p + 1) sub) Frag
    let Frag := for_loop p_lo p_hi (fun p F =>
      Confirm F p p_hi (a_offset + prev.frag_sub + p + 1) sub) Frag
    for_loop p_hi prev_match (fun p F =>
      Cast_Vote F (Matching_Vote (a_part (prev.frag_sub + p + 1)))
        (a_offset + prev.frag_sub + p + 1) sub) Frag
  else Frag

/-- Second half of the body of the loop `for (i = 1; i <= ct; i ++)` of
`Analyze_Alignment`: the statement `if (i < ct && (...)) {...}` that casts the
vote `vote [i]` itself. -/
def Tally_Discrepancy (cfg : Config) (a_offset sub : Int)
    (vote : List Vote_t) (ct i : Nat) (Frag : Frag_t) : Frag_t :=
  let prev := vote_at vote (i - 1)
  let cur := vote_at vote i
  let prev_match := cur.align_sub - prev.align_sub - 1
  if i < ct ∧ (prev_match > 0 ∨ prev.vote_val.toInt ≤ Vote_Value_t.T_SUBST.toInt
      ∨ cur.vote_val.toInt ≤ Vote_Value_t.T_SUBST.toInt) then
    let next_match := (vote_at vote (i + 1)).align_sub - cur.align_sub - 1
    if prev_match + next_match ≥ cfg.Vote_Qualify_Len then
      Cast_Vote Frag cur.vote_val (a_offset + cur.frag_sub) sub
    else Frag
  else Frag

/-- Body of the loop `for (i = 1; i <= ct; i ++)` of `Analyze_Alignment`. -/
def Tally_Vote (cfg : Config) (a_part : Int → Char) (a_offset sub : Int)
    (vote : List Vote_t) (ct i : Nat) (Frag : Frag_t) : Frag_t :=
  Tally_Discrepancy cfg a_offset sub vote ct i
    (Tally_Run cfg a_part a_offset sub vote ct i Frag)

/-- Second part of `Analyze_Alignment`: the loop
`for (i = 1; i <= ct; i ++)` over the vote list `vote [0 .. ct]`. -/
def Tally_Votes (cfg : Config) (a_part : Int → Char) (a_offset sub : Int)
    (vote : List Vote_t) (Frag : Frag_t) : Frag_t :=
  let ct := vote.length - 1
  (List.range ct).foldl (fun F k => Tally_Vote cfg a_part a_offset sub vote ct (k + 1) F) Frag

/-- `Analyze_Alignment (delta, delta_len, a_part, b_part, a_len, b_len,
a_offset, sub)`; `delta_len` is the length of the list `delta`.  The result is
the updated `Frag`, or `none` for `exit (1)`. -/
def Analyze_Alignment (cfg : Config) (Frag : Frag_t) (delta : List Int)
    (a_part b_part : Int → Char) (a_len b_len a_offset sub : Int) : Option Frag_t :=
  (Build_Votes delta a_part b_part a_len b_len).map
    (fun vote => Tally_Votes cfg a_part a_offset sub vote Frag)

/-! ## The prefix aligner -/

/-- `OVL_Max_int (a, b)`: the larger of `a` and `b`. -/
def OVL_Max_int (a b : Int) : Int :=
  if a < b then b else a

/-- `OVL_Min_int (a, b)`: the smaller of `a` and `b`. -/
def OVL_Min_int (a b : Int) : Int :=
  if a < b then a else b

/-- `Sign (a)`: the algebraic sign of `a`. -/
def Sign (a : Int) : Int :=
  if a > 0 then 1 else if a < 0 then -1 else 0

/-- The alignment storage `edit_array [e] [d]` of a work area.  The rows of the
source lie one after the other in `edit_space`; they are kept apart here. -/
abbrev Edit_Array := Int → Int → Int

/-- The assignment `edit_array [e] [d] = v`. -/
def Edit_Array.set (ea : Edit_Array) (e d v : Int) : Edit_Array :=
  fun e' d' => if e' = e ∧ d' = d then v else ea e' d'

/-- The tables that `Initialize_Globals` fills with floating-point
computations, and the floating-point score of a branch point; they are
arguments of the model.

* `Edit_Match_Limit e` is `Edit_Match_Limit [e]`;
* `Error_Bound i` is `Error_Bound [i]`;
* `Score Longest e` stands for the `double` value
  `Longest * BRANCH_PT_MATCH_VALUE - e`, scaled by a fixed positive factor to
  an integer (every `double` is an integer multiple of the smallest positive
  one); only comparisons of scores with each other and with `0.0` are made. -/
structure Tables where
  Edit_Match_Limit : Int → Int
  Error_Bound : Int → Int
  Score : Int → Int → Int

/-- The values returned by `Prefix_Edit_Dist`: the function result `errors`,
the outputs `A_End`, `T_End`, `Match_To_End`, `Delta [0 .. Delta_Len - 1]`
(with `Delta_Len = Delta.length`) and the final content of the work area. -/
structure PED_Result where
  errors : Int
  A_End : Int
  T_End : Int
  Match_To_End : Bool
  Delta : List Int
  edit_array : Edit_Array

/-- The variables `d`, `last` and `delta_stack [0 .. delta_len - 1]` of
`Compute_Delta`. -/
structure Back_Trace where
  d : Int
  last : Int
  delta_stack : List Int
  deriving DecidableEq, Repr

/-- Body of the loop `for (k = e; k > 0; k --)` of `Compute_Delta`. -/
def Compute_Delta_step (edit_array : Edit_Array) (k : Int) (s : Back_Trace) : Back_Trace :=
  let frm := s.d
  let max := 1 + edit_array (k - 1) s.d
  let j := edit_array (k - 1) (s.d - 1)
  let frm := if j > max then s.d - 1 else frm
  let max := if j > max then j else max
  let j := 1 + edit_array (k - 1) (s.d + 1)
  let frm := if j > max then s.d + 1 else frm
  let max := if j > max then j else max
  if frm = s.d - 1 then
    ⟨s.d - 1, edit_array (k - 1) frm, s.delta_stack ++ [max - s.last - 1]⟩
  else if frm = s.d + 1 then
    ⟨s.d + 1, edit_array (k - 1) frm, s.delta_stack ++ [s.last - (max - 1)]⟩
  else s

/-- The loop `for (k = e; k > 0; k --)` of `Compute_Delta`. -/
def Compute_Delta_trace (edit_array : Edit_Array) : Nat → Back_Trace → Back_Trace
  | 0, s => s
  | k + 1, s => Compute_Delta_trace edit_array k (Compute_Delta_step edit_array ((k : Int) + 1) s)

/-- The loop `for (i = (* delta_len) - 1; i > 0; i --)` of `Compute_Delta`,
started at `i`: the entries `abs (delta_stack [i]) * Sign (delta_stack [i - 1])`. -/
def Compute_Delta_out (delta_stack : List Int) : Nat → List Int
  | 0 => []
  | i + 1 => ((delta_stack.getD (i + 1) 0).natAbs : Int) * Sign (delta_stack.getD i 0)
      :: Compute_Delta_out delta_stack i

/-- `Compute_Delta (delta, delta_len, edit_array, e, d, row)`: the entries
`delta [0 .. delta_len - 1]`. -/
def Compute_Delta (edit_array : Edit_Array) (e d row : Int) : List Int :=
  let s := Compute_Delta_trace edit_array e.toNat ⟨d, row, []⟩
  let delta_stack := s.delta_stack ++ [s.last + 1]
  Compute_Delta_out delta_stack (delta_stack.length - 1)

/-- The loop `for (Row = 0; Row < shorter && A [Row] == T [Row]; Row ++)`. -/
def first_match (A T : Int → Char) (shorter : Int) : Nat → Int → Int
  | 0, Row => Row
  | fuel + 1, Row =>
    if Row < shorter ∧ A Row = T Row then first_match A T shorter fuel (Row + 1) else Row

/-- The loop `while (Row < m && Row + d < n && A [Row] == T [Row + d]) Row ++`. -/
def extend_match (A T : Int → Char) (m n d : Int) : Nat → Int → Int
  | 0, Row => Row
  | fuel + 1, Row =>
    if Row < m ∧ Row + d < n ∧ A Row = T (Row + d) then extend_match A T m n d fuel (Row + 1)
    else Row

/-- What the loop over `d` does: it returns from `Prefix_Edit_Dist`, or it
completes row `e` of `edit_array`. -/
inductive Row_Outcome where
  | returned (r : PED_Result)
  | filled (edit_array : Edit_Array)

/-- The loop `for (d = Left; d <= Right; d ++)` that fills row `e`. -/
def fill_row (A : Int → Char) (m : Int) (T : Int → Char) (n : Int) (e Right : Int) :
    Nat → Int → Edit_Array → Row_Outcome
  | 0, _, edit_array => .filled edit_array
  | fuel + 1, d, edit_array =>
    if d ≤ Right then
      let Row := 1 + edit_array (e - 1) d
      let j := edit_array (e - 1) (d - 1)
      let Row := if j > Row then j else Row
      let j := 1 + edit_array (e - 1) (d + 1)
      let Row := if j > Row then j else Row
      let Row := extend_match A T m n d (m - Row).toNat Row
      let edit_array := edit_array.set e d Row
      if Row = m ∨ Row + d = n then
        if Row = m ∧ 1 + edit_array (e - 1) (d + 1) = edit_array e d ∧ d < Right then
          let edit_array := edit_array.set e (d + 1) (edit_array e d)
          .returned ⟨e, Row, Row + (d + 1), true,
            Compute_Delta edit_array e (d + 1) Row, edit_array⟩
        else
          .returned ⟨e, Row, Row + d, true, Compute_Delta edit_array e d Row, edit_array⟩
      else fill_row A m T n e Right fuel (d + 1) edit_array
    else .filled edit_array

/-- The loop `while (Left <= Right && Left < 0
&& edit_array [e] [Left] < Edit_Match_Limit [e]) Left ++`. -/
def tighten_Left_neg (edit_array : Edit_Array) (e lim Right : Int) : Nat → Int → Int
  | 0, Left => Left
  | fuel + 1, Left =>
    if Left ≤ Right ∧ Left < 0 ∧ edit_array e Left < lim then
      tighten_Left_neg edit_array e lim Right fuel (Left + 1)
    else Left

/-- The loop `while (Left <= Right
&& edit_array [e] [Left] + Left < Edit_Match_Limit [e]) Left ++`. -/
def tighten_Left_pos (edit_array : Edit_Array) (e lim Right : Int) : Nat → Int → Int
  | 0, Left => Left
  | fuel + 1, Left =>
    if Left ≤ Right ∧ edit_array e Left + Left < lim then
      tighten_Left_pos edit_array e lim Right fuel (Left + 1)
    else Left

/-- The loop `while (Right > 0
&& edit_array [e] [Right] + Right < Edit_Match_Limit [e]) Right --`. -/
def tighten_Right_pos (edit_array : Edit_Array) (e lim : Int) : Nat → Int → Int
  | 0, Right => Right
  | fuel + 1, Right =>
    if Right > 0 ∧ edit_array e Right + Right < lim then
      tighten_Right_pos edit_array e lim fuel (Right - 1)
    else Right

/-- The loop `while (edit_array [e] [Right] < Edit_Match_Limit [e]) Right --`,
which has no bound of its own: the result is `none` when the loop is still
running after `fuel` steps. -/
def tighten_Right_neg (edit_array : Edit_Array) (e lim : Int) : Nat → Int → Option Int
  | 0, _ => none
  | fuel + 1, Right =>
    if edit_array e Right < lim then tighten_Right_neg edit_array e lim fuel (Right - 1)
    else some Right

/-- The local variables of `Prefix_Edit_Dist` that live across the levels `e`,
and the work area. -/
structure PED_State where
  edit_array : Edit_Array
  Left : Int
  Right : Int
  Best_d : Int
  Best_e : Int
  Longest : Int
  Max_Score : Int
  Max_Score_Len : Int
  Max_Score_Best_d : Int
  Max_Score_Best_e : Int

/-- The four assignments of `-2` to row `e - 1` at the start of level `e`. -/
def set_sentinels (edit_array : Edit_Array) (e Left Right : Int) : Edit_Array :=
  (((edit_array.set (e - 1) Left (-2)).set (e - 1) (Left - 1) (-2)).set
    (e - 1) Right (-2)).set (e - 1) (Right + 1) (-2)

/-- The two loops that move `Left` to the right at the end of level `e`. -/
def tighten_Left (edit_array : Edit_Array) (e lim Left Right : Int) : Int :=
  let Left := tighten_Left_neg edit_array e lim Right (Right - Left + 1).toNat Left
  if Left ≥ 0 then tighten_Left_pos edit_array e lim Right (Right - Left + 1).toNat Left
  else Left

/-- The two loops that move `Right` to the left at the end of level `e`; `none`
when the second loop, which has no bound of its own, is still running after
it has passed `Left`. -/
def tighten_Right (edit_array : Edit_Array) (e lim Left Right : Int) : Option Int :=
  let Right := tighten_Right_pos edit_array e lim Right.toNat Right
  if Right ≤ 0 then tighten_Right_neg edit_array e lim ((Right - Left + 1).toNat + 1) Right
  else some Right

/-- The loop `for (d = Left; d <= Right; d ++) if (edit_array [e] [d] > Longest)
{Best_d = d; Best_e = e; Longest = edit_array [e] [d];}`. -/
def scan_Longest (e : Int) (st : PED_State) : PED_State :=
  for_loop st.Left (st.Right + 1) (fun d st =>
    if st.edit_array e d > st.Longest then
      { st with Best_d := d, Best_e := e, Longest := st.edit_array e d }
    else st) st

/-- The statements `Score = Longest * BRANCH_PT_MATCH_VALUE - e;
if (Score > Max_Score && Best_e <= Error_Bound [...]) {...}`. -/
def update_Max_Score (tb : Tables) (e : Int) (st : PED_State) : PED_State :=
  let Score := tb.Score st.Longest e
  if Score > st.Max_Score
      ∧ st.Best_e ≤ tb.Error_Bound (OVL_Min_int st.Longest (st.Longest + st.Best_d)) then
    { st with Max_Score := Score, Max_Score_Len := st.Longest,
              Max_Score_Best_d := st.Best_d, Max_Score_Best_e := st.Best_e }
  else st

/-- The statements after the loop over `e`: the branch-point result. -/
def branch_point (st : PED_State) : PED_Result :=
  ⟨st.Max_Score_Best_e, st.Max_Score_Len, st.Max_Score_Len + st.Max_Score_Best_d, false,
    Compute_Delta st.edit_array st.Max_Score_Best_e st.Max_Score_Best_d st.Max_Score_Len,
    st.edit_array⟩

/-- The loop `for (e = 1; e <= Error_Limit; e ++)` of `Prefix_Edit_Dist`
together with the statements that follow it.  The result is `none` when the
unbounded loop on `Right` does not stop or `assert (Left <= Right)` fails. -/
def PED_levels (tb : Tables) (A : Int → Char) (m : Int) (T : Int → Char) (n : Int)
    (Error_Limit : Int) : Nat → Int → PED_State → Option PED_Result
  | 0, _, st => some (branch_point st)
  | fuel + 1, e, st =>
    if e ≤ Error_Limit then
      let Left := OVL_Max_int (st.Left - 1) (-e)
      let Right := OVL_Min_int (st.Right + 1) e
      match fill_row A m T n e Right (Right - Left + 1).toNat Left
          (set_sentinels st.edit_array e Left Right) with
      | .returned r => some r
      | .filled edit_array =>
        let Left := tighten_Left edit_array e (tb.Edit_Match_Limit e) Left Right
        if Left > Right then
          some (branch_point { st with edit_array := edit_array, Left := Left, Right := Right })
        else
          match tighten_Right edit_array e (tb.Edit_Match_Limit e) Left Right with
          | none => none
          | some Right =>
            if Left ≤ Right then
              PED_levels tb A m T n Error_Limit fuel (e + 1)
                (update_Max_Score tb e (scan_Longest e
                  { st with edit_array := edit_array, Left := Left, Right := Right }))
            else none
    else some (branch_point st)

/-- `Prefix_Edit_Dist (A, m, T, n, Error_Limit, A_End, T_End, Match_To_End,
Delta, Delta_Len, wa)`; `edit_array` is the content of `wa -> edit_array` at
the call.  The result is `none` when the function does not return (see
`PED_levels`). -/
def Prefix_Edit_Dist (tb : Tables) (A : Int → Char) (m : Int) (T : Int → Char) (n : Int)
    (Error_Limit : Int) (edit_array : Edit_Array) : Option PED_Result :=
  let shorter := OVL_Min_int m n
  let Row := first_match A T shorter shorter.toNat 0
  let edit_array := edit_array.set 0 0 Row
  if Row = shorter then
    some ⟨0, Row, Row, true, [], edit_array⟩
  else
    PED_levels tb A m T n Error_Limit Error_Limit.toNat 1
      ⟨edit_array, 0, 0, 0, 0, 0, 0, 0, 0, 0⟩

/-! ## Notions used to state the properties of the tallies -/

/-- The eleven counters of a `Vote_Tally_t`. -/
inductive Counter where
  | confirmed
  | deletes
  | a_subst
  | c_subst
  | g_subst
  | t_subst
  | no_insert
  | a_insert
  | c_insert
  | g_insert
  | t_insert
  deriving DecidableEq, Repr

/-- The value of counter `c` in tally `t`. -/
def Vote_Tally_t.get (t : Vote_Tally_t) : Counter → Nat
  | .confirmed => t.confirmed
  | .deletes => t.deletes
  | .a_subst => t.a_subst
  | .c_subst => t.c_subst
  | .g_subst => t.g_subst
  | .t_subst => t.t_subst
  | .no_insert => t.no_insert
  | .a_insert => t.a_insert
  | .c_insert => t.c_insert
  | .g_insert => t.g_insert
  | .t_insert => t.t_insert

/-- The counter named by a vote value: `deletes` for `DELETE`, `a_subst` for
`A_SUBST`, and so on; `NO_VOTE` and `EXTENSION` name no counter. -/
def Vote_Value_t.counter : Vote_Value_t → Option Counter
  | .DELETE => some .deletes
  | .A_SUBST => some .a_subst
  | .C_SUBST => some .c_subst
  | .G_SUBST => some .g_subst
  | .T_SUBST => some .t_subst
  | .A_INSERT => some .a_insert
  | .C_INSERT => some .c_insert
  | .G_INSERT => some .g_insert
  | .T_INSERT => some .t_insert
  | .NO_VOTE => none
  | .EXTENSION => none

/-- Tally `t` with counter `c` increased by one, unless it has reached
`MAX_VOTE`. -/
def Vote_Tally_t.bump (t : Vote_Tally_t) (c : Counter) : Vote_Tally_t :=
  if t.get c < MAX_VOTE then
    match c with
    | .confirmed => { t with confirmed := t.confirmed + 1 }
    | .deletes => { t with deletes := t.deletes + 1 }
    | .a_subst => { t with a_subst := t.a_subst + 1 }
    | .c_subst => { t with c_subst := t.c_subst + 1 }
    | .g_subst => { t with g_subst := t.g_subst + 1 }
    | .t_subst => { t with t_subst := t.t_subst + 1 }
    | .no_insert => { t with no_insert := t.no_insert + 1 }
    | .a_insert => { t with a_insert := t.a_insert + 1 }
    | .c_insert => { t with c_insert := t.c_insert + 1 }
    | .g_insert => { t with g_insert := t.g_insert + 1 }
    | .t_insert => { t with t_insert := t.t_insert + 1 }
  else t

/-- The saturating increment of counter `c` at `Frag [sub] . vote [p]`. -/
def bump_at (c : Counter) (p sub : Int) (Frag : Frag_t) : Frag_t :=
  fun s => if s = sub then
    { Frag s with vote := fun q => if q = p then ((Frag s).vote q).bump c else (Frag s).vote q }
  else Frag s

/-- The updates of `Frag` that are made of saturating increments only. -/
inductive Bumps : (Frag_t → Frag_t) → Prop where
  | nil : Bumps (fun Frag => Frag)
  | cons (c : Counter) (p sub : Int) {f : Frag_t → Frag_t} :
      Bumps f → Bumps (fun Frag => bump_at c p sub (f Frag))

/-- Every counter of every tally is at most `MAX_VOTE`. -/
def Tally_Bounded (Frag : Frag_t) : Prop :=
  ∀ (sub p : Int) (c : Counter), ((Frag sub).vote p).get c ≤ MAX_VOTE

/-- A fragment array whose tallies are all zero, as after `Read_Frags`. -/
def Frag_zero : Frag_t :=
  fun _ => ⟨none, fun _ => Vote_Tally_t.zero, 0, 0, 0, false⟩

/-- The states of `Frag` that arise from zero-initialised tallies by the
operations that change a tally: `Cast_Vote`, the `confirmed` / `no_insert`
update, and whole calls of `Analyze_Alignment`. -/
inductive Reachable (cfg : Config) : Frag_t → Prop where
  | init (Frag : Frag_t) :
      (∀ sub p, (Frag sub).vote p = Vote_Tally_t.zero) → Reachable cfg Frag
  | cast {Frag : Frag_t} (val : Vote_Value_t) (p sub : Int) :
      Reachable cfg Frag → Reachable cfg (Cast_Vote Frag val p sub)
  | confirm {Frag : Frag_t} (p p_hi k sub : Int) :
      Reachable cfg Frag → Reachable cfg (Confirm Frag p p_hi k sub)
  | analyze {Frag Frag' : Frag_t} (delta : List Int) (a_part b_part : Int → Char)
      (a_len b_len a_offset sub : Int) :
      Reachable cfg Frag →
      Analyze_Alignment cfg Frag delta a_part b_part a_len b_len a_offset sub = some Frag' →
      Reachable cfg Frag'

/-! ## Notions used to state the decisions of `Output_Corrections` -/

/-- The count that tally `t` holds for a deletion / substitution action. -/
def subst_count (t : Vote_Tally_t) : Vote_Value_t → Nat
  | .DELETE => t.deletes
  | .A_SUBST => t.a_subst
  | .C_SUBST => t.c_subst
  | .G_SUBST => t.g_subst
  | .T_SUBST => t.t_subst
  | _ => 0

/-- The count that tally `t` holds for an insertion action. -/
def insert_count (t : Vote_Tally_t) : Vote_Value_t → Nat
  | .A_INSERT => t.a_insert
  | .C_INSERT => t.c_insert
  | .G_INSERT => t.g_insert
  | .T_INSERT => t.t_insert
  | _ => 0

/-- The five deletion / substitution actions, in the order of the source. -/
def subst_actions : List Vote_Value_t :=
  [.DELETE, .A_SUBST, .C_SUBST, .G_SUBST, .T_SUBST]

/-- The four insertion actions, in the order of the source. -/
def insert_actions : List Vote_Value_t :=
  [.A_INSERT, .C_INSERT, .G_INSERT, .T_INSERT]

/-- The base that a substitution action writes. -/
def subst_base : Vote_Value_t → Char
  | .A_SUBST => 'a'
  | .C_SUBST => 'c'
  | .G_SUBST => 'g'
  | .T_SUBST => 't'
  | _ => NUL

/-- The largest of the counts of the given actions. -/
def max_count (count : Vote_Value_t → Nat) (actions : List Vote_Value_t) : Nat :=
  (actions.map count).foldl Nat.max 0

/-- The sum of the counts of the given actions. -/
def total_count (count : Vote_Value_t → Nat) (actions : List Vote_Value_t) : Nat :=
  (actions.map count).sum

/-- The number of the given actions whose count reaches `MIN_HAPLO_OCCURS`. -/
def haplo_count (count : Vote_Value_t → Nat) (actions : List Vote_Value_t) : Nat :=
  (actions.filter (fun v => decide (count v ≥ MIN_HAPLO_OCCURS))).length


/-! ## Notions used to state the properties of the aligner -/

/-- The number of characters of `A` that a delta consumes: the sum of
`|delta [k]| - 1` plus the number of positive entries. -/
def delta_A_span (delta : List Int) : Int :=
  (delta.map (fun x => (x.natAbs : Int) - 1)).sum + ((delta.filter (fun x => decide (x > 0))).length : Int)

/-- The number of characters of `T` that a delta consumes: the sum of
`|delta [k]| - 1` plus the number of negative entries. -/
def delta_T_span (delta : List Int) : Int :=
  (delta.map (fun x => (x.natAbs : Int) - 1)).sum + ((delta.filter (fun x => decide (x < 0))).length : Int)

/-- The number of positions `r < k` with `A [i + r] != T [j + r]`. -/
def count_mismatch (A T : Int → Char) (i j : Int) : Nat → Nat
  | 0 => 0
  | k + 1 => (if A i ≠ T j then 1 else 0) + count_mismatch A T (i + 1) (j + 1) k

/-- The number of aligned columns whose two characters differ, in the
alignment that `delta` describes from `(i, j)` on: each entry stands for
`|delta [k]| - 1` aligned columns followed by a gap column, and the columns
after the last entry are aligned up to position `a_end` of `A`. -/
def delta_mismatches (A T : Int → Char) : List Int → Int → Int → Int → Nat
  | [], i, j, a_end => count_mismatch A T i j (a_end - i).toNat
  | d :: ds, i, j, a_end =>
    count_mismatch A T i j (d.natAbs - 1) +
      delta_mismatches A T ds
        (if d < 0 then i + ((d.natAbs - 1 : Nat) : Int) else i + ((d.natAbs - 1 : Nat) : Int) + 1)
        (if d < 0 then j + ((d.natAbs - 1 : Nat) : Int) + 1 else j + ((d.natAbs - 1 : Nat) : Int))
        a_end

/-- The columns of an alignment of a prefix of `A` with a prefix of `T`:
`keep` aligns two equal characters, `replace` two different ones, `insert`
is a character of `T` against a gap (an insertion into `A`), `delete` a
character of `A` against a gap. -/
inductive Edit_Op where
  | keep
  | replace
  | insert
  | delete
  deriving DecidableEq, Repr

/-- The number of characters of `A` in the columns `s`. -/
def script_A_len : List Edit_Op → Int
  | [] => 0
  | .insert :: s => script_A_len s
  | _ :: s => 1 + script_A_len s

/-- The number of characters of `T` in the columns `s`. -/
def script_T_len : List Edit_Op → Int
  | [] => 0
  | .delete :: s => script_T_len s
  | _ :: s => 1 + script_T_len s

/-- The number of inserts, deletes and replacements in `s`. -/
def script_cost : List Edit_Op → Int
  | [] => 0
  | .keep :: s => script_cost s
  | _ :: s => 1 + script_cost s

/-- Whether the columns `s` fit the characters of `A` from position `i` and of
`T` from position `j`: a `keep` stands on equal characters, a `replace` on
different ones. -/
def script_ok (A T : Int → Char) : List Edit_Op → Int → Int → Bool
  | [], _, _ => true
  | .keep :: s, i, j => decide (A i = T j) && script_ok A T s (i + 1) (j + 1)
  | .replace :: s, i, j => decide (A i ≠ T j) && script_ok A T s (i + 1) (j + 1)
  | .insert :: s, i, j => script_ok A T s i (j + 1)
  | .delete :: s, i, j => script_ok A T s (i + 1) j

/-- An alignment of `A [0 .. i)` with `T [0 .. j)`. -/
def Aligns (A T : Int → Char) (s : List Edit_Op) (i j : Int) : Prop :=
  script_ok A T s 0 0 = true ∧ script_A_len s = i ∧ script_T_len s = j

/-- The delta encoding of the columns `s`, entered with `run` aligned columns
since the last gap; the aligned columns after the last gap give no entry. -/
def script_delta : List Edit_Op → Int → List Int
  | [], _ => []
  | .keep :: s, run => script_delta s (run + 1)
  | .replace :: s, run => script_delta s (run + 1)
  | .insert :: s, run => (-(run + 1)) :: script_delta s 0
  | .delete :: s, run => (run + 1) :: script_delta s 0

/-- The number of aligned columns after the last gap of `s`. -/
def script_run : List Edit_Op → Int → Int
  | [], run => run
  | .keep :: s, run => script_run s (run + 1)
  | .replace :: s, run => script_run s (run + 1)
  | .insert :: s, _ => script_run s 0
  | .delete :: s, _ => script_run s 0

/-! ## The back-trace through `edit_array` -/

/-- The value of `max` in `Compute_Delta` after the comparison with diagonal
`d - 1`; `k` is the row that is read. -/
def trace_max1 (ea : Edit_Array) (k d : Int) : Int :=
  if ea k (d - 1) > 1 + ea k d then ea k (d - 1) else 1 + ea k d

/-- The final value of `from` in the body of the loop of `Compute_Delta`. -/
def trace_from (ea : Edit_Array) (k d : Int) : Int :=
  if 1 + ea k (d + 1) > trace_max1 ea k d then d + 1
  else if ea k (d - 1) > 1 + ea k d then d - 1 else d

/-- The final value of `max` in the body of the loop of `Compute_Delta`. -/
def trace_max (ea : Edit_Array) (k d : Int) : Int :=
  if 1 + ea k (d + 1) > trace_max1 ea k d then 1 + ea k (d + 1) else trace_max1 ea k d

/-- `Traced A T m n ea k d v`: row `v` on diagonal `d` is reached with `k`
errors along the path that `Compute_Delta` follows through the rows below `k`
of `edit_array`: every cell on the path holds a row at which the two strings
differ, and the path runs over equal characters from there to the next
cell. -/
def Traced (A T : Int → Char) (m n : Int) (ea : Edit_Array) : Nat → Int → Int → Prop
  | 0, d, v => d = 0 ∧ 0 ≤ v ∧ v ≤ m ∧ v ≤ n ∧ ∀ r, 0 ≤ r → r < v → A r = T r
  | k + 1, d, v =>
    trace_max ea k d ≤ v ∧ v ≤ m ∧ v + d ≤ n ∧
    (∀ r, trace_max ea k d ≤ r → r < v → A r = T (r + d)) ∧
    Traced A T m n ea k (trace_from ea k d) (ea k (trace_from ea k d)) ∧
    0 ≤ ea k (trace_from ea k d) ∧
    0 ≤ ea k (trace_from ea k d) + trace_from ea k d ∧
    ea k (trace_from ea k d) < m ∧
    ea k (trace_from ea k d) + trace_from ea k d < n ∧
    A (ea k (trace_from ea k d)) ≠ T (ea k (trace_from ea k d) + trace_from ea k d)

/-- The columns of the alignment that the back-trace from row `v` on diagonal
`d` at level `k` follows. -/
def trace_script (ea : Edit_Array) : Nat → Int → Int → List Edit_Op
  | 0, _, v => List.replicate v.toNat .keep
  | k + 1, d, v =>
    trace_script ea k (trace_from ea k d) (ea k (trace_from ea k d)) ++
      ((if trace_from ea k d = d - 1 then Edit_Op.insert
        else if trace_from ea k d = d + 1 then Edit_Op.delete else Edit_Op.replace) ::
        List.replicate (v - trace_max ea k d).toNat .keep)

/-- The columns that the entries of `delta_stack` stand for, latest entry
first: a gap column followed by `|s| - 1` aligned columns. -/
def stack_script : List Int → List Edit_Op
  | [] => []
  | s :: r => (if s < 0 then Edit_Op.insert else Edit_Op.delete) ::
      (List.replicate (s.natAbs - 1) .keep ++ stack_script r)

/-- The entries that the last loop of `Compute_Delta` writes, as a function
of the reversed stack. -/
def delta_of_rev : List Int → List Int
  | [] => []
  | [_] => []
  | x :: y :: r => ((x.natAbs : Int) * Sign y) :: delta_of_rev (y :: r)

/-- A cell of row `k` that the aligner keeps: it is traced, lies inside both
strings, and the strings differ there. -/
def Live (A T : Int → Char) (m n : Int) (ea : Edit_Array) (k : Nat) (d : Int) : Prop :=
  Traced A T m n ea k d (ea k d) ∧ 0 ≤ ea k d ∧ 0 ≤ ea k d + d ∧ ea k d < m ∧ ea k d + d < n ∧
    A (ea k d) ≠ T (ea k d + d)

/-- A remembered cell `(e, d, len)` at a level up to `bound`: it is traced and
lies strictly inside both strings. -/
def Marked (A T : Int → Char) (m n : Int) (ea : Edit_Array) (e d len : Int) (bound : Nat) : Prop :=
  ∃ k : Nat, e = k ∧ k ≤ bound ∧ Traced A T m n ea k d len ∧ len < m ∧ len + d < n

/-- The state of `Prefix_Edit_Dist` after level `k`: the band lies in
`[-k, k]`, its cells are live, and the two remembered cells are marked. -/
structure Level_Inv (A T : Int → Char) (m n : Int) (k : Nat) (st : PED_State) : Prop where
  band : st.Left ≤ st.Right
  left_ge : -(k : Int) ≤ st.Left
  right_le : st.Right ≤ k
  live : ∀ d, st.Left ≤ d → d ≤ st.Right → Live A T m n st.edit_array k d
  best : Marked A T m n st.edit_array st.Best_e st.Best_d st.Longest k
  max_score : Marked A T m n st.edit_array st.Max_Score_Best_e st.Max_Score_Best_d
    st.Max_Score_Len k

/-- What holds of every result of `Prefix_Edit_Dist`: the reported endpoint is
traced with `errors` errors, `errors` is within the budget (or 0), `Delta` is
the back-trace of the endpoint, and `Match_To_End` tells whether the end of a
string is reached. -/
def PED_Post (A T : Int → Char) (m n Error_Limit : Int) (r : PED_Result) : Prop :=
  ∃ k : Nat, r.errors = k ∧ ((k : Int) ≤ Error_Limit ∨ k = 0) ∧
    Traced A T m n r.edit_array k (r.T_End - r.A_End) r.A_End ∧
    r.Delta = Compute_Delta r.edit_array k (r.T_End - r.A_End) r.A_End ∧
    (r.Match_To_End = true → r.A_End = m ∨ r.T_End = n) ∧
    (r.Match_To_End = false → r.A_End < m ∧ r.T_End < n)

/-- Row `k` as level `k + 1` finds it, with the band `[L, R]` of that level:
the four cells at the two ends hold the sentinel `-2` and the cells between
them are live. -/
def Row_Ready (A T : Int → Char) (m n : Int) (ea : Edit_Array) (k : Nat) (L R : Int) : Prop :=
  L + 2 ≤ R ∧ ea k (L - 1) = -2 ∧ ea k L = -2 ∧ ea k R = -2 ∧ ea k (R + 1) = -2 ∧
    ∀ d, L < d → d < R → Live A T m n ea k d

/-- The first entries of `Edit_Match_Limit` as `Initialize_Globals` computes
them for an error rate of 6 percent (entry `e` is one less than the smallest
`n` for which `e - 1` or more errors in `n` trials have probability above
`EDIT_DIST_PROB_BOUND`); entries past the listed ones are not used by the
examples. -/
def Edit_Match_Limit_6 (e : Int) : Int :=
  [0, 0, 0, 1, 2, 5, 9, 14, 19, 26, 32].getD e.toNat 36

/-- Tables for an error rate of 6 percent: `Error_Bound [i] = floor (0.06 i)`,
and the score `0.272 Longest - e` scaled by 1000. -/
def Tables_6 : Tables :=
  ⟨Edit_Match_Limit_6, fun i => (i * 6) / 100, fun Longest e => 272 * Longest - 1000 * e⟩

/-- A work area filled with an arbitrary value. -/
def Edit_Array.junk : Edit_Array :=
  fun _ _ => 12345

/-- Row `k` of `edit_array` holds, on every diagonal, a row that no alignment
with at most `k` errors passes: every alignment of a prefix of `A` with a
prefix of `T` that has at most `k` errors ends on a diagonal of `[-k, k]`, at
or before the row stored there. -/
def Furthest (A T : Int → Char) (m n : Int) (ea : Edit_Array) (k : Nat) : Prop :=
  ∀ (s : List Edit_Op) (i j : Int), Aligns A T s i j → i ≤ m → j ≤ n → script_cost s ≤ k →
    -(k : Int) ≤ j - i ∧ j - i ≤ k ∧ i ≤ ea k (j - i)

/-- The state of `Prefix_Edit_Dist` after level `k` when no diagonal has been
dropped so far: the band is all of `[-k, k]`, its cells reach at least `k`
characters into the longer string, and they are furthest-reaching. -/
structure Level_Full (A T : Int → Char) (m n : Int) (k : Nat) (st : PED_State) : Prop where
  inv : Level_Inv A T m n k st
  left_eq : st.Left = -(k : Int)
  right_eq : st.Right = k
  reach : ∀ d, -(k : Int) ≤ d → d ≤ k →
    (d < 0 → (k : Int) ≤ st.edit_array k d) ∧ (0 ≤ d → (k : Int) ≤ st.edit_array k d + d)
  furthest : Furthest A T m n st.edit_array k

/-- A read on which the band is tightened past the best alignment. -/
def A_pruned : List Char :=
  ['a', 'c', 'g', 't', 't', 't', 'g', 'a', 'a', 'c', 'c', 'c', 'c', 'c', 'g']

/-- The target aligned with `A_pruned`. -/
def T_pruned : List Char :=
  ['g', 't', 'a', 'g', 'a', 'a', 'c', 't', 'a', 'a', 'c', 'c', 'c', 'c', 'c', 'g']

/-- An alignment of all of `A_pruned` with all of `T_pruned` that has seven
error columns. -/
def script_pruned : List Edit_Op :=
  [.insert, .replace, .replace, .keep, .replace, .replace, .replace, .replace,
    .keep, .keep, .keep, .keep, .keep, .keep, .keep, .keep]

/-! ## Notions used to state the layout of the correction stream -/

/-- The field `is_ID` of a record. -/
def Correction_Output_t.is_ID : Correction_Output_t → Bool
  | .frag _ _ _ => true
  | .corr _ _ => false

/-- The field `iid` of an ID record. -/
def Correction_Output_t.iid : Correction_Output_t → Option Int
  | .frag _ _ iid => some iid
  | .corr _ _ => none

/-- A correction record whose type is `EXTENSION`. -/
def Correction_Output_t.is_EXTENSION : Correction_Output_t → Bool
  | .corr _ .EXTENSION => true
  | _ => false

/-- The field `pos` of a correction record (0 for an ID record, which has no
such field). -/
def Correction_Output_t.pos : Correction_Output_t → Int
  | .frag _ _ _ => 0
  | .corr pos _ => pos

/-- A correction record for a deletion or a substitution. -/
def Correction_Output_t.is_subst : Correction_Output_t → Bool
  | .corr _ v => decide (v ∈ subst_actions)
  | _ => false

/-- A correction record for an insertion. -/
def Correction_Output_t.is_insert : Correction_Output_t → Bool
  | .corr _ v => decide (v ∈ insert_actions)
  | _ => false

/-- The per-position records among the records of one read: everything except
the ID record and the `EXTENSION` record. -/
def per_position (l : List Correction_Output_t) : List Correction_Output_t :=
  l.filter (fun x => !x.is_ID && !x.is_EXTENSION)

/-- A read of two bases whose first position has two votes for a deletion and
two votes for the insertion of an `a`. -/
def Frag_two_records : Frag_t :=
  fun _ => ⟨some ['a', 'c'],
    fun j => if j = 0 then ⟨0, 2, 0, 0, 0, 0, 0, 2, 0, 0, 0⟩ else Vote_Tally_t.zero, 2, 0, 0, false⟩

/-! ## Notions used to state the effect of `Analyze_Alignment` -/

/-- The updates of `Frag` that are made of saturating increments of counters
`c` of `Frag [sub] . vote [p]` with `P c p sub` only. -/
inductive Bumps_In (P : Counter → Int → Int → Prop) : (Frag_t → Frag_t) → Prop where
  | nil : Bumps_In P (fun Frag => Frag)
  | cons (c : Counter) (p sub : Int) {f : Frag_t → Frag_t} :
      P c p sub → Bumps_In P f → Bumps_In P (fun Frag => bump_at c p sub (f Frag))

/-- The four substitution votes. -/
def base_substs : List Vote_Value_t :=
  [.A_SUBST, .C_SUBST, .G_SUBST, .T_SUBST]

/-- The arguments of a call of `Analyze_Alignment` for a gap-free alignment:
the delta is empty and `a_len = b_len = L`. -/
structure Gap_Free where
  a_part : Int → Char
  b_part : Int → Char
  L : Int
  a_offset : Int

/-- The gap-free alignment has no differing column. -/
def Gap_Free.exact (o : Gap_Free) : Prop :=
  0 ≤ o.L ∧ ∀ q, 0 ≤ q → q < o.L → o.a_part q = o.b_part q

/-- The two rows of the gap-free alignment differ at column `p` and nowhere
else, and the base of `B` in that column is the one that vote `v` writes. -/
def Gap_Free.one_diff (o : Gap_Free) (p : Int) (v : Vote_Value_t) : Prop :=
  0 ≤ p ∧ p < o.L ∧ v ∈ base_substs ∧ o.b_part p = subst_base v ∧ o.a_part p ≠ o.b_part p ∧
    ∀ q, 0 ≤ q → q < o.L → q ≠ p → o.a_part q = o.b_part q

/-- `Analyze_Alignment` called for each gap-free alignment of a list, in
order, all of them for read `Frag [sub]`. -/
def Analyze_Gap_Free (cfg : Config) (sub : Int) : List Gap_Free → Frag_t → Option Frag_t
  | [], Frag => some Frag
  | o :: os, Frag =>
    (Analyze_Alignment cfg Frag [] o.a_part o.b_part o.L o.L o.a_offset sub).bind
      (Analyze_Gap_Free cfg sub os)

/-- The read of scenario S2. -/
def A_scenario : List Char :=
  ['a', 'c', 'g', 't', 'a', 'c', 'g', 't', 'a', 'c', 'g', 't', 'a', 'c', 'g', 't', 'a', 'c',
    'g', 't']

/-- A copy of `A_scenario` that has `g` instead of `a` at position 12. -/
def B_scenario : List Char :=
  ['a', 'c', 'g', 't', 'a', 'c', 'g', 't', 'a', 'c', 'g', 't', 'g', 'c', 'g', 't', 'a', 'c',
    'g', 't']

/-- The exact alignment of `A_scenario` with itself. -/
def olap_exact : Gap_Free :=
  ⟨charAt A_scenario, charAt A_scenario, 20, 0⟩

/-- The gap-free alignment of `A_scenario` with `B_scenario`. -/
def olap_one_diff : Gap_Free :=
  ⟨charAt A_scenario, charAt B_scenario, 20, 0⟩

/-- The number of matched columns strictly between `vote [i - 1]` and
`vote [i]`. -/
def prev_match (vote : List Vote_t) (i : Nat) : Int :=
  (vote_at vote i).align_sub - (vote_at vote (i - 1)).align_sub - 1

/-- The number of matched columns strictly between `vote [i]` and
`vote [i + 1]`. -/
def next_match (vote : List Vote_t) (i : Nat) : Int :=
  (vote_at vote (i + 1)).align_sub - (vote_at vote i).align_sub - 1

/-- A read and a target whose alignment has an insertion directly followed by
a mismatch: after two matching columns the target has an extra `g`, and the
next column pairs `c` with `t`. -/
def A_adjacent : List Char :=
  ['a', 'a', 'c', 'a', 'a', 'a', 'a', 'a', 'a', 'a', 'a', 'a', 'a']

/-- The target aligned with `A_adjacent`. -/
def B_adjacent : List Char :=
  ['a', 'a', 'g', 't', 'a', 'a', 'a', 'a', 'a', 'a', 'a', 'a', 'a', 'a']

/-- The configuration of the command line `-k 4`: `Kmer_Len = 4`, every other
value at its default (`End_Exclude_Len = 3`). -/
def Config.kmer_4 : Config :=
  ⟨2, 3, false, 4, true, 9, 1, 1⟩

/-- A read whose alignment with `B_short_run` has two mismatches with a
matched run of four columns between them. -/
def A_short_run : List Char :=
  ['t', 'a', 'c', 'g', 't', 't', 'a', 'a', 'a', 'a', 'a', 'a', 'a', 'a', 'a', 'a']

/-- The target aligned with `A_short_run`. -/
def B_short_run : List Char :=
  ['g', 'a', 'c', 'g', 't', 'g', 'a', 'a', 'a', 'a', 'a', 'a', 'a', 'a', 'a', 'a']

/-! ## Notions used to state when `Analyze_Alignment` is fatal -/

/-- One of the characters `a`, `c`, `g`, `t`. -/
def is_base (ch : Char) : Bool :=
  ch = 'a' || ch = 'c' || ch = 'g' || ch = 't'

/-- A column of an alignment of `A` with `B`: `A [i]` over `B [j]`, or `B [j]`
over a gap in `A` (an insertion), or `A [i]` over a gap in `B` (a deletion). -/
inductive Column where
  | aligned (i j : Int)
  | insertion (j : Int)
  | deletion (i : Int)
  deriving DecidableEq, Repr

/-- The `k` aligned columns from `(i, j)` on. -/
def aligned_columns (i j : Int) : Nat → List Column
  | 0 => []
  | k + 1 => .aligned i j :: aligned_columns (i + 1) (j + 1) k

/-- The columns of the alignment that `delta` describes from `(i, j)` on: an
entry `d` stands for `|d| - 1` aligned columns followed by an insertion column
(`d < 0`) or a deletion column; after the last entry come aligned columns up
to position `a_len` of `A`. -/
def alignment_columns (a_len : Int) : List Int → Int → Int → List Column
  | [], i, j => aligned_columns i j (a_len - i).toNat
  | d :: ds, i, j =>
    aligned_columns i j (d.natAbs - 1) ++
      (if d < 0 then
        .insertion (j + ((d.natAbs - 1 : Nat) : Int)) ::
          alignment_columns a_len ds (i + ((d.natAbs - 1 : Nat) : Int))
            (j + ((d.natAbs - 1 : Nat) : Int) + 1)
      else
        .deletion (i + ((d.natAbs - 1 : Nat) : Int)) ::
          alignment_columns a_len ds (i + ((d.natAbs - 1 : Nat) : Int) + 1)
            (j + ((d.natAbs - 1 : Nat) : Int)))

/-- The column is a mismatching column or an insertion column in which the
character of `B` is not a base. -/
def Column.fatal (a_part b_part : Int → Char) : Column → Bool
  | .aligned i j => a_part i != b_part j && !is_base (b_part j)
  | .insertion j => !is_base (b_part j)
  | .deletion _ => false

/-! ## Processing one overlap -/

/-- The value `INNIE` of the field `orient`. -/
def INNIE : Int := 0

/-- The value `NORMAL` of the field `orient`. -/
def NORMAL : Int := 1

/-- The record `Olap_Info_t`. -/
structure Olap_Info_t where
  a_iid : Int
  b_iid : Int
  a_hang : Int
  b_hang : Int
  orient : Int
  deriving DecidableEq, Repr

/-- The data that `Process_Olap` reads and writes besides its arguments: the
globals `Frag` and `Failed_Olaps`, the buffer `rev_seq` with `* rev_id`, and
the alignment storage of the work area. -/
structure Olap_State where
  Frag : Frag_t
  Failed_Olaps : Int
  rev_seq : List Char
  rev_id : Int
  edit_array : Edit_Array

/-- `strlen (s + off)` for the C string stored in `s`: the number of characters
from position `off` up to the first `NUL` or the end of `s`. -/
def strlen (s : List Char) (off : Int) : Int :=
  (((s.drop off.toNat).takeWhile (fun c => c ≠ NUL)).length : Int)

/-- The statements `if (a_hang <= 0) {if (left_degree < MAX_DEGREE)
left_degree ++;}  if (b_hang >= 0) {if (right_degree < MAX_DEGREE)
right_degree ++;}` for `Frag [sub]`. -/
def bump_degrees (Frag : Frag_t) (sub a_hang b_hang : Int) : Frag_t :=
  fun s => if s = sub then
    { Frag s with
      left_degree := if a_hang ≤ 0 ∧ (Frag s).left_degree < MAX_DEGREE
        then (Frag s).left_degree + 1 else (Frag s).left_degree,
      right_degree := if b_hang ≥ 0 ∧ (Frag s).right_degree < MAX_DEGREE
        then (Frag s).right_degree + 1 else (Frag s).right_degree }
  else Frag s

/-- The values that `Process_Olap` holds when it reaches the test
`if (errors <= Error_Bound [olap_len] && match_to_end)`: `olap_len` and
`match_to_end` are the ones after the promotion step. -/
structure Olap_Aligned where
  Frag : Frag_t
  sub : Int
  a_part : Int → Char
  b_part : Int → Char
  a_offset : Int
  rev_seq : List Char
  rev_id : Int
  errors : Int
  a_end : Int
  b_end : Int
  delta : List Int
  olap_len : Int
  match_to_end : Bool
  edit_array : Edit_Array

/-- The values that `Process_Olap` has set up when it calls
`Prefix_Edit_Dist`. -/
structure Olap_Setup where
  Frag : Frag_t
  sub : Int
  a_part : Int → Char
  b_part : Int → Char
  a_offset : Int
  a_part_len : Int
  b_part_len : Int
  rev_seq : List Char
  rev_id : Int

/-- First part of `Process_Olap`, up to the call of `Prefix_Edit_Dist`.  The
result is `none` when the program ends here (`exit (1)`), `some none` when the
overlap is skipped by the both-shredded test, and otherwise the values set up.

* `rc` stands for `reverseComplementSequence (rev_seq, 0)`, which is not among
  the sources; it is an argument of the model.
* `a_part` and `b_part` point into the sequences; positions before the start
  or past the end of a sequence read as `NUL`.
* A fragment without sequence (`NULL`) makes `strlen` fault; this is modelled
  as the end of the program. -/
def Process_Olap_setup (cfg : Config) (rc : List Char → List Char)
    (olap : Olap_Info_t) (b_seq : List Char) (shredded : Bool) (st : Olap_State) :
    Option (Option Olap_Setup) :=
  let sub := olap.a_iid - cfg.Lo_Frag_IID
  if shredded = true ∧ (st.Frag sub).shredded = true then some none
  else
    match (st.Frag sub).sequence with
    | none => none
    | some seq =>
      let Frag := bump_degrees st.Frag sub olap.a_hang olap.b_hang
      let a_offset := if olap.a_hang > 0 then olap.a_hang else 0
      let rev_seq := if olap.orient = NORMAL ∨ st.rev_id = olap.b_iid then st.rev_seq
        else rc (b_seq.takeWhile (fun c => c ≠ NUL))
      let rev_id := if olap.orient = NORMAL then st.rev_id else olap.b_iid
      let b_base := if olap.orient = NORMAL then b_seq else rev_seq
      let b_offset := if olap.a_hang < 0 then - olap.a_hang else 0
      if (charAt b_base b_offset).isAlpha = false ∨ (charAt rev_seq 0).isAlpha = false then none
      else
        some (some
          { Frag := Frag, sub := sub, a_part := fun i => charAt seq (a_offset + i),
            b_part := fun i => charAt b_base (b_offset + i), a_offset := a_offset,
            a_part_len := strlen seq a_offset, b_part_len := strlen b_base b_offset,
            rev_seq := rev_seq, rev_id := rev_id })

/-- Second part of `Process_Olap`: the call of `Prefix_Edit_Dist`, the test of
its endpoints and the promotion step. -/
def Process_Olap_ends (tb : Tables) (su : Olap_Setup) (edit_array : Edit_Array) :
    Option Olap_Aligned :=
  let olap_len := OVL_Min_int su.a_part_len su.b_part_len
  match Prefix_Edit_Dist tb su.a_part su.a_part_len su.b_part su.b_part_len
      (tb.Error_Bound olap_len) edit_array with
  | none => none
  | some r =>
    if r.A_End < 0 ∨ r.A_End > su.a_part_len ∨ r.T_End < 0 ∨ r.T_End > su.b_part_len then none
    else
      let promote := r.Match_To_End = false ∧
        r.A_End + su.a_offset ≥ ((su.Frag su.sub).clear_len : Int) - 1
      some
        { Frag := su.Frag, sub := su.sub, a_part := su.a_part, b_part := su.b_part,
          a_offset := su.a_offset, rev_seq := su.rev_seq, rev_id := su.rev_id,
          errors := r.errors, a_end := r.A_End, b_end := r.T_End, delta := r.Delta,
          olap_len := if promote then OVL_Min_int r.A_End r.T_End else olap_len,
          match_to_end := if promote then true else r.Match_To_End,
          edit_array := r.edit_array }

/-- `Process_Olap` up to and including the promotion step: `none` when the
program ends before (`exit (1)`), `some none` when the overlap is skipped by
the both-shredded test, and otherwise the values reached. -/
def Process_Olap_align (cfg : Config) (tb : Tables) (rc : List Char → List Char)
    (olap : Olap_Info_t) (b_seq : List Char) (shredded : Bool) (st : Olap_State) :
    Option (Option Olap_Aligned) :=
  match Process_Olap_setup cfg rc olap b_seq shredded st with
  | none => none
  | some none => some none
  | some (some su) => (Process_Olap_ends tb su st.edit_array).map some

/-- The test `errors <= Error_Bound [olap_len] && match_to_end` of
`Process_Olap`. -/
def Olap_Aligned.accepted (tb : Tables) (al : Olap_Aligned) : Bool :=
  decide (al.errors ≤ tb.Error_Bound al.olap_len) && al.match_to_end

/-- `Process_Olap (olap, b_seq, rev_seq, rev_id, shredded, wa)`; `none` is
`exit (1)`. -/
def Process_Olap (cfg : Config) (tb : Tables) (rc : List Char → List Char)
    (olap : Olap_Info_t) (b_seq : List Char) (shredded : Bool) (st : Olap_State) :
    Option Olap_State :=
  match Process_Olap_align cfg tb rc olap b_seq shredded st with
  | none => none
  | some none => some st
  | some (some al) =>
    if al.accepted tb = true then
      (Analyze_Alignment cfg al.Frag al.delta al.a_part al.b_part al.a_end al.b_end
          al.a_offset al.sub).map
        (fun F => ⟨F, st.Failed_Olaps, al.rev_seq, al.rev_id, al.edit_array⟩)
    else
      some ⟨al.Frag, st.Failed_Olaps + 1, al.rev_seq, al.rev_id, al.edit_array⟩

/-- One read with the sequence `A_scenario`, clear to its end, with zero
tallies and degrees. -/
def Frag_scenario : Frag_t :=
  fun _ => ⟨some A_scenario, fun _ => Vote_Tally_t.zero, 20, 0, 0, false⟩

/-- The state in which the first overlap is processed: `Frag_scenario`, no
failed overlap, `rev_seq` as `Init_Thread_Work_Area` leaves it. -/
def Olap_State.scenario : Olap_State :=
  ⟨Frag_scenario, 0, ['a', 'c', 'g', 't'], -1, Edit_Array.junk⟩

/-- An overlap of read 1 with read 2 without hangs, in normal orientation. -/
def olap_scenario : Olap_Info_t :=
  ⟨1, 2, 0, 0, NORMAL⟩

/-- A sequence that does not align with `A_scenario` within the error bound. -/
def B_unrelated : List Char :=
  ['t', 't', 't', 't', 't', 't', 't', 't', 't', 't', 't', 't', 't', 't', 't', 't', 't', 't',
    't', 't']

/-! ## Notions used to state the signs of the delta entries -/

/-- The sign that the delta encoding gives to a gap column: `-1` for an
insertion (a character of `T` that `A` lacks), `1` for a deletion (a character
of `A` that `T` lacks); an aligned column has no entry. -/
def gap_sign : Edit_Op → Option Int
  | .insert => some (-1)
  | .delete => some 1
  | _ => none

/-- A read with two bases `c`, `c` that the target `B_two_deletes` lacks: the
alignment (delta `[3, 1]`) has two deletion columns next to each other. -/
def A_two_deletes : List Char :=
  ['a', 'a', 'c', 'c', 'a', 'a', 'a', 'a', 'a', 'a', 'a', 'a', 'a', 'a', 'a']

/-- The target aligned with `A_two_deletes`. -/
def B_two_deletes : List Char :=
  ['a', 'a', 'a', 'a', 'a', 'a', 'a', 'a', 'a', 'a', 'a', 'a', 'a']

/-- The tally `t` after `Cast_Vote` of `val`: the counter of `val` goes up by
one unless it has reached `MAX_VOTE`; `NO_VOTE` and `EXTENSION` change
nothing. -/
def Vote_Tally_t.cast (t : Vote_Tally_t) (val : Vote_Value_t) : Vote_Tally_t :=
  match val.counter with
  | some c => t.bump c
  | none => t

/-- What the matched run before `vote [i]` does to the tally `t` of its
position `p` (`0 <= p < prev_match`) according to the description of
`End_Exclude_Len`: the positions in the two excluded ends get a matching vote
for the base `ch` of `A`, the others are confirmed, and all of these but the
last also get `no_insert`. -/
def run_update (cfg : Config) (ct i : Nat) (M p : Int) (ch : Char) (t : Vote_Tally_t) :
    Vote_Tally_t :=
  let p_lo := if i = 1 then 0 else cfg.End_Exclude_Len
  let p_hi := if i = ct then M else M - cfg.End_Exclude_Len
  if p < p_lo ∨ p_hi ≤ p then t.cast (Matching_Vote ch)
  else if p < p_hi - 1 then (t.bump .confirmed).bump .no_insert
  else t.bump .confirmed

/-! ## Characters and the order of the overlaps -/

/-- `Filter (ch)`: convert `ch` to lower case if it is a letter `a`, `c`,
`g` or `t`; every other character becomes `a`. -/
def Filter (ch : Char) : Char :=
  let ch := ch.toLower
  if ch = 'a' ∨ ch = 'c' ∨ ch = 'g' ∨ ch = 't' then ch else 'a'

/-- `By_B_IID (a, b)`: the comparison function handed to `qsort`. -/
def By_B_IID (x y : Olap_Info_t) : Int :=
  if x.b_iid < y.b_iid then -1
  else if x.b_iid > y.b_iid then 1
  else if x.a_iid < y.a_iid then -1
  else if x.a_iid > y.a_iid then 1
  else 0

/-! ## The scan that extends the clear range -/

/-- Spec-side notion: `p` is the last position in `clear_len .. j - 1` with
`confirmed > 0`, or `clear_len - 1` when there is none. -/
def Last_Confirmed (vote : Int → Vote_Tally_t) (clear_len j p : Int) : Prop :=
  (p = clear_len - 1 ∨ (clear_len ≤ p ∧ (vote p).confirmed > 0)) ∧ p < j ∧
    ∀ q, p < q → q < j → (vote q).confirmed = 0

/-! ## The table `Edit_Match_Limit` -/

/-- Most errors in any edit distance computation that cost nothing in the
match limit (`ERRORS_FOR_FREE`). -/
def ERRORS_FOR_FREE : Int := 1

/-- The loop `for (n = Start; n < AS_READ_MAX_NORMAL_LEN; n ++)` of
`Binomial_Bound`.  `returns n` is the outcome of the floating-point tests of
the body for this `n`: `true` when the body executes `return n`.  The loop
ends with `return AS_READ_MAX_NORMAL_LEN`. -/
def Binomial_Bound_loop (AS_READ_MAX_NORMAL_LEN : Int) (returns : Int → Bool) :
    Nat → Int → Int
  | 0, _ => AS_READ_MAX_NORMAL_LEN
  | fuel + 1, n =>
    if n < AS_READ_MAX_NORMAL_LEN then
      if returns n then n
      else Binomial_Bound_loop AS_READ_MAX_NORMAL_LEN returns fuel (n + 1)
    else AS_READ_MAX_NORMAL_LEN

/-- `Binomial_Bound (e, p, Start, Limit)`.  The constant
`AS_READ_MAX_NORMAL_LEN` is not among the sources and is an argument; the
`double` computations with `p` and `Limit` are the argument `returns`, which
tells for each `e` and `n` whether the body of the loop returns `n`. -/
def Binomial_Bound (AS_READ_MAX_NORMAL_LEN : Int) (returns : Int → Int → Bool)
    (e Start : Int) : Int :=
  let Start := if Start < e then e else Start
  Binomial_Bound_loop AS_READ_MAX_NORMAL_LEN (returns e)
    (AS_READ_MAX_NORMAL_LEN - Start).toNat Start

/-- The loop `for (e = ERRORS_FOR_FREE + 1; e < MAX_ERRORS; e ++)` of
`Initialize_Globals` on the variable `start` and the array
`Edit_Match_Limit`; `none` is a failure of the `assert`. -/
def Edit_Match_Limit_loop (AS_READ_MAX_NORMAL_LEN MAX_ERRORS : Int)
    (returns : Int → Int → Bool) : Nat → Int → Int → (Int → Int) → Option (Int → Int)
  | 0, _, _, tbl => some tbl
  | fuel + 1, e, start, tbl =>
    if e < MAX_ERRORS then
      let start := Binomial_Bound AS_READ_MAX_NORMAL_LEN returns (e - ERRORS_FOR_FREE) start
      let tbl : Int → Int := fun i => if i = e then start - 1 else tbl i
      if tbl e ≥ tbl (e - 1) then
        Edit_Match_Limit_loop AS_READ_MAX_NORMAL_LEN MAX_ERRORS returns fuel (e + 1) start tbl
      else none
    else some tbl

/-- The part of `Initialize_Globals` that fills `Edit_Match_Limit`, starting
from the zero-initialised static array. -/
def Initialize_Edit_Match_Limit (AS_READ_MAX_NORMAL_LEN MAX_ERRORS : Int)
    (returns : Int → Int → Bool) : Option (Int → Int) :=
  Edit_Match_Limit_loop AS_READ_MAX_NORMAL_LEN MAX_ERRORS returns
    (MAX_ERRORS - (ERRORS_FOR_FREE + 1)).toNat (ERRORS_FOR_FREE + 1) 1 (fun _ => 0)

/-! ## The rows of `Display_Alignment` -/

/-- The variables `i`, `j` and the characters stored so far in `top` (or in
`bottom`) while `Display_Alignment` builds a row.  The source keeps the rows
in buffers of 2000 characters; the model keeps them as lists. -/
structure Row_State where
  i : Int
  j : Int
  row : List Char

/-- The character that `Display_Alignment` stores in `top` for `a [i]`:
`toupper (a [i])` from `capitalize_start` on. -/
def top_char (a : Int → Char) (capitalize_start i : Int) : Char :=
  if i ≥ capitalize_start then (a i).toUpper else a i

/-- Body of the first loop over `k` in `Display_Alignment` for the entry
`d = delta [k]`. -/
def top_entry (a : Int → Char) (capitalize_start : Int) (s : Row_State) (d : Int) :
    Row_State :=
  let s := for_loop 1 (d.natAbs : Int)
    (fun _ s => ⟨s.i + 1, s.j + 1, s.row ++ [top_char a capitalize_start s.i]⟩) s
  if d < 0 then ⟨s.i, s.j + 1, s.row ++ ['-']⟩
  else ⟨s.i + 1, s.j, s.row ++ [top_char a capitalize_start s.i]⟩

/-- The loop `while (i < a_len && j < b_len)` that completes `top`. -/
def top_rest (a : Int → Char) (a_len b_len capitalize_start : Int) :
    Nat → Row_State → Row_State
  | 0, s => s
  | fuel + 1, s =>
    if s.i < a_len ∧ s.j < b_len then
      top_rest a a_len b_len capitalize_start fuel
        ⟨s.i + 1, s.j + 1, s.row ++ [top_char a capitalize_start s.i]⟩
    else s

/-- The row `top` of `Display_Alignment`. -/
def Display_top (a : Int → Char) (a_len b_len : Int) (delta : List Int)
    (capitalize_start : Int) : List Char :=
  let s := delta.foldl (top_entry a capitalize_start) ⟨0, 0, []⟩
  (top_rest a a_len b_len capitalize_start (a_len - s.i).toNat s).row

/-- Body of the second loop over `k` in `Display_Alignment` for the entry
`d = delta [k]`. -/
def bottom_entry (b : Int → Char) (s : Row_State) (d : Int) : Row_State :=
  let s := for_loop 1 (d.natAbs : Int)
    (fun _ s => ⟨s.i + 1, s.j + 1, s.row ++ [b s.j]⟩) s
  if d > 0 then ⟨s.i + 1, s.j, s.row ++ ['-']⟩
  else ⟨s.i, s.j + 1, s.row ++ [b s.j]⟩

/-- The loop `while (j < b_len && i < a_len)` that completes `bottom`. -/
def bottom_rest (b : Int → Char) (a_len b_len : Int) : Nat → Row_State → Row_State
  | 0, s => s
  | fuel + 1, s =>
    if s.j < b_len ∧ s.i < a_len then
      bottom_rest b a_len b_len fuel ⟨s.i + 1, s.j + 1, s.row ++ [b s.j]⟩
    else s

/-- The row `bottom` of `Display_Alignment`. -/
def Display_bottom (b : Int → Char) (a_len b_len : Int) (delta : List Int) : List Char :=
  let s := delta.foldl (bottom_entry b) ⟨0, 0, []⟩
  (bottom_rest b a_len b_len (b_len - s.j).toNat s).row

/-- Invariant of the construction of `top`: without the gap characters it
holds the characters of `a [0 .. i)` as `top_char` stores them, and it has
`len` characters. -/
def Top_Inv (a : Int → Char) (cap : Int) (s : Row_State) (len : Int) : Prop :=
  0 ≤ s.i ∧ s.row.filter (fun c => decide (c ≠ '-')) =
    (List.range s.i.toNat).map (fun r => top_char a cap (r : Nat)) ∧ (s.row.length : Int) = len

/-- Invariant of the construction of `bottom`: without the gap characters it
holds `b [0 .. j)`, and it has `len` characters. -/
def Bottom_Inv (b : Int → Char) (s : Row_State) (len : Int) : Prop :=
  0 ≤ s.j ∧ s.row.filter (fun c => decide (c ≠ '-')) =
    (List.range s.j.toNat).map (fun r => b (r : Nat)) ∧ (s.row.length : Int) = len

/-- The sum of the absolute values of the entries of a delta. -/
def delta_abs (delta : List Int) : Int := (delta.map (fun x => (x.natAbs : Int))).sum

/-! ## The cells of `edit_array` that the aligner touches -/

/-- A cell `edit_array [e] [d]`, as the pair `(e, d)`. -/
abbrev Cell := Int × Int

/-- The cells that the loop `for (k = e; k > 0; k --)` of `Compute_Delta`
reads: in each pass `edit_array [k - 1] [d]`, `[d - 1]`, `[d + 1]`, and
`edit_array [k - 1] [from]` when `from` differs from `d`. -/
def Compute_Delta_cells (edit_array : Edit_Array) : Nat → Back_Trace → List Cell
  | 0, _ => []
  | k + 1, s =>
    [((k : Int), s.d), ((k : Int), s.d - 1), ((k : Int), s.d + 1)] ++
      (if (Compute_Delta_step edit_array ((k : Int) + 1) s).d ≠ s.d then
        [((k : Int), (Compute_Delta_step edit_array ((k : Int) + 1) s).d)] else []) ++
      Compute_Delta_cells edit_array k (Compute_Delta_step edit_array ((k : Int) + 1) s)

/-- The cells that the loop `for (d = Left; d <= Right; d ++)` of
`Prefix_Edit_Dist` reads and writes, with those of the call of
`Compute_Delta` when the loop returns; the control flow is that of
`fill_row`. -/
def fill_row_cells (A : Int → Char) (m : Int) (T : Int → Char) (n : Int) (e Right : Int) :
    Nat → Int → Edit_Array → List Cell
  | 0, _, _ => []
  | fuel + 1, d, edit_array =>
    if d ≤ Right then
      let Row := 1 + edit_array (e - 1) d
      let j := edit_array (e - 1) (d - 1)
      let Row := if j > Row then j else Row
      let j := 1 + edit_array (e - 1) (d + 1)
      let Row := if j > Row then j else Row
      let Row := extend_match A T m n d (m - Row).toNat Row
      let edit_array := edit_array.set e d Row
      [(e - 1, d), (e - 1, d - 1), (e - 1, d + 1), (e, d)] ++
        (if Row = m ∨ Row + d = n then
          (if Row = m then [(e - 1, d + 1), (e, d)] else []) ++
            (if Row = m ∧ 1 + edit_array (e - 1) (d + 1) = edit_array e d ∧ d < Right then
              [(e, d), (e, d + 1)] ++
                Compute_Delta_cells (edit_array.set e (d + 1) (edit_array e d)) e.toNat
                  ⟨d + 1, Row, []⟩
            else Compute_Delta_cells edit_array e.toNat ⟨d, Row, []⟩)
        else fill_row_cells A m T n e Right fuel (d + 1) edit_array)
    else []

/-- The cells read by the loop of `tighten_Left_neg`. -/
def tighten_Left_neg_cells (edit_array : Edit_Array) (e lim Right : Int) :
    Nat → Int → List Cell
  | 0, _ => []
  | fuel + 1, Left =>
    if Left ≤ Right ∧ Left < 0 then
      (e, Left) :: (if edit_array e Left < lim then
        tighten_Left_neg_cells edit_array e lim Right fuel (Left + 1) else [])
    else []

/-- The cells read by the loop of `tighten_Left_pos`. -/
def tighten_Left_pos_cells (edit_array : Edit_Array) (e lim Right : Int) :
    Nat → Int → List Cell
  | 0, _ => []
  | fuel + 1, Left =>
    if Left ≤ Right then
      (e, Left) :: (if edit_array e Left + Left < lim then
        tighten_Left_pos_cells edit_array e lim Right fuel (Left + 1) else [])
    else []

/-- The cells read by the loop of `tighten_Right_pos`. -/
def tighten_Right_pos_cells (edit_array : Edit_Array) (e lim : Int) : Nat → Int → List Cell
  | 0, _ => []
  | fuel + 1, Right =>
    if Right > 0 then
      (e, Right) :: (if edit_array e Right + Right < lim then
        tighten_Right_pos_cells edit_array e lim fuel (Right - 1) else [])
    else []

/-- The cells read by the loop of `tighten_Right_neg`, which tests no bound
before it reads. -/
def tighten_Right_neg_cells (edit_array : Edit_Array) (e lim : Int) : Nat → Int → List Cell
  | 0, _ => []
  | fuel + 1, Right =>
    (e, Right) :: (if edit_array e Right < lim then
      tighten_Right_neg_cells edit_array e lim fuel (Right - 1) else [])

/-- The cells read by the two loops of `tighten_Left`. -/
def tighten_Left_cells (edit_array : Edit_Array) (e lim Left Right : Int) : List Cell :=
  let Left1 := tighten_Left_neg edit_array e lim Right (Right - Left + 1).toNat Left
  tighten_Left_neg_cells edit_array e lim Right (Right - Left + 1).toNat Left ++
    (if Left1 ≥ 0 then
      tighten_Left_pos_cells edit_array e lim Right (Right - Left1 + 1).toNat Left1
    else [])

/-- The cells read by the two loops of `tighten_Right`. -/
def tighten_Right_cells (edit_array : Edit_Array) (e lim Left Right : Int) : List Cell :=
  let Right1 := tighten_Right_pos edit_array e lim Right.toNat Right
  tighten_Right_pos_cells edit_array e lim Right.toNat Right ++
    (if Right1 ≤ 0 then
      tighten_Right_neg_cells edit_array e lim ((Right1 - Left + 1).toNat + 1) Right1
    else [])

/-- The cells read by the loop of `scan_Longest`: `edit_array [e] [d]` for
`d` from `Left` to `Right`. -/
def scan_Longest_cells (e Left Right : Int) : List Cell :=
  (List.range (Right + 1 - Left).toNat).map (fun (k : Nat) => (e, Left + (k : Int)))

/-- The cells read by the call of `Compute_Delta` at the end of
`Prefix_Edit_Dist`. -/
def branch_point_cells (st : PED_State) : List Cell :=
  Compute_Delta_cells st.edit_array st.Max_Score_Best_e.toNat
    ⟨st.Max_Score_Best_d, st.Max_Score_Len, []⟩

/-- The cells of `edit_array` that the loop `for (e = 1; e <= Error_Limit;
e ++)` of `Prefix_Edit_Dist` and the statements after it read and write, in
the order of the accesses; the control flow is that of `PED_levels`. -/
def PED_levels_cells (tb : Tables) (A : Int → Char) (m : Int) (T : Int → Char) (n : Int)
    (Error_Limit : Int) : Nat → Int → PED_State → List Cell
  | 0, _, st => branch_point_cells st
  | fuel + 1, e, st =>
    if e ≤ Error_Limit then
      let Left := OVL_Max_int (st.Left - 1) (-e)
      let Right := OVL_Min_int (st.Right + 1) e
      [(e - 1, Left), (e - 1, Left - 1), (e - 1, Right), (e - 1, Right + 1)] ++
        fill_row_cells A m T n e Right (Right - Left + 1).toNat Left
          (set_sentinels st.edit_array e Left Right) ++
        (match fill_row A m T n e Right (Right - Left + 1).toNat Left
            (set_sentinels st.edit_array e Left Right) with
        | .returned _ => []
        | .filled edit_array =>
          let Left1 := tighten_Left edit_array e (tb.Edit_Match_Limit e) Left Right
          tighten_Left_cells edit_array e (tb.Edit_Match_Limit e) Left Right ++
            (if Left1 > Right then
              branch_point_cells { st with edit_array := edit_array, Left := Left1, Right := Right }
            else
              tighten_Right_cells edit_array e (tb.Edit_Match_Limit e) Left1 Right ++
                (match tighten_Right edit_array e (tb.Edit_Match_Limit e) Left1 Right with
                | none => []
                | some Right1 =>
                  if Left1 ≤ Right1 then
                    scan_Longest_cells e Left1 Right1 ++
                      PED_levels_cells tb A m T n Error_Limit fuel (e + 1)
                        (update_Max_Score tb e (scan_Longest e
                          { st with edit_array := edit_array, Left := Left1, Right := Right1 }))
                  else [])))
    else branch_point_cells st

/-- The cells of `edit_array` that `Prefix_Edit_Dist` and the `Compute_Delta`
it calls read and write; the first is `edit_array [0] [0]`. -/
def Prefix_Edit_Dist_cells (tb : Tables) (A : Int → Char) (m : Int) (T : Int → Char) (n : Int)
    (Error_Limit : Int) (edit_array : Edit_Array) : List Cell :=
  let shorter := OVL_Min_int m n
  let Row := first_match A T shorter shorter.toNat 0
  let edit_array := edit_array.set 0 0 Row
  (0, 0) :: (if Row = shorter then []
    else PED_levels_cells tb A m T n Error_Limit Error_Limit.toNat 1
      ⟨edit_array, 0, 0, 0, 0, 0, 0, 0, 0, 0⟩)

/-- The loop of `Init_Thread_Work_Area` that places the rows: the values of
`offset` at which `edit_array [0]`, `edit_array [1]`, ... start in
`edit_space`. -/
def row_offsets : Nat → Int → Int → List Int
  | 0, _, _ => []
  | k + 1, offset, del => offset :: row_offsets k (offset + del) (del + 2)

/-- The layout that `Init_Thread_Work_Area` sets up: the offsets of the rows
`0 .. MAX_ERRORS - 1` in `edit_space`, and the number of `int`s of
`edit_space`.  `MAX_ERRORS` depends on constants that are not among the
sources and is an argument. -/
def Init_Thread_Work_Area (MAX_ERRORS : Int) : List Int × Int :=
  (row_offsets MAX_ERRORS.toNat 2 6, (MAX_ERRORS + 4) * MAX_ERRORS)

/-- The index in `edit_space` of the cell `edit_array [e] [d]`. -/
def flat_index (MAX_ERRORS : Int) (c : Cell) : Int :=
  (Init_Thread_Work_Area MAX_ERRORS).1.getD c.1.toNat 0 + c.2

/-- The cells of a result: those that the call of `Compute_Delta` for the
reported endpoint reads. -/
def result_cells (r : PED_Result) : List Cell :=
  Compute_Delta_cells r.edit_array r.errors.toNat ⟨r.T_End - r.A_End, r.A_End, []⟩

/-! ## Notions used to compare two runs of the aligner -/

/-- Two contents of `edit_array` agree on every cell that the back-trace from
diagonal `d` at level `k` reads. -/
def Same_Trace (ea ea' : Edit_Array) : Nat → Int → Prop
  | 0, _ => True
  | k + 1, d =>
    ea k (d - 1) = ea' k (d - 1) ∧ ea k d = ea' k d ∧ ea k (d + 1) = ea' k (d + 1) ∧
      Same_Trace ea ea' k (trace_from ea k d)

/-- Two results of `Prefix_Edit_Dist` that differ at most in the content that
is left in the work area. -/
def Same_Result (r r' : PED_Result) : Prop :=
  r'.errors = r.errors ∧ r'.A_End = r.A_End ∧ r'.T_End = r.T_End ∧
    r'.Match_To_End = r.Match_To_End ∧ r'.Delta = r.Delta

/-- Two states of `Prefix_Edit_Dist` with the same values of the local
variables. -/
def Same_Locals (st st' : PED_State) : Prop :=
  st'.Left = st.Left ∧ st'.Right = st.Right ∧ st'.Best_d = st.Best_d ∧
    st'.Best_e = st.Best_e ∧ st'.Longest = st.Longest ∧ st'.Max_Score = st.Max_Score ∧
    st'.Max_Score_Len = st.Max_Score_Len ∧ st'.Max_Score_Best_d = st.Max_Score_Best_d ∧
    st'.Max_Score_Best_e = st.Max_Score_Best_e

/-- Two states of `Prefix_Edit_Dist` after level `k` that no later step can
tell apart: the local variables agree, the work areas agree on the band of
row `k`, and they agree on the cells that the back-traces from the band and
from the two remembered cells read. -/
def Same_Level (k : Nat) (st st' : PED_State) : Prop :=
  Same_Locals st st' ∧
    (∀ d, st.Left ≤ d → d ≤ st.Right →
      st.edit_array k d = st'.edit_array k d ∧ Same_Trace st.edit_array st'.edit_array k d) ∧
    Same_Trace st.edit_array st'.edit_array st.Best_e.toNat st.Best_d ∧
    Same_Trace st.edit_array st'.edit_array st.Max_Score_Best_e.toNat st.Max_Score_Best_d

/-! ## Notions used to compare the passes over the overlaps -/

/-- Two fragment arrays with the same reads: they differ at most in the
tallies and in the degrees. -/
def Same_Reads (F F' : Frag_t) : Prop :=
  ∀ s, (F' s).sequence = (F s).sequence ∧ (F' s).clear_len = (F s).clear_len ∧
    (F' s).shredded = (F s).shredded

/-- The updates of `Frag` that are made of saturating increments of tally
counters and of degrees. -/
inductive Updates : (Frag_t → Frag_t) → Prop where
  | nil : Updates (fun Frag => Frag)
  | bump (c : Counter) (p sub : Int) {f : Frag_t → Frag_t} :
      Updates f → Updates (fun Frag => bump_at c p sub (f Frag))
  | degree (sub a_hang b_hang : Int) {f : Frag_t → Frag_t} :
      Updates f → Updates (fun Frag => bump_degrees (f Frag) sub a_hang b_hang)

/-- The buffer `rev_seq` is usable for the B read `b_iid` with sequence
`b_seq`: it starts with a letter, and when `rev_id` names the read it holds
the reverse complement of the read. -/
def Cache_Ok (rc : List Char → List Char) (b_iid : Int) (b_seq : List Char)
    (rev_seq : List Char) (rev_id : Int) : Prop :=
  (charAt rev_seq 0).isAlpha = true ∧
    (rev_id = b_iid → rev_seq = rc (b_seq.takeWhile (fun c => c ≠ NUL)))

/-- Two set-ups of `Process_Olap` that give `Prefix_Edit_Dist` the same
strings. -/
def Same_Setup (su su' : Olap_Setup) : Prop :=
  su'.sub = su.sub ∧ su'.a_part = su.a_part ∧ su'.b_part = su.b_part ∧
    su'.a_offset = su.a_offset ∧ su'.a_part_len = su.a_part_len ∧
    su'.b_part_len = su.b_part_len

/-- Two alignments reached by `Process_Olap` that agree in everything but the
fragment array, the buffer `rev_seq` and the work area. -/
def Same_Aligned (al al' : Olap_Aligned) : Prop :=
  al'.sub = al.sub ∧ al'.a_part = al.a_part ∧ al'.b_part = al.b_part ∧
    al'.a_offset = al.a_offset ∧ al'.errors = al.errors ∧ al'.a_end = al.a_end ∧
    al'.b_end = al.b_end ∧ al'.delta = al.delta ∧ al'.olap_len = al.olap_len ∧
    al'.match_to_end = al.match_to_end

/-- What `Process_Olap` does to `Frag` and to `Failed_Olaps` for the overlap
`olap` with the B read `b_seq`, computed from the reads of `S` in a fresh work
area: `none` when the program ends (`exit (1)`), otherwise the update of `Frag`
and the increment of `Failed_Olaps`. -/
def Olap_Effect (cfg : Config) (tb : Tables) (rc : List Char → List Char) (S : Frag_t)
    (olap : Olap_Info_t) (b_seq : List Char) (shredded : Bool) :
    Option ((Frag_t → Frag_t) × Int) :=
  match Process_Olap_align cfg tb rc olap b_seq shredded
      ⟨S, 0, ['a'], olap.b_iid - 1, Edit_Array.junk⟩ with
  | none => none
  | some none => some (fun Frag => Frag, 0)
  | some (some al) =>
    if al.accepted tb = true then
      (Build_Votes al.delta al.a_part al.b_part al.a_end al.b_end).map (fun vote =>
        (fun Frag => Tally_Votes cfg al.a_part al.a_offset al.sub vote
          (bump_degrees Frag al.sub olap.a_hang olap.b_hang), 0))
    else some (fun Frag => bump_degrees Frag al.sub olap.a_hang olap.b_hang, 1)

/-! ## The passes over the overlaps -/

/-- An entry of a `Frag_List_t`: the identifier of a B read, its sequence
(`buffer + start`) and the flag `shredded`.  `Stream_Old_Frags` holds the same
three values in `frag_iid`, `seq_buff + clear_start` and `shredded`. -/
structure Frag_List_Entry where
  id : Int
  seq : List Char
  shredded : Bool
  deriving DecidableEq, Repr

/-- The loop `while (next_olap < Num_Olaps && Olap [next_olap] . b_iid ==
frag_iid) {...; next_olap ++;}` of `Stream_Old_Frags` and of
`Threaded_Process_Stream`, started at `next_olap`.  `pick` is the test in
front of the call of `Process_Olap`: always true in `Stream_Old_Frags`,
`a_iid % Num_PThreads == thread_id` in `Threaded_Process_Stream`.  The result
is the final `next_olap` with the state, or `none` for `exit (1)`. -/
def Olap_run (cfg : Config) (tb : Tables) (rc : List Char → List Char)
    (pick : Olap_Info_t → Bool) (Olap : List Olap_Info_t) (en : Frag_List_Entry) :
    Nat → Nat → Olap_State → Option (Nat × Olap_State)
  | 0, next_olap, st => some (next_olap, st)
  | fuel + 1, next_olap, st =>
    match Olap.get? next_olap with
    | none => some (next_olap, st)
    | some olap =>
      if olap.b_iid = en.id then
        match (if pick olap = true then Process_Olap cfg tb rc olap en.seq en.shredded st
            else some st) with
        | none => none
        | some st1 => Olap_run cfg tb rc pick Olap en fuel (next_olap + 1) st1
      else some (next_olap, st)

/-- The loop of `Stream_Old_Frags` over the fragments of the stream that are
not deleted.  It ends when `next_olap` reaches `Num_Olaps`; a fragment with an
identifier below `Olap [next_olap] . b_iid` is passed over; for the others
`rev_id` is set to -1 and the overlaps with the fragment are processed. -/
def Stream_Old_Frags_loop (cfg : Config) (tb : Tables) (rc : List Char → List Char)
    (Olap : List Olap_Info_t) : List Frag_List_Entry → Nat → Olap_State → Option Olap_State
  | [], _, st => some st
  | en :: rest, next_olap, st =>
    match Olap.get? next_olap with
    | none => some st
    | some olap =>
      if en.id < olap.b_iid then Stream_Old_Frags_loop cfg tb rc Olap rest next_olap st
      else
        match Olap_run cfg tb rc (fun _ => true) Olap en (Olap.length - next_olap) next_olap
            { st with rev_id := -1 } with
        | none => none
        | some (next_olap, st1) => Stream_Old_Frags_loop cfg tb rc Olap rest next_olap st1

/-- The loop `while (entry [i] . id > Olap [next_olap] . b_iid) next_olap ++`
of `Threaded_Process_Stream`, which tests no bound: `none` when it reads past
the end of `Olap`. -/
def skip_olaps (Olap : List Olap_Info_t) (id : Int) : Nat → Nat → Option Nat
  | 0, _ => none
  | fuel + 1, next_olap =>
    match Olap.get? next_olap with
    | none => none
    | some olap =>
      if id > olap.b_iid then skip_olaps Olap id fuel (next_olap + 1) else some next_olap

/-- The loop `for (i = 0; i < frag_list -> ct; i ++)` of
`Threaded_Process_Stream` for the thread `thread_id` of `Num_PThreads`; `none`
is `exit (1)` ("Lists don't match") or a read past the end of `Olap`.  The C
operator `%` is the remainder of the division that truncates. -/
def Threaded_Process_Stream_loop (cfg : Config) (tb : Tables) (rc : List Char → List Char)
    (Num_PThreads thread_id : Int) (Olap : List Olap_Info_t) :
    List Frag_List_Entry → Nat → Olap_State → Option Olap_State
  | [], _, st => some st
  | en :: rest, next_olap, st =>
    match skip_olaps Olap en.id (Olap.length - next_olap + 1) next_olap with
    | none => none
    | some next_olap =>
      match Olap.get? next_olap with
      | none => none
      | some olap =>
        if en.id ≠ olap.b_iid then none
        else
          match Olap_run cfg tb rc
              (fun o => decide (o.a_iid.tmod Num_PThreads = thread_id)) Olap en
              (Olap.length - next_olap) next_olap { st with rev_id := -1 } with
          | none => none
          | some (next_olap, st1) =>
            Threaded_Process_Stream_loop cfg tb rc Num_PThreads thread_id Olap rest
              next_olap st1

/-- The threads of one batch, run one after the other in the order `order`.
Each thread works on the shared `Frag` and `Failed_Olaps` with a work area of
its own: `rev_seq` is "acgt" as `Init_Thread_Work_Area` leaves it, and
`work thread_id` gives the content of `rev_id` and of `edit_array`, which are
not initialised.  Every thread starts at `next_olap = 0`. -/
def Threads_pass (cfg : Config) (tb : Tables) (rc : List Char → List Char)
    (Num_PThreads : Int) (Olap : List Olap_Info_t) (entries : List Frag_List_Entry)
    (work : Int → Int × Edit_Array) : List Int → Frag_t × Int → Option (Frag_t × Int)
  | [], s => some s
  | thread_id :: rest, s =>
    match Threaded_Process_Stream_loop cfg tb rc Num_PThreads thread_id Olap entries 0
        ⟨s.1, s.2, ['a', 'c', 'g', 't'], (work thread_id).1, (work thread_id).2⟩ with
    | none => none
    | some st => Threads_pass cfg tb rc Num_PThreads Olap entries work rest
        (st.Frag, st.Failed_Olaps)

/-- The single pass of `Stream_Old_Frags` from `next_olap = 0`, with
`rev_seq` "acgt" and a work area whose `edit_array` holds `edit_array`; the
result is the final `Frag` with `Failed_Olaps`. -/
def Single_pass (cfg : Config) (tb : Tables) (rc : List Char → List Char)
    (Olap : List Olap_Info_t) (entries : List Frag_List_Entry) (rev_id : Int)
    (edit_array : Edit_Array) (s : Frag_t × Int) : Option (Frag_t × Int) :=
  (Stream_Old_Frags_loop cfg tb rc Olap entries 0
    ⟨s.1, s.2, ['a', 'c', 'g', 't'], rev_id, edit_array⟩).map
    (fun st => (st.Frag, st.Failed_Olaps))

/-! ## Notions used to compare the passes -/

/-- The overlaps of one B read processed in a row: the body of `Olap_run`
for each overlap of `run`. -/
def run_fold (cfg : Config) (tb : Tables) (rc : List Char → List Char)
    (pick : Olap_Info_t → Bool) (en : Frag_List_Entry) :
    List Olap_Info_t → Olap_State → Option Olap_State
  | [], st => some st
  | olap :: rest, st =>
    match (if pick olap = true then Process_Olap cfg tb rc olap en.seq en.shredded st
        else some st) with
    | none => none
    | some st1 => run_fold cfg tb rc pick en rest st1

/-- The B reads processed in a row, each with the run of its overlaps, after
`rev_id` is set to -1. -/
def groups_fold (cfg : Config) (tb : Tables) (rc : List Char → List Char)
    (pick : Olap_Info_t → Bool) :
    List (Frag_List_Entry × List Olap_Info_t) → Olap_State → Option Olap_State
  | [], st => some st
  | g :: rest, st =>
    match run_fold cfg tb rc pick g.1 g.2 { st with rev_id := -1 } with
    | none => none
    | some st1 => groups_fold cfg tb rc pick rest st1

/-- A list of effects applied in a row to `Frag` and `Failed_Olaps`; `none`
when one of them is the end of the program. -/
def apply_effects : List (Option ((Frag_t → Frag_t) × Int)) → Frag_t × Int →
    Option (Frag_t × Int)
  | [], s => some s
  | none :: _, _ => none
  | some e :: rest, s => apply_effects rest (e.1 s.1, s.2 + e.2)

/-- The overlaps of the groups in the order of the array `Olap`, each with
the entry of its B read. -/
def group_items (groups : List (Frag_List_Entry × List Olap_Info_t)) :
    List (Olap_Info_t × Frag_List_Entry) :=
  groups.flatMap (fun g => g.2.map (fun o => (o, g.1)))

/-- The groups fit an array `Olap` sorted by `b_iid`: every B read has at
least one overlap, the overlaps of its run carry its identifier, and the
identifiers of the B reads increase. -/
def Groups_Sorted (groups : List (Frag_List_Entry × List Olap_Info_t)) : Prop :=
  (∀ g ∈ groups, g.2 ≠ [] ∧ ∀ o ∈ g.2, o.b_iid = g.1.id) ∧
    (groups.map (fun g => g.1.id)).Pairwise (fun a b => a < b)

/-- The effects of the overlaps `items`, each computed from the reads of `S`. -/
def item_effects (cfg : Config) (tb : Tables) (rc : List Char → List Char) (S : Frag_t)
    (items : List (Olap_Info_t × Frag_List_Entry)) : List (Option ((Frag_t → Frag_t) × Int)) :=
  items.map (fun it => Olap_Effect cfg tb rc S it.1 it.2.seq it.2.shredded)

/-- One B read, number 2, with the sequence `A_scenario` and the overlap
`olap_scenario` with read 1. -/
def groups_scenario : List (Frag_List_Entry × List Olap_Info_t) :=
  [(⟨2, A_scenario, false⟩, [olap_scenario])]

/-! ## An alignment that starts with an insertion -/

/-- The sequence `A_scenario` with one more base, `t`, in front: its alignment
with `A_scenario` starts with an insertion column. -/
def B_leading_base : List Char :=
  't' :: A_scenario

/-! ## A longer input on which the band is tightened past the best alignment -/

/-- A sequence of 136 bases that is appended to `A_pruned` and to `T_pruned`. -/
def tail_pruned : List Char :=
  ['c', 't', 'a', 'a', 'a', 'g', 'a', 'c', 'a', 'a', 't', 't', 'a', 'c', 'a', 't', 'a', 'a',
    'c', 'a', 't', 'a', 'c', 'a', 'c', 'g', 't', 'c', 'a', 'g', 'c', 'a', 'c', 'g', 'a', 'a',
    'a', 'c', 't', 't', 'g', 't', 't', 'g', 'g', 'c', 'c', 'c', 'a', 'g', 't', 'g', 't', 'g',
    'a', 'a', 't', 'c', 'g', 'c', 't', 't', 'a', 'a', 'g', 'g', 'g', 't', 't', 'a', 'a', 'g',
    't', 'a', 'a', 'g', 't', 'g', 't', 'g', 'a', 't', 'g', 'c', 'a', 't', 'a', 'c', 'g', 'c',
    'c', 't', 't', 't', 'a', 'c', 't', 't', 'g', 'c', 't', 'g', 't', 'g', 't', 'c', 'c', 'a',
    'c', 'c', 'c', 'c', 'a', 't', 'c', 'g', 'g', 'a', 'c', 't', 'g', 'g', 'c', 'a', 't', 't',
    't', 't', 't', 'a', 't', 't', 'a', 'c', 'a', 'c']

/-- The read `A_pruned` followed by `tail_pruned`: 151 bases. -/
def A_pruned_long : List Char :=
  A_pruned ++ tail_pruned

/-- The target `T_pruned` followed by `tail_pruned`: 152 bases. -/
def T_pruned_long : List Char :=
  T_pruned ++ tail_pruned

/-- The alignment `script_pruned` continued over `tail_pruned`: seven error
columns. -/
def script_pruned_long : List Edit_Op :=
  script_pruned ++ List.replicate 136 .keep

/-! ## The steps of the aligner -/

/-- A step of `Prefix_Edit_Dist` that the properties of the band speak about.

* `row_set e d Row`: the assignment `edit_array [e] [d] = Row` of a row that
  the alignment has reached (the four `-2` written around row `e - 1` are not
  recorded);
* `last_forced e d`: at level `e`, with the loop variable at `d`, the test
  under "Force last error to be mismatch rather than insertion" holds and its
  branch is taken;
* `broke e Left Right Left1`: at level `e` the row was filled over
  `[Left, Right]`, the loops on `Left` ended with `Left1 > Right`, and the loop
  over `e` is left by `break`;
* `tightened e Left Right Left1 Right1`: at level `e` the row was filled over
  `[Left, Right]`, the loops on `Left` ended with `Left1 <= Right`, and the
  loops on `Right` ended with `Right1` (`none` when the second of them is
  still running after it has passed `Left1`). -/
inductive PED_Event where
  | row_set (e d Row : Int)
  | last_forced (e d : Int)
  | broke (e Left Right Left1 : Int)
  | tightened (e Left Right Left1 : Int) (Right1 : Option Int)
  deriving DecidableEq, Repr

/-- The steps of the loop `for (d = Left; d <= Right; d ++)` of
`Prefix_Edit_Dist`; the control flow is that of `fill_row`. -/
def fill_row_events (A : Int → Char) (m : Int) (T : Int → Char) (n : Int) (e Right : Int) :
    Nat → Int → Edit_Array → List PED_Event
  | 0, _, _ => []
  | fuel + 1, d, edit_array =>
    if d ≤ Right then
      let Row := 1 + edit_array (e - 1) d
      let j := edit_array (e - 1) (d - 1)
      let Row := if j > Row then j else Row
      let j := 1 + edit_array (e - 1) (d + 1)
      let Row := if j > Row then j else Row
      let Row := extend_match A T m n d (m - Row).toNat Row
      let edit_array := edit_array.set e d Row
      .row_set e d Row ::
        (if Row = m ∨ Row + d = n then
          (if Row = m ∧ 1 + edit_array (e - 1) (d + 1) = edit_array e d ∧ d < Right then
            [.last_forced e d, .row_set e (d + 1) (edit_array e d)]
          else [])
        else fill_row_events A m T n e Right fuel (d + 1) edit_array)
    else []

/-- The steps of the loop `for (e = 1; e <= Error_Limit; e ++)` of
`Prefix_Edit_Dist`; the control flow is that of `PED_levels`. -/
def PED_levels_events (tb : Tables) (A : Int → Char) (m : Int) (T : Int → Char) (n : Int)
    (Error_Limit : Int) : Nat → Int → PED_State → List PED_Event
  | 0, _, _ => []
  | fuel + 1, e, st =>
    if e ≤ Error_Limit then
      let Left := OVL_Max_int (st.Left - 1) (-e)
      let Right := OVL_Min_int (st.Right + 1) e
      fill_row_events A m T n e Right (Right - Left + 1).toNat Left
          (set_sentinels st.edit_array e Left Right) ++
        (match fill_row A m T n e Right (Right - Left + 1).toNat Left
            (set_sentinels st.edit_array e Left Right) with
        | .returned _ => []
        | .filled edit_array =>
          let Left1 := tighten_Left edit_array e (tb.Edit_Match_Limit e) Left Right
          if Left1 > Right then [.broke e Left Right Left1]
          else
            .tightened e Left Right Left1
                (tighten_Right edit_array e (tb.Edit_Match_Limit e) Left1 Right) ::
              (match tighten_Right edit_array e (tb.Edit_Match_Limit e) Left1 Right with
              | none => []
              | some Right1 =>
                if Left1 ≤ Right1 then
                  PED_levels_events tb A m T n Error_Limit fuel (e + 1)
                    (update_Max_Score tb e (scan_Longest e
                      { st with edit_array := edit_array, Left := Left1, Right := Right1 }))
                else []))
    else []

/-- The steps of a call of `Prefix_Edit_Dist`, in their order; the first is
the assignment `edit_array [0] [0] = Row`. -/
def Prefix_Edit_Dist_events (tb : Tables) (A : Int → Char) (m : Int) (T : Int → Char) (n : Int)
    (Error_Limit : Int) (edit_array : Edit_Array) : List PED_Event :=
  let shorter := OVL_Min_int m n
  let Row := first_match A T shorter shorter.toNat 0
  let edit_array := edit_array.set 0 0 Row
  .row_set 0 0 Row :: (if Row = shorter then []
    else PED_levels_events tb A m T n Error_Limit Error_Limit.toNat 1
      ⟨edit_array, 0, 0, 0, 0, 0, 0, 0, 0, 0⟩)

/-- What holds of a step of a call of `Prefix_Edit_Dist` with the strings
`A [0 .. m)`, `T [0 .. n)` and the result `r`:

* a row that is stored lies inside both strings;
* when the last error is forced to be a mismatch, the call returns `e` with
  `A_End = m` and `T_End = m + d + 1`, `A [m - 1]` differs from the character
  of `T` under it, and the back-trace from the reported cell stays on the
  diagonal `d + 1` at level `e`;
* when the loop over `e` breaks, the band `[Left, Right]` was not empty and
  `Left1` has passed `Right`;
* otherwise the loops on `Right` stop, and the new band `[Left1, Right1]` is
  not empty and lies inside `[Left, Right]`. -/
def PED_Event.Ok (A T : Int → Char) (m n : Int) (r : PED_Result) : PED_Event → Prop
  | .row_set _ d Row => 0 ≤ Row ∧ Row ≤ m ∧ 0 ≤ Row + d ∧ Row + d ≤ n
  | .last_forced e d =>
    r.errors = e ∧ 1 ≤ e ∧ r.A_End = m ∧ r.T_End = m + d + 1 ∧ r.Match_To_End = true ∧
      A (m - 1) ≠ T (m + d) ∧ trace_from r.edit_array (e - 1) (d + 1) = d + 1 ∧
      trace_max r.edit_array (e - 1) (d + 1) = m
  | .broke _ Left Right Left1 => Left ≤ Right ∧ Left ≤ Left1 ∧ Right < Left1
  | .tightened _ Left Right Left1 Right1 =>
    Left ≤ Right ∧ ∃ R1, Right1 = some R1 ∧ Left ≤ Left1 ∧ Left1 ≤ R1 ∧ R1 ≤ Right

/-! ## The fragment store and the two passes over it -/

/-- Modelled from the spec: the classes `gkStore`, `gkStream` and `gkFragment`
are not among the sources.  The spec describes the read store as giving, for
an identifier, the deletion flag, the clear range and the sequence of the
read, and a streaming iterator over a range of identifiers.  `Store_Frag` is
what the passes over the overlaps take from a fragment: its identifier
(`gkFragment_getReadIID`), its deletion flag (`gkFragment_getIsDeleted`), its
sequence in the clear range after `Filter` (`seq_buff + clear_start`), and the
flag `shredded`.  The store itself is an argument `store : Int → Store_Frag`
of the functions below. -/
structure Store_Frag where
  id : Int
  deleted : Bool
  seq : List Char
  shredded : Bool
  deriving DecidableEq, Repr

/-- The fragments `lo_frag .. hi_frag` of the store in ascending order, as the
stream `new gkStream (gkpStore, lo_frag, hi_frag, GKFRAGMENT_SEQ)` delivers
them. -/
def store_stream (store : Int → Store_Frag) (lo_frag hi_frag : Int) : List Store_Frag :=
  (List.range (hi_frag - lo_frag + 1).toNat).map (fun (k : Nat) => store (lo_frag + (k : Int)))

/-- The loop `for (i = 0; Frag_Stream->next (&frag_read) && next_olap <
Num_Olaps; i ++)` of `Stream_Old_Frags` over the fragments of the stream,
deleted ones included.  A fragment with `frag_iid < Olap [next_olap] . b_iid`
and a deleted fragment are passed over by `continue`, which leaves `next_olap`
as it is; for the others `rev_id` is set to -1 and the overlaps with the
fragment are processed.  `none` is `exit (1)`. -/
def Stream_Old_Frags_stream (cfg : Config) (tb : Tables) (rc : List Char → List Char)
    (Olap : List Olap_Info_t) : List Store_Frag → Nat → Olap_State → Option Olap_State
  | [], _, st => some st
  | f :: rest, next_olap, st =>
    match Olap.get? next_olap with
    | none => some st
    | some olap =>
      if f.id < olap.b_iid then Stream_Old_Frags_stream cfg tb rc Olap rest next_olap st
      else if f.deleted = true then Stream_Old_Frags_stream cfg tb rc Olap rest next_olap st
      else
        match Olap_run cfg tb rc (fun _ => true) Olap ⟨f.id, f.seq, f.shredded⟩
            (Olap.length - next_olap) next_olap { st with rev_id := -1 } with
        | none => none
        | some (next_olap, st1) => Stream_Old_Frags_stream cfg tb rc Olap rest next_olap st1

/-- `Stream_Old_Frags`, which `main` calls when `Num_Olaps > 0` and
`Num_PThreads` is 0: the stream runs from `Olap [0] . b_iid` to
`Olap [Num_Olaps - 1] . b_iid`, `next_olap` starts at 0, `rev_seq` holds
"acgt", and `rev_id` and `edit_array` are the contents of the variable and of
the work area before their first assignment.  The result is the final `Frag`
with `Failed_Olaps`. -/
def Stream_Old_Frags (cfg : Config) (tb : Tables) (rc : List Char → List Char)
    (store : Int → Store_Frag) (Olap : List Olap_Info_t) (rev_id : Int)
    (edit_array : Edit_Array) (s : Frag_t × Int) : Option (Frag_t × Int) :=
  match Olap.head?, Olap.getLast? with
  | some first, some last =>
    (Stream_Old_Frags_stream cfg tb rc Olap (store_stream store first.b_iid last.b_iid) 0
      ⟨s.1, s.2, ['a', 'c', 'g', 't'], rev_id, edit_array⟩).map
      (fun st => (st.Frag, st.Failed_Olaps))
  | _, _ => some s

/-- The loop `while ((* next_olap) < Num_Olaps && Olap [(* next_olap)] . b_iid
== frag_iid) (* next_olap) ++` under the label `Advance_Next_Olap` of
`Extract_Needed_Frags`. -/
def Advance_Next_Olap (Olap : List Olap_Info_t) (frag_iid : Int) : Nat → Nat → Nat
  | 0, next_olap => next_olap
  | fuel + 1, next_olap =>
    match Olap.get? next_olap with
    | none => next_olap
    | some olap =>
      if olap.b_iid = frag_iid then Advance_Next_Olap Olap frag_iid fuel (next_olap + 1)
      else next_olap

/-- The loop `while ((* next_olap) < Num_Olaps && frag_iid <= hi_frag)` of
`Extract_Needed_Frags`, as it is compiled (`USE_STREAM_FOR_EXTRACT` is not
defined): the fragment `frag_iid` is fetched from the store; unless it is
deleted (`goto Advance_Next_Olap`) its entry is appended to the list; then
`next_olap` passes over the overlaps with this fragment and `frag_iid` becomes
`Olap [(* next_olap)] . b_iid`.  When `next_olap` has reached `Num_Olaps` this
last statement reads the entry after the array; the value is not used, since
the loop ends, and `frag_iid` is left as it is here. -/
def Extract_Needed_Frags_loop (store : Int → Store_Frag) (hi_frag : Int)
    (Olap : List Olap_Info_t) :
    Nat → Int → Nat → List Frag_List_Entry → List Frag_List_Entry × Nat
  | 0, _, next_olap, list => (list, next_olap)
  | fuel + 1, frag_iid, next_olap, list =>
    if next_olap < Olap.length ∧ frag_iid ≤ hi_frag then
      let list1 := if (store frag_iid).deleted = true then list
        else list ++ [⟨frag_iid, (store frag_iid).seq, (store frag_iid).shredded⟩]
      let next_olap1 := Advance_Next_Olap Olap frag_iid (Olap.length - next_olap) next_olap
      let frag_iid1 := match Olap.get? next_olap1 with
        | none => frag_iid
        | some olap => olap.b_iid
      Extract_Needed_Frags_loop store hi_frag Olap fuel frag_iid1 next_olap1 list1
    else (list, next_olap)

/-- `Extract_Needed_Frags (store, lo_frag, hi_frag, list, next_olap)`: the
entries of `list` and the final `* next_olap`.  It starts with
`frag_iid = Olap [(* next_olap)] . b_iid` (`none` stands for a call with
`* next_olap` past the array, which the program does not make); `lo_frag` is
not used by the code as it is compiled. -/
def Extract_Needed_Frags (store : Int → Store_Frag) (hi_frag : Int)
    (Olap : List Olap_Info_t) (next_olap : Nat) : Option (List Frag_List_Entry × Nat) :=
  match Olap.get? next_olap with
  | none => none
  | some olap =>
    some (Extract_Needed_Frags_loop store hi_frag Olap (Olap.length - next_olap + 1)
      olap.b_iid next_olap [])

/-! ## A store with a deleted read that has an overlap -/

/-- A store in which read 2 is deleted and every other read has the sequence
`B_unrelated`. -/
def store_deleted : Int → Store_Frag :=
  fun iid => ⟨iid, decide (iid = 2), B_unrelated, false⟩

/-- The overlaps of read 1 with the reads 2, 3 and 4, without hangs and in
normal orientation, sorted by `b_iid`. -/
def Olap_deleted : List Olap_Info_t :=
  [⟨1, 2, 0, 0, NORMAL⟩, ⟨1, 3, 0, 0, NORMAL⟩, ⟨1, 4, 0, 0, NORMAL⟩]

/-! ## Theorems: vote tallies -/

theorem bump_at_eq_setVote (c : Counter) (p sub : Int) (Frag : Frag_t) :
    bump_at c p sub Frag = setVote Frag sub p (((Frag sub).vote p).bump c) := by
  funext s
  unfold bump_at setVote
  by_cases hs : s = sub
  · subst hs
    simp only [if_true]
    congr 1
    funext q
    by_cases hq : q = p
    · subst hq; simp
    · simp [hq]
  · simp [hs]

theorem setVote_self (Frag : Frag_t) (sub p : Int) :
    setVote Frag sub p ((Frag sub).vote p) = Frag := by
  funext s
  unfold setVote
  by_cases hs : s = sub
  · subst hs
    simp only [if_true]
    have : (fun q => if q = p then (Frag s).vote p else (Frag s).vote q) = (Frag s).vote := by
      funext q; by_cases hq : q = p
      · subst hq; simp
      · simp [hq]
    rw [this]
  · simp [hs]

theorem Cast_Vote_eq_bump (Frag : Frag_t) (val : Vote_Value_t) (p sub : Int) :
    Cast_Vote Frag val p sub =
      match val.counter with
      | some c => bump_at c p sub Frag
      | none => Frag := by
  cases val <;> simp only [Cast_Vote, Vote_Value_t.counter, bump_at_eq_setVote,
    Vote_Tally_t.bump, Vote_Tally_t.get] <;> split_ifs <;> simp [setVote_self]

theorem Confirm_eq_bump (Frag : Frag_t) (p p_hi k sub : Int) :
    Confirm Frag p p_hi k sub =
      if p < p_hi - 1 then bump_at .no_insert k sub (bump_at .confirmed k sub Frag)
      else bump_at .confirmed k sub Frag := by
  have h1 : (if ((Frag sub).vote k).confirmed < MAX_VOTE then
      setVote Frag sub k { (Frag sub).vote k with confirmed := ((Frag sub).vote k).confirmed + 1 }
      else Frag) = bump_at .confirmed k sub Frag := by
    simp only [bump_at_eq_setVote, Vote_Tally_t.bump, Vote_Tally_t.get]
    split_ifs <;> simp [setVote_self]
  unfold Confirm
  simp only [h1]
  by_cases hp : p < p_hi - 1
  · simp only [hp, true_and, if_true]
    generalize bump_at .confirmed k sub Frag = G
    simp only [bump_at_eq_setVote, Vote_Tally_t.bump, Vote_Tally_t.get]
    split_ifs <;> simp [setVote_self]
  · simp [hp]

theorem get_bump (t : Vote_Tally_t) (c c' : Counter) :
    (t.bump c).get c' = if c' = c ∧ t.get c < MAX_VOTE then t.get c' + 1 else t.get c' := by
  unfold Vote_Tally_t.bump
  by_cases h : t.get c < MAX_VOTE
  · simp only [h, if_true, and_true]
    cases c <;> cases c' <;> simp [Vote_Tally_t.get]
  · simp [h]

theorem tally_ext (t u : Vote_Tally_t) (h : ∀ c, t.get c = u.get c) : t = u := by
  have h1 := h .confirmed
  have h2 := h .deletes
  have h3 := h .a_subst
  have h4 := h .c_subst
  have h5 := h .g_subst
  have h6 := h .t_subst
  have h7 := h .no_insert
  have h8 := h .a_insert
  have h9 := h .c_insert
  have h10 := h .g_insert
  have h11 := h .t_insert
  cases t; cases u
  simp only [Vote_Tally_t.get] at *
  simp [*]

theorem bump_comm (t : Vote_Tally_t) (c1 c2 : Counter) :
    (t.bump c1).bump c2 = (t.bump c2).bump c1 := by
  apply tally_ext
  intro c
  simp only [get_bump]
  by_cases h12 : c1 = c2
  · subst h12; rfl
  · have h21 : ¬ c2 = c1 := fun h => h12 h.symm
    simp only [h12, h21, false_and, if_false]
    by_cases h1 : c = c1 <;> by_cases h2 : c = c2
    · exact absurd (h1.symm.trans h2) h12
    · simp [h1, h2, h12]
    · simp [h1, h2, h21]
    · simp [h1, h2]

theorem frag_info_ext (a b : Frag_Info_t) (h1 : a.sequence = b.sequence) (h2 : a.vote = b.vote)
    (h3 : a.clear_len = b.clear_len) (h4 : a.left_degree = b.left_degree)
    (h5 : a.right_degree = b.right_degree) (h6 : a.shredded = b.shredded) : a = b := by
  cases a; cases b; simp_all

theorem bump_at_vote (c : Counter) (p sub : Int) (Frag : Frag_t) (s q : Int) :
    ((bump_at c p sub Frag) s).vote q =
      if s = sub ∧ q = p then ((Frag s).vote q).bump c else (Frag s).vote q := by
  unfold bump_at
  by_cases hs : s = sub <;> by_cases hq : q = p <;> simp [hs, hq]

theorem bump_at_fields (c : Counter) (p sub : Int) (Frag : Frag_t) (s : Int) :
    ((bump_at c p sub Frag) s).sequence = (Frag s).sequence ∧
    ((bump_at c p sub Frag) s).clear_len = (Frag s).clear_len ∧
    ((bump_at c p sub Frag) s).left_degree = (Frag s).left_degree ∧
    ((bump_at c p sub Frag) s).right_degree = (Frag s).right_degree ∧
    ((bump_at c p sub Frag) s).shredded = (Frag s).shredded := by
  unfold bump_at
  by_cases hs : s = sub <;> simp [hs]

theorem bump_at_comm (c1 c2 : Counter) (p1 p2 s1 s2 : Int) (Frag : Frag_t) :
    bump_at c1 p1 s1 (bump_at c2 p2 s2 Frag) = bump_at c2 p2 s2 (bump_at c1 p1 s1 Frag) := by
  funext s
  apply frag_info_ext
  · simp only [(bump_at_fields _ _ _ _ _).1]
  · funext q
    simp only [bump_at_vote]
    split_ifs <;> first | rfl | exact bump_comm _ _ _
  · simp only [(bump_at_fields _ _ _ _ _).2.1]
  · simp only [(bump_at_fields _ _ _ _ _).2.2.1]
  · simp only [(bump_at_fields _ _ _ _ _).2.2.2.1]
  · simp only [(bump_at_fields _ _ _ _ _).2.2.2.2]

theorem bumps_comp {f g : Frag_t → Frag_t} (hf : Bumps f) (hg : Bumps g) :
    Bumps (fun Frag => f (g Frag)) := by
  induction hf with
  | nil => exact hg
  | cons c p sub _ ih => exact Bumps.cons c p sub ih

theorem bumps_bump_at (c : Counter) (p sub : Int) : Bumps (bump_at c p sub) :=
  Bumps.cons c p sub Bumps.nil

theorem bumps_comm_bump {g : Frag_t → Frag_t} (hg : Bumps g) (c : Counter) (p sub : Int)
    (Frag : Frag_t) : bump_at c p sub (g Frag) = g (bump_at c p sub Frag) := by
  induction hg with
  | nil => rfl
  | cons c' p' sub' _ ih =>
    show bump_at c p sub (bump_at c' p' sub' _) = _
    rw [bump_at_comm, ih]

theorem bumps_comm {f g : Frag_t → Frag_t} (hf : Bumps f) (hg : Bumps g) (Frag : Frag_t) :
    f (g Frag) = g (f Frag) := by
  induction hf generalizing Frag with
  | nil => rfl
  | cons c p sub _ ih =>
    show bump_at c p sub _ = g (bump_at c p sub _)
    rw [ih, bumps_comm_bump hg]

theorem bumps_Cast_Vote (val : Vote_Value_t) (p sub : Int) :
    Bumps (fun Frag => Cast_Vote Frag val p sub) := by
  have : (fun Frag => Cast_Vote Frag val p sub) =
      match val.counter with
      | some c => bump_at c p sub
      | none => fun Frag => Frag := by
    funext Frag
    rw [Cast_Vote_eq_bump]
    cases val.counter <;> rfl
  rw [this]
  cases val.counter with
  | none => exact Bumps.nil
  | some c => exact bumps_bump_at c p sub

theorem bumps_Confirm (p p_hi k sub : Int) :
    Bumps (fun Frag => Confirm Frag p p_hi k sub) := by
  have : (fun Frag => Confirm Frag p p_hi k sub) =
      if p < p_hi - 1 then
        fun Frag => bump_at .no_insert k sub (bump_at .confirmed k sub Frag)
      else bump_at .confirmed k sub := by
    funext Frag
    rw [Confirm_eq_bump]
    split_ifs <;> rfl
  rw [this]
  split_ifs
  · exact Bumps.cons _ _ _ (bumps_bump_at _ _ _)
  · exact bumps_bump_at _ _ _

theorem bumps_foldl {α : Type} (body : Frag_t → α → Frag_t)
    (h : ∀ a, Bumps (fun Frag => body Frag a)) (l : List α) :
    Bumps (fun Frag => l.foldl body Frag) := by
  induction l with
  | nil => exact Bumps.nil
  | cons a l ih =>
    simp only [List.foldl_cons]
    exact bumps_comp ih (h a)

theorem bumps_for_loop (lo hi : Int) (body : Int → Frag_t → Frag_t)
    (h : ∀ p, Bumps (body p)) : Bumps (for_loop lo hi body) := by
  unfold for_loop
  exact bumps_foldl (fun s (k : Nat) => body (lo + (k : Int)) s) (fun k => h _) _

theorem bumps_ite (c : Prop) [Decidable c] {f g : Frag_t → Frag_t} (hf : Bumps f) (hg : Bumps g) :
    Bumps (fun Frag => if c then f Frag else g Frag) := by
  by_cases h : c
  · simpa [h] using hf
  · simpa [h] using hg

theorem bumps_Tally_Run (cfg : Config) (a_part : Int → Char) (a_offset sub : Int)
    (vote : List Vote_t) (ct i : Nat) :
    Bumps (Tally_Run cfg a_part a_offset sub vote ct i) := by
  unfold Tally_Run
  simp only
  apply bumps_ite
  · exact bumps_comp (bumps_for_loop _ _ _ (fun p => bumps_Cast_Vote _ _ _))
      (bumps_comp (bumps_for_loop _ _ _ (fun p => bumps_Confirm _ _ _ _))
        (bumps_for_loop _ _ _ (fun p => bumps_Cast_Vote _ _ _)))
  · exact Bumps.nil

theorem bumps_Tally_Discrepancy (cfg : Config) (a_offset sub : Int)
    (vote : List Vote_t) (ct i : Nat) :
    Bumps (Tally_Discrepancy cfg a_offset sub vote ct i) := by
  unfold Tally_Discrepancy
  simp only
  apply bumps_ite
  · apply bumps_ite
    · exact bumps_Cast_Vote _ _ _
    · exact Bumps.nil
  · exact Bumps.nil

theorem bumps_Tally_Vote (cfg : Config) (a_part : Int → Char) (a_offset sub : Int)
    (vote : List Vote_t) (ct i : Nat) :
    Bumps (Tally_Vote cfg a_part a_offset sub vote ct i) := by
  show Bumps (fun F => Tally_Discrepancy cfg a_offset sub vote ct i
    (Tally_Run cfg a_part a_offset sub vote ct i F))
  exact bumps_comp (bumps_Tally_Discrepancy _ _ _ _ _ _) (bumps_Tally_Run _ _ _ _ _ _ _)

theorem bumps_Tally_Votes (cfg : Config) (a_part : Int → Char) (a_offset sub : Int)
    (vote : List Vote_t) :
    Bumps (Tally_Votes cfg a_part a_offset sub vote) := by
  unfold Tally_Votes
  exact bumps_foldl _ (fun k => bumps_Tally_Vote _ _ _ _ _ _ _) _

theorem tally_bounded_bump_at {Frag : Frag_t} (h : Tally_Bounded Frag) (c : Counter) (p sub : Int) :
    Tally_Bounded (bump_at c p sub Frag) := by
  intro s q c'
  unfold bump_at
  by_cases hs : s = sub
  · by_cases hq : q = p
    · simp only [hs, hq, if_true, get_bump]
      have := h sub p c'
      split_ifs with hc
      · rw [hc.1]; exact hc.2
      · exact this
    · simp only [hs, hq, if_true, if_false]; exact h sub q c'
  · simp only [hs, if_false]; exact h s q c'

theorem tally_bounded_bumps {Frag : Frag_t} (h : Tally_Bounded Frag) {f : Frag_t → Frag_t}
    (hf : Bumps f) : Tally_Bounded (f Frag) := by
  induction hf with
  | nil => exact h
  | cons c p sub _ ih => exact tally_bounded_bump_at ih c p sub


/-- C6: starting from zero-initialised tallies, every operation that changes a
tally (`Cast_Vote`, the `confirmed` / `no_insert` update, a whole call of
`Analyze_Alignment`) keeps all eleven counters of every tally entry at most
255. -/
theorem tally_counters_bounded (cfg : Config) (Frag : Frag_t) (h : Reachable cfg Frag) :
    Tally_Bounded Frag := by
  induction h with
  | init F h0 =>
    intro sub p c
    rw [h0]
    cases c <;> simp [Vote_Tally_t.get, Vote_Tally_t.zero]
  | cast val p sub _ ih => exact tally_bounded_bumps ih (bumps_Cast_Vote val p sub)
  | confirm p p_hi k sub _ ih => exact tally_bounded_bumps ih (bumps_Confirm p p_hi k sub)
  | analyze delta a_part b_part a_len b_len a_offset sub _ hA ih =>
    unfold Analyze_Alignment at hA
    cases hv : Build_Votes delta a_part b_part a_len b_len with
    | none => simp [hv] at hA
    | some vote =>
      simp only [hv, Option.map_some', Option.some.injEq] at hA
      rw [← hA]
      exact tally_bounded_bumps ih (bumps_Tally_Votes cfg a_part a_offset sub vote)

/-- Witness of C6: one deletion vote cast on the zero tallies. -/
theorem tally_counters_bounded_witness :
    Reachable (Config.default 1 1) (Cast_Vote Frag_zero .DELETE 0 0) ∧
      Tally_Bounded (Cast_Vote Frag_zero .DELETE 0 0) :=
  ⟨Reachable.cast _ _ _ (Reachable.init _ (fun _ _ => rfl)),
   tally_counters_bounded (Config.default 1 1) _
     (Reachable.cast _ _ _ (Reachable.init _ (fun _ _ => rfl)))⟩

/-- C7: `Cast_Vote (val, p, sub)` adds exactly 1 to the counter named by `val`
at `Frag [sub] . vote [p]` when that counter is below 255 and changes no other
counter of that entry; it changes no other position, no other read and no
other field; it never names `confirmed` or `no_insert`; it is a no-op when the
named counter equals 255 and when `val` is `NO_VOTE`. -/
theorem Cast_Vote_frame (Frag : Frag_t) (val : Vote_Value_t) (p sub : Int) :
    (∀ c : Counter, (((Cast_Vote Frag val p sub) sub).vote p).get c =
        if val.counter = some c ∧ ((Frag sub).vote p).get c < MAX_VOTE
        then ((Frag sub).vote p).get c + 1 else ((Frag sub).vote p).get c) ∧
    (∀ q : Int, q ≠ p → ((Cast_Vote Frag val p sub) sub).vote q = (Frag sub).vote q) ∧
    (∀ s : Int, s ≠ sub → (Cast_Vote Frag val p sub) s = Frag s) ∧
    (((Cast_Vote Frag val p sub) sub).sequence = (Frag sub).sequence ∧
      ((Cast_Vote Frag val p sub) sub).clear_len = (Frag sub).clear_len ∧
      ((Cast_Vote Frag val p sub) sub).left_degree = (Frag sub).left_degree ∧
      ((Cast_Vote Frag val p sub) sub).right_degree = (Frag sub).right_degree ∧
      ((Cast_Vote Frag val p sub) sub).shredded = (Frag sub).shredded) ∧
    (val.counter ≠ some Counter.confirmed ∧ val.counter ≠ some Counter.no_insert) ∧
    (val = Vote_Value_t.NO_VOTE → Cast_Vote Frag val p sub = Frag) ∧
    (∀ c : Counter, val.counter = some c → ((Frag sub).vote p).get c = MAX_VOTE →
        Cast_Vote Frag val p sub = Frag) := by
  rw [Cast_Vote_eq_bump]
  cases hc : val.counter with
  | none =>
    refine ⟨fun c => by simp, fun _ _ => rfl, fun _ _ => rfl, ⟨rfl, rfl, rfl, rfl, rfl⟩,
      ⟨by simp, by simp⟩, fun _ => rfl, fun c h => by simp at h⟩
  | some c0 =>
    simp only
    refine ⟨?_, ?_, ?_, bump_at_fields c0 p sub Frag sub, ?_, ?_, ?_⟩
    · intro c
      rw [bump_at_vote]
      simp only [and_self, if_true, get_bump, Option.some.injEq]
      by_cases hcc : c = c0
      · subst hcc; simp
      · have : ¬ c0 = c := fun h => hcc h.symm
        simp [hcc, this]
    · intro q hq
      rw [bump_at_vote]; simp [hq]
    · intro s hs
      unfold bump_at; simp [hs]
    · cases val <;> simp [Vote_Value_t.counter] at hc ⊢ <;> subst hc <;> simp
    · intro hv; subst hv; simp [Vote_Value_t.counter] at hc
    · intro c hcc hmax
      simp only [Option.some.injEq] at hcc
      subst hcc
      rw [bump_at_eq_setVote]
      have : ((Frag sub).vote p).bump c0 = (Frag sub).vote p := by
        unfold Vote_Tally_t.bump; simp [hmax]
      rw [this, setVote_self]

/-- C8: vote accumulation is order-independent: two calls of
`Analyze_Alignment` give the same result (the same tallies, or `exit (1)`) in
either order, and so do two calls of `Cast_Vote`. -/
theorem votes_order_independent (cfg : Config) (Frag : Frag_t)
    (delta1 : List Int) (a_part1 b_part1 : Int → Char) (a_len1 b_len1 a_offset1 sub1 : Int)
    (delta2 : List Int) (a_part2 b_part2 : Int → Char) (a_len2 b_len2 a_offset2 sub2 : Int) :
    ((Analyze_Alignment cfg Frag delta1 a_part1 b_part1 a_len1 b_len1 a_offset1 sub1).bind
        (fun F => Analyze_Alignment cfg F delta2 a_part2 b_part2 a_len2 b_len2 a_offset2 sub2)) =
      ((Analyze_Alignment cfg Frag delta2 a_part2 b_part2 a_len2 b_len2 a_offset2 sub2).bind
        (fun F => Analyze_Alignment cfg F delta1 a_part1 b_part1 a_len1 b_len1 a_offset1 sub1)) ∧
    (∀ (val1 val2 : Vote_Value_t) (p1 p2 s1 s2 : Int),
      Cast_Vote (Cast_Vote Frag val1 p1 s1) val2 p2 s2 =
        Cast_Vote (Cast_Vote Frag val2 p2 s2) val1 p1 s1) := by
  constructor
  · unfold Analyze_Alignment
    cases Build_Votes delta1 a_part1 b_part1 a_len1 b_len1 with
    | none => cases Build_Votes delta2 a_part2 b_part2 a_len2 b_len2 <;> rfl
    | some v1 =>
      cases Build_Votes delta2 a_part2 b_part2 a_len2 b_len2 with
      | none => rfl
      | some v2 =>
        simp only [Option.map_some', Option.some_bind, Option.some.injEq]
        exact (bumps_comm (bumps_Tally_Votes cfg a_part2 a_offset2 sub2 v2)
          (bumps_Tally_Votes cfg a_part1 a_offset1 sub1 v1) Frag)
  · intro val1 val2 p1 p2 s1 s2
    exact bumps_comm (bumps_Cast_Vote val2 p2 s2) (bumps_Cast_Vote val1 p1 s1) Frag

/-! ## Theorems: output of the corrections -/

theorem next_max (s : Tally_Scan) (v : Vote_Value_t) (tmp : Nat) (chg : Bool) :
    (s.next v tmp chg).max = Nat.max s.max tmp := by
  simp only [Tally_Scan.next, Nat.max_def]
  split_ifs <;> omega

theorem subst_scan_max (ch : Char) (t : Vote_Tally_t) :
    (subst_scan ch t).max = max_count (subst_count t) subst_actions := by
  simp only [subst_scan, next_max, max_count, subst_actions, List.map, List.foldl, subst_count]
  simp [Tally_Scan.start]

theorem subst_scan_total (ch : Char) (t : Vote_Tally_t) :
    (subst_scan ch t).total = total_count (subst_count t) subst_actions := by
  simp only [subst_scan, Tally_Scan.next, Tally_Scan.start, total_count, subst_actions,
    List.map, List.sum_cons, List.sum_nil, subst_count]
  omega

theorem subst_scan_haplo (ch : Char) (t : Vote_Tally_t) :
    (subst_scan ch t).haplo_ct = haplo_count (subst_count t) subst_actions := by
  simp only [subst_scan, Tally_Scan.next, Tally_Scan.start, haplo_count, subst_actions,
    List.filter, subst_count]
  by_cases h1 : t.deletes ≥ MIN_HAPLO_OCCURS <;> by_cases h2 : t.a_subst ≥ MIN_HAPLO_OCCURS <;>
  by_cases h3 : t.c_subst ≥ MIN_HAPLO_OCCURS <;> by_cases h4 : t.g_subst ≥ MIN_HAPLO_OCCURS <;>
  by_cases h5 : t.t_subst ≥ MIN_HAPLO_OCCURS <;> simp [h1, h2, h3, h4, h5]

theorem subst_scan_vote (ch : Char) (t : Vote_Tally_t) :
    (subst_scan ch t).vote ∈ subst_actions ∧
    subst_count t (subst_scan ch t).vote = (subst_scan ch t).max ∧
    ((subst_scan ch t).is_change = true ↔
      ((subst_scan ch t).vote = .DELETE ∨ ch ≠ subst_base (subst_scan ch t).vote)) := by
  simp only [subst_scan, Tally_Scan.next, Tally_Scan.start, subst_actions]
  split_ifs <;> simp [subst_count, subst_base]

theorem subst_unique (t : Vote_Tally_t) (v w : Vote_Value_t) (hv : v ∈ subst_actions)
    (hw : w ∈ subst_actions) (h1 : subst_count t v = max_count (subst_count t) subst_actions)
    (h2 : subst_count t w = max_count (subst_count t) subst_actions)
    (h3 : 2 * max_count (subst_count t) subst_actions > total_count (subst_count t) subst_actions)
    : v = w := by
  have ht : total_count (subst_count t) subst_actions =
      t.deletes + (t.a_subst + (t.c_subst + (t.g_subst + t.t_subst))) := by
    simp [total_count, subst_actions, subst_count]
  rw [ht] at h3
  generalize max_count (subst_count t) subst_actions = M at *
  simp only [subst_actions, List.mem_cons, List.mem_singleton, List.mem_nil_iff, or_false] at hv hw
  rcases hv with rfl | rfl | rfl | rfl | rfl <;> rcases hw with rfl | rfl | rfl | rfl | rfl <;>
    first | rfl | (exfalso; simp only [subst_count] at h1 h2; omega)


theorem insert_scan_max (t : Vote_Tally_t) :
    (insert_scan t).max = max_count (insert_count t) insert_actions := by
  simp only [insert_scan, next_max, max_count, insert_actions, List.map, List.foldl, insert_count]
  simp [Tally_Scan.start]

theorem insert_scan_total (t : Vote_Tally_t) :
    (insert_scan t).total = total_count (insert_count t) insert_actions := by
  simp only [insert_scan, Tally_Scan.next, Tally_Scan.start, total_count, insert_actions,
    List.map, List.sum_cons, List.sum_nil, insert_count]
  omega

theorem insert_scan_haplo (t : Vote_Tally_t) :
    (insert_scan t).haplo_ct = haplo_count (insert_count t) insert_actions := by
  simp only [insert_scan, Tally_Scan.next, Tally_Scan.start, haplo_count, insert_actions,
    List.filter, insert_count]
  by_cases h1 : t.a_insert ≥ MIN_HAPLO_OCCURS <;> by_cases h2 : t.c_insert ≥ MIN_HAPLO_OCCURS <;>
  by_cases h3 : t.g_insert ≥ MIN_HAPLO_OCCURS <;> by_cases h4 : t.t_insert ≥ MIN_HAPLO_OCCURS <;>
  simp [h1, h2, h3, h4]

theorem insert_scan_vote (t : Vote_Tally_t) :
    (insert_scan t).vote ∈ insert_actions ∧
    insert_count t (insert_scan t).vote = (insert_scan t).max := by
  simp only [insert_scan, Tally_Scan.next, Tally_Scan.start, insert_actions]
  split_ifs <;> simp [insert_count]

theorem insert_unique (t : Vote_Tally_t) (v w : Vote_Value_t) (hv : v ∈ insert_actions)
    (hw : w ∈ insert_actions) (h1 : insert_count t v = max_count (insert_count t) insert_actions)
    (h2 : insert_count t w = max_count (insert_count t) insert_actions)
    (h3 : 2 * max_count (insert_count t) insert_actions >
      total_count (insert_count t) insert_actions) : v = w := by
  have ht : total_count (insert_count t) insert_actions =
      t.a_insert + (t.c_insert + (t.g_insert + t.t_insert)) := by
    simp [total_count, insert_actions, insert_count]
  rw [ht] at h3
  generalize max_count (insert_count t) insert_actions = M at *
  simp only [insert_actions, List.mem_cons, List.mem_singleton, List.mem_nil_iff, or_false] at hv hw
  rcases hv with rfl | rfl | rfl | rfl <;> rcases hw with rfl | rfl | rfl | rfl <;>
    first | rfl | (exfalso; simp only [insert_count] at h1 h2; omega)

theorem subst_insert_disjoint (v : Vote_Value_t) (hv : v ∈ subst_actions)
    (hw : v ∈ insert_actions) : False := by
  simp only [subst_actions, insert_actions, List.mem_cons, List.mem_singleton,
    List.mem_nil_iff, or_false] at hv hw
  rcases hv with rfl | rfl | rfl | rfl | rfl <;> simp at hw

/-- Membership in the records written for the deletion / substitution decision. -/
theorem mem_Output_Corrections_subst (cfg : Config) (ch : Char) (t : Vote_Tally_t)
    (j j' : Int) (v : Vote_Value_t) :
    Correction_Output_t.corr j v ∈ Output_Corrections_subst cfg ch t j' ↔
      j = j' ∧ v = (subst_scan ch t).vote ∧ t.confirmed < 2 ∧
      2 * (subst_scan ch t).max > (subst_scan ch t).total ∧ (subst_scan ch t).total > 1 ∧
      (subst_scan ch t).is_change = true ∧
      ((subst_scan ch t).haplo_ct < 2 ∨ cfg.Use_Haplo_Ct = false) ∧
      (t.confirmed = 0 ∨ (t.confirmed = 1 ∧ (subst_scan ch t).max > 6)) := by
  unfold Output_Corrections_subst
  by_cases h1 : t.confirmed < 2
  · simp only [h1, if_true, true_and]
    split_ifs with h2
    · simp only [List.mem_singleton, Correction_Output_t.corr.injEq]
      tauto
    · simp only [List.not_mem_nil, false_iff]
      tauto
  · simp [h1]

/-- Membership in the records written for the insertion decision. -/
theorem mem_Output_Corrections_insert (cfg : Config) (t : Vote_Tally_t)
    (j j' : Int) (v : Vote_Value_t) :
    Correction_Output_t.corr j v ∈ Output_Corrections_insert cfg t j' ↔
      j = j' ∧ v = (insert_scan t).vote ∧ t.no_insert < 2 ∧
      2 * (insert_scan t).max > (insert_scan t).total ∧ (insert_scan t).total > 1 ∧
      ((insert_scan t).haplo_ct < 2 ∨ cfg.Use_Haplo_Ct = false) ∧
      (t.no_insert = 0 ∨ (t.no_insert = 1 ∧ (insert_scan t).max > 6)) := by
  unfold Output_Corrections_insert
  by_cases h1 : t.no_insert < 2
  · simp only [h1, if_true, true_and]
    split_ifs with h2
    · simp only [List.mem_singleton, Correction_Output_t.corr.injEq]
      tauto
    · simp only [List.not_mem_nil, false_iff]
      tauto
  · simp [h1]

/-- A correction record of a non-deleted fragment is the `EXTENSION` record or
a record of the loop over the positions `0 .. last_conf`. -/
theorem mem_Output_Corrections_frag (cfg : Config) (Frag : Frag_t) (i : Int) (seq : List Char)
    (hseq : (Frag i).sequence = some seq) (j : Int) (v : Vote_Value_t) :
    Correction_Output_t.corr j v ∈ Output_Corrections_frag cfg Frag i ↔
      (cfg.Extend_Fragments = true ∧ j = 1 + last_conf cfg (Frag i) seq - (Frag i).clear_len
        ∧ v = .EXTENSION) ∨
      (0 ≤ j ∧ j ≤ last_conf cfg (Frag i) seq ∧
        Correction_Output_t.corr j v ∈
          Output_Corrections_pos cfg (charAt seq j) ((Frag i).vote j) j) := by
  have hext : Correction_Output_t.corr j v ∈
      (if cfg.Extend_Fragments = true then
        [Correction_Output_t.corr (1 + last_conf cfg (Frag i) seq - (Frag i).clear_len)
          Vote_Value_t.EXTENSION]
      else []) ↔
      (cfg.Extend_Fragments = true ∧ j = 1 + last_conf cfg (Frag i) seq - (Frag i).clear_len
        ∧ v = .EXTENSION) := by
    by_cases he : cfg.Extend_Fragments = true
    · simp [he]
    · simp [he]
  have hpos : ∀ k : Nat, Correction_Output_t.corr j v ∈
      Output_Corrections_pos cfg (charAt seq k) ((Frag i).vote k) k → j = k := by
    intro k hk
    unfold Output_Corrections_pos at hk
    rw [List.mem_append, mem_Output_Corrections_subst, mem_Output_Corrections_insert] at hk
    rcases hk with h | h <;> exact h.1
  unfold Output_Corrections_frag
  simp only [hseq, List.mem_cons, List.mem_append, Output_Corrections_positions,
    List.mem_flatMap, List.mem_range, hext]
  constructor
  · rintro (h | h | ⟨k, hk, hmem⟩)
    · cases h
    · exact Or.inl h
    · right
      have hjk := hpos k hmem
      subst hjk
      refine ⟨by omega, by omega, hmem⟩
  · rintro (h | ⟨h0, h1, hmem⟩)
    · exact Or.inr (Or.inl h)
    · right; right
      refine ⟨j.toNat, by omega, ?_⟩
      have : ((j.toNat : Nat) : Int) = j := Int.toNat_of_nonneg h0
      rw [this]; exact hmem

/-- C9: for a non-deleted read and a position `j` up to the endpoint,
`Output_Corrections` writes the deletion / substitution record `(j, v)` if and
only if `confirmed [j] < 2`, twice the largest of the five counts exceeds
their sum, the sum exceeds 1, `v` is the action with the largest count, `v` is
`DELETE` or a substitution to a base other than `sequence [j]`, fewer than two
of the five counts reach `MIN_HAPLO_OCCURS` or haplotype gating is off, and
`confirmed [j]` is 0, or 1 with the largest count above 6.  In particular a
tally with `g_subst = 10` and all else 0 on a base other than `g` gives the
record `(j, G_SUBST)`. -/
theorem subst_record_iff (cfg : Config) (Frag : Frag_t) (i : Int) (seq : List Char)
    (j : Int) (v : Vote_Value_t) (hseq : (Frag i).sequence = some seq)
    (hj0 : 0 ≤ j) (hj : j ≤ last_conf cfg (Frag i) seq) (hv : v ∈ subst_actions) :
    (Correction_Output_t.corr j v ∈ Output_Corrections_frag cfg Frag i ↔
      ((Frag i).vote j).confirmed < 2 ∧
      2 * max_count (subst_count ((Frag i).vote j)) subst_actions >
        total_count (subst_count ((Frag i).vote j)) subst_actions ∧
      total_count (subst_count ((Frag i).vote j)) subst_actions > 1 ∧
      subst_count ((Frag i).vote j) v = max_count (subst_count ((Frag i).vote j)) subst_actions ∧
      (v = .DELETE ∨ charAt seq j ≠ subst_base v) ∧
      (haplo_count (subst_count ((Frag i).vote j)) subst_actions < 2
        ∨ cfg.Use_Haplo_Ct = false) ∧
      (((Frag i).vote j).confirmed = 0 ∨ (((Frag i).vote j).confirmed = 1 ∧
        max_count (subst_count ((Frag i).vote j)) subst_actions > 6))) ∧
    (∀ ch : Char, ch ≠ 'g' →
      Output_Corrections_subst cfg ch ⟨0, 0, 0, 0, 10, 0, 0, 0, 0, 0, 0⟩ j =
        [Correction_Output_t.corr j .G_SUBST]) := by
  constructor
  · rw [mem_Output_Corrections_frag cfg Frag i seq hseq]
    have hne : v ≠ .EXTENSION := by
      intro h; subst h; simp [subst_actions] at hv
    unfold Output_Corrections_pos
    rw [List.mem_append, mem_Output_Corrections_subst, mem_Output_Corrections_insert]
    generalize (Frag i).vote j = t
    have hs := subst_scan_vote (charAt seq j) t
    rw [subst_scan_max] at hs
    have hi := insert_scan_vote t
    simp only [subst_scan_max, subst_scan_total, subst_scan_haplo]
    constructor
    · rintro (⟨_, _, h⟩ | h)
      · exact absurd h hne
      · rcases h with ⟨_, _, h | h⟩
        · obtain ⟨_, hvv, hc, h2, h1, hch, hh, h6⟩ := h
          subst hvv
          exact ⟨hc, h2, h1, hs.2.1, hs.2.2.mp hch, hh, h6⟩
        · exfalso
          rw [h.2.1] at hv
          exact subst_insert_disjoint _ hv hi.1
    · rintro ⟨hc, h2, h1, hcount, hch, hh, h6⟩
      right
      refine ⟨hj0, hj, Or.inl ?_⟩
      have hvv : v = (subst_scan (charAt seq j) t).vote :=
        subst_unique t _ _ hv hs.1 hcount hs.2.1 h2
      refine ⟨trivial, hvv, hc, h2, h1, ?_, hh, h6⟩
      rw [hs.2.2, ← hvv]; exact hch
  · intro ch hg
    simp [Output_Corrections_subst, subst_scan, Tally_Scan.next, Tally_Scan.start,
      MIN_HAPLO_OCCURS, hg]

/-- Witness of C9: the scenario of the claim at position 0 of a read `ac`. -/
theorem subst_record_iff_witness :
    (Correction_Output_t.corr 0 .G_SUBST ∈ Output_Corrections_frag (Config.default 1 1)
        (fun _ => ⟨some ['a', 'c'], fun _ => ⟨0, 0, 0, 0, 10, 0, 0, 0, 0, 0, 0⟩, 2, 0, 0, false⟩) 0 ↔
      (0 : Nat) < 2 ∧
      2 * max_count (subst_count ⟨0, 0, 0, 0, 10, 0, 0, 0, 0, 0, 0⟩) subst_actions >
        total_count (subst_count ⟨0, 0, 0, 0, 10, 0, 0, 0, 0, 0, 0⟩) subst_actions ∧
      total_count (subst_count ⟨0, 0, 0, 0, 10, 0, 0, 0, 0, 0, 0⟩) subst_actions > 1 ∧
      subst_count ⟨0, 0, 0, 0, 10, 0, 0, 0, 0, 0, 0⟩ .G_SUBST =
        max_count (subst_count ⟨0, 0, 0, 0, 10, 0, 0, 0, 0, 0, 0⟩) subst_actions ∧
      (Vote_Value_t.G_SUBST = .DELETE ∨ charAt ['a', 'c'] 0 ≠ subst_base .G_SUBST) ∧
      (haplo_count (subst_count ⟨0, 0, 0, 0, 10, 0, 0, 0, 0, 0, 0⟩) subst_actions < 2
        ∨ (Config.default 1 1).Use_Haplo_Ct = false) ∧
      ((0 : Nat) = 0 ∨ ((0 : Nat) = 1 ∧
        max_count (subst_count ⟨0, 0, 0, 0, 10, 0, 0, 0, 0, 0, 0⟩) subst_actions > 6))) ∧
    (∀ ch : Char, ch ≠ 'g' →
      Output_Corrections_subst (Config.default 1 1) ch ⟨0, 0, 0, 0, 10, 0, 0, 0, 0, 0, 0⟩ 0 =
        [Correction_Output_t.corr 0 .G_SUBST]) :=
  subst_record_iff (Config.default 1 1)
    (fun _ => ⟨some ['a', 'c'], fun _ => ⟨0, 0, 0, 0, 10, 0, 0, 0, 0, 0, 0⟩, 2, 0, 0, false⟩)
    0 ['a', 'c'] 0 .G_SUBST rfl (by decide) (by decide) (by decide)

/-- C10: for a non-deleted read and a position `j` up to the endpoint,
`Output_Corrections` writes the insertion record `(j, v)` if and only if
`no_insert [j] < 2`, twice the largest of the four insert counts exceeds their
sum, the sum exceeds 1, `v` is the insert with the largest count, fewer than
two of the four counts reach `MIN_HAPLO_OCCURS` or haplotype gating is off,
and `no_insert [j]` is 0, or 1 with the largest count above 6; the counts of
the deletion / substitution decision play no part. -/
theorem insert_record_iff (cfg : Config) (Frag : Frag_t) (i : Int) (seq : List Char)
    (j : Int) (v : Vote_Value_t) (hseq : (Frag i).sequence = some seq)
    (hj0 : 0 ≤ j) (hj : j ≤ last_conf cfg (Frag i) seq) (hv : v ∈ insert_actions) :
    (Correction_Output_t.corr j v ∈ Output_Corrections_frag cfg Frag i ↔
      ((Frag i).vote j).no_insert < 2 ∧
      2 * max_count (insert_count ((Frag i).vote j)) insert_actions >
        total_count (insert_count ((Frag i).vote j)) insert_actions ∧
      total_count (insert_count ((Frag i).vote j)) insert_actions > 1 ∧
      insert_count ((Frag i).vote j) v = max_count (insert_count ((Frag i).vote j)) insert_actions ∧
      (haplo_count (insert_count ((Frag i).vote j)) insert_actions < 2
        ∨ cfg.Use_Haplo_Ct = false) ∧
      (((Frag i).vote j).no_insert = 0 ∨ (((Frag i).vote j).no_insert = 1 ∧
        max_count (insert_count ((Frag i).vote j)) insert_actions > 6))) := by
  rw [mem_Output_Corrections_frag cfg Frag i seq hseq]
  have hne : v ≠ .EXTENSION := by
    intro h; subst h; simp [insert_actions] at hv
  unfold Output_Corrections_pos
  rw [List.mem_append, mem_Output_Corrections_subst, mem_Output_Corrections_insert]
  generalize (Frag i).vote j = t
  have hs := subst_scan_vote (charAt seq j) t
  have hi := insert_scan_vote t
  rw [insert_scan_max] at hi
  simp only [insert_scan_max, insert_scan_total, insert_scan_haplo]
  constructor
  · rintro (⟨_, _, h⟩ | h)
    · exact absurd h hne
    · rcases h with ⟨_, _, h | h⟩
      · exfalso
        rw [h.2.1] at hv
        exact subst_insert_disjoint _ hs.1 hv
      · obtain ⟨_, hvv, hc, h2, h1, hh, h6⟩ := h
        subst hvv
        exact ⟨hc, h2, h1, hi.2, hh, h6⟩
  · rintro ⟨hc, h2, h1, hcount, hh, h6⟩
    right
    refine ⟨hj0, hj, Or.inr ?_⟩
    have hvv : v = (insert_scan t).vote := insert_unique t _ _ hv hi.1 hcount hi.2 h2
    exact ⟨trivial, hvv, hc, h2, h1, hh, h6⟩

/-- Witness of C10: seven `c` insertion votes at position 0 of a read `ac`. -/
theorem insert_record_iff_witness :
    (Correction_Output_t.corr 0 .C_INSERT ∈ Output_Corrections_frag (Config.default 1 1)
        (fun _ => ⟨some ['a', 'c'], fun _ => ⟨0, 0, 0, 0, 0, 0, 1, 0, 7, 0, 0⟩, 2, 0, 0, false⟩) 0 ↔
      (1 : Nat) < 2 ∧
      2 * max_count (insert_count ⟨0, 0, 0, 0, 0, 0, 1, 0, 7, 0, 0⟩) insert_actions >
        total_count (insert_count ⟨0, 0, 0, 0, 0, 0, 1, 0, 7, 0, 0⟩) insert_actions ∧
      total_count (insert_count ⟨0, 0, 0, 0, 0, 0, 1, 0, 7, 0, 0⟩) insert_actions > 1 ∧
      insert_count ⟨0, 0, 0, 0, 0, 0, 1, 0, 7, 0, 0⟩ .C_INSERT =
        max_count (insert_count ⟨0, 0, 0, 0, 0, 0, 1, 0, 7, 0, 0⟩) insert_actions ∧
      (haplo_count (insert_count ⟨0, 0, 0, 0, 0, 0, 1, 0, 7, 0, 0⟩) insert_actions < 2
        ∨ (Config.default 1 1).Use_Haplo_Ct = false) ∧
      ((1 : Nat) = 0 ∨ ((1 : Nat) = 1 ∧
        max_count (insert_count ⟨0, 0, 0, 0, 0, 0, 1, 0, 7, 0, 0⟩) insert_actions > 6))) :=
  insert_record_iff (Config.default 1 1)
    (fun _ => ⟨some ['a', 'c'], fun _ => ⟨0, 0, 0, 0, 0, 0, 1, 0, 7, 0, 0⟩, 2, 0, 0, false⟩)
    0 ['a', 'c'] 0 .C_INSERT rfl (by decide) (by decide) (by decide)

/-! ## Theorems: the back-trace and the delta encoding -/

theorem Compute_Delta_out_append (l l' : List Int) (i : Nat) (h : i < l.length) :
    Compute_Delta_out (l ++ l') i = Compute_Delta_out l i := by
  induction i with
  | zero => rfl
  | succ i ih =>
    simp only [Compute_Delta_out]
    rw [ih (by omega)]
    have h1 : (l ++ l').getD (i + 1) 0 = l.getD (i + 1) 0 := by
      simp [List.getD_eq_getElem?_getD, List.getElem?_append_left h]
    have h2 : (l ++ l').getD i 0 = l.getD i 0 := by
      simp [List.getD_eq_getElem?_getD, List.getElem?_append_left (show i < l.length by omega)]
    rw [h1, h2]

theorem Compute_Delta_out_snoc2 (l : List Int) (y x : Int) :
    Compute_Delta_out (l ++ [y, x]) (l.length + 1) =
      ((x.natAbs : Int) * Sign y) :: Compute_Delta_out (l ++ [y]) l.length := by
  simp only [Compute_Delta_out]
  have h1 : (l ++ [y, x]).getD (l.length + 1) 0 = x := by
    rw [List.getD_eq_getElem?_getD, List.getElem?_append_right (by omega)]
    simp
  have h2 : (l ++ [y, x]).getD l.length 0 = y := by
    rw [List.getD_eq_getElem?_getD, List.getElem?_append_right (by omega)]
    simp
  rw [h1, h2]
  congr 1
  have : l ++ [y, x] = (l ++ [y]) ++ [x] := by simp
  rw [this, Compute_Delta_out_append _ _ _ (by simp)]

theorem Compute_Delta_out_eq_rev (st : List Int) :
    Compute_Delta_out st (st.length - 1) = delta_of_rev st.reverse := by
  induction st using List.reverseRecOn with
  | nil => rfl
  | append_singleton l x ih =>
    induction l using List.reverseRecOn with
    | nil => rfl
    | append_singleton l y _ =>
      have e1 : (l ++ [y] ++ [x]).length - 1 = l.length + 1 := by simp
      have e2 : l ++ [y] ++ [x] = l ++ [y, x] := by simp
      rw [e1, e2, Compute_Delta_out_snoc2]
      have e3 : (l ++ [y]).length - 1 = l.length := by simp
      rw [e3] at ih
      rw [ih]
      simp [delta_of_rev]

theorem script_delta_replicate (a : Nat) (l : List Edit_Op) (run : Int) :
    script_delta (List.replicate a .keep ++ l) run = script_delta l (run + a) := by
  induction a generalizing run with
  | zero => simp
  | succ a ih =>
    simp only [List.replicate_succ, List.cons_append, script_delta, List.append_eq]
    rw [ih]
    congr 1
    push_cast
    omega

theorem script_delta_replace (X Y : List Edit_Op) (run : Int) :
    script_delta (X ++ .replace :: Y) run = script_delta (X ++ .keep :: Y) run := by
  induction X generalizing run with
  | nil => rfl
  | cons op X ih =>
    cases op <;> simp only [List.cons_append, script_delta, List.append_eq, ih]

theorem delta_of_rev_stack (y : Int) (r : List Int) (hy : y ≠ 0) (hr : ∀ s ∈ r, s ≠ 0) :
    delta_of_rev (y :: r) = script_delta (stack_script r) ((y.natAbs : Int) - 1) := by
  induction r generalizing y with
  | nil => rfl
  | cons s r ih =>
    have hs : s ≠ 0 := hr s (List.mem_cons_self _ _)
    have ih' := ih s hs (fun t ht => hr t (List.mem_cons_of_mem _ ht))
    simp only [delta_of_rev, stack_script]
    rw [ih']
    by_cases hneg : s < 0
    · simp only [hneg, if_true, script_delta, script_delta_replicate]
      have : Sign s = -1 := by unfold Sign; simp [hneg]; omega
      rw [this]
      have hn : ((s.natAbs - 1 : Nat) : Int) = (s.natAbs : Int) - 1 := by omega
      simp only [hn]
      congr 1
      · ring
      · congr 1; ring
    · simp only [hneg, if_false, script_delta, script_delta_replicate]
      have hpos : s > 0 := by omega
      have : Sign s = 1 := by unfold Sign; simp [hpos]
      rw [this]
      have hn : ((s.natAbs - 1 : Nat) : Int) = (s.natAbs : Int) - 1 := by omega
      simp only [hn]
      congr 1
      · ring
      · congr 1; ring

theorem Compute_Delta_step_eq (ea : Edit_Array) (k : Int) (s : Back_Trace) :
    Compute_Delta_step ea (k + 1) s =
      if trace_from ea k s.d = s.d - 1 then
        ⟨s.d - 1, ea k (s.d - 1), s.delta_stack ++ [trace_max ea k s.d - s.last - 1]⟩
      else if trace_from ea k s.d = s.d + 1 then
        ⟨s.d + 1, ea k (s.d + 1), s.delta_stack ++ [s.last - (trace_max ea k s.d - 1)]⟩
      else s := by
  unfold Compute_Delta_step trace_from trace_max trace_max1
  simp only [add_sub_cancel_right]
  split_ifs <;> first | rfl | (exfalso; omega)

variable {A T : Int → Char} {m n : Int} {ea : Edit_Array}

theorem Traced.nonneg {k : Nat} {d v : Int} (h : Traced A T m n ea k d v) :
    0 ≤ v ∧ 0 ≤ v + d := by
  cases k with
  | zero =>
    obtain ⟨rfl, h0, _⟩ := h
    exact ⟨h0, by omega⟩
  | succ k =>
    obtain ⟨hM, _, _, _, _, hu, hud, _⟩ := h
    unfold trace_max trace_max1 at hM
    unfold trace_from trace_max1 at hu hud
    split_ifs at hM hu hud <;> constructor <;> omega

theorem trace_from_cases (ea : Edit_Array) (k d : Int) :
    (trace_from ea k d = d ∧ trace_max ea k d = 1 + ea k d) ∨
    (trace_from ea k d = d - 1 ∧ trace_max ea k d = ea k (d - 1)) ∨
    (trace_from ea k d = d + 1 ∧ trace_max ea k d = 1 + ea k (d + 1)) := by
  unfold trace_from trace_max trace_max1
  split_ifs <;> simp

theorem replicate_keep_add (a b : Nat) :
    List.replicate a Edit_Op.keep ++ List.replicate b Edit_Op.keep =
      List.replicate (a + b) Edit_Op.keep := by
  rw [List.replicate_add]

theorem trace_delta (k : Nat) : ∀ (d v last : Int) (st : List Int),
    Traced A T m n ea k d v → v ≤ last → (∀ s ∈ st, s ≠ 0) →
    delta_of_rev (((Compute_Delta_trace ea k ⟨d, last, st⟩).last + 1) ::
        (Compute_Delta_trace ea k ⟨d, last, st⟩).delta_stack.reverse) =
      script_delta (trace_script ea k d v ++
        (List.replicate (last - v).toNat .keep ++ stack_script st.reverse)) 0 := by
  induction k with
  | zero =>
    intro d v last st h hl hst
    have h0 := h.nonneg.1
    simp only [Compute_Delta_trace, trace_script]
    rw [delta_of_rev_stack _ _ (by omega) (by simpa using hst)]
    rw [script_delta_replicate, script_delta_replicate]
    congr 1
    omega
  | succ k ih =>
    intro d v last st h hl hst
    obtain ⟨hM, hvm, hvn, hmatch, htr, hu, hud, hum, hun, hne⟩ := h
    simp only [Compute_Delta_trace, Compute_Delta_step_eq, trace_script]
    rcases trace_from_cases ea k d with ⟨hf, hmax⟩ | ⟨hf, hmax⟩ | ⟨hf, hmax⟩
    · -- a mismatch column
      have h1 : ¬ (trace_from ea k d = d - 1) := by omega
      have h2 : ¬ (trace_from ea k d = d + 1) := by omega
      simp only [h1, h2, if_false]
      rw [hf] at htr
      rw [ih d (ea k d) last st htr (by omega) hst]
      rw [hf, List.append_assoc, List.cons_append, script_delta_replace]
      congr 1
      congr 1
      rw [← List.append_assoc, replicate_keep_add, ← List.cons_append, ← List.replicate_succ]
      congr 2
      omega
    · -- an insertion
      simp only [hf, if_true]
      rw [hf] at htr
      have hst' : ∀ s ∈ st ++ [trace_max ea k d - last - 1], s ≠ 0 := by
        intro s hs
        rcases List.mem_append.mp hs with h | h
        · exact hst s h
        · simp at h; omega
      rw [ih (d - 1) (ea k (d - 1)) (ea k (d - 1)) _ htr (le_refl _) hst']
      simp only [sub_self, Int.toNat_zero, List.replicate_zero, List.nil_append,
        List.reverse_append, List.reverse_singleton, List.singleton_append, stack_script]
      have hneg : trace_max ea k d - last - 1 < 0 := by omega
      simp only [hneg, if_true, List.append_assoc, List.cons_append]
      congr 2
      rw [← List.append_assoc, replicate_keep_add]
      congr 3
      omega
    · -- a deletion
      have h1 : ¬ (trace_from ea k d = d - 1) := by omega
      simp only [hf, if_true]
      have h1' : ¬ (d + 1 = d - 1) := by omega
      simp only [h1', if_false]
      rw [hf] at htr
      have hst' : ∀ s ∈ st ++ [last - (trace_max ea k d - 1)], s ≠ 0 := by
        intro s hs
        rcases List.mem_append.mp hs with h | h
        · exact hst s h
        · simp at h; omega
      rw [ih (d + 1) (ea k (d + 1)) (ea k (d + 1)) _ htr (le_refl _) hst']
      simp only [sub_self, Int.toNat_zero, List.replicate_zero, List.nil_append,
        List.reverse_append, List.reverse_singleton, List.singleton_append, stack_script]
      have hneg : ¬ (last - (trace_max ea k d - 1) < 0) := by omega
      simp only [hneg, if_false, List.append_assoc, List.cons_append]
      congr 2
      rw [← List.append_assoc, replicate_keep_add]
      congr 3
      omega

theorem delta_span_cons (x : Int) (l : List Int) :
    delta_A_span (x :: l) = ((x.natAbs : Int) - 1) + (if x > 0 then 1 else 0) + delta_A_span l ∧
    delta_T_span (x :: l) = ((x.natAbs : Int) - 1) + (if x < 0 then 1 else 0) + delta_T_span l := by
  unfold delta_A_span delta_T_span
  simp only [List.map_cons, List.sum_cons, List.filter_cons]
  constructor
  · by_cases h : x > 0 <;> simp [h] <;> ring
  · by_cases h : x < 0 <;> simp [h] <;> ring

theorem script_spans (s : List Edit_Op) : ∀ run : Int, 0 ≤ run →
    delta_A_span (script_delta s run) + script_run s run = run + script_A_len s ∧
    delta_T_span (script_delta s run) + script_run s run = run + script_T_len s ∧
    0 ≤ script_run s run := by
  induction s with
  | nil =>
    intro run h
    simp [script_delta, script_run, script_A_len, script_T_len, delta_A_span, delta_T_span, h]
  | cons op s ih =>
    intro run h
    cases op
    · have := ih (run + 1) (by omega)
      simp only [script_delta, script_run, script_A_len, script_T_len]
      omega
    · have := ih (run + 1) (by omega)
      simp only [script_delta, script_run, script_A_len, script_T_len]
      omega
    · have := ih 0 (le_refl _)
      simp only [script_delta, script_run, script_A_len, script_T_len]
      rw [(delta_span_cons _ _).1, (delta_span_cons _ _).2]
      have h1 : ¬ (-(run + 1) > 0) := by omega
      have h2 : -(run + 1) < 0 := by omega
      simp only [h1, h2, if_true, if_false]
      omega
    · have := ih 0 (le_refl _)
      simp only [script_delta, script_run, script_A_len, script_T_len]
      rw [(delta_span_cons _ _).1, (delta_span_cons _ _).2]
      have h1 : (run + 1 > 0) := by omega
      have h2 : ¬ (run + 1 < 0) := by omega
      simp only [h1, h2, if_true, if_false]
      omega

theorem count_mismatch_succ (A T : Int → Char) (i j : Int) (k : Nat) :
    count_mismatch A T i j (k + 1) =
      count_mismatch A T i j k + (if A (i + k) ≠ T (j + k) then 1 else 0) := by
  induction k generalizing i j with
  | zero => simp [count_mismatch]
  | succ k ih =>
    rw [count_mismatch, ih (i + 1) (j + 1), count_mismatch]
    have e1 : i + 1 + (k : Int) = i + ((k + 1 : Nat) : Int) := by push_cast; ring
    have e2 : j + 1 + (k : Int) = j + ((k + 1 : Nat) : Int) := by push_cast; ring
    rw [e1, e2]
    omega

theorem script_mismatches (s : List Edit_Op) : ∀ (run : Nat) (i j : Int),
    script_ok A T s i j = true →
    ((delta_mismatches A T (script_delta s run) (i - run) (j - run) (i + script_A_len s) : Nat) : Int)
      + (script_delta s run).length = count_mismatch A T (i - run) (j - run) run + script_cost s := by
  induction s with
  | nil =>
    intro run i j _
    simp [script_delta, delta_mismatches, script_A_len, script_cost]
  | cons op s ih =>
    intro run i j hok
    cases op
    · simp only [script_ok, Bool.and_eq_true, decide_eq_true_eq] at hok
      have := ih (run + 1) (i + 1) (j + 1) hok.2
      simp only [script_delta, script_A_len, script_cost]
      have e1 : i + 1 - ((run + 1 : Nat) : Int) = i - run := by push_cast; ring
      have e2 : j + 1 - ((run + 1 : Nat) : Int) = j - run := by push_cast; ring
      have e3 : i + 1 + script_A_len s = i + (1 + script_A_len s) := by ring
      rw [e1, e2, e3, count_mismatch_succ] at this
      have e4 : i - (run : Int) + run = i := by ring
      have e5 : j - (run : Int) + run = j := by ring
      rw [e4, e5] at this
      simp only [hok.1, ne_eq, not_true_eq_false, if_false] at this
      push_cast at this ⊢
      omega
    · simp only [script_ok, Bool.and_eq_true, decide_eq_true_eq] at hok
      have := ih (run + 1) (i + 1) (j + 1) hok.2
      simp only [script_delta, script_A_len, script_cost]
      have e1 : i + 1 - ((run + 1 : Nat) : Int) = i - run := by push_cast; ring
      have e2 : j + 1 - ((run + 1 : Nat) : Int) = j - run := by push_cast; ring
      have e3 : i + 1 + script_A_len s = i + (1 + script_A_len s) := by ring
      rw [e1, e2, e3, count_mismatch_succ] at this
      have e4 : i - (run : Int) + run = i := by ring
      have e5 : j - (run : Int) + run = j := by ring
      rw [e4, e5] at this
      simp only [hok.1, ne_eq, not_false_eq_true, if_true] at this
      push_cast at this ⊢
      omega
    · simp only [script_ok] at hok
      have := ih 0 i (j + 1) hok
      simp only [script_delta, script_A_len, script_cost, delta_mismatches, List.length_cons]
      have hneg : -((run : Int) + 1) < 0 := by omega
      have hab : (-((run : Int) + 1)).natAbs - 1 = run := by omega
      simp only [hneg, if_true, hab]
      simp only [Nat.cast_zero, sub_zero, count_mismatch] at this
      have e1 : i - (run : Int) + run = i := by ring
      have e2 : j - (run : Int) + run + 1 = j + 1 := by ring
      rw [e1, e2]
      push_cast at this ⊢
      omega
    · simp only [script_ok] at hok
      have := ih 0 (i + 1) j hok
      simp only [script_delta, script_A_len, script_cost, delta_mismatches, List.length_cons]
      have hneg : ¬ ((run : Int) + 1 < 0) := by omega
      have hab : ((run : Int) + 1).natAbs - 1 = run := by omega
      simp only [hneg, if_false, hab]
      simp only [Nat.cast_zero, sub_zero, count_mismatch] at this
      have e1 : i - (run : Int) + run + 1 = i + 1 := by ring
      have e2 : j - (run : Int) + run = j := by ring
      have e3 : i + 1 + script_A_len s = i + (1 + script_A_len s) := by ring
      rw [e1, e2]
      rw [e3] at this
      push_cast at this ⊢
      omega

theorem script_delta_length_le (s : List Edit_Op) (run : Int) :
    ((script_delta s run).length : Int) ≤ script_cost s := by
  induction s generalizing run with
  | nil => simp [script_delta, script_cost]
  | cons op s ih =>
    cases op <;> simp only [script_delta, script_cost, List.length_cons]
    · exact ih _
    · have := ih (run + 1); omega
    · have := ih 0; push_cast; omega
    · have := ih 0; push_cast; omega

theorem script_len_append (s1 s2 : List Edit_Op) :
    script_A_len (s1 ++ s2) = script_A_len s1 + script_A_len s2 ∧
    script_T_len (s1 ++ s2) = script_T_len s1 + script_T_len s2 ∧
    script_cost (s1 ++ s2) = script_cost s1 + script_cost s2 := by
  induction s1 with
  | nil => simp [script_A_len, script_T_len, script_cost]
  | cons op s1 ih =>
    cases op <;>
      simp only [List.cons_append, script_A_len, script_T_len, script_cost, List.append_eq] <;>
      omega

theorem script_ok_append (s1 s2 : List Edit_Op) (i j : Int) :
    script_ok A T (s1 ++ s2) i j =
      (script_ok A T s1 i j && script_ok A T s2 (i + script_A_len s1) (j + script_T_len s1)) := by
  induction s1 generalizing i j with
  | nil => simp [script_ok, script_A_len, script_T_len]
  | cons op s1 ih =>
    cases op <;> simp only [List.cons_append, script_ok, script_A_len, script_T_len,
      List.append_eq, ih, Bool.and_assoc]
    · have e1 : i + 1 + script_A_len s1 = i + (1 + script_A_len s1) := by ring
      have e2 : j + 1 + script_T_len s1 = j + (1 + script_T_len s1) := by ring
      rw [e1, e2]
    · have e1 : i + 1 + script_A_len s1 = i + (1 + script_A_len s1) := by ring
      have e2 : j + 1 + script_T_len s1 = j + (1 + script_T_len s1) := by ring
      rw [e1, e2]
    · have e2 : j + 1 + script_T_len s1 = j + (1 + script_T_len s1) := by ring
      rw [e2]
    · have e1 : i + 1 + script_A_len s1 = i + (1 + script_A_len s1) := by ring
      rw [e1]

theorem script_keep (a : Nat) (i j : Int) :
    script_A_len (List.replicate a .keep) = a ∧ script_T_len (List.replicate a .keep) = a ∧
    script_cost (List.replicate a .keep) = 0 ∧
    (script_ok A T (List.replicate a .keep) i j = true ↔
      ∀ r : Int, 0 ≤ r → r < a → A (i + r) = T (j + r)) := by
  induction a generalizing i j with
  | zero =>
    simp only [List.replicate_zero, script_A_len, script_T_len, script_cost, script_ok]
    refine ⟨by simp, by simp, trivial, ?_⟩
    simp only [true_iff]
    intro r h0 h1
    simp only [Nat.cast_zero] at h1; omega
  | succ a ih =>
    obtain ⟨h1, h2, h3, h4⟩ := ih (i + 1) (j + 1)
    simp only [List.replicate_succ, script_A_len, script_T_len, script_cost, script_ok,
      Bool.and_eq_true, decide_eq_true_eq, h1, h2, h3, h4]
    refine ⟨by push_cast; ring, by push_cast; ring, trivial, ?_⟩
    constructor
    · rintro ⟨h0, hr⟩ r hr0 hr1
      by_cases hz : r = 0
      · subst hz; simpa using h0
      · have := hr (r - 1) (by omega) (by push_cast at hr1; omega)
        have e1 : i + 1 + (r - 1) = i + r := by ring
        have e2 : j + 1 + (r - 1) = j + r := by ring
        rwa [e1, e2] at this
    · intro h
      refine ⟨by simpa using h 0 (le_refl _) (by push_cast; omega), ?_⟩
      intro r hr0 hr1
      have := h (r + 1) (by omega) (by push_cast; omega)
      have e1 : i + (r + 1) = i + 1 + r := by ring
      have e2 : j + (r + 1) = j + 1 + r := by ring
      rwa [e1, e2] at this

theorem Traced.aligns (k : Nat) : ∀ (d v : Int), Traced A T m n ea k d v →
    Aligns A T (trace_script ea k d v) v (v + d) ∧ script_cost (trace_script ea k d v) = k := by
  induction k with
  | zero =>
    intro d v h
    obtain ⟨rfl, h0, _, _, hmatch⟩ := h
    obtain ⟨h1, h2, h3, h4⟩ := script_keep (A := A) (T := T) v.toNat 0 0
    have hv : ((v.toNat : Nat) : Int) = v := Int.toNat_of_nonneg h0
    refine ⟨⟨?_, ?_, ?_⟩, ?_⟩
    · simp only [trace_script]
      rw [h4]
      intro r hr0 hr1
      simp only [zero_add]
      exact hmatch r hr0 (by omega)
    · simp only [trace_script]; omega
    · simp only [trace_script]; omega
    · simp only [trace_script]; simpa using h3
  | succ k ih =>
    intro d v h
    have hnn := h.nonneg
    obtain ⟨hM, hvm, hvn, hmatch, htr, hu, hud, hum, hun, hne⟩ := h
    obtain ⟨⟨ok1, la1, lt1⟩, c1⟩ := ih _ _ htr
    obtain ⟨h1, h2, h3, h4⟩ := script_keep (A := A) (T := T) (v - trace_max ea k d).toNat
      (trace_max ea k d) (trace_max ea k d + d)
    have hv : (((v - trace_max ea k d).toNat : Nat) : Int) = v - trace_max ea k d :=
      Int.toNat_of_nonneg (by omega)
    have hkeep : script_ok A T (List.replicate (v - trace_max ea k d).toNat .keep)
        (trace_max ea k d) (trace_max ea k d + d) = true := by
      rw [h4]
      intro r hr0 hr1
      have := hmatch (trace_max ea k d + r) (by omega) (by omega)
      have e : trace_max ea k d + d + r = trace_max ea k d + r + d := by ring
      rw [e]; exact this
    simp only [trace_script, Aligns]
    obtain ⟨ha, ht, hc⟩ := script_len_append (trace_script ea k (trace_from ea k d)
      (ea k (trace_from ea k d)))
      ((if trace_from ea k d = d - 1 then Edit_Op.insert
        else if trace_from ea k d = d + 1 then Edit_Op.delete else Edit_Op.replace) ::
        List.replicate (v - trace_max ea k d).toNat .keep)
    rw [script_ok_append, ha, ht, hc, ok1, la1, lt1, c1]
    rcases trace_from_cases ea k d with ⟨hf, hmax⟩ | ⟨hf, hmax⟩ | ⟨hf, hmax⟩
    · have h1' : ¬ (trace_from ea k d = d - 1) := by omega
      have h2' : ¬ (trace_from ea k d = d + 1) := by omega
      simp only [h1', h2', if_false, script_ok, script_A_len, script_T_len, script_cost, h1, h2, h3,
        Bool.true_and, Bool.and_eq_true, decide_eq_true_eq, zero_add]
      rw [hf] at hne ⊢
      have e1 : ea k d + 1 = trace_max ea k d := by omega
      have e2 : ea k d + d + 1 = trace_max ea k d + d := by omega
      rw [e1, e2]
      refine ⟨⟨⟨hne, hkeep⟩, ?_, ?_⟩, ?_⟩ <;> push_cast <;> omega
    · simp only [hf, if_true, script_ok, script_A_len, script_T_len, script_cost, h1, h2, h3,
        Bool.true_and, zero_add]
      have e1 : ea k (d - 1) = trace_max ea k d := by omega
      have e2 : ea k (d - 1) + (d - 1) + 1 = trace_max ea k d + d := by omega
      rw [e2, e1]
      refine ⟨⟨hkeep, ?_, ?_⟩, ?_⟩ <;> push_cast <;> omega
    · have h1' : ¬ (d + 1 = d - 1) := by omega
      simp only [hf, h1', if_true, if_false, script_ok, script_A_len, script_T_len, script_cost,
        h1, h2, h3, Bool.true_and, zero_add]
      have e1 : ea k (d + 1) + 1 = trace_max ea k d := by omega
      have e2 : ea k (d + 1) + (d + 1) = trace_max ea k d + d := by omega
      rw [e2, e1]
      refine ⟨⟨hkeep, ?_, ?_⟩, ?_⟩ <;> push_cast <;> omega

/-! ## Theorems: the levels of the aligner -/







variable {A T : Int → Char} {m n : Int}

theorem first_match_spec (A T : Int → Char) (shorter : Int) : ∀ (fuel : Nat) (Row : Int),
    Row ≤ shorter → (shorter - Row).toNat ≤ fuel →
    Row ≤ first_match A T shorter fuel Row ∧ first_match A T shorter fuel Row ≤ shorter ∧
    (∀ r, Row ≤ r → r < first_match A T shorter fuel Row → A r = T r) ∧
    (first_match A T shorter fuel Row = shorter ∨
      A (first_match A T shorter fuel Row) ≠ T (first_match A T shorter fuel Row)) := by
  intro fuel
  induction fuel with
  | zero =>
    intro Row h1 h2
    simp only [first_match]
    refine ⟨le_refl _, h1, fun r h3 h4 => by omega, Or.inl (by omega)⟩
  | succ fuel ih =>
    intro Row h1 h2
    simp only [first_match]
    by_cases hc : Row < shorter ∧ A Row = T Row
    · simp only [hc, and_self, if_true]
      obtain ⟨i1, i2, i3, i4⟩ := ih (Row + 1) (by omega) (by omega)
      refine ⟨by omega, i2, ?_, i4⟩
      intro r h3 h4
      by_cases hr : r = Row
      · subst hr; exact hc.2
      · exact i3 r (by omega) h4
    · simp only [hc, if_false]
      refine ⟨le_refl _, h1, fun r h3 h4 => by omega, ?_⟩
      by_cases h5 : Row < shorter
      · right; exact fun h => hc ⟨h5, h⟩
      · left; omega

theorem extend_match_spec (A T : Int → Char) (m n d : Int) : ∀ (fuel : Nat) (Row : Int),
    Row ≤ m → Row + d ≤ n → (m - Row).toNat ≤ fuel →
    Row ≤ extend_match A T m n d fuel Row ∧ extend_match A T m n d fuel Row ≤ m ∧
    extend_match A T m n d fuel Row + d ≤ n ∧
    (∀ r, Row ≤ r → r < extend_match A T m n d fuel Row → A r = T (r + d)) ∧
    (extend_match A T m n d fuel Row = m ∨ extend_match A T m n d fuel Row + d = n ∨
      A (extend_match A T m n d fuel Row) ≠ T (extend_match A T m n d fuel Row + d)) := by
  intro fuel
  induction fuel with
  | zero =>
    intro Row h1 h1' h2
    simp only [extend_match]
    refine ⟨le_refl _, h1, h1', fun r h3 h4 => by omega, Or.inl (by omega)⟩
  | succ fuel ih =>
    intro Row h1 h1' h2
    simp only [extend_match]
    by_cases hc : Row < m ∧ Row + d < n ∧ A Row = T (Row + d)
    · simp only [hc, and_self, if_true]
      obtain ⟨i1, i2, i2', i3, i4⟩ := ih (Row + 1) (by omega) (by omega) (by omega)
      refine ⟨by omega, i2, i2', ?_, i4⟩
      intro r h3 h4
      by_cases hr : r = Row
      · subst hr; exact hc.2.2
      · exact i3 r (by omega) h4
    · simp only [hc, if_false]
      refine ⟨le_refl _, h1, h1', fun r h3 h4 => by omega, ?_⟩
      by_cases h5 : Row < m
      · by_cases h6 : Row + d < n
        · right; right; exact fun h => hc ⟨h5, h6, h⟩
        · right; left; omega
      · left; omega

theorem trace_congr {ea ea' : Edit_Array} {k : Int} (h : ∀ d, ea k d = ea' k d) (d : Int) :
    trace_from ea k d = trace_from ea' k d ∧ trace_max ea k d = trace_max ea' k d := by
  unfold trace_from trace_max trace_max1
  constructor <;> simp only [h]

theorem Traced_congr (ea : Edit_Array) {ea' : Edit_Array} (k : Nat) :
    (∀ r : Int, r < k → ∀ d, ea r d = ea' r d) → ∀ d v,
    Traced A T m n ea k d v → Traced A T m n ea' k d v := by
  induction k with
  | zero => intro _ d v h; exact h
  | succ k ih =>
    intro hrows d v h
    have hk : ∀ d, ea k d = ea' k d := hrows k (by push_cast; omega)
    obtain ⟨hf, hmx⟩ := trace_congr hk d
    unfold Traced at h ⊢
    rw [← hf, ← hmx, ← hk]
    exact ⟨h.1, h.2.1, h.2.2.1, h.2.2.2.1,
      ih (fun r hr => hrows r (by push_cast; omega)) _ _ h.2.2.2.2.1, h.2.2.2.2.2⟩

theorem Live_congr (ea : Edit_Array) {ea' : Edit_Array} {k : Nat} {d : Int}
    (hrows : ∀ r : Int, r < k → ∀ d, ea r d = ea' r d) (hcell : ea k d = ea' k d)
    (h : Live A T m n ea k d) : Live A T m n ea' k d := by
  unfold Live at h ⊢
  rw [← hcell]
  exact ⟨Traced_congr ea k hrows _ _ h.1, h.2⟩

theorem Marked_congr {ea ea' : Edit_Array} {e d len : Int} {b b' : Nat}
    (hrows : ∀ r : Int, r < b → ∀ d, ea r d = ea' r d) (hb : b ≤ b')
    (h : Marked A T m n ea e d len b) : Marked A T m n ea' e d len b' := by
  obtain ⟨k, he, hk, htr, h1, h2⟩ := h
  exact ⟨k, he, by omega, Traced_congr ea k (fun r hr => hrows r (by omega)) _ _ htr, h1, h2⟩

theorem Live.marked {ea : Edit_Array} {k : Nat} {d : Int} (h : Live A T m n ea k d) :
    Marked A T m n ea k d (ea k d) k :=
  ⟨k, rfl, le_refl _, h.1, h.2.2.2.1, h.2.2.2.2.1⟩

theorem set_get (ea : Edit_Array) (e d v e' d' : Int) :
    (ea.set e d v) e' d' = if e' = e ∧ d' = d then v else ea e' d' := rfl

theorem set_sentinels_get (ea : Edit_Array) (e L R e' d' : Int) :
    set_sentinels ea e L R e' d' =
      if e' = e - 1 ∧ (d' = L ∨ d' = L - 1 ∨ d' = R ∨ d' = R + 1) then -2 else ea e' d' := by
  unfold set_sentinels
  simp only [set_get]
  split_ifs <;> first | rfl | (exfalso; omega)



theorem Row_Ready.cell {ea : Edit_Array} {k : Nat} {L R : Int}
    (h : Row_Ready A T m n ea k L R) (x : Int) (h1 : L - 1 ≤ x) (h2 : x ≤ R + 1) :
    (ea k x = -2 ∧ (x ≤ L ∨ R ≤ x)) ∨
    (L < x ∧ x < R ∧ 0 ≤ ea k x ∧ 0 ≤ ea k x + x ∧ ea k x < m ∧ ea k x + x < n) := by
  obtain ⟨hLR, s1, s2, s3, s4, hlive⟩ := h
  by_cases c1 : x = L - 1
  · subst c1; left; exact ⟨s1, by omega⟩
  by_cases c2 : x = L
  · subst c2; left; exact ⟨s2, by omega⟩
  by_cases c3 : x = R
  · subst c3; left; exact ⟨s3, by omega⟩
  by_cases c4 : x = R + 1
  · subst c4; left; exact ⟨s4, by omega⟩
  right
  have hl := hlive x (by omega) (by omega)
  exact ⟨by omega, by omega, hl.2.1, hl.2.2.1, hl.2.2.2.1, hl.2.2.2.2.1⟩

theorem Row_Ready.source {ea : Edit_Array} {k : Nat} {L R d : Int}
    (h : Row_Ready A T m n ea k L R) (hd1 : L ≤ d) (hd2 : d ≤ R) :
    L < trace_from ea k d ∧ trace_from ea k d < R ∧
    0 ≤ trace_max ea k d ∧ trace_max ea k d ≤ m ∧ trace_max ea k d + d ≤ n ∧
    0 ≤ trace_max ea k d + d ∧
    1 + ea k d ≤ trace_max ea k d ∧ ea k (d - 1) ≤ trace_max ea k d ∧
    1 + ea k (d + 1) ≤ trace_max ea k d := by
  have hLR := h.1
  have c1 := h.cell (d - 1) (by omega) (by omega)
  have c2 := h.cell d (by omega) (by omega)
  have c3 := h.cell (d + 1) (by omega) (by omega)
  unfold trace_from trace_max trace_max1
  rcases c1 with c1 | c1 <;> rcases c2 with c2 | c2 <;> rcases c3 with c3 | c3 <;>
    split_ifs <;> (refine ⟨?_, ?_, ?_, ?_, ?_, ?_, ?_, ?_, ?_⟩ <;> omega)

theorem Row_Ready.traced {ea ea' : Edit_Array} {k : Nat} {L R d v : Int}
    (h : Row_Ready A T m n ea k L R) (hd1 : L ≤ d) (hd2 : d ≤ R)
    (hrows : ∀ r : Int, r ≠ (k : Int) + 1 → ∀ x, ea' r x = ea r x)
    (hM : trace_max ea k d ≤ v) (hvm : v ≤ m) (hvn : v + d ≤ n)
    (hmatch : ∀ r, trace_max ea k d ≤ r → r < v → A r = T (r + d)) :
    Traced A T m n ea' (k + 1) d v := by
  apply Traced_congr ea (k + 1)
    (fun r hr x => (hrows r (by push_cast at hr; omega) x).symm)
  obtain ⟨s1, s2, _⟩ := h.source hd1 hd2
  have hl := h.2.2.2.2.2 _ s1 s2
  exact ⟨hM, hvm, hvn, hmatch, hl.1, hl.2.1, hl.2.2.1, hl.2.2.2.1, hl.2.2.2.2.1, hl.2.2.2.2.2⟩

theorem fill_row_max (ea : Edit_Array) (k d : Int) :
    (if 1 + ea k (d + 1) > (if ea k (d - 1) > 1 + ea k d then ea k (d - 1) else 1 + ea k d)
      then 1 + ea k (d + 1)
      else (if ea k (d - 1) > 1 + ea k d then ea k (d - 1) else 1 + ea k d)) =
    trace_max ea k d := rfl

theorem fill_row_spec {Error_Limit : Int} (k : Nat) (L R : Int) (ea0 : Edit_Array)
    (hready : Row_Ready A T m n ea0 k L R) (hk : (k : Int) + 1 ≤ Error_Limit) :
    ∀ (fuel : Nat) (d : Int) (ea : Edit_Array), L ≤ d → d ≤ R + 1 → (R - d + 1).toNat ≤ fuel →
    (∀ r : Int, r ≠ (k : Int) + 1 → ∀ x, ea r x = ea0 r x) →
    (∀ x, L ≤ x → x < d → Live A T m n ea (k + 1) x) →
    match fill_row A m T n ((k : Int) + 1) R fuel d ea with
    | .returned r => PED_Post A T m n Error_Limit r ∧ r.Match_To_End = true ∧
        r.errors = (k : Int) + 1
    | .filled ea' => (∀ r : Int, r ≠ (k : Int) + 1 → ∀ x, ea' r x = ea0 r x) ∧
        ∀ x, L ≤ x → x ≤ R → Live A T m n ea' (k + 1) x := by
  intro fuel
  induction fuel with
  | zero =>
    intro d ea h1 h2 h3 hrows hlive
    simp only [fill_row]
    exact ⟨hrows, fun x hx1 hx2 => hlive x hx1 (by omega)⟩
  | succ fuel ih =>
    intro d ea h1 h2 h3 hrows hlive
    simp only [fill_row]
    by_cases hd : d ≤ R
    · simp only [hd, if_true, add_sub_cancel_right, fill_row_max]
      have hk1 : ∀ x, ea k x = ea0 k x := hrows k (by omega)
      have htm : trace_max ea k d = trace_max ea0 k d := (trace_congr hk1 d).2
      obtain ⟨s1, s2, s3, s4, s5, s6, s7, s8, s9⟩ := hready.source h1 hd
      rw [htm]
      obtain ⟨e1, e2, e3, e4, e5⟩ := extend_match_spec A T m n d
        (m - trace_max ea0 k d).toNat (trace_max ea0 k d) s4 s5 (le_refl _)
      generalize extend_match A T m n d (m - trace_max ea0 k d).toNat (trace_max ea0 k d) = Row
        at e1 e2 e3 e4 e5 ⊢
      have hrows1 : ∀ r : Int, r ≠ (k : Int) + 1 → ∀ x,
          (ea.set ((k : Int) + 1) d Row) r x = ea0 r x := by
        intro r hr x
        rw [set_get]
        simp only [hr, false_and, if_false]
        exact hrows r hr x
      have hcell : (ea.set ((k : Int) + 1) d Row) ((k : Int) + 1) d = Row := by
        rw [set_get]; simp
      by_cases hend : Row = m ∨ Row + d = n
      · rw [if_pos hend]
        by_cases hshape : Row = m ∧ 1 + (ea.set ((k : Int) + 1) d Row) k (d + 1) =
            (ea.set ((k : Int) + 1) d Row) ((k : Int) + 1) d ∧ d < R
        · rw [if_pos hshape]
          obtain ⟨hRm, hsh, hdR⟩ := hshape
          refine ⟨⟨k + 1, by push_cast; rfl, by push_cast; omega, ?_, ?_, ?_, ?_⟩, rfl, rfl⟩
          · have e : Row + (d + 1) - Row = d + 1 := by ring
            simp only [e]
            have hrows2 : ∀ r : Int, r ≠ (k : Int) + 1 → ∀ x,
                ((ea.set ((k : Int) + 1) d Row).set ((k : Int) + 1) (d + 1)
                  ((ea.set ((k : Int) + 1) d Row) ((k : Int) + 1) d)) r x = ea0 r x := by
              intro r hr x
              rw [set_get]
              simp only [hr, false_and, if_false]
              exact hrows1 r hr x
            obtain ⟨t1, t2, t3, t4, t5, t6, t7, t8, t9⟩ := hready.source (d := d + 1)
              (by omega) (by omega)
            rw [hcell, hrows1 k (by omega)] at hsh
            apply hready.traced (by omega) (by omega) hrows2
            · omega
            · omega
            · omega
            · intro r hr1 hr2; omega
          · have e : Row + (d + 1) - Row = d + 1 := by ring
            simp only [e]
            push_cast
            rfl
          · intro _; left; exact hRm
          · intro h; simp at h
        · rw [if_neg hshape]
          refine ⟨⟨k + 1, by push_cast; rfl, by push_cast; omega, ?_, ?_, ?_, ?_⟩, rfl, rfl⟩
          · have e : Row + d - Row = d := by ring
            simp only [e]
            exact hready.traced h1 hd hrows1 e1 e2 e3 e4
          · have e : Row + d - Row = d := by ring
            simp only [e]
            push_cast
            rfl
          · intro _; exact hend
          · intro h; simp at h
      · rw [if_neg hend]
        apply ih (d + 1) _ (by omega) (by omega) (by omega) hrows1
        intro x hx1 hx2
        by_cases hxd : x = d
        · subst hxd
          have hc : (ea.set ((k : Int) + 1) x Row) (((k + 1 : Nat) : Int)) x = Row := by
            push_cast; exact hcell
          unfold Live
          rw [hc]
          have hne : A Row ≠ T (Row + x) := by
            rcases e5 with h | h | h
            · exact absurd (Or.inl h) hend
            · exact absurd (Or.inr h) hend
            · exact h
          refine ⟨hready.traced h1 hd hrows1 e1 e2 e3 e4, by omega, by omega, ?_, ?_, hne⟩
          · rcases lt_or_eq_of_le e2 with h | h
            · exact h
            · exact absurd (Or.inl h) hend
          · rcases lt_or_eq_of_le e3 with h | h
            · exact h
            · exact absurd (Or.inr h) hend
        · have hl := hlive x hx1 (by omega)
          apply Live_congr ea _ _ hl
          · intro r hr y
            rw [set_get]
            have : ¬ (r = (k : Int) + 1) := by push_cast at hr; omega
            simp [this]
          · rw [set_get]
            simp [hxd]
    · simp only [hd, if_false]
      exact ⟨hrows, fun x hx1 hx2 => hlive x hx1 (by omega)⟩



theorem tighten_Left_neg_spec (ea : Edit_Array) (e lim R : Int) : ∀ (fuel : Nat) (L : Int),
    L ≤ R + 1 → (R - L + 1).toNat ≤ fuel →
    L ≤ tighten_Left_neg ea e lim R fuel L ∧ tighten_Left_neg ea e lim R fuel L ≤ R + 1 ∧
    ¬ (tighten_Left_neg ea e lim R fuel L ≤ R ∧ tighten_Left_neg ea e lim R fuel L < 0 ∧
      ea e (tighten_Left_neg ea e lim R fuel L) < lim) := by
  intro fuel
  induction fuel with
  | zero =>
    intro L h1 h2
    simp only [tighten_Left_neg]
    exact ⟨le_refl _, h1, fun h => by omega⟩
  | succ fuel ih =>
    intro L h1 h2
    simp only [tighten_Left_neg]
    by_cases hc : L ≤ R ∧ L < 0 ∧ ea e L < lim
    · rw [if_pos hc]
      obtain ⟨i1, i2, i3⟩ := ih (L + 1) (by omega) (by omega)
      exact ⟨by omega, i2, i3⟩
    · rw [if_neg hc]
      exact ⟨le_refl _, h1, hc⟩

theorem tighten_Left_pos_spec (ea : Edit_Array) (e lim R : Int) : ∀ (fuel : Nat) (L : Int),
    L ≤ R + 1 → (R - L + 1).toNat ≤ fuel →
    L ≤ tighten_Left_pos ea e lim R fuel L ∧ tighten_Left_pos ea e lim R fuel L ≤ R + 1 ∧
    ¬ (tighten_Left_pos ea e lim R fuel L ≤ R ∧
      ea e (tighten_Left_pos ea e lim R fuel L) + tighten_Left_pos ea e lim R fuel L < lim) := by
  intro fuel
  induction fuel with
  | zero =>
    intro L h1 h2
    simp only [tighten_Left_pos]
    exact ⟨le_refl _, h1, fun h => by omega⟩
  | succ fuel ih =>
    intro L h1 h2
    simp only [tighten_Left_pos]
    by_cases hc : L ≤ R ∧ ea e L + L < lim
    · rw [if_pos hc]
      obtain ⟨i1, i2, i3⟩ := ih (L + 1) (by omega) (by omega)
      exact ⟨by omega, i2, i3⟩
    · rw [if_neg hc]
      exact ⟨le_refl _, h1, hc⟩

theorem tighten_Left_spec (ea : Edit_Array) (e lim L R : Int) (h : L ≤ R + 1) :
    L ≤ tighten_Left ea e lim L R ∧ tighten_Left ea e lim L R ≤ R + 1 ∧
    (tighten_Left ea e lim L R ≤ R →
      (tighten_Left ea e lim L R < 0 → lim ≤ ea e (tighten_Left ea e lim L R)) ∧
      (0 ≤ tighten_Left ea e lim L R →
        lim ≤ ea e (tighten_Left ea e lim L R) + tighten_Left ea e lim L R)) := by
  unfold tighten_Left
  obtain ⟨a1, a2, a3⟩ := tighten_Left_neg_spec ea e lim R (R - L + 1).toNat L h (le_refl _)
  generalize tighten_Left_neg ea e lim R (R - L + 1).toNat L = L1 at a1 a2 a3 ⊢
  simp only
  by_cases hc : L1 ≥ 0
  · rw [if_pos hc]
    obtain ⟨b1, b2, b3⟩ := tighten_Left_pos_spec ea e lim R (R - L1 + 1).toNat L1 a2 (le_refl _)
    generalize tighten_Left_pos ea e lim R (R - L1 + 1).toNat L1 = L2 at b1 b2 b3 ⊢
    refine ⟨by omega, b2, fun hle => ⟨fun hneg => by omega, fun _ => ?_⟩⟩
    by_contra hlt
    exact b3 ⟨hle, by omega⟩
  · rw [if_neg hc]
    refine ⟨a1, a2, fun hle => ⟨fun hneg => ?_, fun h0 => by omega⟩⟩
    by_contra hlt
    exact a3 ⟨hle, hneg, by omega⟩

theorem tighten_Right_pos_spec (ea : Edit_Array) (e lim : Int) : ∀ (fuel : Nat) (R : Int),
    R.toNat ≤ fuel →
    tighten_Right_pos ea e lim fuel R ≤ R ∧
    (∀ x, 0 < x → x ≤ R → lim ≤ ea e x + x → x ≤ tighten_Right_pos ea e lim fuel R) ∧
    (0 ≤ R → 0 ≤ tighten_Right_pos ea e lim fuel R) ∧
    (R ≤ 0 → tighten_Right_pos ea e lim fuel R = R) := by
  intro fuel
  induction fuel with
  | zero =>
    intro R h
    simp only [tighten_Right_pos]
    exact ⟨le_refl _, fun x h1 h2 _ => by omega, fun h => h, fun _ => trivial⟩
  | succ fuel ih =>
    intro R h
    simp only [tighten_Right_pos]
    by_cases hc : R > 0 ∧ ea e R + R < lim
    · rw [if_pos hc]
      obtain ⟨i1, i2, i3, i4⟩ := ih (R - 1) (by omega)
      refine ⟨by omega, ?_, fun _ => i3 (by omega), fun h0 => by omega⟩
      intro x h1 h2 h3
      by_cases hx : x = R
      · subst hx; omega
      · exact i2 x h1 (by omega) h3
    · rw [if_neg hc]
      exact ⟨le_refl _, fun x _ h2 _ => h2, fun h => h, fun _ => rfl⟩

theorem tighten_Right_neg_spec (ea : Edit_Array) (e lim x : Int) (hx : lim ≤ ea e x) :
    ∀ (fuel : Nat) (R : Int), x ≤ R → (R - x).toNat < fuel →
    ∃ R', tighten_Right_neg ea e lim fuel R = some R' ∧ x ≤ R' ∧ R' ≤ R := by
  intro fuel
  induction fuel with
  | zero => intro R h1 h2; omega
  | succ fuel ih =>
    intro R h1 h2
    simp only [tighten_Right_neg]
    by_cases hc : ea e R < lim
    · rw [if_pos hc]
      have hne : x ≠ R := by intro h; subst h; omega
      obtain ⟨R', r1, r2, r3⟩ := ih (R - 1) (by omega) (by omega)
      exact ⟨R', r1, r2, by omega⟩
    · rw [if_neg hc]
      exact ⟨R, rfl, h1, le_refl _⟩

theorem tighten_Right_spec (ea : Edit_Array) (e lim L R : Int) (h : L ≤ R)
    (h1 : L < 0 → lim ≤ ea e L) (h2 : 0 ≤ L → lim ≤ ea e L + L) :
    ∃ R', tighten_Right ea e lim L R = some R' ∧ L ≤ R' ∧ R' ≤ R := by
  unfold tighten_Right
  obtain ⟨a1, a2, a3, a4⟩ := tighten_Right_pos_spec ea e lim R.toNat R (le_refl _)
  generalize tighten_Right_pos ea e lim R.toNat R = R1 at a1 a2 a3 a4 ⊢
  simp only
  by_cases hc : R1 ≤ 0
  · rw [if_pos hc]
    have hL0 : L ≤ 0 := by
      by_contra hL
      have := a2 L (by omega) h (h2 (by omega))
      omega
    have hLR1 : L ≤ R1 := by
      by_cases hR : 0 ≤ R
      · have := a3 hR; omega
      · have := a4 (by omega); omega
    have hx : lim ≤ ea e L := by
      by_cases hz : L < 0
      · exact h1 hz
      · have := h2 (by omega)
        have hz' : L = 0 := by omega
        rw [hz'] at this ⊢
        omega
    obtain ⟨R', r1, r2, r3⟩ := tighten_Right_neg_spec ea e lim L hx
      ((R1 - L + 1).toNat + 1) R1 hLR1 (by omega)
    exact ⟨R', r1, r2, by omega⟩
  · rw [if_neg hc]
    refine ⟨R1, rfl, ?_, a1⟩
    by_cases hL : 0 < L
    · exact a2 L hL h (h2 (by omega))
    · omega

theorem for_loop_induction {σ : Type} (P : σ → Prop) (lo hi : Int) (body : Int → σ → σ) (s : σ)
    (h0 : P s) (hstep : ∀ d s, lo ≤ d → d < hi → P s → P (body d s)) :
    P (for_loop lo hi body s) := by
  unfold for_loop
  have key : ∀ k : Nat, k ≤ (hi - lo).toNat →
      P ((List.range k).foldl (fun s (k : Nat) => body (lo + (k : Int)) s) s) := by
    intro k
    induction k with
    | zero => intro _; exact h0
    | succ k ih =>
      intro hk
      rw [List.range_succ, List.foldl_append]
      simp only [List.foldl_cons, List.foldl_nil]
      exact hstep _ _ (by omega) (by omega) (ih (by omega))
  exact key _ (le_refl _)

theorem scan_Longest_spec (k : Nat) (st : PED_State)
    (hlive : ∀ d, st.Left ≤ d → d ≤ st.Right → Live A T m n st.edit_array (k + 1) d)
    (hbest : Marked A T m n st.edit_array st.Best_e st.Best_d st.Longest (k + 1)) :
    (scan_Longest ((k : Int) + 1) st).edit_array = st.edit_array ∧
    (scan_Longest ((k : Int) + 1) st).Left = st.Left ∧
    (scan_Longest ((k : Int) + 1) st).Right = st.Right ∧
    (scan_Longest ((k : Int) + 1) st).Max_Score = st.Max_Score ∧
    (scan_Longest ((k : Int) + 1) st).Max_Score_Len = st.Max_Score_Len ∧
    (scan_Longest ((k : Int) + 1) st).Max_Score_Best_d = st.Max_Score_Best_d ∧
    (scan_Longest ((k : Int) + 1) st).Max_Score_Best_e = st.Max_Score_Best_e ∧
    Marked A T m n st.edit_array (scan_Longest ((k : Int) + 1) st).Best_e
      (scan_Longest ((k : Int) + 1) st).Best_d (scan_Longest ((k : Int) + 1) st).Longest (k + 1) := by
  unfold scan_Longest
  apply for_loop_induction (fun s : PED_State =>
    s.edit_array = st.edit_array ∧ s.Left = st.Left ∧ s.Right = st.Right ∧
    s.Max_Score = st.Max_Score ∧ s.Max_Score_Len = st.Max_Score_Len ∧
    s.Max_Score_Best_d = st.Max_Score_Best_d ∧ s.Max_Score_Best_e = st.Max_Score_Best_e ∧
    Marked A T m n st.edit_array s.Best_e s.Best_d s.Longest (k + 1))
  · exact ⟨rfl, rfl, rfl, rfl, rfl, rfl, rfl, hbest⟩
  · intro d s hd1 hd2 ⟨p1, p2, p3, p4, p5, p6, p7, p8⟩
    by_cases hc : s.edit_array ((k : Int) + 1) d > s.Longest
    · rw [if_pos hc]
      refine ⟨p1, p2, p3, p4, p5, p6, p7, ?_⟩
      simp only
      rw [p1]
      have := (hlive d hd1 (by omega)).marked
      push_cast at this
      exact this
    · rw [if_neg hc]
      exact ⟨p1, p2, p3, p4, p5, p6, p7, p8⟩

theorem update_Max_Score_spec (tb : Tables) (e : Int) (k : Nat) (st : PED_State)
    (hbest : Marked A T m n st.edit_array st.Best_e st.Best_d st.Longest k)
    (hmax : Marked A T m n st.edit_array st.Max_Score_Best_e st.Max_Score_Best_d
      st.Max_Score_Len k) :
    (update_Max_Score tb e st).edit_array = st.edit_array ∧
    (update_Max_Score tb e st).Left = st.Left ∧
    (update_Max_Score tb e st).Right = st.Right ∧
    (update_Max_Score tb e st).Best_e = st.Best_e ∧
    (update_Max_Score tb e st).Best_d = st.Best_d ∧
    (update_Max_Score tb e st).Longest = st.Longest ∧
    Marked A T m n st.edit_array (update_Max_Score tb e st).Max_Score_Best_e
      (update_Max_Score tb e st).Max_Score_Best_d (update_Max_Score tb e st).Max_Score_Len k := by
  unfold update_Max_Score
  simp only
  split_ifs
  · exact ⟨rfl, rfl, rfl, rfl, rfl, rfl, hbest⟩
  · exact ⟨rfl, rfl, rfl, rfl, rfl, rfl, hmax⟩



theorem branch_point_post {Error_Limit : Int} (st : PED_State) (k : Nat)
    (h : Marked A T m n st.edit_array st.Max_Score_Best_e st.Max_Score_Best_d st.Max_Score_Len k)
    (hk : (k : Int) ≤ Error_Limit ∨ k = 0) : PED_Post A T m n Error_Limit (branch_point st) := by
  obtain ⟨kk, he, hkk, htr, h1, h2⟩ := h
  unfold branch_point
  have e : st.Max_Score_Len + st.Max_Score_Best_d - st.Max_Score_Len = st.Max_Score_Best_d := by
    ring
  refine ⟨kk, he, by omega, ?_, ?_, ?_, ?_⟩
  · simp only [e]; exact htr
  · simp only [e]; rw [he]
  · intro h; simp at h
  · intro _; exact ⟨h1, h2⟩

theorem Level_Inv.ready {k : Nat} {st : PED_State} (inv : Level_Inv A T m n k st) :
    Row_Ready A T m n (set_sentinels st.edit_array ((k : Int) + 1) (st.Left - 1) (st.Right + 1))
      k (st.Left - 1) (st.Right + 1) := by
  have hb := inv.band
  refine ⟨by omega, ?_, ?_, ?_, ?_, ?_⟩
  · rw [set_sentinels_get]; simp
  · rw [set_sentinels_get]; simp
  · rw [set_sentinels_get]; simp
  · rw [set_sentinels_get]; simp
  · intro d h1 h2
    apply Live_congr st.edit_array _ _ (inv.live d (by omega) (by omega))
    · intro r hr x
      rw [set_sentinels_get]
      have : ¬ (r = (k : Int)) := by omega
      simp [this]
    · rw [set_sentinels_get]
      have : ¬ (d = st.Left - 1 ∨ d = st.Left - 1 - 1 ∨ d = st.Right + 1 ∨ d = st.Right + 1 + 1) := by
        omega
      simp [this]

theorem Level_Inv_step (tb : Tables) {k : Nat} {st : PED_State} (inv : Level_Inv A T m n k st)
    {ea2 : Edit_Array} {L2 R2 : Int}
    (hrows : ∀ r : Int, r ≠ (k : Int) + 1 → ∀ x, ea2 r x =
      set_sentinels st.edit_array ((k : Int) + 1) (st.Left - 1) (st.Right + 1) r x)
    (hlive : ∀ x, st.Left - 1 ≤ x → x ≤ st.Right + 1 → Live A T m n ea2 (k + 1) x)
    (h1 : st.Left - 1 ≤ L2) (h2 : L2 ≤ R2) (h3 : R2 ≤ st.Right + 1) :
    Level_Inv A T m n (k + 1) (update_Max_Score tb ((k : Int) + 1) (scan_Longest ((k : Int) + 1)
      { st with edit_array := ea2, Left := L2, Right := R2 })) ∧
    (update_Max_Score tb ((k : Int) + 1) (scan_Longest ((k : Int) + 1)
      { st with edit_array := ea2, Left := L2, Right := R2 })).edit_array = ea2 ∧
    (update_Max_Score tb ((k : Int) + 1) (scan_Longest ((k : Int) + 1)
      { st with edit_array := ea2, Left := L2, Right := R2 })).Left = L2 ∧
    (update_Max_Score tb ((k : Int) + 1) (scan_Longest ((k : Int) + 1)
      { st with edit_array := ea2, Left := L2, Right := R2 })).Right = R2 := by
  have hrows' : ∀ r : Int, r < k → ∀ x, st.edit_array r x = ea2 r x := by
    intro r hr x
    rw [hrows r (by omega) x, set_sentinels_get]
    have : ¬ (r = (k : Int)) := by omega
    simp [this]
  have hbest1 : Marked A T m n ea2 st.Best_e st.Best_d st.Longest (k + 1) :=
    Marked_congr hrows' (by omega) inv.best
  have hmax1 : Marked A T m n ea2 st.Max_Score_Best_e st.Max_Score_Best_d
      st.Max_Score_Len (k + 1) := Marked_congr hrows' (by omega) inv.max_score
  obtain ⟨s1, s2, s3, s4, s5, s6, s7, s8⟩ := scan_Longest_spec (A := A) (T := T) (m := m)
    (n := n) k { st with edit_array := ea2, Left := L2, Right := R2 }
    (fun d h1 h2 => hlive d (by simp only at h1; omega) (by simp only at h2; omega)) hbest1
  generalize scan_Longest ((k : Int) + 1)
    { st with edit_array := ea2, Left := L2, Right := R2 } = st2 at s1 s2 s3 s4 s5 s6 s7 s8 ⊢
  simp only at s1 s2 s3 s4 s5 s6 s7 s8
  obtain ⟨u1, u2, u3, u4, u5, u6, u7⟩ := update_Max_Score_spec (A := A) (T := T) (m := m)
    (n := n) tb ((k : Int) + 1) (k + 1) st2 (by rw [s1]; exact s8)
    (by rw [s1, s5, s6, s7]; exact hmax1)
  generalize update_Max_Score tb ((k : Int) + 1) st2 = st3 at u1 u2 u3 u4 u5 u6 u7 ⊢
  refine ⟨⟨?_, ?_, ?_, ?_, ?_, ?_⟩, by rw [u1, s1], by rw [u2, s2], by rw [u3, s3]⟩
  · rw [u2, u3, s2, s3]; exact h2
  · rw [u2, s2]; have := inv.left_ge; push_cast; omega
  · rw [u3, s3]; have := inv.right_le; push_cast; omega
  · intro d h1 h2
    rw [u1, s1]
    rw [u2, s2] at h1
    rw [u3, s3] at h2
    exact hlive d (by omega) (by omega)
  · rw [u1, u4, u5, u6, s1]; exact s8
  · rw [u1]; rw [s1] at u7 ⊢; exact u7

theorem OVL_band {k : Nat} {st : PED_State} (inv : Level_Inv A T m n k st) :
    OVL_Max_int (st.Left - 1) (-((k : Int) + 1)) = st.Left - 1 ∧
    OVL_Min_int (st.Right + 1) ((k : Int) + 1) = st.Right + 1 := by
  have h1 := inv.left_ge
  have h2 := inv.right_le
  unfold OVL_Max_int OVL_Min_int
  constructor <;> split_ifs <;> omega

theorem PED_levels_spec (tb : Tables) (Error_Limit : Int) : ∀ (fuel : Nat) (k : Nat)
    (st : PED_State), Level_Inv A T m n k st → ((k : Int) ≤ Error_Limit ∨ k = 0) →
    ∃ r, PED_levels tb A m T n Error_Limit fuel ((k : Int) + 1) st = some r ∧
      PED_Post A T m n Error_Limit r := by
  intro fuel
  induction fuel with
  | zero =>
    intro k st inv hk
    exact ⟨_, rfl, branch_point_post st k inv.max_score hk⟩
  | succ fuel ih =>
    intro k st inv hk
    simp only [PED_levels]
    by_cases he : (k : Int) + 1 ≤ Error_Limit
    · rw [if_pos he]
      simp only [(OVL_band inv).1, (OVL_band inv).2]
      have hready := inv.ready
      have hb := inv.band
      have hfill := fill_row_spec k (st.Left - 1) (st.Right + 1) _ hready he
        (st.Right + 1 - (st.Left - 1) + 1).toNat (st.Left - 1) _ (le_refl _) (by omega)
        (le_refl _) (fun _ _ _ => rfl) (fun x h1 h2 => by omega)
      generalize fill_row A m T n ((k : Int) + 1) (st.Right + 1)
        (st.Right + 1 - (st.Left - 1) + 1).toNat (st.Left - 1)
        (set_sentinels st.edit_array ((k : Int) + 1) (st.Left - 1) (st.Right + 1)) = out at hfill
      cases out with
      | returned r => exact ⟨r, rfl, hfill.1⟩
      | filled ea2 =>
        obtain ⟨hrows, hlive⟩ := hfill
        simp only
        obtain ⟨l1, l2, l3⟩ := tighten_Left_spec ea2 ((k : Int) + 1)
          (tb.Edit_Match_Limit ((k : Int) + 1)) (st.Left - 1) (st.Right + 1) (by omega)
        generalize tighten_Left ea2 ((k : Int) + 1) (tb.Edit_Match_Limit ((k : Int) + 1))
          (st.Left - 1) (st.Right + 1) = L2 at l1 l2 l3 ⊢
        by_cases hbrk : L2 > st.Right + 1
        · rw [if_pos hbrk]
          refine ⟨_, rfl, branch_point_post _ k ?_ hk⟩
          refine Marked_congr ?_ (le_refl _) inv.max_score
          intro r hr x
          show st.edit_array r x = ea2 r x
          rw [hrows r (by omega) x, set_sentinels_get]
          have : ¬ (r = (k : Int)) := by omega
          simp [this]
        · rw [if_neg hbrk]
          obtain ⟨R2, r1, r2, r3⟩ := tighten_Right_spec ea2 ((k : Int) + 1)
            (tb.Edit_Match_Limit ((k : Int) + 1)) L2 (st.Right + 1) (by omega)
            (l3 (by omega)).1 (l3 (by omega)).2
          rw [r1]
          simp only
          rw [if_pos r2]
          obtain ⟨inv3, _⟩ := Level_Inv_step tb inv hrows hlive l1 r2 r3
          have := ih (k + 1) _ inv3 (Or.inl (by push_cast; omega))
          push_cast at this
          exact this
    · rw [if_neg he]
      exact ⟨_, rfl, branch_point_post st k inv.max_score hk⟩

theorem Compute_Delta_zero (ea : Edit_Array) (d row : Int) : Compute_Delta ea 0 d row = [] := by
  simp [Compute_Delta, Compute_Delta_trace, Compute_Delta_out]

theorem Prefix_Edit_Dist_spec (tb : Tables) (A : Int → Char) (m : Int) (T : Int → Char) (n : Int)
    (Error_Limit : Int) (edit_array : Edit_Array) (hm : 0 ≤ m) (hn : 0 ≤ n) :
    ∃ r, Prefix_Edit_Dist tb A m T n Error_Limit edit_array = some r ∧
      PED_Post A T m n Error_Limit r := by
  unfold Prefix_Edit_Dist
  simp only
  have hs : 0 ≤ OVL_Min_int m n ∧ OVL_Min_int m n ≤ m ∧ OVL_Min_int m n ≤ n ∧
      (OVL_Min_int m n = m ∨ OVL_Min_int m n = n) := by
    unfold OVL_Min_int; split_ifs <;> omega
  generalize OVL_Min_int m n = shorter at hs ⊢
  obtain ⟨f1, f2, f3, f4⟩ := first_match_spec A T shorter shorter.toNat 0 hs.1 (by simp)
  generalize first_match A T shorter shorter.toNat 0 = Row at f1 f2 f3 f4 ⊢
  by_cases hx : Row = shorter
  · rw [if_pos hx]
    refine ⟨_, rfl, 0, rfl, Or.inr rfl, ?_, ?_, ?_, ?_⟩
    · simp only [sub_self]
      exact ⟨rfl, f1, by omega, by omega, f3⟩
    · simp only [sub_self, Nat.cast_zero, Compute_Delta_zero]
    · intro _; simp only; omega
    · intro h; simp at h
  · rw [if_neg hx]
    have hne : A Row ≠ T Row := by
      rcases f4 with h | h
      · exact absurd h hx
      · exact h
    have hlt : Row < shorter := lt_of_le_of_ne f2 hx
    have inv : Level_Inv A T m n 0 ⟨edit_array.set 0 0 Row, 0, 0, 0, 0, 0, 0, 0, 0, 0⟩ := by
      refine ⟨le_refl _, by simp, by simp, ?_, ?_, ?_⟩
      · intro d h1 h2
        have hd : d = 0 := by simp only at h1 h2; omega
        subst hd
        have hc : (edit_array.set 0 0 Row) ((0 : Nat) : Int) 0 = Row := by
          rw [set_get]; simp
        unfold Live
        simp only
        rw [hc]
        refine ⟨⟨rfl, f1, by omega, by omega, f3⟩, f1, by omega, by omega, by omega, ?_⟩
        simpa using hne
      · simp only
        exact ⟨0, rfl, le_refl _, ⟨rfl, le_refl _, hm, hn, fun r h1 h2 => by omega⟩,
          by omega, by omega⟩
      · simp only
        exact ⟨0, rfl, le_refl _, ⟨rfl, le_refl _, hm, hn, fun r h1 h2 => by omega⟩,
          by omega, by omega⟩
    have := PED_levels_spec tb Error_Limit Error_Limit.toNat 0 _ inv (Or.inr rfl)
    simpa using this

/-! ## Theorems: the results of the aligner -/

variable {A T : Int → Char} {m n : Int}

theorem Compute_Delta_eq_script {ea : Edit_Array} {k : Nat} {d v : Int}
    (h : Traced A T m n ea k d v) :
    Compute_Delta ea k d v = script_delta (trace_script ea k d v) 0 := by
  unfold Compute_Delta
  simp only [Int.toNat_ofNat]
  rw [Compute_Delta_out_eq_rev]
  have := @trace_delta A T m n ea k d v v [] h (le_refl _)
    (by simp)
  simp only [List.reverse_append, List.reverse_singleton, List.singleton_append]
  rw [this]
  simp [stack_script]

theorem PED_Post.script {Error_Limit : Int} {r : PED_Result}
    (h : PED_Post A T m n Error_Limit r) :
    ∃ s : List Edit_Op, Aligns A T s r.A_End r.T_End ∧ script_cost s = r.errors ∧
      r.Delta = script_delta s 0 := by
  obtain ⟨k, he, _, htr, hd, _, _⟩ := h
  obtain ⟨⟨h1, h2, h3⟩, hc⟩ := Traced.aligns k _ _ htr
  refine ⟨trace_script r.edit_array k (r.T_End - r.A_End) r.A_End, ⟨h1, h2, ?_⟩, ?_, ?_⟩
  · rw [h3]; ring
  · rw [hc, he]
  · rw [hd, Compute_Delta_eq_script htr]

/-- C1: the delta returned by `Prefix_Edit_Dist` walks exactly to the reported
endpoint: with `i` and `j` the numbers of characters of `A` and of `T` that
the delta entries consume, `A_End - i = T_End - j >= 0`; this holds on every
return of the function. -/
theorem delta_walks_to_endpoint (tb : Tables) (A : Int → Char) (m : Int) (T : Int → Char)
    (n : Int) (Error_Limit : Int) (edit_array : Edit_Array) (hm : 0 ≤ m) (hn : 0 ≤ n) :
    ∃ r, Prefix_Edit_Dist tb A m T n Error_Limit edit_array = some r ∧
      r.A_End - delta_A_span r.Delta = r.T_End - delta_T_span r.Delta ∧
      0 ≤ r.A_End - delta_A_span r.Delta := by
  obtain ⟨r, hr, hpost⟩ := Prefix_Edit_Dist_spec tb A m T n Error_Limit edit_array hm hn
  obtain ⟨s, ⟨_, ha, ht⟩, _, hd⟩ := hpost.script
  obtain ⟨s1, s2, s3⟩ := script_spans s 0 (le_refl _)
  refine ⟨r, hr, ?_, ?_⟩
  · rw [hd]; omega
  · rw [hd]; omega

/-- Witness of C1. -/
theorem delta_walks_to_endpoint_witness :
    ∃ r, Prefix_Edit_Dist Tables_6 (charAt ['a', 'c', 'g']) 3 (charAt ['a', 'g']) 2 1
        Edit_Array.junk = some r ∧
      r.A_End - delta_A_span r.Delta = r.T_End - delta_T_span r.Delta ∧
      0 ≤ r.A_End - delta_A_span r.Delta :=
  delta_walks_to_endpoint Tables_6 (charAt ['a', 'c', 'g']) 3 (charAt ['a', 'g']) 2 1
    Edit_Array.junk (by decide) (by decide)

/-- C2: the alignment that `Prefix_Edit_Dist` reports over `A [0 .. A_End)`
and `T [0 .. T_End)` has exactly `e` error columns, `e` being the returned
value: the number of delta entries plus the number of aligned columns whose
two characters differ equals `e`; in particular `Delta_Len <= e`. -/
theorem alignment_error_count (tb : Tables) (A : Int → Char) (m : Int) (T : Int → Char)
    (n : Int) (Error_Limit : Int) (edit_array : Edit_Array) (hm : 0 ≤ m) (hn : 0 ≤ n) :
    ∃ r, Prefix_Edit_Dist tb A m T n Error_Limit edit_array = some r ∧
      (r.Delta.length : Int) + delta_mismatches A T r.Delta 0 0 r.A_End = r.errors ∧
      (r.Delta.length : Int) ≤ r.errors := by
  obtain ⟨r, hr, hpost⟩ := Prefix_Edit_Dist_spec tb A m T n Error_Limit edit_array hm hn
  obtain ⟨s, ⟨hok, ha, ht⟩, hc, hd⟩ := hpost.script
  have h1 := script_mismatches (A := A) (T := T) s 0 0 0 hok
  have h2 := script_delta_length_le s 0
  simp only [Nat.cast_zero, sub_zero, zero_add, count_mismatch, ha] at h1
  refine ⟨r, hr, ?_, ?_⟩
  · rw [hd]; omega
  · rw [hd]; omega

/-- Witness of C2. -/
theorem alignment_error_count_witness :
    ∃ r, Prefix_Edit_Dist Tables_6 (charAt ['a', 'c', 'g']) 3 (charAt ['a', 'g']) 2 1
        Edit_Array.junk = some r ∧
      (r.Delta.length : Int) + delta_mismatches (charAt ['a', 'c', 'g']) (charAt ['a', 'g'])
        r.Delta 0 0 r.A_End = r.errors ∧
      (r.Delta.length : Int) ≤ r.errors :=
  alignment_error_count Tables_6 (charAt ['a', 'c', 'g']) 3 (charAt ['a', 'g']) 2 1
    Edit_Array.junk (by decide) (by decide)

/-- C3: for every pair `(A, T)` and every budget `Error_Limit >= 0`, the value
`e` returned by `Prefix_Edit_Dist` satisfies `0 <= e <= Error_Limit`, whichever
return is taken. -/
theorem errors_within_budget (tb : Tables) (A : Int → Char) (m : Int) (T : Int → Char)
    (n : Int) (Error_Limit : Int) (edit_array : Edit_Array) (hm : 0 ≤ m) (hn : 0 ≤ n)
    (hE : 0 ≤ Error_Limit) :
    ∃ r, Prefix_Edit_Dist tb A m T n Error_Limit edit_array = some r ∧
      0 ≤ r.errors ∧ r.errors ≤ Error_Limit := by
  obtain ⟨r, hr, k, he, hk, _⟩ := Prefix_Edit_Dist_spec tb A m T n Error_Limit edit_array hm hn
  exact ⟨r, hr, by omega, by omega⟩

/-- Witness of C3. -/
theorem errors_within_budget_witness :
    ∃ r, Prefix_Edit_Dist Tables_6 (charAt ['a', 'c', 'g']) 3 (charAt ['a', 'g']) 2 1
        Edit_Array.junk = some r ∧ 0 ≤ r.errors ∧ r.errors ≤ 1 :=
  errors_within_budget Tables_6 (charAt ['a', 'c', 'g']) 3 (charAt ['a', 'g']) 2 1
    Edit_Array.junk (by decide) (by decide) (by decide)

/-- C5: `Prefix_Edit_Dist` sets `Match_To_End = TRUE` if and only if the
reported alignment reaches the end of at least one string (`A_End = m` or
`T_End = n`); when it sets `Match_To_End = FALSE` both `A_End < m` and
`T_End < n`. -/
theorem match_to_end_iff (tb : Tables) (A : Int → Char) (m : Int) (T : Int → Char)
    (n : Int) (Error_Limit : Int) (edit_array : Edit_Array) (hm : 0 ≤ m) (hn : 0 ≤ n) :
    ∃ r, Prefix_Edit_Dist tb A m T n Error_Limit edit_array = some r ∧
      (r.Match_To_End = true ↔ (r.A_End = m ∨ r.T_End = n)) ∧
      (r.Match_To_End = false → r.A_End < m ∧ r.T_End < n) := by
  obtain ⟨r, hr, k, _, _, _, _, h1, h2⟩ :=
    Prefix_Edit_Dist_spec tb A m T n Error_Limit edit_array hm hn
  refine ⟨r, hr, ⟨h1, ?_⟩, h2⟩
  intro h
  by_contra hne
  have := h2 (by simpa using hne)
  omega

/-- Witness of C5. -/
theorem match_to_end_iff_witness :
    ∃ r, Prefix_Edit_Dist Tables_6 (charAt ['a', 'c', 'g']) 3 (charAt ['a', 'g']) 2 1
        Edit_Array.junk = some r ∧
      (r.Match_To_End = true ↔ (r.A_End = 3 ∨ r.T_End = 2)) ∧
      (r.Match_To_End = false → r.A_End < 3 ∧ r.T_End < 2) :=
  match_to_end_iff Tables_6 (charAt ['a', 'c', 'g']) 3 (charAt ['a', 'g']) 2 1
    Edit_Array.junk (by decide) (by decide)

/-! ## Theorems: the aligner without dropped diagonals -/

variable {A T : Int → Char} {m n : Int}

theorem script_nonneg (s : List Edit_Op) :
    0 ≤ script_A_len s ∧ 0 ≤ script_T_len s ∧ 0 ≤ script_cost s := by
  induction s with
  | nil => simp [script_A_len, script_T_len, script_cost]
  | cons op s ih =>
    cases op <;> simp only [script_A_len, script_T_len, script_cost] <;> omega

theorem Aligns.snoc {s : List Edit_Op} {op : Edit_Op} {i j : Int}
    (h : Aligns A T (s ++ [op]) i j) :
    ∃ i' j', Aligns A T s i' j' ∧ 0 ≤ i' ∧ 0 ≤ j' ∧ 0 ≤ script_cost s ∧
      match op with
      | .keep => i = i' + 1 ∧ j = j' + 1 ∧ A i' = T j' ∧
          script_cost (s ++ [op]) = script_cost s
      | .replace => i = i' + 1 ∧ j = j' + 1 ∧ A i' ≠ T j' ∧
          script_cost (s ++ [op]) = script_cost s + 1
      | .insert => i = i' ∧ j = j' + 1 ∧ script_cost (s ++ [op]) = script_cost s + 1
      | .delete => i = i' + 1 ∧ j = j' ∧ script_cost (s ++ [op]) = script_cost s + 1 := by
  obtain ⟨hok, ha, ht⟩ := h
  obtain ⟨la, lt, lc⟩ := script_len_append s [op]
  obtain ⟨n1, n2, n3⟩ := script_nonneg s
  rw [script_ok_append, Bool.and_eq_true] at hok
  rw [la] at ha
  rw [lt] at ht
  refine ⟨script_A_len s, script_T_len s, ⟨hok.1, rfl, rfl⟩, n1, n2, n3, ?_⟩
  have hok2 := hok.2
  cases op <;> simp only [script_ok, script_A_len, script_T_len, script_cost, zero_add,
    Bool.and_true, decide_eq_true_eq] at hok2 ha ht lc ⊢
  · exact ⟨by omega, by omega, hok2, by omega⟩
  · exact ⟨by omega, by omega, hok2, by omega⟩
  · exact ⟨by omega, by omega, by omega⟩
  · exact ⟨by omega, by omega, by omega⟩

theorem furthest_of_cells {ea : Edit_Array} {K : Nat}
    (hlive : ∀ d, -(K : Int) ≤ d → d ≤ K → Live A T m n ea K d)
    (hprev : ∀ (s : List Edit_Op) (i j : Int), Aligns A T s i j → i ≤ m → j ≤ n →
      script_cost s + 1 ≤ K →
      -(K : Int) + 1 ≤ j - i ∧ j - i ≤ K - 1 ∧ i + 1 ≤ ea K (j - i) ∧
        i ≤ ea K (j - i + 1) ∧ i + 1 ≤ ea K (j - i - 1)) :
    Furthest A T m n ea K := by
  intro s
  induction s using List.reverseRecOn with
  | nil =>
    intro i j hal _ _ _
    obtain ⟨_, ha, ht⟩ := hal
    simp only [script_A_len, script_T_len] at ha ht
    subst ha; subst ht
    have := (hlive 0 (by omega) (by omega)).2.1
    simp only [sub_self]
    exact ⟨by omega, by omega, this⟩
  | append_singleton s op ih =>
    intro i j hal him hjn hc
    obtain ⟨i', j', hal', hi', hj', hc', hop⟩ := hal.snoc
    cases op
    · obtain ⟨e1, e2, heq, ec⟩ := hop
      obtain ⟨b1, b2, b3⟩ := ih i' j' hal' (by omega) (by omega) (by omega)
      have hl := hlive (j' - i') b1 b2
      have hd : j - i = j' - i' := by omega
      rw [hd]
      refine ⟨b1, b2, ?_⟩
      by_contra hlt
      have hcell : ea K (j' - i') = i' := by omega
      have hne := hl.2.2.2.2.2
      rw [hcell] at hne
      have : i' + (j' - i') = j' := by ring
      rw [this] at hne
      exact hne heq
    · obtain ⟨e1, e2, _, ec⟩ := hop
      obtain ⟨b1, b2, b3, _, _⟩ := hprev s i' j' hal' (by omega) (by omega) (by omega)
      have hd : j - i = j' - i' := by omega
      rw [hd]
      exact ⟨by omega, by omega, by omega⟩
    · obtain ⟨e1, e2, ec⟩ := hop
      obtain ⟨b1, b2, _, b4, _⟩ := hprev s i' j' hal' (by omega) (by omega) (by omega)
      have hd : j - i = j' - i' + 1 := by omega
      rw [hd]
      exact ⟨by omega, by omega, by omega⟩
    · obtain ⟨e1, e2, ec⟩ := hop
      obtain ⟨b1, b2, _, _, b5⟩ := hprev s i' j' hal' (by omega) (by omega) (by omega)
      have hd : j - i = j' - i' - 1 := by omega
      rw [hd]
      exact ⟨by omega, by omega, by omega⟩

theorem tighten_Left_id (ea : Edit_Array) (e lim L R : Int)
    (h1 : L < 0 → lim ≤ ea e L) (h2 : 0 ≤ L → lim ≤ ea e L + L) :
    tighten_Left ea e lim L R = L := by
  unfold tighten_Left
  have hneg : tighten_Left_neg ea e lim R (R - L + 1).toNat L = L := by
    cases (R - L + 1).toNat with
    | zero => rfl
    | succ f =>
      simp only [tighten_Left_neg]
      rw [if_neg]
      intro hc
      have := h1 hc.2.1
      omega
  rw [hneg]
  simp only
  split_ifs with h0
  · cases (R - L + 1).toNat with
    | zero => rfl
    | succ f =>
      simp only [tighten_Left_pos]
      rw [if_neg]
      intro hc
      have := h2 h0
      omega
  · rfl

theorem tighten_Right_id (ea : Edit_Array) (e lim L R : Int)
    (h1 : R ≤ 0 → lim ≤ ea e R) (h2 : 0 < R → lim ≤ ea e R + R) :
    tighten_Right ea e lim L R = some R := by
  unfold tighten_Right
  have hpos : tighten_Right_pos ea e lim R.toNat R = R := by
    cases R.toNat with
    | zero => rfl
    | succ f =>
      simp only [tighten_Right_pos]
      rw [if_neg]
      intro hc
      have := h2 hc.1
      omega
  rw [hpos]
  simp only
  split_ifs with h0
  · simp only [tighten_Right_neg]
    rw [if_neg]
    have := h1 h0
    omega
  · rfl

theorem Level_Full.no_end {k : Nat} {st : PED_State} (full : Level_Full A T m n k st)
    (s : List Edit_Op) (i j : Int) (hal : Aligns A T s i j) (him : i ≤ m) (hjn : j ≤ n)
    (hend : i = m ∨ j = n) : (k : Int) + 1 ≤ script_cost s := by
  by_contra hc
  obtain ⟨b1, b2, b3⟩ := full.furthest s i j hal him hjn (by omega)
  have hl := full.inv.live (j - i) (by rw [full.left_eq]; exact b1) (by rw [full.right_eq]; exact b2)
  have h1 := hl.2.2.2.1
  have h2 := hl.2.2.2.2.1
  rcases hend with h | h <;> omega

theorem Level_Full_step {k : Nat} {st : PED_State}
    (full : Level_Full A T m n k st) {ea2 : Edit_Array}
    (hrows : ∀ r : Int, r ≠ (k : Int) + 1 → ∀ x, ea2 r x =
      set_sentinels st.edit_array ((k : Int) + 1) (st.Left - 1) (st.Right + 1) r x)
    (hlive : ∀ x, st.Left - 1 ≤ x → x ≤ st.Right + 1 → Live A T m n ea2 (k + 1) x) :
    (∀ d, -((k : Int) + 1) ≤ d → d ≤ (k : Int) + 1 →
      (d < 0 → (k : Int) + 1 ≤ ea2 ((k : Int) + 1) d) ∧
      (0 ≤ d → (k : Int) + 1 ≤ ea2 ((k : Int) + 1) d + d)) ∧
    Furthest A T m n ea2 (k + 1) := by
  have hL := full.left_eq
  have hR := full.right_eq
  have hready := full.inv.ready
  -- the cells of row `k` of the new array
  have hrowk : ∀ x, -(k : Int) ≤ x → x ≤ k → ea2 k x = st.edit_array k x := by
    intro x h1 h2
    rw [hrows k (by omega) x, set_sentinels_get]
    have : ¬ (x = st.Left - 1 ∨ x = st.Left - 1 - 1 ∨ x = st.Right + 1 ∨ x = st.Right + 1 + 1) := by
      omega
    simp [this]
  have hk2 : ∀ x, ea2 k x =
      set_sentinels st.edit_array ((k : Int) + 1) (st.Left - 1) (st.Right + 1) k x :=
    fun x => hrows k (by omega) x
  -- each new cell dominates its three sources
  have hdom : ∀ d, -((k : Int) + 1) ≤ d → d ≤ (k : Int) + 1 →
      1 + ea2 k d ≤ ea2 ((k : Int) + 1) d ∧ ea2 k (d - 1) ≤ ea2 ((k : Int) + 1) d ∧
      1 + ea2 k (d + 1) ≤ ea2 ((k : Int) + 1) d ∧ 0 ≤ ea2 ((k : Int) + 1) d := by
    intro d h1 h2
    have hl := hlive d (by omega) (by omega)
    have htr := hl.1
    have h0 := hl.2.1
    unfold Traced at htr
    have hM := htr.1
    push_cast at hM h0
    obtain ⟨_, _, _, _, _, _, s7, s8, s9⟩ := hready.source (d := d) (by omega) (by omega)
    rw [(trace_congr hk2 d).2] at hM
    rw [hk2, hk2, hk2]
    exact ⟨by omega, by omega, by omega, h0⟩
  constructor
  · intro d h1 h2
    obtain ⟨d1, d2, d3, d0⟩ := hdom d h1 h2
    constructor
    · intro hneg
      by_cases hd : d = -((k : Int) + 1)
      · have := (full.reach (d + 1) (by omega) (by omega))
        rw [hrowk (d + 1) (by omega) (by omega)] at d3
        by_cases hz : d + 1 < 0
        · have := this.1 hz; omega
        · have := this.2 (by omega); omega
      · have := (full.reach d (by omega) (by omega)).1 hneg
        rw [hrowk d (by omega) (by omega)] at d1
        omega
    · intro hpos
      by_cases hd : d = (k : Int) + 1
      · omega
      · have := (full.reach d (by omega) (by omega)).2 hpos
        rw [hrowk d (by omega) (by omega)] at d1
        omega
  · apply furthest_of_cells
    · intro d h1 h2
      exact hlive d (by push_cast at h1; omega) (by push_cast at h2; omega)
    · intro s i j hal him hjn hc
      obtain ⟨b1, b2, b3⟩ := full.furthest s i j hal him hjn (by push_cast at hc; omega)
      rw [← hrowk (j - i) b1 b2] at b3
      obtain ⟨d1, _, _, _⟩ := hdom (j - i) (by omega) (by omega)
      obtain ⟨_, d2, _, _⟩ := hdom (j - i + 1) (by omega) (by omega)
      obtain ⟨_, _, d3, _⟩ := hdom (j - i - 1) (by omega) (by omega)
      have e2 : j - i + 1 - 1 = j - i := by ring
      have e3 : j - i - 1 + 1 = j - i := by ring
      rw [e2] at d2
      rw [e3] at d3
      push_cast
      exact ⟨by omega, by omega, by omega, by omega, by omega⟩

variable {A T : Int → Char} {m n : Int}

theorem PED_levels_past (tb : Tables) (A : Int → Char) (m : Int) (T : Int → Char) (n : Int)
    (Error_Limit : Int) (fuel : Nat) (e : Int) (st : PED_State) (he : Error_Limit < e) :
    PED_levels tb A m T n Error_Limit fuel e st = some (branch_point st) := by
  cases fuel with
  | zero => rfl
  | succ fuel =>
    simp only [PED_levels]
    rw [if_neg (by omega)]

theorem PED_levels_min (tb : Tables) (Error_Limit : Int)
    (hlim : ∀ k : Int, 1 ≤ k → k < Error_Limit → tb.Edit_Match_Limit k ≤ k) :
    ∀ (fuel : Nat) (k : Nat) (st : PED_State), Level_Full A T m n k st →
    ∀ r, PED_levels tb A m T n Error_Limit fuel ((k : Int) + 1) st = some r →
    r.Match_To_End = true →
    ∀ (s : List Edit_Op) (i j : Int), Aligns A T s i j → i ≤ m → j ≤ n → (i = m ∨ j = n) →
      r.errors ≤ script_cost s := by
  intro fuel
  induction fuel with
  | zero =>
    intro k st full r hr hmte
    simp only [PED_levels, Option.some.injEq] at hr
    rw [← hr] at hmte
    simp [branch_point] at hmte
  | succ fuel ih =>
    intro k st full r hr hmte
    have inv := full.inv
    simp only [PED_levels] at hr
    by_cases he : (k : Int) + 1 ≤ Error_Limit
    · rw [if_pos he] at hr
      simp only [(OVL_band inv).1, (OVL_band inv).2] at hr
      have hready := inv.ready
      have hb := inv.band
      have hfill := fill_row_spec k (st.Left - 1) (st.Right + 1) _ hready he
        (st.Right + 1 - (st.Left - 1) + 1).toNat (st.Left - 1) _ (le_refl _) (by omega)
        (le_refl _) (fun _ _ _ => rfl) (fun x h1 h2 => by omega)
      generalize fill_row A m T n ((k : Int) + 1) (st.Right + 1)
        (st.Right + 1 - (st.Left - 1) + 1).toNat (st.Left - 1)
        (set_sentinels st.edit_array ((k : Int) + 1) (st.Left - 1) (st.Right + 1)) = out
        at hfill hr
      cases out with
      | returned r' =>
        simp only [Option.some.injEq] at hr
        subst hr
        intro s i j hal him hjn hend
        rw [hfill.2.2]
        exact full.no_end s i j hal him hjn hend
      | filled ea2 =>
        obtain ⟨hrows, hlive⟩ := hfill
        simp only at hr
        by_cases hlast : (k : Int) + 1 < Error_Limit
        swap
        · exfalso
          have hpast : ∀ st3 : PED_State,
              PED_levels tb A m T n Error_Limit fuel ((k : Int) + 1 + 1) st3 = some r → False := by
            intro st3 h3
            rw [PED_levels_past tb A m T n Error_Limit fuel _ st3 (by omega)] at h3
            simp only [Option.some.injEq] at h3
            rw [← h3] at hmte
            simp [branch_point] at hmte
          split_ifs at hr with hbrk
          · simp only [Option.some.injEq] at hr
            rw [← hr] at hmte
            simp [branch_point] at hmte
          · split at hr
            · simp at hr
            · split_ifs at hr
              exact hpast _ hr
        obtain ⟨hreach, hfur⟩ := Level_Full_step full hrows hlive
        have hL := full.left_eq
        have hR := full.right_eq
        have hl := hlim ((k : Int) + 1) (by omega) hlast
        have hLid : tighten_Left ea2 ((k : Int) + 1) (tb.Edit_Match_Limit ((k : Int) + 1))
            (st.Left - 1) (st.Right + 1) = st.Left - 1 := by
          apply tighten_Left_id
          · intro h
            have := (hreach (st.Left - 1) (by omega) (by omega)).1 h
            omega
          · intro h
            have := (hreach (st.Left - 1) (by omega) (by omega)).2 h
            omega
        have hRid : tighten_Right ea2 ((k : Int) + 1) (tb.Edit_Match_Limit ((k : Int) + 1))
            (st.Left - 1) (st.Right + 1) = some (st.Right + 1) := by
          apply tighten_Right_id
          · intro h
            omega
          · intro h
            have := (hreach (st.Right + 1) (by omega) (by omega)).2 (by omega)
            omega
        rw [hLid] at hr
        rw [if_neg (by omega)] at hr
        rw [hRid] at hr
        simp only at hr
        rw [if_pos (by omega)] at hr
        obtain ⟨inv3, q1, q2, q3⟩ := Level_Inv_step tb inv hrows hlive (le_refl _)
          (show st.Left - 1 ≤ st.Right + 1 by omega) (le_refl _)
        have mk : ∀ st3 : PED_State, Level_Inv A T m n (k + 1) st3 → st3.edit_array = ea2 →
            st3.Left = st.Left - 1 → st3.Right = st.Right + 1 → Level_Full A T m n (k + 1) st3 := by
          intro st3 i3 e1 e2 e3
          refine ⟨i3, ?_, ?_, ?_, ?_⟩
          · rw [e2]; push_cast; omega
          · rw [e3]; push_cast; omega
          · intro d h1 h2
            rw [e1]
            have := hreach d (by push_cast at h1; omega) (by push_cast at h2; omega)
            push_cast
            exact this
          · rw [e1]; exact hfur
        exact ih (k + 1) _ (mk _ inv3 q1 q2 q3) r (by push_cast; exact hr) hmte
    · rw [if_neg he] at hr
      simp only [Option.some.injEq] at hr
      rw [← hr] at hmte
      simp [branch_point] at hmte

theorem Prefix_Edit_Dist_min (tb : Tables) (A : Int → Char) (m : Int) (T : Int → Char) (n : Int)
    (Error_Limit : Int) (edit_array : Edit_Array) (hm : 0 ≤ m) (hn : 0 ≤ n)
    (hlim : ∀ k : Int, 1 ≤ k → k < Error_Limit → tb.Edit_Match_Limit k ≤ k)
    (r : PED_Result) (hr : Prefix_Edit_Dist tb A m T n Error_Limit edit_array = some r)
    (hmte : r.Match_To_End = true) :
    ∀ (s : List Edit_Op) (i j : Int), Aligns A T s i j → i ≤ m → j ≤ n → (i = m ∨ j = n) →
      r.errors ≤ script_cost s := by
  unfold Prefix_Edit_Dist at hr
  simp only at hr
  have hs : 0 ≤ OVL_Min_int m n ∧ OVL_Min_int m n ≤ m ∧ OVL_Min_int m n ≤ n ∧
      (OVL_Min_int m n = m ∨ OVL_Min_int m n = n) := by
    unfold OVL_Min_int; split_ifs <;> omega
  generalize OVL_Min_int m n = shorter at hs hr
  obtain ⟨f1, f2, f3, f4⟩ := first_match_spec A T shorter shorter.toNat 0 hs.1 (by simp)
  generalize first_match A T shorter shorter.toNat 0 = Row at f1 f2 f3 f4 hr
  by_cases hx : Row = shorter
  · rw [if_pos hx] at hr
    simp only [Option.some.injEq] at hr
    intro s i j _ _ _ _
    rw [← hr]
    exact (script_nonneg s).2.2
  · rw [if_neg hx] at hr
    have hne : A Row ≠ T Row := by
      rcases f4 with h | h
      · exact absurd h hx
      · exact h
    have hlt : Row < shorter := lt_of_le_of_ne f2 hx
    have hc : (edit_array.set 0 0 Row) ((0 : Nat) : Int) 0 = Row := by
      rw [set_get]; simp
    have hlive0 : Live A T m n (edit_array.set 0 0 Row) 0 0 := by
      unfold Live
      rw [hc]
      refine ⟨⟨rfl, f1, by omega, by omega, f3⟩, f1, by omega, by omega, by omega, ?_⟩
      simpa using hne
    have inv : Level_Inv A T m n 0 ⟨edit_array.set 0 0 Row, 0, 0, 0, 0, 0, 0, 0, 0, 0⟩ := by
      refine ⟨le_refl _, by simp, by simp, ?_, ?_, ?_⟩
      · intro d h1 h2
        have hd : d = 0 := by simp only at h1 h2; omega
        subst hd
        exact hlive0
      · simp only
        exact ⟨0, rfl, le_refl _, ⟨rfl, le_refl _, hm, hn, fun r h1 h2 => by omega⟩,
          by omega, by omega⟩
      · simp only
        exact ⟨0, rfl, le_refl _, ⟨rfl, le_refl _, hm, hn, fun r h1 h2 => by omega⟩,
          by omega, by omega⟩
    have full : Level_Full A T m n 0 ⟨edit_array.set 0 0 Row, 0, 0, 0, 0, 0, 0, 0, 0, 0⟩ := by
      refine ⟨inv, by simp, by simp, ?_, ?_⟩
      · intro d h1 h2
        have hd : d = 0 := by simp only [Nat.cast_zero, neg_zero] at h1 h2; omega
        subst hd
        simp only
        rw [hc]
        exact ⟨fun h => by omega, fun _ => by simpa using f1⟩
      · simp only
        apply furthest_of_cells
        · intro d h1 h2
          have hd : d = 0 := by simp only [Nat.cast_zero, neg_zero] at h1 h2; omega
          subst hd
          exact hlive0
        · intro s i j _ _ _ hcost
          have := (script_nonneg s).2.2
          simp only [Nat.cast_zero] at hcost
          omega
    exact PED_levels_min tb Error_Limit hlim Error_Limit.toNat 0 _ full r
      (by simpa using hr) hmte

/-! ## Theorems: minimality of the returned error count -/

variable {A T : Int → Char} {m n : Int}

theorem Traced.le {ea : Edit_Array} {k : Nat} {d v : Int} (h : Traced A T m n ea k d v) :
    v ≤ m ∧ v + d ≤ n := by
  cases k with
  | zero => obtain ⟨rfl, _, h1, h2, _⟩ := h; exact ⟨h1, by omega⟩
  | succ k => exact ⟨h.2.1, h.2.2.1⟩

/-- Where the aligner does return the minimum: when no level below the budget
can drop a diagonal from the band (`Edit_Match_Limit [k] <= k` for every
`1 <= k < Error_Limit`), `Prefix_Edit_Dist` returns, and if it sets
`Match_To_End = TRUE` the returned `e` is the minimum number of inserts,
deletes and replacements over all alignments that match all of `A` with a
prefix of `T` or all of `T` with a prefix of `A`: the reported alignment is one
of them and has `e` errors, and none of them has fewer. -/
theorem aligner_minimal_unpruned (tb : Tables) (A : Int → Char) (m : Int) (T : Int → Char)
    (n : Int) (Error_Limit : Int) (edit_array : Edit_Array) (hm : 0 ≤ m) (hn : 0 ≤ n)
    (hlim : ∀ k : Int, 1 ≤ k → k < Error_Limit → tb.Edit_Match_Limit k ≤ k) :
    ∃ r, Prefix_Edit_Dist tb A m T n Error_Limit edit_array = some r ∧
      (r.Match_To_End = true →
        (∃ s, Aligns A T s r.A_End r.T_End ∧ r.A_End ≤ m ∧ r.T_End ≤ n ∧
          (r.A_End = m ∨ r.T_End = n) ∧ script_cost s = r.errors) ∧
        ∀ (s : List Edit_Op) (i j : Int), Aligns A T s i j → i ≤ m → j ≤ n →
          (i = m ∨ j = n) → r.errors ≤ script_cost s) := by
  obtain ⟨r, hr, hpost⟩ := Prefix_Edit_Dist_spec tb A m T n Error_Limit edit_array hm hn
  refine ⟨r, hr, fun hmte => ⟨?_, ?_⟩⟩
  · obtain ⟨s, hal, hc, _⟩ := hpost.script
    obtain ⟨k, _, _, htr, _, hend, _⟩ := hpost
    have hle := htr.le
    exact ⟨s, hal, hle.1, by omega, hend hmte, hc⟩
  · exact Prefix_Edit_Dist_min tb A m T n Error_Limit edit_array hm hn hlim r hr hmte

/-- An instance of `aligner_minimal_unpruned`: a budget of three errors under
the tables for 6 percent, on an input whose result has `Match_To_End = TRUE`. -/
theorem aligner_minimal_unpruned_witness :
    (Prefix_Edit_Dist Tables_6 (charAt ['a', 'c', 'g']) 3 (charAt ['a', 'g']) 2 3
        Edit_Array.junk).map (fun r => (r.errors, r.Match_To_End)) = some (1, true) ∧
    ∃ r, Prefix_Edit_Dist Tables_6 (charAt ['a', 'c', 'g']) 3 (charAt ['a', 'g']) 2 3
        Edit_Array.junk = some r ∧
      (r.Match_To_End = true →
        (∃ s, Aligns (charAt ['a', 'c', 'g']) (charAt ['a', 'g']) s r.A_End r.T_End ∧
          r.A_End ≤ 3 ∧ r.T_End ≤ 2 ∧ (r.A_End = 3 ∨ r.T_End = 2) ∧
          script_cost s = r.errors) ∧
        ∀ (s : List Edit_Op) (i j : Int),
          Aligns (charAt ['a', 'c', 'g']) (charAt ['a', 'g']) s i j → i ≤ 3 → j ≤ 2 →
          (i = 3 ∨ j = 2) → r.errors ≤ script_cost s) :=
  ⟨by decide,
    aligner_minimal_unpruned Tables_6 (charAt ['a', 'c', 'g']) 3 (charAt ['a', 'g']) 2 3
      Edit_Array.junk (by decide) (by decide)
      (fun k h1 h2 => by
        have hk : k = 1 ∨ k = 2 := by omega
        rcases hk with hk | hk <;> subst hk <;> decide)⟩

set_option maxRecDepth 1000000 in
set_option maxHeartbeats 4000000 in
/-- C4 fails on the code: under the tables for 6 percent and a budget of nine
errors, `Prefix_Edit_Dist` returns `e = 8` with `Match_To_End = TRUE` on
`A_pruned` and `T_pruned`, while `script_pruned` aligns all of `A_pruned` with
all of `T_pruned` at seven errors, which is within the budget.  The comment in
front of `Prefix_Edit_Dist` promises the minimum number of changes whenever it
is not more than `Error_Limit`. -/
theorem aligner_returns_above_minimum :
    ∃ r, Prefix_Edit_Dist Tables_6 (charAt A_pruned) 15 (charAt T_pruned) 16 9
        Edit_Array.junk = some r ∧ r.Match_To_End = true ∧ r.errors = 8 ∧
      Aligns (charAt A_pruned) (charAt T_pruned) script_pruned 15 16 ∧
      script_cost script_pruned = 7 ∧ script_cost script_pruned < r.errors := by
  have h : (Prefix_Edit_Dist Tables_6 (charAt A_pruned) 15 (charAt T_pruned) 16 9
      Edit_Array.junk).map (fun r => (r.errors, r.Match_To_End)) = some (8, true) := by
    decide
  obtain ⟨r, hr, hp⟩ := Option.map_eq_some'.mp h
  simp only [Prod.mk.injEq] at hp
  refine ⟨r, hr, hp.2, hp.1, ⟨by decide, by decide, by decide⟩, by decide, ?_⟩
  rw [hp.1]
  decide

set_option maxRecDepth 1000000 in
set_option maxHeartbeats 4000000 in
/-- The same on an input that `Process_Olap` passes to `Prefix_Edit_Dist`:
for the sequences `A_pruned_long` (151 bases) and `T_pruned_long` (152 bases)
the budget is `Error_Bound [min (151, 152)] = 9` under the tables for 6
percent; `Prefix_Edit_Dist` returns `e = 8` with `A_End = 151`, `T_End = 152`
and `Match_To_End = TRUE`, while `script_pruned_long` aligns all of the one
with all of the other at seven errors. -/
theorem long_overlap_returns_above_minimum :
    Tables_6.Error_Bound (OVL_Min_int 151 152) = 9 ∧
    (Prefix_Edit_Dist Tables_6 (charAt A_pruned_long) 151 (charAt T_pruned_long) 152
        (Tables_6.Error_Bound (OVL_Min_int 151 152)) Edit_Array.junk).map
      (fun r => (r.errors, r.A_End, r.T_End, r.Match_To_End)) = some (8, 151, 152, true) ∧
    Aligns (charAt A_pruned_long) (charAt T_pruned_long) script_pruned_long 151 152 ∧
    script_cost script_pruned_long = 7 := by
  refine ⟨by decide, by decide, ⟨by decide, by decide, by decide⟩, by decide⟩

/-! ## Theorems: the layout of the correction stream -/

theorem subst_records (cfg : Config) (ch : Char) (t : Vote_Tally_t) (j : Int) :
    ∀ x ∈ Output_Corrections_subst cfg ch t j,
      x.is_ID = false ∧ x.is_EXTENSION = false ∧ x.pos = j ∧ x.is_subst = true := by
  intro x hx
  unfold Output_Corrections_subst at hx
  simp only at hx
  split_ifs at hx
  · simp only [List.mem_singleton] at hx
    subst hx
    have hv := (subst_scan_vote ch t).1
    refine ⟨rfl, ?_, rfl, ?_⟩
    · revert hv
      generalize (subst_scan ch t).vote = v
      intro hv
      cases v <;> simp [subst_actions] at hv <;> rfl
    · simp [Correction_Output_t.is_subst, hv]
  · simp at hx
  · simp at hx

theorem insert_records (cfg : Config) (t : Vote_Tally_t) (j : Int) :
    ∀ x ∈ Output_Corrections_insert cfg t j,
      x.is_ID = false ∧ x.is_EXTENSION = false ∧ x.pos = j ∧ x.is_insert = true := by
  intro x hx
  unfold Output_Corrections_insert at hx
  simp only at hx
  split_ifs at hx
  · simp only [List.mem_singleton] at hx
    subst hx
    have hv := (insert_scan_vote t).1
    refine ⟨rfl, ?_, rfl, ?_⟩
    · revert hv
      generalize (insert_scan t).vote = v
      intro hv
      cases v <;> simp [insert_actions] at hv <;> rfl
    · simp [Correction_Output_t.is_insert, hv]
  · simp at hx
  · simp at hx

theorem pos_records (cfg : Config) (ch : Char) (t : Vote_Tally_t) (j : Int) :
    ∀ x ∈ Output_Corrections_pos cfg ch t j,
      x.is_ID = false ∧ x.is_EXTENSION = false ∧ x.pos = j := by
  intro x hx
  unfold Output_Corrections_pos at hx
  rcases List.mem_append.mp hx with h | h
  · obtain ⟨h1, h2, h3, _⟩ := subst_records cfg ch t j x h
    exact ⟨h1, h2, h3⟩
  · obtain ⟨h1, h2, h3, _⟩ := insert_records cfg t j x h
    exact ⟨h1, h2, h3⟩

theorem positions_records (cfg : Config) (f : Frag_Info_t) (seq : List Char) :
    ∀ x ∈ Output_Corrections_positions cfg f seq, x.is_ID = false ∧ x.is_EXTENSION = false := by
  intro x hx
  unfold Output_Corrections_positions at hx
  obtain ⟨j, _, hj⟩ := List.mem_flatMap.mp hx
  obtain ⟨h1, h2, _⟩ := pos_records cfg _ _ _ x hj
  exact ⟨h1, h2⟩

/-- C11: the stream written by `Output_Corrections` is the concatenation of
`Num_Frags` blocks, one for each read in ascending order.  Block `i` starts
with an ID record carrying `iid = Lo_Frag_IID + i` and holds no other ID
record, so the stream has exactly `Num_Frags` ID records.  The block of a
deleted read is its ID record alone.  When `Extend_Fragments` is set, the ID
record of a read that is not deleted is followed by one `EXTENSION` record and
then by records none of which is an `EXTENSION` record; when it is not set, no
`EXTENSION` record is written. -/
theorem output_stream_layout (cfg : Config) (Frag : Frag_t) :
    ∃ blocks : List (List Correction_Output_t),
      Output_Corrections cfg Frag = blocks.flatten ∧ blocks.length = cfg.Num_Frags ∧
      ((Output_Corrections cfg Frag).filterMap Correction_Output_t.iid =
        (List.range cfg.Num_Frags).map (fun i => cfg.Lo_Frag_IID + (i : Int))) ∧
      ∀ (i : Nat) (h : i < blocks.length), ∃ (kl kr : Bool) (rest : List Correction_Output_t),
        blocks.get ⟨i, h⟩ = Correction_Output_t.frag kl kr (cfg.Lo_Frag_IID + (i : Int)) :: rest ∧
        (∀ x ∈ rest, x.is_ID = false) ∧
        ((Frag i).sequence = none → rest = []) ∧
        ((Frag i).sequence ≠ none → cfg.Extend_Fragments = true →
          ∃ (p : Int) (records : List Correction_Output_t),
            rest = Correction_Output_t.corr p .EXTENSION :: records ∧
            ∀ x ∈ records, x.is_EXTENSION = false) ∧
        (cfg.Extend_Fragments = false → ∀ x ∈ rest, x.is_EXTENSION = false) := by
  have hblock : ∀ i : Int, ∃ (kl kr : Bool) (rest : List Correction_Output_t),
      Output_Corrections_frag cfg Frag i =
        Correction_Output_t.frag kl kr (cfg.Lo_Frag_IID + i) :: rest ∧
      (∀ x ∈ rest, x.is_ID = false) ∧
      ((Frag i).sequence = none → rest = []) ∧
      ((Frag i).sequence ≠ none → cfg.Extend_Fragments = true →
        ∃ (p : Int) (records : List Correction_Output_t),
          rest = Correction_Output_t.corr p .EXTENSION :: records ∧
          ∀ x ∈ records, x.is_EXTENSION = false) ∧
      (cfg.Extend_Fragments = false → ∀ x ∈ rest, x.is_EXTENSION = false) := by
    intro i
    unfold Output_Corrections_frag
    simp only
    cases hseq : (Frag i).sequence with
    | none =>
      exact ⟨_, _, [], rfl, by simp, fun _ => rfl, fun h => absurd rfl h, by simp⟩
    | some seq =>
      refine ⟨_, _, _, rfl, ?_, fun h => by simp at h, ?_, ?_⟩
      · intro x hx
        rcases List.mem_append.mp hx with h | h
        · split_ifs at h
          · simp only [List.mem_singleton] at h
            subst h; rfl
          · simp at h
        · exact (positions_records cfg _ seq x h).1
      · intro _ hext
        refine ⟨1 + last_conf cfg (Frag i) seq - (Frag i).clear_len,
          Output_Corrections_positions cfg (Frag i) seq, ?_, ?_⟩
        · simp [hext]
        · intro x hx
          exact (positions_records cfg _ seq x hx).2
      · intro hext x hx
        simp only [hext, Bool.false_eq_true, if_false, List.nil_append] at hx
        exact (positions_records cfg _ seq x hx).2
  have hids : ∀ i : Int, (Output_Corrections_frag cfg Frag i).filterMap Correction_Output_t.iid
      = [cfg.Lo_Frag_IID + i] := by
    intro i
    obtain ⟨kl, kr, rest, h1, h2, _⟩ := hblock i
    rw [h1]
    simp only [List.filterMap_cons, Correction_Output_t.iid]
    have : rest.filterMap Correction_Output_t.iid = [] := by
      rw [List.filterMap_eq_nil_iff]
      intro x hx
      have := h2 x hx
      cases x with
      | frag _ _ _ => simp [Correction_Output_t.is_ID] at this
      | corr _ _ => rfl
    rw [this]
  refine ⟨(List.range cfg.Num_Frags).map (fun i : Nat => Output_Corrections_frag cfg Frag i),
    ?_, by simp, ?_, ?_⟩
  · unfold Output_Corrections
    rw [List.flatMap_def]
  · unfold Output_Corrections
    generalize cfg.Num_Frags = n
    induction n with
    | zero => simp
    | succ n ih =>
      rw [List.range_succ, List.flatMap_append, List.filterMap_append, ih]
      simp [hids]
  · intro i h
    simp only [List.get_eq_getElem, List.getElem_map, List.getElem_range]
    exact hblock i

theorem per_position_frag (cfg : Config) (Frag : Frag_t) (i : Int) (seq : List Char)
    (hseq : (Frag i).sequence = some seq) :
    per_position (Output_Corrections_frag cfg Frag i) =
      Output_Corrections_positions cfg (Frag i) seq := by
  unfold Output_Corrections_frag per_position
  simp only [hseq]
  rw [List.filter_cons_of_neg (by simp [Correction_Output_t.is_ID]), List.filter_append]
  have h1 : List.filter (fun x => !x.is_ID && !x.is_EXTENSION)
      (if cfg.Extend_Fragments = true then
        [Correction_Output_t.corr (1 + last_conf cfg (Frag i) seq - (Frag i).clear_len)
          .EXTENSION] else []) = [] := by
    split_ifs <;> simp [Correction_Output_t.is_EXTENSION]
  rw [h1, List.nil_append, List.filter_eq_self]
  intro x hx
  obtain ⟨h2, h3⟩ := positions_records cfg _ seq x hx
  simp [h2, h3]

/-- C12 (amended): the per-position records that `Output_Corrections` writes
for a read are in ascending order of `pos`: of two of them the earlier has the
smaller `pos`, or they have the same `pos` and then the earlier is a deletion
or substitution record and the later an insertion record. -/
theorem positions_ascending (cfg : Config) (Frag : Frag_t) (i : Int) :
    List.Pairwise (fun x y => x.pos < y.pos ∨
        (x.pos = y.pos ∧ x.is_subst = true ∧ y.is_insert = true))
      (per_position (Output_Corrections_frag cfg Frag i)) := by
  cases hseq : (Frag i).sequence with
  | none =>
    unfold Output_Corrections_frag per_position
    simp [hseq, Correction_Output_t.is_ID]
  | some seq =>
    rw [per_position_frag cfg Frag i seq hseq]
    unfold Output_Corrections_positions
    rw [List.pairwise_flatMap]
    constructor
    · intro j _
      unfold Output_Corrections_pos
      rw [List.pairwise_append]
      refine ⟨?_, ?_, ?_⟩
      · unfold Output_Corrections_subst
        simp only
        split_ifs <;> simp
      · unfold Output_Corrections_insert
        simp only
        split_ifs <;> simp
      · intro x hx y hy
        obtain ⟨_, _, h3, h4⟩ := subst_records cfg _ _ _ x hx
        obtain ⟨_, _, h5, h6⟩ := insert_records cfg _ _ y hy
        exact Or.inr ⟨by rw [h3, h5], h4, h6⟩
    · refine (List.pairwise_lt_range _).imp ?_
      intro a b hab x hx y hy
      obtain ⟨_, _, h3⟩ := pos_records cfg _ _ _ x hx
      obtain ⟨_, _, h5⟩ := pos_records cfg _ _ _ y hy
      left
      rw [h3, h5]
      exact_mod_cast hab

/-- C12 as stated fails: for the read `Frag_two_records` the per-position
records are a deletion record and an insertion record that both carry
`pos = 0`, so their order of `pos` is not strict. -/
theorem positions_not_strictly_ascending :
    per_position (Output_Corrections_frag (Config.default 1 1) Frag_two_records 0) =
      [Correction_Output_t.corr 0 .DELETE, Correction_Output_t.corr 0 .A_INSERT] ∧
    ¬ List.Pairwise (fun x y => x.pos < y.pos)
      (per_position (Output_Corrections_frag (Config.default 1 1) Frag_two_records 0)) := by
  decide

/-! ## Theorems: the votes of gap-free alignments -/

theorem bumps_in_bumps {P : Counter → Int → Int → Prop} {f : Frag_t → Frag_t}
    (h : Bumps_In P f) : Bumps f := by
  induction h with
  | nil => exact Bumps.nil
  | cons c p sub _ _ ih => exact Bumps.cons c p sub ih

theorem bumps_in_mono {P Q : Counter → Int → Int → Prop} (hPQ : ∀ c p s, P c p s → Q c p s)
    {f : Frag_t → Frag_t} (h : Bumps_In P f) : Bumps_In Q f := by
  induction h with
  | nil => exact Bumps_In.nil
  | cons c p sub hp _ ih => exact Bumps_In.cons c p sub (hPQ _ _ _ hp) ih

theorem bumps_in_comp {P : Counter → Int → Int → Prop} {f g : Frag_t → Frag_t}
    (hf : Bumps_In P f) (hg : Bumps_In P g) : Bumps_In P (fun Frag => f (g Frag)) := by
  induction hf with
  | nil => exact hg
  | cons c p sub hp _ ih => exact Bumps_In.cons c p sub hp ih

theorem bumps_in_frame {P : Counter → Int → Int → Prop} {f : Frag_t → Frag_t}
    (h : Bumps_In P f) (Frag : Frag_t) (c : Counter) (k s : Int) (hn : ¬ P c k s) :
    (((f Frag) s).vote k).get c = ((Frag s).vote k).get c := by
  induction h with
  | nil => rfl
  | cons c' p sub hp _ ih =>
    rw [bump_at_vote]
    split_ifs with h1
    · rw [get_bump]
      have hc : ¬ c = c' := by
        rintro rfl
        exact hn (h1.1 ▸ h1.2 ▸ hp)
      rw [if_neg (fun h => hc h.1), ih]
    · exact ih

theorem bumps_fields {f : Frag_t → Frag_t} (h : Bumps f) (Frag : Frag_t) (s : Int) :
    ((f Frag) s).sequence = (Frag s).sequence ∧
    ((f Frag) s).clear_len = (Frag s).clear_len ∧
    ((f Frag) s).left_degree = (Frag s).left_degree ∧
    ((f Frag) s).right_degree = (Frag s).right_degree ∧
    ((f Frag) s).shredded = (Frag s).shredded := by
  induction h with
  | nil => exact ⟨rfl, rfl, rfl, rfl, rfl⟩
  | cons c p sub _ ih =>
    obtain ⟨h1, h2, h3, h4, h5⟩ := bump_at_fields c p sub (_ : Frag_t) s
    rw [h1, h2, h3, h4, h5]
    exact ih

theorem bumps_in_Cast_Vote {P : Counter → Int → Int → Prop} (val : Vote_Value_t) (p sub : Int)
    (h : ∀ c, val.counter = some c → P c p sub) :
    Bumps_In P (fun Frag => Cast_Vote Frag val p sub) := by
  have : (fun Frag => Cast_Vote Frag val p sub) =
      match val.counter with
      | some c => bump_at c p sub
      | none => fun Frag => Frag := by
    funext Frag
    rw [Cast_Vote_eq_bump]
    cases val.counter <;> rfl
  rw [this]
  cases hc : val.counter with
  | none => exact Bumps_In.nil
  | some c => exact Bumps_In.cons c p sub (h c hc) Bumps_In.nil

theorem bumps_in_Confirm {P : Counter → Int → Int → Prop} (p p_hi k sub : Int)
    (h1 : P .confirmed k sub) (h2 : p < p_hi - 1 → P .no_insert k sub) :
    Bumps_In P (fun Frag => Confirm Frag p p_hi k sub) := by
  have : (fun Frag => Confirm Frag p p_hi k sub) =
      if p < p_hi - 1 then
        fun Frag => bump_at .no_insert k sub (bump_at .confirmed k sub Frag)
      else bump_at .confirmed k sub := by
    funext Frag
    rw [Confirm_eq_bump]
    split_ifs <;> rfl
  rw [this]
  split_ifs with h
  · exact Bumps_In.cons _ _ _ (h2 h) (Bumps_In.cons _ _ _ h1 Bumps_In.nil)
  · exact Bumps_In.cons _ _ _ h1 Bumps_In.nil

theorem bumps_in_range {P : Counter → Int → Int → Prop} (body : Nat → Frag_t → Frag_t) (n : Nat)
    (h : ∀ k, k < n → Bumps_In P (body k)) :
    Bumps_In P (fun Frag => (List.range n).foldl (fun s (k : Nat) => body k s) Frag) := by
  induction n with
  | zero => exact Bumps_In.nil
  | succ n ih =>
    simp only [List.range_succ, List.foldl_append, List.foldl_cons, List.foldl_nil]
    exact bumps_in_comp (h n (Nat.lt_succ_self n)) (ih (fun k hk => h k (Nat.lt_succ_of_lt hk)))

theorem bumps_in_for_loop {P : Counter → Int → Int → Prop} (lo hi : Int)
    (body : Int → Frag_t → Frag_t) (h : ∀ p, lo ≤ p → p < hi → Bumps_In P (body p)) :
    Bumps_In P (for_loop lo hi body) := by
  unfold for_loop
  apply bumps_in_range (fun (k : Nat) => body (lo + (k : Int)))
  intro k hk
  apply h
  · omega
  · omega

theorem bumps_in_ite {P : Counter → Int → Int → Prop} (c : Prop) [Decidable c]
    {f g : Frag_t → Frag_t} (hf : c → Bumps_In P f) (hg : ¬ c → Bumps_In P g) :
    Bumps_In P (fun Frag => if c then f Frag else g Frag) := by
  by_cases h : c
  · simpa [h] using hf h
  · simpa [h] using hg h

theorem walk_columns_match (a b : Int → Char) : ∀ (k : Nat) (w : Align_Walk),
    (∀ q : Nat, q < k → a (w.i + q) = b (w.j + q)) →
    walk_columns a b k w = some ⟨w.i + k, w.j + k, w.p + k, w.vote⟩ := by
  intro k
  induction k with
  | zero => intro w _; simp [walk_columns]
  | succ k ih =>
    intro w h
    have h0 : a w.i = b w.j := by simpa using h 0 (Nat.succ_pos k)
    have hstep : walk_column a b w = some ⟨w.i + 1, w.j + 1, w.p + 1, w.vote⟩ := by
      unfold walk_column
      rw [if_neg (by simpa using h0)]
    simp only [walk_columns, hstep, Option.some_bind]
    rw [ih]
    · simp only [Nat.cast_add, Nat.cast_one]
      congr 2 <;> omega
    · intro q hq
      have := h (q + 1) (by omega)
      simp only [Nat.cast_add, Nat.cast_one] at this
      simp only
      rw [show w.i + 1 + (q : Int) = w.i + ((q : Int) + 1) by ring,
        show w.j + 1 + (q : Int) = w.j + ((q : Int) + 1) by ring]
      exact this

theorem walk_columns_add (a b : Int → Char) : ∀ (k1 k2 : Nat) (w : Align_Walk),
    walk_columns a b (k1 + k2) w = (walk_columns a b k1 w).bind (walk_columns a b k2) := by
  intro k1
  induction k1 with
  | zero => intro k2 w; simp [walk_columns]
  | succ k1 ih =>
    intro k2 w
    rw [show k1 + 1 + k2 = (k1 + k2) + 1 by omega]
    simp only [walk_columns]
    cases walk_column a b w with
    | none => rfl
    | some w' => simp only [Option.some_bind]; exact ih k2 w'

theorem Build_Votes_exact (o : Gap_Free) (h : o.exact) :
    Build_Votes [] o.a_part o.b_part o.L o.L =
      some [⟨-1, -1, .A_SUBST⟩, ⟨o.L, o.L, .NO_VOTE⟩] := by
  obtain ⟨hL, heq⟩ := h
  unfold Build_Votes
  rw [if_neg (by omega)]
  simp only [walk_delta, Option.some_bind, sub_zero]
  rw [walk_columns_match]
  · simp only [Option.some_bind, zero_add, Int.toNat_of_nonneg hL, List.singleton_append]
  · intro q hq
    simp only [zero_add]
    exact heq q (by omega) (by omega)

theorem subst_vote_base (v : Vote_Value_t) (hv : v ∈ base_substs) :
    subst_vote (subst_base v) = some v := by
  simp only [base_substs, List.mem_cons, List.mem_singleton, List.mem_nil_iff, or_false] at hv
  rcases hv with rfl | rfl | rfl | rfl <;> decide

theorem Build_Votes_one_diff (o : Gap_Free) (p : Int) (v : Vote_Value_t)
    (h : o.one_diff p v) :
    Build_Votes [] o.a_part o.b_part o.L o.L =
      some [⟨-1, -1, .A_SUBST⟩, ⟨p, p, v⟩, ⟨o.L, o.L, .NO_VOTE⟩] := by
  obtain ⟨hp0, hpL, hv, hb, hne, heq⟩ := h
  unfold Build_Votes
  rw [if_neg (by omega)]
  simp only [walk_delta, Option.some_bind, sub_zero]
  have hsplit : o.L.toNat = p.toNat + (1 + (o.L - p - 1).toNat) := by omega
  rw [hsplit, walk_columns_add, walk_columns_match]
  · simp only [Option.some_bind, zero_add]
    rw [walk_columns_add]
    have hstep : walk_columns o.a_part o.b_part 1
        ⟨(p.toNat : Int), (p.toNat : Int), (p.toNat : Int), [⟨-1, -1, .A_SUBST⟩]⟩ =
        some ⟨p + 1, p + 1, p + 1, [⟨-1, -1, .A_SUBST⟩, ⟨p, p, v⟩]⟩ := by
      rw [Int.toNat_of_nonneg hp0]
      simp only [walk_columns, walk_column]
      rw [if_pos hne, hb, subst_vote_base v hv]
      simp
    rw [hstep]
    simp only [Option.some_bind]
    rw [walk_columns_match]
    · simp only [Option.some_bind]
      rw [Int.toNat_of_nonneg (by omega : 0 ≤ o.L - p - 1)]
      simp only [List.cons_append, List.nil_append]
      congr 4
      first | rfl | ring_nf
    · intro q hq
      simp only
      exact heq _ (by omega) (by omega) (by omega)
  · intro q hq
    simp only [zero_add]
    exact heq q (by omega) (by omega) (by omega)

theorem range_pointwise (body : Nat → Frag_t → Frag_t) (sub base : Int)
    (g : Nat → Vote_Tally_t → Vote_Tally_t)
    (hbody : ∀ (j : Nat) (F : Frag_t) (s q : Int), ((body j F) s).vote q =
      if s = sub ∧ q = base + j then g j ((F s).vote q) else (F s).vote q) :
    ∀ (n : Nat) (F : Frag_t) (s q : Int),
      (((List.range n).foldl (fun F (j : Nat) => body j F) F) s).vote q =
        if s = sub ∧ base ≤ q ∧ q < base + n then g (q - base).toNat ((F s).vote q)
        else (F s).vote q := by
  intro n
  induction n with
  | zero =>
    intro F s q
    simp only [List.range_zero, List.foldl_nil, Nat.cast_zero, add_zero]
    rw [if_neg (by omega)]
  | succ n ih =>
    intro F s q
    simp only [List.range_succ, List.foldl_append, List.foldl_cons, List.foldl_nil]
    rw [hbody, ih]
    by_cases hs : s = sub
    · by_cases hq : q = base + n
      · rw [if_pos ⟨hs, hq⟩, if_neg (by omega), if_pos ⟨hs, by omega, by push_cast; omega⟩]
        congr 1
        omega
      · rw [if_neg (fun h => hq h.2)]
        by_cases hr : base ≤ q ∧ q < base + n
        · rw [if_pos ⟨hs, hr⟩, if_pos ⟨hs, hr.1, by push_cast; omega⟩]
        · rw [if_neg (fun h => hr h.2), if_neg (fun h => hr ⟨h.2.1, by
            have := h.2.2; push_cast at this; omega⟩)]
    · rw [if_neg (fun h => hs h.1), if_neg (fun h => hs h.1), if_neg (fun h => hs h.1)]

theorem Confirm_vote (F : Frag_t) (p p_hi k sub s q : Int) :
    ((Confirm F p p_hi k sub) s).vote q =
      if s = sub ∧ q = k then
        (if p < p_hi - 1 then (((F s).vote q).bump .confirmed).bump .no_insert
          else ((F s).vote q).bump .confirmed)
      else (F s).vote q := by
  rw [Confirm_eq_bump]
  split_ifs with h1 h2 h2
  · rw [bump_at_vote, if_pos h2, bump_at_vote, if_pos h2]
  · rw [bump_at_vote, if_neg h2, bump_at_vote, if_neg h2]
  · rw [bump_at_vote, if_pos h2]
  · rw [bump_at_vote, if_neg h2]

theorem Tally_Votes_two (cfg : Config) (a_part : Int → Char) (a_offset sub : Int)
    (v0 v1 : Vote_t) (Frag : Frag_t) :
    Tally_Votes cfg a_part a_offset sub [v0, v1] Frag =
      Tally_Vote cfg a_part a_offset sub [v0, v1] 1 1 Frag := rfl

theorem Tally_Votes_three (cfg : Config) (a_part : Int → Char) (a_offset sub : Int)
    (v0 v1 v2 : Vote_t) (Frag : Frag_t) :
    Tally_Votes cfg a_part a_offset sub [v0, v1, v2] Frag =
      Tally_Vote cfg a_part a_offset sub [v0, v1, v2] 2 2
        (Tally_Vote cfg a_part a_offset sub [v0, v1, v2] 2 1 Frag) := rfl

theorem for_loop_empty {σ : Type} (lo hi : Int) (h : hi ≤ lo) (body : Int → σ → σ) (s : σ) :
    for_loop lo hi body s = s := by
  unfold for_loop
  rw [Int.toNat_eq_zero.mpr (by omega)]
  rfl

theorem Tally_Votes_exact (cfg : Config) (a_part : Int → Char) (a_offset sub L : Int)
    (Frag : Frag_t) :
    Tally_Votes cfg a_part a_offset sub [⟨-1, -1, .A_SUBST⟩, ⟨L, L, .NO_VOTE⟩] Frag =
      if cfg.Kmer_Len ≤ L then
        for_loop 0 L (fun p F => Confirm F p L (a_offset + p) sub) Frag
      else Frag := by
  rw [Tally_Votes_two]
  simp only [Tally_Vote, Tally_Discrepancy, Tally_Run, vote_at, lt_self_iff_false, false_and,
    if_false, if_true, Nat.sub_self, List.getD_cons_zero, List.getD_cons_succ, sub_neg_eq_add,
    add_sub_cancel_right, ge_iff_le]
  split_ifs with h
  · rw [for_loop_empty 0 0 (le_refl _), for_loop_empty L L (le_refl _)]
    congr 1
    funext p F
    ring_nf
  · rfl

theorem bumps_in_other {P : Counter → Int → Int → Prop} {f : Frag_t → Frag_t} (sub : Int)
    (hP : ∀ c p s, P c p s → s = sub) (h : Bumps_In P f) (Frag : Frag_t) (s : Int)
    (hs : s ≠ sub) : (f Frag) s = Frag s := by
  induction h with
  | nil => rfl
  | cons c p sub' hp _ ih =>
    have : sub' = sub := hP _ _ _ hp
    subst this
    show bump_at c p sub' _ s = _
    unfold bump_at
    rw [if_neg hs]
    exact ih

theorem bumps_in_foldl {P : Counter → Int → Int → Prop} {α : Type}
    (body : Frag_t → α → Frag_t) (h : ∀ a, Bumps_In P (fun Frag => body Frag a)) (l : List α) :
    Bumps_In P (fun Frag => l.foldl body Frag) := by
  induction l with
  | nil => exact Bumps_In.nil
  | cons a l ih =>
    simp only [List.foldl_cons]
    exact bumps_in_comp ih (h a)

theorem bumps_in_Tally_Votes_sub (cfg : Config) (a_part : Int → Char) (a_offset sub : Int)
    (vote : List Vote_t) :
    Bumps_In (fun _ _ s => s = sub) (Tally_Votes cfg a_part a_offset sub vote) := by
  unfold Tally_Votes
  apply bumps_in_foldl
  intro k
  show Bumps_In _ (fun F => Tally_Discrepancy cfg a_offset sub vote _ _
    (Tally_Run cfg a_part a_offset sub vote _ _ F))
  apply bumps_in_comp
  · unfold Tally_Discrepancy
    simp only
    apply bumps_in_ite
    · intro _
      apply bumps_in_ite
      · intro _; exact bumps_in_Cast_Vote _ _ _ (fun _ _ => rfl)
      · intro _; exact Bumps_In.nil
    · intro _; exact Bumps_In.nil
  · unfold Tally_Run
    simp only
    apply bumps_in_ite
    · intro _
      exact bumps_in_comp (bumps_in_for_loop _ _ _ (fun p _ _ =>
          bumps_in_Cast_Vote _ _ _ (fun _ _ => rfl)))
        (bumps_in_comp (bumps_in_for_loop _ _ _ (fun p _ _ =>
          bumps_in_Confirm _ _ _ _ rfl (fun _ => rfl)))
          (bumps_in_for_loop _ _ _ (fun p _ _ => bumps_in_Cast_Vote _ _ _ (fun _ _ => rfl))))
    · intro _; exact Bumps_In.nil

theorem Analyze_exact (cfg : Config) (Frag : Frag_t) (o : Gap_Free) (sub : Int)
    (h : o.exact) :
    Analyze_Alignment cfg Frag [] o.a_part o.b_part o.L o.L o.a_offset sub =
      some (if cfg.Kmer_Len ≤ o.L then
        for_loop 0 o.L (fun p F => Confirm F p o.L (o.a_offset + p) sub) Frag else Frag) := by
  unfold Analyze_Alignment
  rw [Build_Votes_exact o h, Option.map_some', Tally_Votes_exact]

theorem confirm_loop_vote (Frag : Frag_t) (L a_offset sub : Int) (s q : Int) :
    ((for_loop 0 L (fun p F => Confirm F p L (a_offset + p) sub) Frag) s).vote q =
      if s = sub ∧ a_offset ≤ q ∧ q < a_offset + L then
        (if q < a_offset + L - 1 then (((Frag s).vote q).bump .confirmed).bump .no_insert
          else ((Frag s).vote q).bump .confirmed)
      else (Frag s).vote q := by
  unfold for_loop
  rw [range_pointwise (fun j F => Confirm F (0 + (j : Int)) L (a_offset + (0 + (j : Int))) sub)
    sub a_offset (fun j t => if (j : Int) < L - 1 then (t.bump .confirmed).bump .no_insert
      else t.bump .confirmed)]
  · by_cases h : s = sub ∧ a_offset ≤ q ∧ q < a_offset + L
    · rw [if_pos ⟨h.1, h.2.1, by omega⟩, if_pos h]
      by_cases h2 : q < a_offset + L - 1
      · rw [if_pos h2, if_pos (by omega)]
      · rw [if_neg h2, if_neg (by omega)]
    · rw [if_neg h, if_neg (fun h' => h ⟨h'.1, h'.2.1, by omega⟩)]
  · intro j F s q
    rw [Confirm_vote]
    simp only [zero_add]

theorem get_bump_confirm (t : Vote_Tally_t) (last : Prop) [Decidable last] (c : Counter) :
    (if last then t.bump .confirmed else (t.bump .confirmed).bump .no_insert).get c =
      if (c = .confirmed ∨ (c = .no_insert ∧ ¬ last)) ∧ t.get c < MAX_VOTE then t.get c + 1
      else t.get c := by
  by_cases hl : last
  · rw [if_pos hl, get_bump]
    simp only [hl, not_true_eq_false, and_false, or_false]
    by_cases hc : c = .confirmed
    · subst hc; rfl
    · rw [if_neg (fun h => hc h.1), if_neg (fun h => hc h.1)]
  · rw [if_neg hl, get_bump, get_bump, get_bump]
    simp only [hl, not_false_eq_true, and_true]
    cases c <;> simp

theorem Analyze_exact_confirmed (cfg : Config) (sub j : Int) :
    ∀ (os : List Gap_Free) (Frag : Frag_t),
      (∀ o ∈ os, o.exact ∧ cfg.Kmer_Len ≤ o.L ∧ o.a_offset ≤ j ∧ j < o.a_offset + o.L) →
      ((Frag sub).vote j).confirmed ≤ MAX_VOTE →
      ∃ F', Analyze_Gap_Free cfg sub os Frag = some F' ∧
        ((F' sub).vote j).confirmed = min (((Frag sub).vote j).confirmed + os.length) MAX_VOTE := by
  intro os
  induction os with
  | nil =>
    intro Frag _ hc
    exact ⟨Frag, rfl, by simp only [List.length_nil, add_zero]; omega⟩
  | cons o os ih =>
    intro Frag hos hc
    obtain ⟨hex, hk, h1, h2⟩ := hos o (List.mem_cons_self _ _)
    have hstep := Analyze_exact cfg Frag o sub hex
    rw [if_pos hk] at hstep
    simp only [Analyze_Gap_Free, hstep, Option.some_bind]
    have hv := confirm_loop_vote Frag o.L o.a_offset sub sub j
    rw [if_pos ⟨rfl, h1, h2⟩] at hv
    have hget : (((for_loop 0 o.L (fun p F => Confirm F p o.L (o.a_offset + p) sub) Frag) sub).vote
        j).confirmed = if ((Frag sub).vote j).confirmed < MAX_VOTE
          then ((Frag sub).vote j).confirmed + 1 else ((Frag sub).vote j).confirmed := by
      rw [hv]
      have := get_bump_confirm ((Frag sub).vote j) (¬ j < o.a_offset + o.L - 1) .confirmed
      simp only [not_not, true_or, true_and, Vote_Tally_t.get] at this
      rw [← this]
      split_ifs <;> rfl
    obtain ⟨F', hF, hF'⟩ := ih _ (fun o' ho' => hos o' (List.mem_cons_of_mem _ ho')) (by
      rw [hget]; split_ifs <;> omega)
    refine ⟨F', hF, ?_⟩
    rw [hF', hget, List.length_cons]
    unfold MAX_VOTE at *
    split_ifs <;> omega

/-- C14: for an exact gap-free alignment of length `L >= Kmer_Len`,
`Analyze_Alignment` returns and adds one to `confirmed` at each of the
positions `a_offset .. a_offset + L - 1` and one to `no_insert` at each of
them except the last (a counter that has reached `MAX_VOTE` stays), and
changes no other counter of any read; for `L < Kmer_Len` it changes nothing.
Hence `k` such alignments that cover position `j`, starting from
`confirmed = 0` there, leave `confirmed = min (k, 255)` at `j`. -/
theorem exact_alignment_confirms (cfg : Config) (sub : Int) :
    (∀ (Frag : Frag_t) (o : Gap_Free), o.exact →
      ∃ F', Analyze_Alignment cfg Frag [] o.a_part o.b_part o.L o.L o.a_offset sub = some F' ∧
        (cfg.Kmer_Len ≤ o.L → ∀ (k : Int) (c : Counter), ((F' sub).vote k).get c =
          if (o.a_offset ≤ k ∧ k < o.a_offset + o.L ∧
                (c = .confirmed ∨ (c = .no_insert ∧ k < o.a_offset + o.L - 1))) ∧
              ((Frag sub).vote k).get c < MAX_VOTE
          then ((Frag sub).vote k).get c + 1 else ((Frag sub).vote k).get c) ∧
        (∀ s, s ≠ sub → F' s = Frag s) ∧
        (o.L < cfg.Kmer_Len → F' = Frag)) ∧
    (∀ (Frag : Frag_t) (os : List Gap_Free) (j : Int),
      (∀ o ∈ os, o.exact ∧ cfg.Kmer_Len ≤ o.L ∧ o.a_offset ≤ j ∧ j < o.a_offset + o.L) →
      ((Frag sub).vote j).confirmed = 0 →
      ∃ F', Analyze_Gap_Free cfg sub os Frag = some F' ∧
        ((F' sub).vote j).confirmed = min os.length MAX_VOTE) := by
  constructor
  · intro Frag o hex
    refine ⟨_, Analyze_exact cfg Frag o sub hex, ?_, ?_, ?_⟩
    · intro hk k c
      rw [if_pos hk, confirm_loop_vote]
      by_cases hr : o.a_offset ≤ k ∧ k < o.a_offset + o.L
      · rw [if_pos ⟨rfl, hr⟩]
        have := get_bump_confirm ((Frag sub).vote k) (¬ k < o.a_offset + o.L - 1) c
        simp only [not_not] at this
        have hsw : (if k < o.a_offset + o.L - 1 then
              (((Frag sub).vote k).bump .confirmed).bump .no_insert
            else ((Frag sub).vote k).bump .confirmed) =
            (if ¬ k < o.a_offset + o.L - 1 then ((Frag sub).vote k).bump .confirmed
              else (((Frag sub).vote k).bump .confirmed).bump .no_insert) := by
          split_ifs <;> rfl
        rw [hsw, this]
        simp only [hr.1, hr.2, true_and]
      · rw [if_neg (fun h => hr h.2), if_neg (fun h => hr ⟨h.1.1, h.1.2.1⟩)]
    · intro s hs
      have hb := bumps_in_Tally_Votes_sub cfg o.a_part o.a_offset sub
        [⟨-1, -1, .A_SUBST⟩, ⟨o.L, o.L, .NO_VOTE⟩]
      have := bumps_in_other sub (fun _ _ _ h => h) hb Frag s hs
      rw [Tally_Votes_exact] at this
      exact this
    · intro hk
      rw [if_neg (by omega)]
  · intro Frag os j hos hc
    obtain ⟨F', h1, h2⟩ := Analyze_exact_confirmed cfg sub j os Frag hos (by rw [hc]; decide)
    exact ⟨F', h1, by rw [h2, hc, zero_add]⟩

theorem bumps_in_Tally_Run {P : Counter → Int → Int → Prop} (cfg : Config)
    (a_part : Int → Char) (a_offset sub : Int) (vote : List Vote_t) (ct i : Nat)
    (hmatch : ∀ (q : Int) (c : Counter),
      cfg.Kmer_Len ≤ (vote_at vote i).align_sub - (vote_at vote (i - 1)).align_sub - 1 →
      ((0 ≤ q ∧ q < (if i = 1 then 0 else cfg.End_Exclude_Len)) ∨
        ((if i = ct then (vote_at vote i).align_sub - (vote_at vote (i - 1)).align_sub - 1
            else (vote_at vote i).align_sub - (vote_at vote (i - 1)).align_sub - 1
              - cfg.End_Exclude_Len) ≤ q ∧
          q < (vote_at vote i).align_sub - (vote_at vote (i - 1)).align_sub - 1)) →
      (Matching_Vote (a_part ((vote_at vote (i - 1)).frag_sub + q + 1))).counter = some c →
      P c (a_offset + (vote_at vote (i - 1)).frag_sub + q + 1) sub)
    (hconf : ∀ (q : Int),
      cfg.Kmer_Len ≤ (vote_at vote i).align_sub - (vote_at vote (i - 1)).align_sub - 1 →
      (if i = 1 then 0 else cfg.End_Exclude_Len) ≤ q →
      q < (if i = ct then (vote_at vote i).align_sub - (vote_at vote (i - 1)).align_sub - 1
            else (vote_at vote i).align_sub - (vote_at vote (i - 1)).align_sub - 1
              - cfg.End_Exclude_Len) →
      P .confirmed (a_offset + (vote_at vote (i - 1)).frag_sub + q + 1) sub ∧
      P .no_insert (a_offset + (vote_at vote (i - 1)).frag_sub + q + 1) sub) :
    Bumps_In P (Tally_Run cfg a_part a_offset sub vote ct i) := by
  unfold Tally_Run
  simp only [ge_iff_le]
  apply bumps_in_ite
  · intro hk
    refine bumps_in_comp (bumps_in_for_loop _ _ _ (fun q h1 h2 =>
        bumps_in_Cast_Vote _ _ _ (fun c hc => hmatch q c hk (Or.inr ⟨h1, h2⟩) hc)))
      (bumps_in_comp (bumps_in_for_loop _ _ _ (fun q h1 h2 =>
        bumps_in_Confirm _ _ _ _ (hconf q hk h1 h2).1 (fun _ => (hconf q hk h1 h2).2)))
        (bumps_in_for_loop _ _ _ (fun q h1 h2 =>
          bumps_in_Cast_Vote _ _ _ (fun c hc => hmatch q c hk (Or.inl ⟨h1, h2⟩) hc))))
  · intro _; exact Bumps_In.nil

/-- The counters that the matched runs around the single differing column
`a_offset + p` may change. -/
theorem one_diff_runs (cfg : Config) (o : Gap_Free) (sub p : Int) (v : Vote_Value_t)
    (hE : 0 ≤ cfg.End_Exclude_Len) (i : Nat) (hi : i = 1 ∨ i = 2) :
    Bumps_In (fun c k s => s = sub ∧ k ≠ o.a_offset + p ∧
        (c = .confirmed ∨ c = .no_insert ∨
          (Matching_Vote (o.a_part (k - o.a_offset))).counter = some c))
      (Tally_Run cfg o.a_part o.a_offset sub
        [⟨-1, -1, .A_SUBST⟩, ⟨p, p, v⟩, ⟨o.L, o.L, .NO_VOTE⟩] 2 i) := by
  rcases hi with rfl | rfl
  · apply bumps_in_Tally_Run
    · intro q c _ hq hc
      simp only [vote_at, List.getD_cons_zero, List.getD_cons_succ, Nat.sub_self, if_true,
        OfNat.one_ne_ofNat, if_false, sub_neg_eq_add, add_sub_cancel_right] at hq hc ⊢
      refine ⟨trivial, by omega, Or.inr (Or.inr ?_)⟩
      rw [← hc]
      congr 3
      ring
    · intro q _ h1 h2
      simp only [vote_at, List.getD_cons_zero, List.getD_cons_succ, Nat.sub_self, if_true,
        OfNat.one_ne_ofNat, if_false, sub_neg_eq_add, add_sub_cancel_right] at h1 h2 ⊢
      exact ⟨⟨trivial, by omega, Or.inl trivial⟩, ⟨trivial, by omega, Or.inr (Or.inl trivial)⟩⟩
  · apply bumps_in_Tally_Run
    · intro q c _ hq hc
      simp only [vote_at, List.getD_cons_zero, List.getD_cons_succ, Nat.add_one_sub_one,
        OfNat.ofNat_ne_one, if_true, if_false] at hq hc ⊢
      refine ⟨trivial, by omega, Or.inr (Or.inr ?_)⟩
      rw [← hc]
      congr 3
      ring
    · intro q _ h1 h2
      simp only [vote_at, List.getD_cons_zero, List.getD_cons_succ, Nat.add_one_sub_one,
        OfNat.ofNat_ne_one, if_true, if_false] at h1 h2 ⊢
      exact ⟨⟨trivial, by omega, Or.inl trivial⟩, ⟨trivial, by omega, Or.inr (Or.inl trivial)⟩⟩

theorem one_diff_discrepancy (cfg : Config) (a_offset sub p L : Int) (v : Vote_Value_t)
    (F : Frag_t) :
    Tally_Discrepancy cfg a_offset sub [⟨-1, -1, .A_SUBST⟩, ⟨p, p, v⟩, ⟨L, L, .NO_VOTE⟩] 2 1 F =
      (if cfg.Vote_Qualify_Len ≤ L - 1 then Cast_Vote F v (a_offset + p) sub else F) ∧
    Tally_Discrepancy cfg a_offset sub [⟨-1, -1, .A_SUBST⟩, ⟨p, p, v⟩, ⟨L, L, .NO_VOTE⟩] 2 2 F
      = F := by
  constructor
  · unfold Tally_Discrepancy
    simp only [vote_at, List.getD_cons_zero, List.getD_cons_succ, Nat.sub_self, Nat.one_lt_ofNat,
      true_and, Nat.reduceAdd, ge_iff_le]
    have h1 : Vote_Value_t.A_SUBST.toInt ≤ Vote_Value_t.T_SUBST.toInt := by decide
    rw [if_pos (Or.inr (Or.inl h1))]
    have h2 : p - -1 - 1 + (L - p - 1) = L - 1 := by ring
    rw [h2]
  · unfold Tally_Discrepancy
    simp only [lt_self_iff_false, false_and, if_false]

theorem Analyze_one_diff (cfg : Config) (Frag : Frag_t) (o : Gap_Free) (sub p : Int)
    (v : Vote_Value_t) (h : o.one_diff p v) (hq : cfg.Vote_Qualify_Len ≤ o.L - 1) :
    Analyze_Alignment cfg Frag [] o.a_part o.b_part o.L o.L o.a_offset sub =
      some (Tally_Run cfg o.a_part o.a_offset sub
        [⟨-1, -1, .A_SUBST⟩, ⟨p, p, v⟩, ⟨o.L, o.L, .NO_VOTE⟩] 2 2
        (Cast_Vote (Tally_Run cfg o.a_part o.a_offset sub
          [⟨-1, -1, .A_SUBST⟩, ⟨p, p, v⟩, ⟨o.L, o.L, .NO_VOTE⟩] 2 1 Frag)
          v (o.a_offset + p) sub)) := by
  unfold Analyze_Alignment
  rw [Build_Votes_one_diff o p v h, Option.map_some', Tally_Votes_three]
  simp only [Tally_Vote]
  rw [(one_diff_discrepancy _ _ _ _ _ _ _).2, (one_diff_discrepancy _ _ _ _ _ _ _).1, if_pos hq]

theorem Cast_Vote_get (F : Frag_t) (val : Vote_Value_t) (p sub : Int) (c : Counter) :
    (((Cast_Vote F val p sub) sub).vote p).get c =
      if val.counter = some c ∧ ((F sub).vote p).get c < MAX_VOTE
      then ((F sub).vote p).get c + 1 else ((F sub).vote p).get c := by
  rw [Cast_Vote_eq_bump]
  cases hc : val.counter with
  | none => simp
  | some c' =>
    simp only [bump_at_vote, and_self, if_true, get_bump, Option.some.injEq]
    by_cases h : c = c'
    · subst h; simp
    · rw [if_neg (fun h' => h h'.1), if_neg (fun h' => h h'.1.symm)]

theorem one_diff_vote (cfg : Config) (Frag : Frag_t) (o : Gap_Free) (sub p : Int)
    (v : Vote_Value_t) (hE : 0 ≤ cfg.End_Exclude_Len) (c : Counter) :
    (((Tally_Run cfg o.a_part o.a_offset sub
        [⟨-1, -1, .A_SUBST⟩, ⟨p, p, v⟩, ⟨o.L, o.L, .NO_VOTE⟩] 2 2
        (Cast_Vote (Tally_Run cfg o.a_part o.a_offset sub
          [⟨-1, -1, .A_SUBST⟩, ⟨p, p, v⟩, ⟨o.L, o.L, .NO_VOTE⟩] 2 1 Frag)
          v (o.a_offset + p) sub)) sub).vote (o.a_offset + p)).get c =
      if v.counter = some c ∧ ((Frag sub).vote (o.a_offset + p)).get c < MAX_VOTE
      then ((Frag sub).vote (o.a_offset + p)).get c + 1
      else ((Frag sub).vote (o.a_offset + p)).get c := by
  have hn : ∀ c', ¬ (fun (c : Counter) (k s : Int) => s = sub ∧ k ≠ o.a_offset + p ∧
      (c = .confirmed ∨ c = .no_insert ∨
        (Matching_Vote (o.a_part (k - o.a_offset))).counter = some c)) c' (o.a_offset + p) sub :=
    fun c' h => h.2.1 rfl
  rw [bumps_in_frame (one_diff_runs cfg o sub p v hE 2 (Or.inr rfl)) _ c _ _ (hn c)]
  rw [Cast_Vote_get]
  rw [bumps_in_frame (one_diff_runs cfg o sub p v hE 1 (Or.inl rfl)) _ c _ _ (hn c)]

theorem base_substs_counter (v : Vote_Value_t) (hv : v ∈ base_substs) :
    ∃ c, v.counter = some c ∧ c ≠ .confirmed ∧ ∀ t : Vote_Tally_t, subst_count t v = t.get c := by
  simp only [base_substs, List.mem_cons, List.mem_singleton, List.mem_nil_iff, or_false] at hv
  rcases hv with rfl | rfl | rfl | rfl
  · exact ⟨.a_subst, rfl, by decide, fun _ => rfl⟩
  · exact ⟨.c_subst, rfl, by decide, fun _ => rfl⟩
  · exact ⟨.g_subst, rfl, by decide, fun _ => rfl⟩
  · exact ⟨.t_subst, rfl, by decide, fun _ => rfl⟩

theorem Analyze_one_diff_counts (cfg : Config) (sub P : Int) (v : Vote_Value_t)
    (hE : 0 ≤ cfg.End_Exclude_Len) :
    ∀ (os : List Gap_Free) (Frag : Frag_t),
      (∀ o ∈ os, ∃ p, o.one_diff p v ∧ cfg.Vote_Qualify_Len ≤ o.L - 1 ∧ o.a_offset + p = P) →
      subst_count ((Frag sub).vote P) v + os.length ≤ MAX_VOTE →
      ∃ F', Analyze_Gap_Free cfg sub os Frag = some F' ∧
        ((F' sub).vote P).confirmed = ((Frag sub).vote P).confirmed ∧
        subst_count ((F' sub).vote P) v = subst_count ((Frag sub).vote P) v + os.length := by
  intro os
  induction os with
  | nil => intro Frag _ _; exact ⟨Frag, rfl, rfl, rfl⟩
  | cons o os ih =>
    intro Frag hos hn
    obtain ⟨p, hd, hq, rfl⟩ := hos o (List.mem_cons_self _ _)
    obtain ⟨c, hc, hcc, hcount⟩ := base_substs_counter v hd.2.2.1
    simp only [Analyze_Gap_Free, Analyze_one_diff cfg Frag o sub p v hd hq, Option.some_bind]
    have h1 := one_diff_vote cfg Frag o sub p v hE .confirmed
    have h2 := one_diff_vote cfg Frag o sub p v hE c
    rw [if_neg (fun h => hcc (Option.some.inj (hc.symm.trans h.1)))] at h1
    simp only [List.length_cons] at hn
    rw [hcount] at hn
    rw [if_pos ⟨hc, by omega⟩] at h2
    obtain ⟨F', hF, hF1, hF2⟩ := ih _ (fun o' ho' => hos o' (List.mem_cons_of_mem _ ho')) (by
      rw [hcount, h2]; omega)
    refine ⟨F', hF, ?_, ?_⟩
    · rw [hF1]; exact h1
    · rw [hF2, hcount, h2, hcount, List.length_cons]; omega

/-- C13: let a gap-free alignment of length `L` differ in exactly one column
`p`, where `B` has the base of the substitution vote `v`, with
`L - 1 >= Vote_Qualify_Len` (and `End_Exclude_Len >= 0`, as the command line
requires).  Then `Analyze_Alignment` returns; at position `a_offset + p` it
adds one to the counter of `v` (unless that has reached `MAX_VOTE`) and
changes no other counter, `confirmed` included; at every other position it
changes at most `confirmed`, `no_insert` and the substitution counter of the
base that `A` has there; other reads are untouched.  Hence `k <= 255` such
alignments with the same `v` at the same position, starting from zero there,
leave `confirmed = 0` and the counter of `v` equal to `k`. -/
theorem single_difference_votes (cfg : Config) (sub : Int) (hE : 0 ≤ cfg.End_Exclude_Len) :
    (∀ (Frag : Frag_t) (o : Gap_Free) (p : Int) (v : Vote_Value_t),
      o.one_diff p v → cfg.Vote_Qualify_Len ≤ o.L - 1 →
      ∃ F', Analyze_Alignment cfg Frag [] o.a_part o.b_part o.L o.L o.a_offset sub = some F' ∧
        (∀ c : Counter, ((F' sub).vote (o.a_offset + p)).get c =
          if v.counter = some c ∧ ((Frag sub).vote (o.a_offset + p)).get c < MAX_VOTE
          then ((Frag sub).vote (o.a_offset + p)).get c + 1
          else ((Frag sub).vote (o.a_offset + p)).get c) ∧
        ((F' sub).vote (o.a_offset + p)).confirmed =
          ((Frag sub).vote (o.a_offset + p)).confirmed ∧
        (∀ (k : Int) (c : Counter), k ≠ o.a_offset + p →
          ((F' sub).vote k).get c ≠ ((Frag sub).vote k).get c →
          c = .confirmed ∨ c = .no_insert ∨
            (Matching_Vote (o.a_part (k - o.a_offset))).counter = some c) ∧
        (∀ s, s ≠ sub → F' s = Frag s)) ∧
    (∀ (Frag : Frag_t) (os : List Gap_Free) (P : Int) (v : Vote_Value_t),
      (∀ o ∈ os, ∃ p, o.one_diff p v ∧ cfg.Vote_Qualify_Len ≤ o.L - 1 ∧ o.a_offset + p = P) →
      os.length ≤ MAX_VOTE →
      ((Frag sub).vote P).confirmed = 0 → subst_count ((Frag sub).vote P) v = 0 →
      ∃ F', Analyze_Gap_Free cfg sub os Frag = some F' ∧
        ((F' sub).vote P).confirmed = 0 ∧ subst_count ((F' sub).vote P) v = os.length) := by
  constructor
  · intro Frag o p v hd hq
    obtain ⟨c, hc, hcc, _⟩ := base_substs_counter v hd.2.2.1
    refine ⟨_, Analyze_one_diff cfg Frag o sub p v hd hq, one_diff_vote cfg Frag o sub p v hE,
      ?_, ?_, ?_⟩
    · have h1 := one_diff_vote cfg Frag o sub p v hE .confirmed
      rw [if_neg (fun h => hcc (Option.some.inj (hc.symm.trans h.1)))] at h1
      exact h1
    · intro k c' hk hne
      by_contra hcon
      apply hne
      have hb : Bumps_In (fun c k s => (s = sub ∧ k ≠ o.a_offset + p ∧
            (c = .confirmed ∨ c = .no_insert ∨
              (Matching_Vote (o.a_part (k - o.a_offset))).counter = some c)) ∨
            k = o.a_offset + p)
          (fun F => Tally_Run cfg o.a_part o.a_offset sub
            [⟨-1, -1, .A_SUBST⟩, ⟨p, p, v⟩, ⟨o.L, o.L, .NO_VOTE⟩] 2 2
            (Cast_Vote (Tally_Run cfg o.a_part o.a_offset sub
              [⟨-1, -1, .A_SUBST⟩, ⟨p, p, v⟩, ⟨o.L, o.L, .NO_VOTE⟩] 2 1 F)
              v (o.a_offset + p) sub)) :=
        bumps_in_comp
          (bumps_in_mono (fun _ _ _ h => Or.inl h) (one_diff_runs cfg o sub p v hE 2 (Or.inr rfl)))
          (bumps_in_comp (bumps_in_Cast_Vote _ _ _ (fun _ _ => Or.inr rfl))
            (bumps_in_mono (fun _ _ _ h => Or.inl h)
              (one_diff_runs cfg o sub p v hE 1 (Or.inl rfl))))
      exact bumps_in_frame hb Frag c' k sub (by
        rintro (h | h)
        · exact hcon h.2.2
        · exact hk h)
    · intro s hs
      have hb := bumps_in_Tally_Votes_sub cfg o.a_part o.a_offset sub
        [⟨-1, -1, .A_SUBST⟩, ⟨p, p, v⟩, ⟨o.L, o.L, .NO_VOTE⟩]
      have := bumps_in_other sub (fun _ _ _ h => h) hb Frag s hs
      rw [Tally_Votes_three] at this
      simp only [Tally_Vote] at this
      rw [(one_diff_discrepancy _ _ _ _ _ _ _).2, (one_diff_discrepancy _ _ _ _ _ _ _).1,
        if_pos hq] at this
      exact this
  · intro Frag os P v hos hlen hc hs
    obtain ⟨F', h1, h2, h3⟩ := Analyze_one_diff_counts cfg sub P v hE os Frag hos (by
      rw [hs, zero_add]; exact hlen)
    exact ⟨F', h1, by rw [h2, hc], by rw [h3, hs, zero_add]⟩

/-- Witness of C14: the exact alignment of `A_scenario` with itself under the
default configuration, once and twice. -/
theorem exact_alignment_confirms_witness :
    olap_exact.exact ∧
    (∃ F', Analyze_Alignment (Config.default 1 1) Frag_zero [] olap_exact.a_part
        olap_exact.b_part olap_exact.L olap_exact.L olap_exact.a_offset 0 = some F' ∧
      ((Config.default 1 1).Kmer_Len ≤ olap_exact.L → ∀ (k : Int) (c : Counter),
        ((F' 0).vote k).get c =
          if (olap_exact.a_offset ≤ k ∧ k < olap_exact.a_offset + olap_exact.L ∧
                (c = .confirmed ∨ (c = .no_insert ∧ k < olap_exact.a_offset + olap_exact.L - 1))) ∧
              ((Frag_zero 0).vote k).get c < MAX_VOTE
          then ((Frag_zero 0).vote k).get c + 1 else ((Frag_zero 0).vote k).get c) ∧
      (∀ s, s ≠ 0 → F' s = Frag_zero s) ∧
      (olap_exact.L < (Config.default 1 1).Kmer_Len → F' = Frag_zero)) ∧
    (∃ F', Analyze_Gap_Free (Config.default 1 1) 0 [olap_exact, olap_exact] Frag_zero = some F' ∧
      ((F' 0).vote 5).confirmed = min [olap_exact, olap_exact].length MAX_VOTE) :=
  have hex : olap_exact.exact := ⟨by decide, fun _ _ _ => rfl⟩
  ⟨hex, (exact_alignment_confirms (Config.default 1 1) 0).1 Frag_zero olap_exact hex,
    (exact_alignment_confirms (Config.default 1 1) 0).2 Frag_zero [olap_exact, olap_exact] 5
      (by
        intro o ho
        simp only [List.mem_cons, List.mem_singleton, List.mem_nil_iff, or_false, or_self] at ho
        subst ho
        exact ⟨hex, by decide, by decide, by decide⟩)
      rfl⟩

theorem olap_one_diff_spec : olap_one_diff.one_diff 12 .G_SUBST := by
  refine ⟨by decide, by decide, by decide, by decide, by decide, ?_⟩
  intro q h0 h1 hne
  have h20 : q < 20 := h1
  interval_cases q <;> first | rfl | exact absurd rfl hne

/-- Witness of C13: scenario S2, ten copies of the alignment of `A_scenario`
with `B_scenario` under the default configuration. -/
theorem single_difference_votes_witness :
    olap_one_diff.one_diff 12 .G_SUBST ∧
    (∃ F', Analyze_Gap_Free (Config.default 1 1) 0 (List.replicate 10 olap_one_diff) Frag_zero
        = some F' ∧
      ((F' 0).vote 12).confirmed = 0 ∧
      subst_count ((F' 0).vote 12) .G_SUBST = (List.replicate 10 olap_one_diff).length) ∧
    (∃ F', Analyze_Alignment (Config.default 1 1) Frag_zero [] olap_one_diff.a_part
        olap_one_diff.b_part olap_one_diff.L olap_one_diff.L olap_one_diff.a_offset 0 = some F' ∧
      (∀ c : Counter, ((F' 0).vote (olap_one_diff.a_offset + 12)).get c =
        if Vote_Value_t.G_SUBST.counter = some c ∧
            ((Frag_zero 0).vote (olap_one_diff.a_offset + 12)).get c < MAX_VOTE
        then ((Frag_zero 0).vote (olap_one_diff.a_offset + 12)).get c + 1
        else ((Frag_zero 0).vote (olap_one_diff.a_offset + 12)).get c) ∧
      ((F' 0).vote (olap_one_diff.a_offset + 12)).confirmed =
        ((Frag_zero 0).vote (olap_one_diff.a_offset + 12)).confirmed ∧
      (∀ (k : Int) (c : Counter), k ≠ olap_one_diff.a_offset + 12 →
        ((F' 0).vote k).get c ≠ ((Frag_zero 0).vote k).get c →
        c = .confirmed ∨ c = .no_insert ∨
          (Matching_Vote (olap_one_diff.a_part (k - olap_one_diff.a_offset))).counter = some c) ∧
      (∀ s, s ≠ 0 → F' s = Frag_zero s)) :=
  ⟨olap_one_diff_spec,
    (single_difference_votes (Config.default 1 1) 0 (by decide)).2 Frag_zero
      (List.replicate 10 olap_one_diff) 12 .G_SUBST
      (by
        intro o ho
        have := (List.mem_replicate.mp ho).2
        subst this
        exact ⟨12, olap_one_diff_spec, by decide, by decide⟩)
      (by decide) rfl rfl,
    (single_difference_votes (Config.default 1 1) 0 (by decide)).1 Frag_zero olap_one_diff 12
      .G_SUBST olap_one_diff_spec (by decide)⟩

/-! ## Theorems: when a discrepancy vote is cast, and short matched runs -/

theorem subst_actions_iff (v : Vote_Value_t) :
    v.toInt ≤ Vote_Value_t.T_SUBST.toInt ↔ v ∈ subst_actions := by
  cases v <;> simp [Vote_Value_t.toInt, subst_actions]

/-- C15 (amended): in `Analyze_Alignment` the discrepancy vote `V [i]` is cast
exactly when `i < ct`, and `prev_match > 0` or at least one of `V [i - 1]`,
`V [i]` is a deletion or substitution vote (so not both are insertion votes),
and `prev_match + next_match >= Vote_Qualify_Len`; in every other case the
tallies stay as they are. -/
theorem discrepancy_cast_iff (cfg : Config) (a_offset sub : Int) (vote : List Vote_t)
    (ct i : Nat) (Frag : Frag_t) :
    Tally_Discrepancy cfg a_offset sub vote ct i Frag =
      if i < ct ∧
          (prev_match vote i > 0 ∨ (vote_at vote (i - 1)).vote_val ∈ subst_actions ∨
            (vote_at vote i).vote_val ∈ subst_actions) ∧
          prev_match vote i + next_match vote i ≥ cfg.Vote_Qualify_Len
      then Cast_Vote Frag (vote_at vote i).vote_val (a_offset + (vote_at vote i).frag_sub) sub
      else Frag := by
  unfold Tally_Discrepancy prev_match next_match
  simp only [subst_actions_iff]
  by_cases h1 : i < ct ∧ ((vote_at vote i).align_sub - (vote_at vote (i - 1)).align_sub - 1 > 0 ∨
      (vote_at vote (i - 1)).vote_val ∈ subst_actions ∨ (vote_at vote i).vote_val ∈ subst_actions)
  · rw [if_pos h1]
    by_cases h2 : (vote_at vote i).align_sub - (vote_at vote (i - 1)).align_sub - 1 +
        ((vote_at vote (i + 1)).align_sub - (vote_at vote i).align_sub - 1) ≥ cfg.Vote_Qualify_Len
    · rw [if_pos h2, if_pos ⟨h1.1, h1.2, h2⟩]
    · rw [if_neg h2, if_neg (fun h => h2 h.2.2)]
  · rw [if_neg h1, if_neg (fun h => h1 ⟨h.1, h.2.1⟩)]

/-- C15 as stated fails.  In the alignment of `A_adjacent` with `B_adjacent`
(delta `[-3]`) the vote list is the sentinel, a `G_INSERT` vote in column 2, a
`T_SUBST` vote in column 3 and the end sentinel: for `i = 2` there is no
matched column between `V [1]` and `V [2]` and `V [1]` is not a substitution
vote, yet `V [2]` is cast (`t_subst` at position 2 goes from 0 to 1).  In the
alignment of `A_two_deletes` with `B_two_deletes` (delta `[3, 1]`) the votes
`V [1]` and `V [2]` are `DELETE` votes in columns 2 and 3, neither of them a
substitution vote, and `V [2]` is cast (`deletes` at position 3 goes from 0 to
1). -/
theorem insert_then_subst_is_cast :
    (Build_Votes [-3] (charAt A_adjacent) (charAt B_adjacent) 13 14 =
      some [⟨-1, -1, .A_SUBST⟩, ⟨1, 2, .G_INSERT⟩, ⟨2, 3, .T_SUBST⟩, ⟨13, 14, .NO_VOTE⟩] ∧
    ¬ (prev_match [⟨-1, -1, .A_SUBST⟩, ⟨1, 2, .G_INSERT⟩, ⟨2, 3, .T_SUBST⟩, ⟨13, 14, .NO_VOTE⟩] 2
          > 0 ∨
        (Vote_Value_t.G_INSERT ∈ base_substs ∧ Vote_Value_t.T_SUBST ∈ base_substs)) ∧
    ((Frag_zero 0).vote 2).t_subst = 0 ∧
    (Analyze_Alignment (Config.default 1 1) Frag_zero [-3] (charAt A_adjacent)
      (charAt B_adjacent) 13 14 0 0).map (fun F => ((F 0).vote 2).t_subst) = some 1) ∧
    (Build_Votes [3, 1] (charAt A_two_deletes) (charAt B_two_deletes) 15 13 =
      some [⟨-1, -1, .A_SUBST⟩, ⟨2, 2, .DELETE⟩, ⟨3, 3, .DELETE⟩, ⟨15, 15, .NO_VOTE⟩] ∧
    ¬ (prev_match [⟨-1, -1, .A_SUBST⟩, ⟨2, 2, .DELETE⟩, ⟨3, 3, .DELETE⟩, ⟨15, 15, .NO_VOTE⟩] 2
          > 0 ∨
        (Vote_Value_t.DELETE ∈ base_substs ∧ Vote_Value_t.DELETE ∈ base_substs)) ∧
    ((Frag_zero 0).vote 3).deletes = 0 ∧
    (Analyze_Alignment (Config.default 1 1) Frag_zero [3, 1] (charAt A_two_deletes)
      (charAt B_two_deletes) 15 13 0 0).map (fun F => ((F 0).vote 3).deletes) = some 1) := by
  decide

set_option maxRecDepth 100000 in
/-- C16 fails on the code: with `Kmer_Len = 4` and `End_Exclude_Len = 3` the
alignment of `A_short_run` with `B_short_run` has mismatches in columns 0 and 5
and between them a matched run of four columns, positions 1 to 4.  The loop
over the first three positions of the run and the loop over its last three
positions both cast a matching vote at positions 2 and 3, which end with two
votes each. -/
theorem short_run_votes_twice :
    Build_Votes [] (charAt A_short_run) (charAt B_short_run) 16 16 =
      some [⟨-1, -1, .A_SUBST⟩, ⟨0, 0, .G_SUBST⟩, ⟨5, 5, .G_SUBST⟩, ⟨16, 16, .NO_VOTE⟩] ∧
    (Analyze_Alignment Config.kmer_4 Frag_zero [] (charAt A_short_run)
      (charAt B_short_run) 16 16 0 0).map
        (fun F => (((F 0).vote 1).a_subst, ((F 0).vote 2).c_subst, ((F 0).vote 3).g_subst,
          ((F 0).vote 4).t_subst)) = some (1, 2, 2, 1) := by
  decide

theorem Cast_Vote_vote (F : Frag_t) (val : Vote_Value_t) (k sub s q : Int) :
    ((Cast_Vote F val k sub) s).vote q =
      if s = sub ∧ q = k then ((F s).vote q).cast val else (F s).vote q := by
  rw [Cast_Vote_eq_bump]
  unfold Vote_Tally_t.cast
  cases val.counter with
  | none => simp
  | some c => simp only [bump_at_vote]

theorem for_loop_pointwise (sub base lo hi : Int) (body : Int → Frag_t → Frag_t)
    (g : Int → Vote_Tally_t → Vote_Tally_t)
    (hbody : ∀ (p : Int) (F : Frag_t) (s q : Int), ((body p F) s).vote q =
      if s = sub ∧ q = base + p then g p ((F s).vote q) else (F s).vote q)
    (F : Frag_t) (s q : Int) :
    ((for_loop lo hi body F) s).vote q =
      if s = sub ∧ base + lo ≤ q ∧ q < base + hi then g (q - base) ((F s).vote q)
      else (F s).vote q := by
  unfold for_loop
  rw [range_pointwise (fun (j : Nat) F => body (lo + (j : Int)) F) sub (base + lo)
    (fun j t => g (lo + (j : Int)) t)]
  · by_cases h : s = sub ∧ base + lo ≤ q ∧ q < base + hi
    · rw [if_pos ⟨h.1, h.2.1, by omega⟩, if_pos h]
      congr 1
      omega
    · rw [if_neg h, if_neg (fun h' => h ⟨h'.1, h'.2.1, by omega⟩)]
  · intro j F s q
    rw [hbody]
    by_cases h : s = sub ∧ q = base + (lo + (j : Int))
    · rw [if_pos h, if_pos ⟨h.1, by omega⟩]
    · rw [if_neg h, if_neg (fun h' => h ⟨h'.1, by omega⟩)]

/-- The matched run before `vote [i]`, when it has at least `Kmer_Len` columns
and its two excluded ends do not overlap (`p_lo <= p_hi`): `Tally_Run` updates
each position of the run exactly once, as `run_update` says, and no other
position; a run of fewer than `Kmer_Len` columns updates nothing. -/
theorem Tally_Run_once (cfg : Config) (a_part : Int → Char) (a_offset sub : Int)
    (vote : List Vote_t) (ct i : Nat) (Frag : Frag_t)
    (hlo : 0 ≤ (if i = 1 then 0 else cfg.End_Exclude_Len))
    (hmid : (if i = 1 then 0 else cfg.End_Exclude_Len) ≤
      (if i = ct then prev_match vote i else prev_match vote i - cfg.End_Exclude_Len))
    (hhi : (if i = ct then prev_match vote i else prev_match vote i - cfg.End_Exclude_Len) ≤
      prev_match vote i) :
    (cfg.Kmer_Len ≤ prev_match vote i → ∀ s q : Int,
      ((Tally_Run cfg a_part a_offset sub vote ct i Frag) s).vote q =
        if s = sub ∧ a_offset + (vote_at vote (i - 1)).frag_sub + 1 ≤ q ∧
            q < a_offset + (vote_at vote (i - 1)).frag_sub + 1 + prev_match vote i
        then run_update cfg ct i (prev_match vote i)
          (q - (a_offset + (vote_at vote (i - 1)).frag_sub + 1))
          (a_part (q - a_offset)) ((Frag s).vote q)
        else (Frag s).vote q) ∧
    (prev_match vote i < cfg.Kmer_Len →
      Tally_Run cfg a_part a_offset sub vote ct i Frag = Frag) := by
  unfold prev_match at *
  constructor
  · intro hk s q
    unfold Tally_Run
    simp only [ge_iff_le]
    rw [if_pos hk]
    generalize hM : (vote_at vote i).align_sub - (vote_at vote (i - 1)).align_sub - 1 = M
      at hmid hhi hk
    generalize hfs : (vote_at vote (i - 1)).frag_sub = fs
    generalize hplo : (if i = 1 then 0 else cfg.End_Exclude_Len) = p_lo at hlo hmid
    generalize hphi : (if i = ct then M else M - cfg.End_Exclude_Len) = p_hi at hmid hhi
    have hcast : ∀ (p : Int) (F : Frag_t) (s q : Int),
        ((Cast_Vote F (Matching_Vote (a_part (fs + p + 1))) (a_offset + fs + p + 1) sub) s).vote q
          = if s = sub ∧ q = (a_offset + fs + 1) + p
            then ((F s).vote q).cast (Matching_Vote (a_part (fs + p + 1))) else (F s).vote q := by
      intro p F s q
      rw [show a_offset + fs + p + 1 = a_offset + fs + 1 + p by ring, Cast_Vote_vote]
    have hconf : ∀ (p : Int) (F : Frag_t) (s q : Int),
        ((Confirm F p p_hi (a_offset + fs + p + 1) sub) s).vote q
          = if s = sub ∧ q = (a_offset + fs + 1) + p
            then (if p < p_hi - 1 then (((F s).vote q).bump .confirmed).bump .no_insert
              else ((F s).vote q).bump .confirmed) else (F s).vote q := by
      intro p F s q
      rw [show a_offset + fs + p + 1 = a_offset + fs + 1 + p by ring, Confirm_vote]
    rw [for_loop_pointwise sub (a_offset + fs + 1) p_hi M _
        (fun p t => t.cast (Matching_Vote (a_part (fs + p + 1)))) hcast,
      for_loop_pointwise sub (a_offset + fs + 1) p_lo p_hi _
        (fun p t => if p < p_hi - 1 then (t.bump .confirmed).bump .no_insert
          else t.bump .confirmed) hconf,
      for_loop_pointwise sub (a_offset + fs + 1) 0 p_lo _
        (fun p t => t.cast (Matching_Vote (a_part (fs + p + 1)))) hcast]
    unfold run_update
    simp only [hplo, hphi]
    have hch : a_part (fs + (q - (a_offset + fs + 1)) + 1) = a_part (q - a_offset) := by
      congr 1; ring
    by_cases hs : s = sub
    · by_cases h1 : a_offset + fs + 1 + 0 ≤ q ∧ q < a_offset + fs + 1 + p_lo
      · have n3 : ¬ (s = sub ∧ a_offset + fs + 1 + p_hi ≤ q ∧ q < a_offset + fs + 1 + M) :=
          fun h => by omega
        have n2 : ¬ (s = sub ∧ a_offset + fs + 1 + p_lo ≤ q ∧ q < a_offset + fs + 1 + p_hi) :=
          fun h => by omega
        have r5 : s = sub ∧ a_offset + fs + 1 ≤ q ∧ q < a_offset + fs + 1 + M :=
          ⟨hs, by omega, by omega⟩
        have r4 : q - (a_offset + fs + 1) < p_lo ∨ p_hi ≤ q - (a_offset + fs + 1) :=
          Or.inl (by omega)
        rw [if_pos r5, if_pos r4, if_neg n3, if_neg n2, if_pos ⟨hs, h1⟩, hch]
      · have n1 : ¬ (s = sub ∧ a_offset + fs + 1 + 0 ≤ q ∧ q < a_offset + fs + 1 + p_lo) :=
          fun h => h1 h.2
        by_cases h2 : a_offset + fs + 1 + p_lo ≤ q ∧ q < a_offset + fs + 1 + p_hi
        · have n3 : ¬ (s = sub ∧ a_offset + fs + 1 + p_hi ≤ q ∧ q < a_offset + fs + 1 + M) :=
            fun h => by omega
          have n4 : ¬ (q - (a_offset + fs + 1) < p_lo ∨ p_hi ≤ q - (a_offset + fs + 1)) :=
            fun h => by omega
          have r5 : s = sub ∧ a_offset + fs + 1 ≤ q ∧ q < a_offset + fs + 1 + M :=
            ⟨hs, by omega, by omega⟩
          rw [if_pos r5, if_neg n4, if_neg n3, if_pos ⟨hs, h2⟩, if_neg n1]
        · have n2 : ¬ (s = sub ∧ a_offset + fs + 1 + p_lo ≤ q ∧ q < a_offset + fs + 1 + p_hi) :=
            fun h => h2 h.2
          by_cases h3 : a_offset + fs + 1 + p_hi ≤ q ∧ q < a_offset + fs + 1 + M
          · have r5 : s = sub ∧ a_offset + fs + 1 ≤ q ∧ q < a_offset + fs + 1 + M :=
              ⟨hs, by omega, by omega⟩
            have r4 : q - (a_offset + fs + 1) < p_lo ∨ p_hi ≤ q - (a_offset + fs + 1) :=
              Or.inr (by omega)
            rw [if_pos r5, if_pos r4, if_pos ⟨hs, h3⟩, if_neg n2, if_neg n1, hch]
          · have n3 : ¬ (s = sub ∧ a_offset + fs + 1 + p_hi ≤ q ∧ q < a_offset + fs + 1 + M) :=
              fun h => h3 h.2
            have n5 : ¬ (s = sub ∧ a_offset + fs + 1 ≤ q ∧ q < a_offset + fs + 1 + M) :=
              fun h => by omega
            rw [if_neg n5, if_neg n3, if_neg n2, if_neg n1]
    · have n1 : ¬ (s = sub ∧ a_offset + fs + 1 + 0 ≤ q ∧ q < a_offset + fs + 1 + p_lo) :=
        fun h => hs h.1
      have n2 : ¬ (s = sub ∧ a_offset + fs + 1 + p_lo ≤ q ∧ q < a_offset + fs + 1 + p_hi) :=
        fun h => hs h.1
      have n3 : ¬ (s = sub ∧ a_offset + fs + 1 + p_hi ≤ q ∧ q < a_offset + fs + 1 + M) :=
        fun h => hs h.1
      have n5 : ¬ (s = sub ∧ a_offset + fs + 1 ≤ q ∧ q < a_offset + fs + 1 + M) :=
        fun h => hs h.1
      rw [if_neg n5, if_neg n3, if_neg n2, if_neg n1]
  · intro hk
    unfold Tally_Run
    simp only [ge_iff_le]
    rw [if_neg (by omega)]

/-! ## Theorems: when the analysis of an alignment is fatal -/

theorem subst_vote_none (ch : Char) : subst_vote ch = none ↔ is_base ch = false := by
  unfold subst_vote is_base
  split_ifs <;> simp_all

theorem insert_vote_none (ch : Char) : insert_vote ch = none ↔ is_base ch = false := by
  unfold insert_vote is_base
  split_ifs <;> simp_all

theorem walk_column_spec (a b : Int → Char) (w : Align_Walk) :
    (walk_column a b w = none ↔ (Column.aligned w.i w.j).fatal a b = true) ∧
    (∀ w', walk_column a b w = some w' → w'.i = w.i + 1 ∧ w'.j = w.j + 1) := by
  unfold walk_column
  simp only [Column.fatal, Bool.and_eq_true, bne_iff_ne, ne_eq, Bool.not_eq_eq_eq_not,
    Bool.not_true]
  by_cases h : a w.i = b w.j
  · simp only [h, not_true_eq_false, if_false, false_and, iff_false]
    refine ⟨by simp, ?_⟩
    intro w' hw
    simp only [Option.some.injEq] at hw
    subst hw
    exact ⟨rfl, rfl⟩
  · simp only [h, not_false_eq_true, if_true, true_and]
    cases hv : subst_vote (b w.j) with
    | none =>
      simp only [true_iff]
      exact ⟨(subst_vote_none _).mp hv, fun w' hw => by simp at hw⟩
    | some v =>
      constructor
      · simp only [reduceCtorEq, false_iff]
        intro hb
        rw [(subst_vote_none _).mpr hb] at hv
        simp at hv
      · intro w' hw
        simp only [Option.some.injEq] at hw
        subst hw
        exact ⟨rfl, rfl⟩

theorem walk_columns_spec (a b : Int → Char) : ∀ (k : Nat) (w : Align_Walk),
    (walk_columns a b k w = none ↔ ∃ c ∈ aligned_columns w.i w.j k, c.fatal a b = true) ∧
    (∀ w', walk_columns a b k w = some w' → w'.i = w.i + k ∧ w'.j = w.j + k) := by
  intro k
  induction k with
  | zero =>
    intro w
    simp only [walk_columns, aligned_columns, List.not_mem_nil, false_and, exists_false,
      iff_false, Nat.cast_zero, add_zero]
    refine ⟨by simp, ?_⟩
    intro w' hw
    simp only [Option.some.injEq] at hw
    subst hw
    exact ⟨rfl, rfl⟩
  | succ k ih =>
    intro w
    obtain ⟨h1, h2⟩ := walk_column_spec a b w
    simp only [walk_columns, aligned_columns, List.mem_cons, exists_eq_or_imp]
    cases hw : walk_column a b w with
    | none =>
      simp only [Option.none_bind, true_iff]
      exact ⟨Or.inl (h1.mp hw), fun w' h => by simp at h⟩
    | some w1 =>
      obtain ⟨e1, e2⟩ := h2 w1 hw
      obtain ⟨i1, i2⟩ := ih w1
      simp only [Option.some_bind]
      rw [e1, e2] at i1 i2
      constructor
      · rw [i1]
        constructor
        · intro h; exact Or.inr h
        · rintro (h | h)
          · rw [h1.mpr h] at hw; simp at hw
          · exact h
      · intro w' hw'
        obtain ⟨j1, j2⟩ := i2 w' hw'
        push_cast
        exact ⟨by omega, by omega⟩

theorem walk_delta_spec (a b : Int → Char) (a_len : Int) : ∀ (delta : List Int) (w : Align_Walk),
    ((walk_delta a b delta w).bind (fun w => walk_columns a b (a_len - w.i).toNat w) = none ↔
      ∃ c ∈ alignment_columns a_len delta w.i w.j, c.fatal a b = true) := by
  intro delta
  induction delta with
  | nil =>
    intro w
    simp only [walk_delta, Option.some_bind, alignment_columns]
    exact (walk_columns_spec a b _ w).1
  | cons d ds ih =>
    intro w
    simp only [walk_delta, walk_entry, alignment_columns, List.mem_append, or_and_right,
      exists_or]
    obtain ⟨h1, h2⟩ := walk_columns_spec a b (d.natAbs - 1) w
    cases hw : walk_columns a b (d.natAbs - 1) w with
    | none =>
      simp only [Option.none_bind, true_iff]
      exact Or.inl (h1.mp hw)
    | some w1 =>
      obtain ⟨e1, e2⟩ := h2 w1 hw
      have hno : ¬ ∃ c ∈ aligned_columns w.i w.j (d.natAbs - 1), c.fatal a b = true := by
        intro h; rw [h1.mpr h] at hw; simp at hw
      simp only [Option.some_bind, hno, false_or]
      have hdel : ∀ i, (Column.deletion i).fatal a b = false := fun _ => rfl
      have hins : ∀ j, (Column.insertion j).fatal a b = !is_base (b j) := fun _ => rfl
      by_cases hd : d < 0
      · simp only [hd, if_true, List.mem_cons, exists_eq_or_imp, hins,
          Bool.not_eq_eq_eq_not, Bool.not_true]
        cases hv : insert_vote (b w1.j) with
        | none =>
          simp only [Option.none_bind, true_iff]
          left
          rw [← e2]
          exact (insert_vote_none _).mp hv
        | some v =>
          simp only [Option.some_bind]
          rw [ih]
          simp only [← e1, ← e2]
          constructor
          · intro h; exact Or.inr h
          · rintro (h | h)
            · rw [(insert_vote_none _).mpr h] at hv; simp at hv
            · exact h
      · simp only [hd, if_false, List.mem_cons, exists_eq_or_imp, hdel,
          Bool.false_eq_true, false_or, Option.some_bind]
        rw [ih]
        simp only [← e1, ← e2]

/-- C17: `Analyze_Alignment` ends in `exit (1)` if and only if `a_len < 0` or
`b_len < 0`, or some mismatching column or insertion column of the alignment
has a character of `B` that is not one of `a`, `c`, `g`, `t`.  The failure is
decided by the construction of the vote list alone, which does not touch
`Frag`: the call is fatal exactly when `Build_Votes` is, before the loop that
updates the tallies. -/
theorem analyze_fatal_iff (cfg : Config) (Frag : Frag_t) (delta : List Int)
    (a_part b_part : Int → Char) (a_len b_len a_offset sub : Int) :
    (Analyze_Alignment cfg Frag delta a_part b_part a_len b_len a_offset sub = none ↔
      a_len < 0 ∨ b_len < 0 ∨
        ∃ c ∈ alignment_columns a_len delta 0 0, c.fatal a_part b_part = true) ∧
    (Analyze_Alignment cfg Frag delta a_part b_part a_len b_len a_offset sub = none ↔
      Build_Votes delta a_part b_part a_len b_len = none) := by
  have h2 : Analyze_Alignment cfg Frag delta a_part b_part a_len b_len a_offset sub = none ↔
      Build_Votes delta a_part b_part a_len b_len = none := by
    unfold Analyze_Alignment
    simp
  refine ⟨?_, h2⟩
  rw [h2]
  unfold Build_Votes
  by_cases hl : a_len < 0 ∨ b_len < 0
  · rw [if_pos hl]
    simp only [true_iff]
    rcases hl with h | h
    · exact Or.inl h
    · exact Or.inr (Or.inl h)
  · rw [if_neg hl]
    have := walk_delta_spec a_part b_part a_len delta ⟨0, 0, 0, [⟨-1, -1, .A_SUBST⟩]⟩
    simp only at this
    rw [← this]
    push_neg at hl
    constructor
    · intro h
      right; right
      cases hw : walk_delta a_part b_part delta ⟨0, 0, 0, [⟨-1, -1, .A_SUBST⟩]⟩ with
      | none => rfl
      | some w =>
        rw [hw] at h
        simp only [Option.some_bind] at h ⊢
        cases hc : walk_columns a_part b_part (a_len - w.i).toNat w with
        | none => rfl
        | some w2 => rw [hc] at h; simp at h
    · rintro (h | h | h)
      · omega
      · omega
      · cases hw : walk_delta a_part b_part delta ⟨0, 0, 0, [⟨-1, -1, .A_SUBST⟩]⟩ with
        | none => rfl
        | some w =>
          rw [hw] at h
          simp only [Option.some_bind] at h ⊢
          rw [h]
          rfl

/-! ## Theorems: processing one overlap -/

theorem PED_Post.bounds {A T : Int → Char} {m n Error_Limit : Int} {r : PED_Result}
    (h : PED_Post A T m n Error_Limit r) :
    0 ≤ r.A_End ∧ r.A_End ≤ m ∧ 0 ≤ r.T_End ∧ r.T_End ≤ n := by
  obtain ⟨k, _, _, htr, _⟩ := h
  have h1 := htr.nonneg
  have h2 := htr.le
  exact ⟨h1.1, h2.1, by omega, by omega⟩

theorem strlen_nonneg (s : List Char) (off : Int) : 0 ≤ strlen s off := by
  unfold strlen
  exact Int.natCast_nonneg _

theorem bump_degrees_vote (Frag : Frag_t) (sub a_hang b_hang s : Int) :
    (bump_degrees Frag sub a_hang b_hang s).vote = (Frag s).vote ∧
    (bump_degrees Frag sub a_hang b_hang s).sequence = (Frag s).sequence ∧
    (bump_degrees Frag sub a_hang b_hang s).clear_len = (Frag s).clear_len ∧
    (bump_degrees Frag sub a_hang b_hang s).shredded = (Frag s).shredded := by
  unfold bump_degrees
  by_cases h : s = sub
  · rw [if_pos h]; exact ⟨rfl, rfl, rfl, rfl⟩
  · rw [if_neg h]; exact ⟨rfl, rfl, rfl, rfl⟩

theorem bump_degrees_degrees (Frag : Frag_t) (sub a_hang b_hang s : Int) :
    (bump_degrees Frag sub a_hang b_hang s).left_degree =
      (if s = sub ∧ a_hang ≤ 0 ∧ (Frag s).left_degree < MAX_DEGREE
        then (Frag s).left_degree + 1 else (Frag s).left_degree) ∧
    (bump_degrees Frag sub a_hang b_hang s).right_degree =
      (if s = sub ∧ b_hang ≥ 0 ∧ (Frag s).right_degree < MAX_DEGREE
        then (Frag s).right_degree + 1 else (Frag s).right_degree) := by
  unfold bump_degrees
  by_cases h : s = sub
  · rw [if_pos h]
    constructor
    · show (if _ then _ else _) = _
      by_cases h2 : a_hang ≤ 0 ∧ (Frag s).left_degree < MAX_DEGREE
      · rw [if_pos h2, if_pos ⟨h, h2⟩]
      · rw [if_neg h2, if_neg (fun h' => h2 h'.2)]
    · show (if _ then _ else _) = _
      by_cases h2 : b_hang ≥ 0 ∧ (Frag s).right_degree < MAX_DEGREE
      · rw [if_pos h2, if_pos ⟨h, h2⟩]
      · rw [if_neg h2, if_neg (fun h' => h2 h'.2)]
  · rw [if_neg h, if_neg (fun h' => h h'.1), if_neg (fun h' => h h'.1)]
    exact ⟨rfl, rfl⟩

theorem setup_eq (cfg : Config) (rc : List Char → List Char)
    (olap : Olap_Info_t) (b_seq : List Char) (shredded : Bool) (st : Olap_State)
    (seq : List Char)
    (h1 : ¬ (shredded = true ∧ (st.Frag (olap.a_iid - cfg.Lo_Frag_IID)).shredded = true))
    (h2 : (st.Frag (olap.a_iid - cfg.Lo_Frag_IID)).sequence = some seq) :
    ∃ su : Olap_Setup,
      su.Frag = bump_degrees st.Frag (olap.a_iid - cfg.Lo_Frag_IID) olap.a_hang olap.b_hang ∧
      su.sub = olap.a_iid - cfg.Lo_Frag_IID ∧ 0 ≤ su.a_part_len ∧ 0 ≤ su.b_part_len ∧
      (Process_Olap_setup cfg rc olap b_seq shredded st = none ∨
        Process_Olap_setup cfg rc olap b_seq shredded st = some (some su)) ∧
      ((charAt (if olap.orient = NORMAL then b_seq
              else if olap.orient = NORMAL ∨ st.rev_id = olap.b_iid then st.rev_seq
                else rc (b_seq.takeWhile (fun c => c ≠ NUL)))
              (if olap.a_hang < 0 then - olap.a_hang else 0)).isAlpha = true →
        (charAt (if olap.orient = NORMAL ∨ st.rev_id = olap.b_iid then st.rev_seq
                else rc (b_seq.takeWhile (fun c => c ≠ NUL))) 0).isAlpha = true →
        Process_Olap_setup cfg rc olap b_seq shredded st = some (some su)) := by
  refine ⟨{ Frag := bump_degrees st.Frag (olap.a_iid - cfg.Lo_Frag_IID) olap.a_hang olap.b_hang,
            sub := olap.a_iid - cfg.Lo_Frag_IID,
            a_part := fun i => charAt seq ((if olap.a_hang > 0 then olap.a_hang else 0) + i),
            b_part := fun i => charAt (if olap.orient = NORMAL then b_seq
                    else if olap.orient = NORMAL ∨ st.rev_id = olap.b_iid then st.rev_seq
                      else rc (b_seq.takeWhile (fun c => c ≠ NUL)))
                  ((if olap.a_hang < 0 then - olap.a_hang else 0) + i),
            a_offset := if olap.a_hang > 0 then olap.a_hang else 0,
            a_part_len := strlen seq (if olap.a_hang > 0 then olap.a_hang else 0),
            b_part_len := strlen (if olap.orient = NORMAL then b_seq
                    else if olap.orient = NORMAL ∨ st.rev_id = olap.b_iid then st.rev_seq
                      else rc (b_seq.takeWhile (fun c => c ≠ NUL)))
                  (if olap.a_hang < 0 then - olap.a_hang else 0),
            rev_seq := if olap.orient = NORMAL ∨ st.rev_id = olap.b_iid then st.rev_seq
                      else rc (b_seq.takeWhile (fun c => c ≠ NUL)),
            rev_id := if olap.orient = NORMAL then st.rev_id else olap.b_iid },
    rfl, rfl, strlen_nonneg _ _, strlen_nonneg _ _, ?_, ?_⟩
  · by_cases hc : (charAt (if olap.orient = NORMAL then b_seq
              else if olap.orient = NORMAL ∨ st.rev_id = olap.b_iid then st.rev_seq
                else rc (b_seq.takeWhile (fun c => c ≠ NUL)))
              (if olap.a_hang < 0 then - olap.a_hang else 0)).isAlpha = false ∨
            (charAt (if olap.orient = NORMAL ∨ st.rev_id = olap.b_iid then st.rev_seq
                else rc (b_seq.takeWhile (fun c => c ≠ NUL))) 0).isAlpha = false
    · left
      unfold Process_Olap_setup
      simp only
      rw [if_neg h1]
      simp only [h2]
      rw [if_pos hc]
    · right
      unfold Process_Olap_setup
      simp only
      rw [if_neg h1]
      simp only [h2]
      rw [if_neg hc]
  · intro h3 h4
    unfold Process_Olap_setup
    simp only
    rw [if_neg h1]
    simp only [h2]
    rw [if_neg (by rw [h3, h4]; simp)]

theorem setup_some (cfg : Config) (rc : List Char → List Char)
    (olap : Olap_Info_t) (b_seq : List Char) (shredded : Bool) (st : Olap_State)
    (su : Olap_Setup)
    (h : Process_Olap_setup cfg rc olap b_seq shredded st = some (some su)) :
    ¬ (shredded = true ∧ (st.Frag (olap.a_iid - cfg.Lo_Frag_IID)).shredded = true) ∧
    su.Frag = bump_degrees st.Frag (olap.a_iid - cfg.Lo_Frag_IID) olap.a_hang olap.b_hang ∧
    su.sub = olap.a_iid - cfg.Lo_Frag_IID ∧ 0 ≤ su.a_part_len ∧ 0 ≤ su.b_part_len := by
  by_cases h1 : shredded = true ∧ (st.Frag (olap.a_iid - cfg.Lo_Frag_IID)).shredded = true
  · unfold Process_Olap_setup at h
    simp only at h
    rw [if_pos h1] at h
    simp at h
  · refine ⟨h1, ?_⟩
    cases hs : (st.Frag (olap.a_iid - cfg.Lo_Frag_IID)).sequence with
    | none =>
      unfold Process_Olap_setup at h
      simp only at h
      rw [if_neg h1] at h
      simp [hs] at h
    | some seq =>
      obtain ⟨su0, e1, e2, e3, e4, e5, _⟩ := setup_eq cfg rc olap b_seq shredded st seq h1 hs
      rcases e5 with e5 | e5
      · rw [e5] at h; simp at h
      · rw [e5] at h
        simp only [Option.some.injEq] at h
        subst h
        exact ⟨e1, e2, e3, e4⟩

theorem setup_skip (cfg : Config) (rc : List Char → List Char)
    (olap : Olap_Info_t) (b_seq : List Char) (shredded : Bool) (st : Olap_State) :
    Process_Olap_setup cfg rc olap b_seq shredded st = some none ↔
      (shredded = true ∧ (st.Frag (olap.a_iid - cfg.Lo_Frag_IID)).shredded = true) := by
  by_cases h1 : shredded = true ∧ (st.Frag (olap.a_iid - cfg.Lo_Frag_IID)).shredded = true
  · unfold Process_Olap_setup
    simp only
    rw [if_pos h1]
    simp [h1]
  · simp only [h1, iff_false]
    cases hs : (st.Frag (olap.a_iid - cfg.Lo_Frag_IID)).sequence with
    | none =>
      unfold Process_Olap_setup
      simp only
      rw [if_neg h1]
      simp [hs]
    | some seq =>
      obtain ⟨su0, _, _, _, _, e5, _⟩ := setup_eq cfg rc olap b_seq shredded st seq h1 hs
      rcases e5 with e5 | e5 <;> rw [e5] <;> simp

theorem setup_returns (cfg : Config) (rc : List Char → List Char)
    (olap : Olap_Info_t) (b_seq : List Char) (shredded : Bool) (st : Olap_State)
    (seq : List Char)
    (h1 : ¬ (shredded = true ∧ (st.Frag (olap.a_iid - cfg.Lo_Frag_IID)).shredded = true))
    (h2 : (st.Frag (olap.a_iid - cfg.Lo_Frag_IID)).sequence = some seq)
    (h3 : (charAt (if olap.orient = NORMAL then b_seq
          else if olap.orient = NORMAL ∨ st.rev_id = olap.b_iid then st.rev_seq
            else rc (b_seq.takeWhile (fun c => c ≠ NUL)))
          (if olap.a_hang < 0 then - olap.a_hang else 0)).isAlpha = true)
    (h4 : (charAt (if olap.orient = NORMAL ∨ st.rev_id = olap.b_iid then st.rev_seq
            else rc (b_seq.takeWhile (fun c => c ≠ NUL))) 0).isAlpha = true) :
    ∃ su, Process_Olap_setup cfg rc olap b_seq shredded st = some (some su) := by
  obtain ⟨su0, _, _, _, _, _, e6⟩ := setup_eq cfg rc olap b_seq shredded st seq h1 h2
  exact ⟨su0, e6 h3 h4⟩

theorem ends_some (tb : Tables) (su : Olap_Setup) (edit_array : Edit_Array) (al : Olap_Aligned)
    (h : Process_Olap_ends tb su edit_array = some al) :
    al.Frag = su.Frag ∧ al.sub = su.sub := by
  unfold Process_Olap_ends at h
  simp only at h
  cases hr : Prefix_Edit_Dist tb su.a_part su.a_part_len su.b_part su.b_part_len
      (tb.Error_Bound (OVL_Min_int su.a_part_len su.b_part_len)) edit_array with
  | none => simp [hr] at h
  | some r =>
    simp only [hr] at h
    split at h
    · simp at h
    · simp only [Option.some.injEq] at h
      subst h
      exact ⟨rfl, rfl⟩

theorem ends_returns (tb : Tables) (su : Olap_Setup) (edit_array : Edit_Array)
    (ha : 0 ≤ su.a_part_len) (hb : 0 ≤ su.b_part_len) :
    ∃ al, Process_Olap_ends tb su edit_array = some al := by
  unfold Process_Olap_ends
  simp only
  obtain ⟨r, hr, hpost⟩ := Prefix_Edit_Dist_spec tb su.a_part su.a_part_len su.b_part
    su.b_part_len (tb.Error_Bound (OVL_Min_int su.a_part_len su.b_part_len)) edit_array ha hb
  simp only [hr]
  obtain ⟨b1, b2, b3, b4⟩ := hpost.bounds
  rw [if_neg (by omega)]
  exact ⟨_, rfl⟩

theorem align_some (cfg : Config) (tb : Tables) (rc : List Char → List Char)
    (olap : Olap_Info_t) (b_seq : List Char) (shredded : Bool) (st : Olap_State)
    (al : Olap_Aligned)
    (h : Process_Olap_align cfg tb rc olap b_seq shredded st = some (some al)) :
    ¬ (shredded = true ∧ (st.Frag (olap.a_iid - cfg.Lo_Frag_IID)).shredded = true) ∧
    al.Frag = bump_degrees st.Frag (olap.a_iid - cfg.Lo_Frag_IID) olap.a_hang olap.b_hang ∧
    al.sub = olap.a_iid - cfg.Lo_Frag_IID := by
  unfold Process_Olap_align at h
  split at h
  · simp at h
  · simp at h
  · rename_i su hsu
    obtain ⟨s1, s2, s3, _, _⟩ := setup_some cfg rc olap b_seq shredded st su hsu
    cases he : Process_Olap_ends tb su st.edit_array with
    | none => rw [he] at h; simp at h
    | some al' =>
      rw [he] at h
      simp only [Option.map_some', Option.some.injEq] at h
      subst h
      obtain ⟨e1, e2⟩ := ends_some tb su st.edit_array al' he
      exact ⟨s1, by rw [e1, s2], by rw [e2, s3]⟩

theorem align_skip (cfg : Config) (tb : Tables) (rc : List Char → List Char)
    (olap : Olap_Info_t) (b_seq : List Char) (shredded : Bool) (st : Olap_State) :
    Process_Olap_align cfg tb rc olap b_seq shredded st = some none ↔
      (shredded = true ∧ (st.Frag (olap.a_iid - cfg.Lo_Frag_IID)).shredded = true) := by
  rw [← setup_skip cfg rc olap b_seq shredded st]
  unfold Process_Olap_align
  split
  · rename_i h; simp [h]
  · rename_i h; simp [h]
  · rename_i su h
    rw [h]
    cases Process_Olap_ends tb su st.edit_array <;> simp

theorem align_returns (cfg : Config) (tb : Tables) (rc : List Char → List Char)
    (olap : Olap_Info_t) (b_seq : List Char) (shredded : Bool) (st : Olap_State)
    (seq : List Char)
    (h1 : ¬ (shredded = true ∧ (st.Frag (olap.a_iid - cfg.Lo_Frag_IID)).shredded = true))
    (h2 : (st.Frag (olap.a_iid - cfg.Lo_Frag_IID)).sequence = some seq)
    (h3 : (charAt (if olap.orient = NORMAL then b_seq
          else if olap.orient = NORMAL ∨ st.rev_id = olap.b_iid then st.rev_seq
            else rc (b_seq.takeWhile (fun c => c ≠ NUL)))
          (if olap.a_hang < 0 then - olap.a_hang else 0)).isAlpha = true)
    (h4 : (charAt (if olap.orient = NORMAL ∨ st.rev_id = olap.b_iid then st.rev_seq
            else rc (b_seq.takeWhile (fun c => c ≠ NUL))) 0).isAlpha = true) :
    ∃ al, Process_Olap_align cfg tb rc olap b_seq shredded st = some (some al) := by
  obtain ⟨su, hsu⟩ := setup_returns cfg rc olap b_seq shredded st seq h1 h2 h3 h4
  obtain ⟨_, _, _, l1, l2⟩ := setup_some cfg rc olap b_seq shredded st su hsu
  obtain ⟨al, hal⟩ := ends_returns tb su st.edit_array l1 l2
  refine ⟨al, ?_⟩
  unfold Process_Olap_align
  rw [hsu]
  simp only [hal, Option.map_some']

theorem Process_Olap_of_align (cfg : Config) (tb : Tables) (rc : List Char → List Char)
    (olap : Olap_Info_t) (b_seq : List Char) (shredded : Bool) (st : Olap_State)
    (al : Olap_Aligned)
    (h : Process_Olap_align cfg tb rc olap b_seq shredded st = some (some al)) :
    Process_Olap cfg tb rc olap b_seq shredded st =
      if al.accepted tb = true then
        (Analyze_Alignment cfg al.Frag al.delta al.a_part al.b_part al.a_end al.b_end
            al.a_offset al.sub).map
          (fun F => ⟨F, st.Failed_Olaps, al.rev_seq, al.rev_id, al.edit_array⟩)
      else
        some ⟨al.Frag, st.Failed_Olaps + 1, al.rev_seq, al.rev_id, al.edit_array⟩ := by
  unfold Process_Olap
  rw [h]

theorem Analyze_fields (cfg : Config) (Frag F : Frag_t) (delta : List Int)
    (a_part b_part : Int → Char) (a_len b_len a_offset sub : Int)
    (h : Analyze_Alignment cfg Frag delta a_part b_part a_len b_len a_offset sub = some F)
    (s : Int) :
    (F s).left_degree = (Frag s).left_degree ∧ (F s).right_degree = (Frag s).right_degree := by
  unfold Analyze_Alignment at h
  cases hv : Build_Votes delta a_part b_part a_len b_len with
  | none => rw [hv] at h; simp at h
  | some vote =>
    rw [hv] at h
    simp only [Option.map_some', Option.some.injEq] at h
    subst h
    obtain ⟨_, _, h3, h4, _⟩ :=
      bumps_fields (bumps_Tally_Votes cfg a_part a_offset sub vote) Frag s
    exact ⟨h3, h4⟩

/-- C18: let `Process_Olap` reach its last test with the values `al`.  If the
overlap is rejected there (`match_to_end` is false after the promotion step,
or `errors > Error_Bound [olap_len]`), `Process_Olap` returns with
`Failed_Olaps` increased by exactly one and with every tally of every read as
it was; if the overlap is accepted, `Failed_Olaps` is unchanged in every state
that `Process_Olap` returns. -/
theorem rejected_overlap_counted (cfg : Config) (tb : Tables) (rc : List Char → List Char)
    (olap : Olap_Info_t) (b_seq : List Char) (shredded : Bool) (st : Olap_State)
    (al : Olap_Aligned)
    (h : Process_Olap_align cfg tb rc olap b_seq shredded st = some (some al)) :
    (al.accepted tb = false ↔
      (al.match_to_end = false ∨ al.errors > tb.Error_Bound al.olap_len)) ∧
    (al.accepted tb = false →
      ∃ st', Process_Olap cfg tb rc olap b_seq shredded st = some st' ∧
        st'.Failed_Olaps = st.Failed_Olaps + 1 ∧
        ∀ s p, (st'.Frag s).vote p = (st.Frag s).vote p) ∧
    (al.accepted tb = true →
      ∀ st', Process_Olap cfg tb rc olap b_seq shredded st = some st' →
        st'.Failed_Olaps = st.Failed_Olaps) := by
  have hP := Process_Olap_of_align cfg tb rc olap b_seq shredded st al h
  obtain ⟨_, hF, _⟩ := align_some cfg tb rc olap b_seq shredded st al h
  refine ⟨?_, ?_, ?_⟩
  · unfold Olap_Aligned.accepted
    cases al.match_to_end <;> simp
  · intro hrej
    rw [if_neg (by rw [hrej]; simp)] at hP
    refine ⟨_, hP, rfl, ?_⟩
    intro s p
    show (al.Frag s).vote p = _
    rw [hF, (bump_degrees_vote _ _ _ _ _).1]
  · intro hacc st' hst
    rw [hP, if_pos hacc] at hst
    cases ha : Analyze_Alignment cfg al.Frag al.delta al.a_part al.b_part al.a_end al.b_end
        al.a_offset al.sub with
    | none => rw [ha] at hst; simp at hst
    | some F =>
      rw [ha] at hst
      simp only [Option.map_some', Option.some.injEq] at hst
      subst hst
      rfl

/-- C19: when the fragment of the overlap and the read are both shredded,
`Process_Olap` returns the state as it was.  Otherwise, in every state that
`Process_Olap` returns, whether the overlap was accepted or rejected, the
`left_degree` of the read has gone up by one if and only if `a_hang <= 0` and
it was below `MAX_DEGREE`, its `right_degree` has gone up by one if and only
if `b_hang >= 0` and it was below `MAX_DEGREE`, and the degrees of the other
reads are as they were; these are already the degrees when the last test is
reached, and that test is reached whenever the read has a sequence and the
two characters tested with `isalpha` are letters. -/
theorem degrees_counted (cfg : Config) (tb : Tables) (rc : List Char → List Char)
    (olap : Olap_Info_t) (b_seq : List Char) (shredded : Bool) (st : Olap_State) :
    ((shredded = true ∧ (st.Frag (olap.a_iid - cfg.Lo_Frag_IID)).shredded = true) →
      Process_Olap cfg tb rc olap b_seq shredded st = some st) ∧
    (¬ (shredded = true ∧ (st.Frag (olap.a_iid - cfg.Lo_Frag_IID)).shredded = true) →
      (∀ st', Process_Olap cfg tb rc olap b_seq shredded st = some st' → ∀ s,
        (st'.Frag s).left_degree =
          (if s = olap.a_iid - cfg.Lo_Frag_IID ∧ olap.a_hang ≤ 0 ∧
              (st.Frag s).left_degree < MAX_DEGREE
            then (st.Frag s).left_degree + 1 else (st.Frag s).left_degree) ∧
        (st'.Frag s).right_degree =
          (if s = olap.a_iid - cfg.Lo_Frag_IID ∧ olap.b_hang ≥ 0 ∧
              (st.Frag s).right_degree < MAX_DEGREE
            then (st.Frag s).right_degree + 1 else (st.Frag s).right_degree)) ∧
      (∀ al, Process_Olap_align cfg tb rc olap b_seq shredded st = some (some al) →
        al.Frag = bump_degrees st.Frag (olap.a_iid - cfg.Lo_Frag_IID) olap.a_hang
          olap.b_hang) ∧
      (∀ seq, (st.Frag (olap.a_iid - cfg.Lo_Frag_IID)).sequence = some seq →
        (charAt (if olap.orient = NORMAL then b_seq
          else if olap.orient = NORMAL ∨ st.rev_id = olap.b_iid then st.rev_seq
            else rc (b_seq.takeWhile (fun c => c ≠ NUL)))
          (if olap.a_hang < 0 then - olap.a_hang else 0)).isAlpha = true →
        (charAt (if olap.orient = NORMAL ∨ st.rev_id = olap.b_iid then st.rev_seq
            else rc (b_seq.takeWhile (fun c => c ≠ NUL))) 0).isAlpha = true →
        ∃ al, Process_Olap_align cfg tb rc olap b_seq shredded st = some (some al))) := by
  constructor
  · intro hskip
    unfold Process_Olap
    rw [(align_skip cfg tb rc olap b_seq shredded st).mpr hskip]
  · intro hn
    refine ⟨?_, ?_, ?_⟩
    · intro st' hst s
      cases ha : Process_Olap_align cfg tb rc olap b_seq shredded st with
      | none =>
        unfold Process_Olap at hst
        rw [ha] at hst
        simp at hst
      | some oal =>
        cases oal with
        | none => exact absurd ((align_skip cfg tb rc olap b_seq shredded st).mp ha) hn
        | some al =>
          obtain ⟨_, hF, _⟩ := align_some cfg tb rc olap b_seq shredded st al ha
          rw [Process_Olap_of_align cfg tb rc olap b_seq shredded st al ha] at hst
          have hd := bump_degrees_degrees st.Frag (olap.a_iid - cfg.Lo_Frag_IID) olap.a_hang
            olap.b_hang s
          rw [← hF] at hd
          by_cases hacc : al.accepted tb = true
          · rw [if_pos hacc] at hst
            cases hA : Analyze_Alignment cfg al.Frag al.delta al.a_part al.b_part al.a_end
                al.b_end al.a_offset al.sub with
            | none => rw [hA] at hst; simp at hst
            | some F =>
              rw [hA] at hst
              simp only [Option.map_some', Option.some.injEq] at hst
              subst hst
              obtain ⟨f1, f2⟩ := Analyze_fields cfg al.Frag F al.delta al.a_part al.b_part
                al.a_end al.b_end al.a_offset al.sub hA s
              show (F s).left_degree = _ ∧ (F s).right_degree = _
              rw [f1, f2]
              exact hd
          · rw [if_neg hacc] at hst
            simp only [Option.some.injEq] at hst
            subst hst
            exact hd
    · intro al ha
      exact (align_some cfg tb rc olap b_seq shredded st al ha).2.1
    · intro seq hs h3 h4
      exact align_returns cfg tb rc olap b_seq shredded st seq hn hs h3 h4

set_option maxRecDepth 100000 in
/-- Witness of C18: the overlap of `A_scenario` with `B_unrelated` is
rejected and counted once. -/
theorem rejected_overlap_counted_witness :
    (Process_Olap (Config.default 1 1) Tables_6 (fun s => s) olap_scenario B_unrelated false
      Olap_State.scenario).map (fun st => st.Failed_Olaps) = some 1 ∧
    ∃ al, Process_Olap_align (Config.default 1 1) Tables_6 (fun s => s) olap_scenario
        B_unrelated false Olap_State.scenario = some (some al) ∧
      (al.accepted Tables_6 = false ↔
        (al.match_to_end = false ∨ al.errors > Tables_6.Error_Bound al.olap_len)) ∧
      (al.accepted Tables_6 = false →
        ∃ st', Process_Olap (Config.default 1 1) Tables_6 (fun s => s) olap_scenario
            B_unrelated false Olap_State.scenario = some st' ∧
          st'.Failed_Olaps = Olap_State.scenario.Failed_Olaps + 1 ∧
          ∀ s p, (st'.Frag s).vote p = (Olap_State.scenario.Frag s).vote p) ∧
      (al.accepted Tables_6 = true →
        ∀ st', Process_Olap (Config.default 1 1) Tables_6 (fun s => s) olap_scenario
            B_unrelated false Olap_State.scenario = some st' →
          st'.Failed_Olaps = Olap_State.scenario.Failed_Olaps) :=
  ⟨by decide,
    (align_returns (Config.default 1 1) Tables_6 (fun s => s) olap_scenario B_unrelated false
      Olap_State.scenario A_scenario (by decide) rfl (by decide) (by decide)).elim
      (fun al hal => ⟨al, hal,
        rejected_overlap_counted (Config.default 1 1) Tables_6 (fun s => s) olap_scenario
          B_unrelated false Olap_State.scenario al hal⟩)⟩

set_option maxRecDepth 100000 in
/-- Witness of C19: the overlap of `A_scenario` with itself has no hangs, and
both degrees of the read go from 0 to 1. -/
theorem degrees_counted_witness :
    ∃ st', Process_Olap (Config.default 1 1) Tables_6 (fun s => s) olap_scenario A_scenario
        false Olap_State.scenario = some st' ∧
      (st'.Frag 0).left_degree = 1 ∧ (st'.Frag 0).right_degree = 1 ∧
      (st'.Frag 7).left_degree = 0 ∧ (st'.Frag 7).right_degree = 0 :=
  (Option.isSome_iff_exists.mp (by decide :
    (Process_Olap (Config.default 1 1) Tables_6 (fun s => s) olap_scenario A_scenario
      false Olap_State.scenario).isSome = true)).elim
    (fun st' hst =>
      have h := ((degrees_counted (Config.default 1 1) Tables_6 (fun s => s) olap_scenario
        A_scenario false Olap_State.scenario).2 (by decide)).1 st' hst
      ⟨st', hst, (h 0).1.trans (by decide), (h 0).2.trans (by decide),
        (h 7).1.trans (by decide), (h 7).2.trans (by decide)⟩)

/-! ## Theorems: the signs of the delta entries -/

theorem script_delta_signs : ∀ (s : List Edit_Op) (run : Int), 0 ≤ run →
    (∀ x ∈ script_delta s run, x ≠ 0) ∧
    (script_delta s run).map Sign = s.filterMap gap_sign := by
  intro s
  induction s with
  | nil => intro run _; simp [script_delta]
  | cons op s ih =>
    intro run hrun
    cases op with
    | keep =>
      obtain ⟨h1, h2⟩ := ih (run + 1) (by omega)
      simp only [script_delta, List.filterMap_cons, gap_sign]
      exact ⟨h1, h2⟩
    | replace =>
      obtain ⟨h1, h2⟩ := ih (run + 1) (by omega)
      simp only [script_delta, List.filterMap_cons, gap_sign]
      exact ⟨h1, h2⟩
    | insert =>
      obtain ⟨h1, h2⟩ := ih 0 (le_refl _)
      simp only [script_delta, List.filterMap_cons, gap_sign, List.map_cons, List.mem_cons,
        forall_eq_or_imp]
      refine ⟨⟨by omega, h1⟩, ?_⟩
      rw [h2]
      congr 1
      unfold Sign
      rw [if_neg (by omega), if_pos (by omega)]
    | delete =>
      obtain ⟨h1, h2⟩ := ih 0 (le_refl _)
      simp only [script_delta, List.filterMap_cons, gap_sign, List.map_cons, List.mem_cons,
        forall_eq_or_imp]
      refine ⟨⟨by omega, h1⟩, ?_⟩
      rw [h2]
      congr 1
      unfold Sign
      rw [if_pos (by omega)]

/-- C20: `Prefix_Edit_Dist` returns, and every entry of its delta is nonzero.
The delta is the encoding of the reported alignment of `A [0 .. A_End)` with
`T [0 .. T_End)`: its entries stand, in order, for the gap columns of that
alignment, and the entry of an insertion (a character of `T` without partner
in `A`) is negative, the entry of a deletion (a character of `A` without
partner in `T`) is positive. -/
theorem delta_entries_signed (tb : Tables) (A : Int → Char) (m : Int) (T : Int → Char)
    (n : Int) (Error_Limit : Int) (edit_array : Edit_Array) (hm : 0 ≤ m) (hn : 0 ≤ n) :
    ∃ r, Prefix_Edit_Dist tb A m T n Error_Limit edit_array = some r ∧
      (∀ x ∈ r.Delta, x ≠ 0 ∧ 1 ≤ x.natAbs) ∧
      ∃ s : List Edit_Op, Aligns A T s r.A_End r.T_End ∧ script_cost s = r.errors ∧
        r.Delta = script_delta s 0 ∧ r.Delta.map Sign = s.filterMap gap_sign := by
  obtain ⟨r, hr, hpost⟩ := Prefix_Edit_Dist_spec tb A m T n Error_Limit edit_array hm hn
  obtain ⟨s, hal, hc, hd⟩ := hpost.script
  obtain ⟨h1, h2⟩ := script_delta_signs s 0 (le_refl _)
  refine ⟨r, hr, ?_, s, hal, hc, hd, by rw [hd]; exact h2⟩
  intro x hx
  rw [hd] at hx
  have := h1 x hx
  exact ⟨this, by omega⟩

/-- Witness of C20. -/
theorem delta_entries_signed_witness :
    ∃ r, Prefix_Edit_Dist Tables_6 (charAt ['a', 'c', 'g']) 3 (charAt ['a', 'g']) 2 1
        Edit_Array.junk = some r ∧
      (∀ x ∈ r.Delta, x ≠ 0 ∧ 1 ≤ x.natAbs) ∧
      ∃ s : List Edit_Op, Aligns (charAt ['a', 'c', 'g']) (charAt ['a', 'g']) s r.A_End r.T_End ∧
        script_cost s = r.errors ∧
        r.Delta = script_delta s 0 ∧ r.Delta.map Sign = s.filterMap gap_sign :=
  delta_entries_signed Tables_6 (charAt ['a', 'c', 'g']) 3 (charAt ['a', 'g']) 2 1
    Edit_Array.junk (by decide) (by decide)

/-! ## Theorems: characters and the order of the overlaps -/

theorem char_eq_of_toNat {a b : Char} (h : a.toNat = b.toNat) : a = b := by
  apply Char.ext
  apply UInt32.ext
  exact h

theorem toNat_ofNat_small (n : Nat) (h : n < 55296) : (Char.ofNat n).toNat = n := by
  unfold Char.ofNat
  rw [dif_pos (Or.inl h)]
  simp [Char.ofNatAux, Char.toNat, UInt32.toNat]

/-- `tolower` gives the lower-case letter `l` exactly on `l` and on its
upper-case form `u`. -/
theorem toLower_eq_iff (ch : Char) (l u : Char) (hl : l.toNat = u.toNat + 32)
    (hu : 65 ≤ u.toNat ∧ u.toNat ≤ 90) :
    ch.toLower = l ↔ ch = l ∨ ch = u := by
  unfold Char.toLower
  simp only [ge_iff_le]
  by_cases hc : 65 ≤ ch.toNat ∧ ch.toNat ≤ 90
  · rw [if_pos hc]
    constructor
    · intro h
      right
      apply char_eq_of_toNat
      have := congrArg Char.toNat h
      rw [toNat_ofNat_small _ (by omega)] at this
      omega
    · rintro (h | h)
      · subst h; omega
      · subst h
        apply char_eq_of_toNat
        rw [toNat_ofNat_small _ (by omega)]
        omega
  · rw [if_neg hc]
    constructor
    · intro h; exact Or.inl h
    · rintro (h | h)
      · exact h
      · subst h; exact absurd hu hc

theorem toLower_a (ch : Char) : ch.toLower = 'a' ↔ ch = 'a' ∨ ch = 'A' :=
  toLower_eq_iff ch 'a' 'A' (by decide) (by decide)

theorem toLower_c (ch : Char) : ch.toLower = 'c' ↔ ch = 'c' ∨ ch = 'C' :=
  toLower_eq_iff ch 'c' 'C' (by decide) (by decide)

theorem toLower_g (ch : Char) : ch.toLower = 'g' ↔ ch = 'g' ∨ ch = 'G' :=
  toLower_eq_iff ch 'g' 'G' (by decide) (by decide)

theorem toLower_t (ch : Char) : ch.toLower = 't' ↔ ch = 't' ∨ ch = 'T' :=
  toLower_eq_iff ch 't' 'T' (by decide) (by decide)

/-- C25, as the code has it: `Matching_Vote (ch)` is `A_SUBST`, `C_SUBST`,
`G_SUBST`, `T_SUBST` when `ch` is the letter a, c, g, t in either case, and
`NO_VOTE` for every other character. -/
theorem Matching_Vote_either_case (ch : Char) :
    Matching_Vote ch =
      if ch = 'a' ∨ ch = 'A' then .A_SUBST
      else if ch = 'c' ∨ ch = 'C' then .C_SUBST
      else if ch = 'g' ∨ ch = 'G' then .G_SUBST
      else if ch = 't' ∨ ch = 'T' then .T_SUBST
      else .NO_VOTE := by
  unfold Matching_Vote
  simp only [toLower_a, toLower_c, toLower_g, toLower_t]

/-- C25 fails as stated: the upper-case letter `A` is not the lower-case
letter `a`, and `Matching_Vote` gives it `A_SUBST`, not `NO_VOTE`. -/
theorem Matching_Vote_upper_case :
    'A' ≠ 'a' ∧ Matching_Vote 'A' = .A_SUBST ∧ Matching_Vote 'A' ≠ .NO_VOTE := by
  decide

/-- C26: `Filter (ch)` is the letter a, c, g or t: it is c, g, t when `ch` is
that letter in either case (the lower-case form of `ch`), and a for every
other character; applying `Filter` twice is the same as applying it once. -/
theorem Filter_spec (ch : Char) :
    (Filter ch = 'a' ∨ Filter ch = 'c' ∨ Filter ch = 'g' ∨ Filter ch = 't') ∧
    (Filter ch =
      if ch = 'c' ∨ ch = 'C' then 'c'
      else if ch = 'g' ∨ ch = 'G' then 'g'
      else if ch = 't' ∨ ch = 'T' then 't'
      else 'a') ∧
    (Filter ch = if ch.toLower = 'a' ∨ ch.toLower = 'c' ∨ ch.toLower = 'g' ∨ ch.toLower = 't'
      then ch.toLower else 'a') ∧
    Filter 'n' = 'a' ∧
    Filter (Filter ch) = Filter ch := by
  have h2 : Filter ch =
      if ch = 'c' ∨ ch = 'C' then 'c'
      else if ch = 'g' ∨ ch = 'G' then 'g'
      else if ch = 't' ∨ ch = 'T' then 't'
      else 'a' := by
    unfold Filter
    simp only []
    by_cases hc : ch.toLower = 'c'
    · have := (toLower_c ch).1 hc
      simp [hc, this]
    · have hc' : ¬ (ch = 'c' ∨ ch = 'C') := fun h => hc ((toLower_c ch).2 h)
      by_cases hg : ch.toLower = 'g'
      · have := (toLower_g ch).1 hg
        simp [hg, this, hc']
      · have hg' : ¬ (ch = 'g' ∨ ch = 'G') := fun h => hg ((toLower_g ch).2 h)
        by_cases ht : ch.toLower = 't'
        · have := (toLower_t ch).1 ht
          simp [ht, this, hc', hg']
        · have ht' : ¬ (ch = 't' ∨ ch = 'T') := fun h => ht ((toLower_t ch).2 h)
          simp only [hc, hg, ht, hc', hg', ht', or_false, if_false]
          split_ifs with ha
          · exact ha
          · rfl
  have h1 : Filter ch = 'a' ∨ Filter ch = 'c' ∨ Filter ch = 'g' ∨ Filter ch = 't' := by
    rw [h2]; split_ifs <;> simp
  refine ⟨h1, h2, rfl, by decide, ?_⟩
  rcases h1 with h | h | h | h <;> rw [h] <;> decide

/-- C29: `By_B_IID` compares the pairs `(b_iid, a_iid)` lexicographically: it
returns -1 exactly when the pair of `x` is smaller, 1 exactly when it is
greater, 0 exactly when both identifiers agree; swapping the arguments negates
the result, and the order it induces is transitive. -/
theorem By_B_IID_lexicographic (x y z : Olap_Info_t) :
    (By_B_IID x y = -1 ↔ x.b_iid < y.b_iid ∨ (x.b_iid = y.b_iid ∧ x.a_iid < y.a_iid)) ∧
    (By_B_IID x y = 1 ↔ y.b_iid < x.b_iid ∨ (x.b_iid = y.b_iid ∧ y.a_iid < x.a_iid)) ∧
    (By_B_IID x y = 0 ↔ x.b_iid = y.b_iid ∧ x.a_iid = y.a_iid) ∧
    By_B_IID x y = - By_B_IID y x ∧
    (By_B_IID x y ≤ 0 → By_B_IID y z ≤ 0 → By_B_IID x z ≤ 0) := by
  unfold By_B_IID
  refine ⟨?_, ?_, ?_, ?_, ?_⟩
  · split_ifs <;> constructor <;> intro h <;> first | omega | exact False.elim h
  · split_ifs <;> constructor <;> intro h <;> first | omega | exact False.elim h
  · split_ifs <;> constructor <;> intro h <;> first | omega | exact False.elim h
  · split_ifs <;> omega
  · split_ifs <;> intro h1 h2 <;> omega

theorem By_B_IID_lexicographic_witness :
    By_B_IID ⟨5, 2, 0, 0, 1⟩ ⟨3, 7, -4, 9, 0⟩ ≤ 0 →
    By_B_IID ⟨3, 7, -4, 9, 0⟩ ⟨4, 7, 1, 1, 1⟩ ≤ 0 →
    By_B_IID ⟨5, 2, 0, 0, 1⟩ ⟨4, 7, 1, 1, 1⟩ ≤ 0 :=
  (By_B_IID_lexicographic ⟨5, 2, 0, 0, 1⟩ ⟨3, 7, -4, 9, 0⟩ ⟨4, 7, 1, 1, 1⟩).2.2.2.2

/-! ## Theorems: the vote threshold of the emitter -/

/-- C27: the threshold of the emitter is `total > 1`.  At a position `j` up to
the endpoint with `confirmed = 0` whose base is not g, the tally with
`g_subst = 2` and the other four counts 0 gives the record `(j, G_SUBST)`;
a tally whose five counts sum to at most 1 gives no deletion or substitution
record at `j`, and one whose four insert counts sum to at most 1 gives no
insertion record at `j`. -/
theorem threshold_is_total_above_one (cfg : Config) (Frag : Frag_t) (i : Int)
    (seq : List Char) (j : Int) (hseq : (Frag i).sequence = some seq)
    (hj0 : 0 ≤ j) (hj : j ≤ last_conf cfg (Frag i) seq) :
    (((Frag i).vote j).confirmed = 0 ∧ ((Frag i).vote j).deletes = 0 ∧
      ((Frag i).vote j).a_subst = 0 ∧ ((Frag i).vote j).c_subst = 0 ∧
      ((Frag i).vote j).g_subst = 2 ∧ ((Frag i).vote j).t_subst = 0 ∧
      charAt seq j ≠ 'g' →
        Correction_Output_t.corr j .G_SUBST ∈ Output_Corrections_frag cfg Frag i) ∧
    (((Frag i).vote j).deletes + ((Frag i).vote j).a_subst + ((Frag i).vote j).c_subst +
      ((Frag i).vote j).g_subst + ((Frag i).vote j).t_subst ≤ 1 →
        ∀ v ∈ subst_actions, Correction_Output_t.corr j v ∉ Output_Corrections_frag cfg Frag i) ∧
    (((Frag i).vote j).a_insert + ((Frag i).vote j).c_insert + ((Frag i).vote j).g_insert +
      ((Frag i).vote j).t_insert ≤ 1 →
        ∀ v ∈ insert_actions, Correction_Output_t.corr j v ∉ Output_Corrections_frag cfg Frag i) := by
  have hsub : ∀ t : Vote_Tally_t, total_count (subst_count t) subst_actions =
      t.deletes + t.a_subst + t.c_subst + t.g_subst + t.t_subst := by
    intro t
    simp only [total_count, subst_actions, List.map, List.sum_cons, List.sum_nil, subst_count]
    omega
  have hins : ∀ t : Vote_Tally_t, total_count (insert_count t) insert_actions =
      t.a_insert + t.c_insert + t.g_insert + t.t_insert := by
    intro t
    simp only [total_count, insert_actions, List.map, List.sum_cons, List.sum_nil, insert_count]
    omega
  refine ⟨?_, ?_, ?_⟩
  · rintro ⟨h0, h1, h2, h3, h4, h5, hch⟩
    rw [mem_Output_Corrections_frag cfg Frag i seq hseq]
    right
    refine ⟨hj0, hj, ?_⟩
    unfold Output_Corrections_pos
    rw [List.mem_append, mem_Output_Corrections_subst]
    left
    have hs : subst_scan (charAt seq j) ((Frag i).vote j) =
        ⟨2, 2, .G_SUBST, true, 0⟩ := by
      simp [subst_scan, Tally_Scan.next, Tally_Scan.start, h1, h2, h3, h4, h5, hch,
        MIN_HAPLO_OCCURS]
    rw [hs]
    simp [h0]
  · intro hle v hv hmem
    rw [mem_Output_Corrections_frag cfg Frag i seq hseq] at hmem
    rcases hmem with ⟨_, _, rfl⟩ | ⟨_, _, hmem⟩
    · simp [subst_actions] at hv
    · unfold Output_Corrections_pos at hmem
      rw [List.mem_append, mem_Output_Corrections_subst, mem_Output_Corrections_insert] at hmem
      rcases hmem with h | h
      · have := h.2.2.2.2.1
        rw [subst_scan_total, hsub] at this
        omega
      · have hv2 := (insert_scan_vote ((Frag i).vote j)).1
        rw [← h.2.1] at hv2
        exact subst_insert_disjoint v hv hv2
  · intro hle v hv hmem
    rw [mem_Output_Corrections_frag cfg Frag i seq hseq] at hmem
    rcases hmem with ⟨_, _, rfl⟩ | ⟨_, _, hmem⟩
    · simp [insert_actions] at hv
    · unfold Output_Corrections_pos at hmem
      rw [List.mem_append, mem_Output_Corrections_subst, mem_Output_Corrections_insert] at hmem
      rcases hmem with h | h
      · have hv2 := (subst_scan_vote (charAt seq j) ((Frag i).vote j)).1
        rw [← h.2.1] at hv2
        exact subst_insert_disjoint v hv2 hv
      · have := h.2.2.2.2.1
        rw [insert_scan_total, hins] at this
        omega

theorem threshold_is_total_above_one_witness :
    Correction_Output_t.corr 0 .G_SUBST ∈ Output_Corrections_frag (Config.default 1 1)
      (fun _ => ⟨some ['a', 'c'], fun _ => ⟨0, 0, 0, 0, 2, 0, 0, 0, 0, 0, 0⟩, 2, 0, 0, false⟩) 0 :=
  (threshold_is_total_above_one (Config.default 1 1)
    (fun _ => ⟨some ['a', 'c'], fun _ => ⟨0, 0, 0, 0, 2, 0, 0, 0, 0, 0, 0⟩, 2, 0, 0, false⟩) 0
    ['a', 'c'] 0 rfl (by decide) (by decide)).1 (by decide)

/-! ## Theorems: the extension of the clear range -/

theorem charAt_strlen (s : List Char) :
    (∀ j, 0 ≤ j → j < strlen s 0 → charAt s j ≠ NUL) ∧ charAt s (strlen s 0) = NUL ∧
    strlen s 0 ≤ s.length := by
  unfold strlen
  simp only [Int.toNat_zero, List.drop_zero]
  induction s with
  | nil => simp [charAt]
  | cons c s ih =>
    by_cases hc : c = NUL
    · subst hc
      simp only [List.takeWhile, ne_eq, not_true_eq_false, decide_False, List.length_nil,
        Nat.cast_zero]
      refine ⟨fun j h0 h1 => by omega, by simp [charAt], by omega⟩
    · obtain ⟨ih1, ih2, ih3⟩ := ih
      have htw : (c :: s).takeWhile (fun c => decide (c ≠ NUL)) =
          c :: s.takeWhile (fun c => decide (c ≠ NUL)) := by
        simp [List.takeWhile, hc]
      rw [htw]
      simp only [List.length_cons, Nat.cast_add, Nat.cast_one]
      refine ⟨?_, ?_, by omega⟩
      · intro j hj0 hj
        by_cases hz : j = 0
        · subst hz; simpa [charAt] using hc
        · have := ih1 (j - 1) (by omega) (by omega)
          unfold charAt at this ⊢
          rw [if_neg (by omega)] at this ⊢
          have hj' : j.toNat = (j - 1).toNat + 1 := by omega
          rw [hj']
          simpa using this
      · unfold charAt at ih2 ⊢
        rw [if_neg (by omega)] at ih2 ⊢
        have : ((((s.takeWhile (fun c => decide (c ≠ NUL))).length : Nat) : Int) + 1).toNat =
            (((s.takeWhile (fun c => decide (c ≠ NUL))).length : Nat) : Int).toNat + 1 := by omega
        rw [this]
        simpa using ih2

/-- The scan of `Output_Corrections` that extends the clear range, from any
intermediate position: it stops at a position `stop` that is the end of the
sequence or an unconfirmed position too far from the last confirmed one, and
returns the last confirmed position before `stop`. -/
theorem extend_scan_spec (cfg : Config) (seq : List Char) (vote : Int → Vote_Tally_t)
    (cl len : Int) (hlen : ∀ j, 0 ≤ j → j < len → charAt seq j ≠ NUL)
    (hend : charAt seq len = NUL) (hcl : 0 ≤ cl) :
    ∀ (fuel : Nat) (j lc : Int), cl ≤ j → j ≤ len → len - j < fuel →
      Last_Confirmed vote cl j lc →
      (∀ q, cl ≤ q → q < j → (vote q).confirmed = 0 →
        ∃ p, Last_Confirmed vote cl q p ∧ q - p ≤ 2 * cfg.End_Exclude_Len + 1) →
      ∃ stop, j ≤ stop ∧ stop ≤ len ∧
        (stop = len ∨ ((vote stop).confirmed = 0 ∧
          stop - extend_scan cfg seq vote fuel j lc > 2 * cfg.End_Exclude_Len + 1)) ∧
        Last_Confirmed vote cl stop (extend_scan cfg seq vote fuel j lc) ∧
        (∀ q, cl ≤ q → q < stop → (vote q).confirmed = 0 →
          ∃ p, Last_Confirmed vote cl q p ∧ q - p ≤ 2 * cfg.End_Exclude_Len + 1) := by
  intro fuel
  induction fuel with
  | zero => intro j lc h1 h2 h3; omega
  | succ fuel ih =>
    intro j lc h1 h2 h3 hL hprev
    unfold extend_scan
    by_cases hnul : charAt seq j ≠ NUL
    · rw [if_pos hnul]
      have hjlen : j < len := by
        rcases lt_or_eq_of_le h2 with h | h
        · exact h
        · rw [h] at hnul; exact absurd hend hnul
      by_cases hconf : (vote j).confirmed > 0
      · rw [if_pos hconf]
        have hL' : Last_Confirmed vote cl (j + 1) j :=
          ⟨Or.inr ⟨h1, hconf⟩, by omega, fun q hq1 hq2 => by omega⟩
        obtain ⟨stop, hs⟩ := ih (j + 1) j (by omega) (by omega) (by omega) hL' (by
          intro q hq1 hq2 hq3
          by_cases hqj : q = j
          · subst hqj; omega
          · exact hprev q hq1 (by omega) hq3)
        exact ⟨stop, by omega, hs.2⟩
      · rw [if_neg hconf]
        have hc0 : (vote j).confirmed = 0 := by omega
        by_cases hfar : j - lc > 2 * cfg.End_Exclude_Len + 1
        · rw [if_pos hfar]
          exact ⟨j, le_refl _, h2, Or.inr ⟨hc0, hfar⟩, hL, hprev⟩
        · rw [if_neg hfar]
          have hL' : Last_Confirmed vote cl (j + 1) lc := by
            refine ⟨hL.1, by have := hL.2.1; omega, ?_⟩
            intro q hq1 hq2
            by_cases hqj : q = j
            · subst hqj; exact hc0
            · exact hL.2.2 q hq1 (by omega)
          obtain ⟨stop, hs⟩ := ih (j + 1) lc (by omega) (by omega) (by omega) hL' (by
            intro q hq1 hq2 hq3
            by_cases hqj : q = j
            · subst hqj; exact ⟨lc, hL, by omega⟩
            · exact hprev q hq1 (by omega) hq3)
          exact ⟨stop, by omega, hs.2⟩
    · rw [if_neg hnul]
      have hjlen : j = len := by
        by_contra hne
        exact hnul (hlen j (by omega) (by omega))
      exact ⟨j, le_refl _, h2, Or.inl hjlen, hL, hprev⟩

/-- C28: with `Extend_Fragments` set, the `EXTENSION` record of a non-deleted
read carries `pos = 1 + last_conf - clear_len`, where the scan stops at a
position `stop` that is the end of the sequence or the first unconfirmed
position more than `2 * End_Exclude_Len + 1` past the last confirmed one, and
`last_conf` is the last confirmed position in `clear_len .. stop - 1`
(`clear_len - 1` if none).  Hence `0 <= pos <= len - clear_len`, a positive
`pos` has `confirmed [clear_len + pos - 1] > 0`, and the per-position records
are those of the positions `0 .. last_conf`. -/
theorem extension_endpoint (cfg : Config) (Frag : Frag_t) (i : Int) (seq : List Char)
    (hseq : (Frag i).sequence = some seq) (hext : cfg.Extend_Fragments = true)
    (hclear : ((Frag i).clear_len : Int) ≤ strlen seq 0) :
    Correction_Output_t.corr (1 + last_conf cfg (Frag i) seq - (Frag i).clear_len) .EXTENSION
      ∈ Output_Corrections_frag cfg Frag i ∧
    (∀ p, Correction_Output_t.corr p .EXTENSION ∈ Output_Corrections_frag cfg Frag i →
      p = 1 + last_conf cfg (Frag i) seq - (Frag i).clear_len) ∧
    (∃ stop, ((Frag i).clear_len : Int) ≤ stop ∧ stop ≤ strlen seq 0 ∧
      (stop = strlen seq 0 ∨ (((Frag i).vote stop).confirmed = 0 ∧
        stop - last_conf cfg (Frag i) seq > 2 * cfg.End_Exclude_Len + 1)) ∧
      Last_Confirmed (Frag i).vote (Frag i).clear_len stop (last_conf cfg (Frag i) seq) ∧
      (∀ q, ((Frag i).clear_len : Int) ≤ q → q < stop → ((Frag i).vote q).confirmed = 0 →
        ∃ p, Last_Confirmed (Frag i).vote (Frag i).clear_len q p ∧
          q - p ≤ 2 * cfg.End_Exclude_Len + 1)) ∧
    0 ≤ 1 + last_conf cfg (Frag i) seq - (Frag i).clear_len ∧
    1 + last_conf cfg (Frag i) seq - (Frag i).clear_len ≤ strlen seq 0 - (Frag i).clear_len ∧
    (1 + last_conf cfg (Frag i) seq - (Frag i).clear_len > 0 →
      ((Frag i).vote ((Frag i).clear_len +
        (1 + last_conf cfg (Frag i) seq - (Frag i).clear_len) - 1)).confirmed > 0) ∧
    (∀ j v, v ≠ .EXTENSION →
      (Correction_Output_t.corr j v ∈ Output_Corrections_frag cfg Frag i ↔
        0 ≤ j ∧ j ≤ last_conf cfg (Frag i) seq ∧
          Correction_Output_t.corr j v ∈
            Output_Corrections_pos cfg (charAt seq j) ((Frag i).vote j) j)) := by
  obtain ⟨hs1, hs2, hs3⟩ := charAt_strlen seq
  have hlc : last_conf cfg (Frag i) seq = extend_scan cfg seq (Frag i).vote (seq.length + 1)
      (Frag i).clear_len (((Frag i).clear_len : Int) - 1) := by
    unfold last_conf; rw [if_pos hext]
  obtain ⟨stop, hst1, hst2, hst3, hst4, hst5⟩ :=
    extend_scan_spec cfg seq (Frag i).vote (Frag i).clear_len (strlen seq 0) hs1 hs2
      (by omega) (seq.length + 1) (Frag i).clear_len (((Frag i).clear_len : Int) - 1)
      (le_refl _) hclear (by push_cast; omega)
      ⟨Or.inl rfl, by omega, fun q h1 h2 => by omega⟩ (fun q h1 h2 => by omega)
  rw [← hlc] at hst3 hst4
  have hpos : ∀ j v, Correction_Output_t.corr j v ∈
      Output_Corrections_pos cfg (charAt seq j) ((Frag i).vote j) j → v ≠ .EXTENSION := by
    intro j v hmem hv
    subst hv
    unfold Output_Corrections_pos at hmem
    rw [List.mem_append, mem_Output_Corrections_subst, mem_Output_Corrections_insert] at hmem
    rcases hmem with h | h
    · have := (subst_scan_vote (charAt seq j) ((Frag i).vote j)).1
      rw [← h.2.1] at this
      simp [subst_actions] at this
    · have := (insert_scan_vote ((Frag i).vote j)).1
      rw [← h.2.1] at this
      simp [insert_actions] at this
  refine ⟨?_, ?_, ⟨stop, hst1, hst2, hst3, hst4, hst5⟩, ?_, ?_, ?_, ?_⟩
  · rw [mem_Output_Corrections_frag cfg Frag i seq hseq]
    exact Or.inl ⟨hext, rfl, rfl⟩
  · intro p hp
    rw [mem_Output_Corrections_frag cfg Frag i seq hseq] at hp
    rcases hp with h | h
    · exact h.2.1
    · exact absurd rfl (hpos p _ h.2.2)
  · rcases hst4.1 with h | h <;> omega
  · have := hst4.2.1; omega
  · intro hp
    rcases hst4.1 with h | h
    · omega
    · have e : ((Frag i).clear_len : Int) +
          (1 + last_conf cfg (Frag i) seq - (Frag i).clear_len) - 1 =
          last_conf cfg (Frag i) seq := by ring
      rw [e]; exact h.2
  · intro j v hv
    rw [mem_Output_Corrections_frag cfg Frag i seq hseq]
    constructor
    · rintro (h | h)
      · exact absurd h.2.2 hv
      · exact h
    · intro h; exact Or.inr h

theorem extension_endpoint_witness :
    Correction_Output_t.corr 2 .EXTENSION ∈ Output_Corrections_frag ⟨2, 0, true, 9, true, 9, 1, 1⟩
      (fun _ => ⟨some ['a', 'c', 'g', 't', 'a', 'c'],
        fun q => if q = 3 then ⟨1, 0, 0, 0, 0, 0, 0, 0, 0, 0, 0⟩ else Vote_Tally_t.zero,
        2, 0, 0, false⟩) 0 :=
  (extension_endpoint ⟨2, 0, true, 9, true, 9, 1, 1⟩
    (fun _ => ⟨some ['a', 'c', 'g', 't', 'a', 'c'],
      fun q => if q = 3 then ⟨1, 0, 0, 0, 0, 0, 0, 0, 0, 0, 0⟩ else Vote_Tally_t.zero,
      2, 0, 0, false⟩) 0 ['a', 'c', 'g', 't', 'a', 'c'] rfl rfl (by decide)).1

/-! ## Theorems: the table of match limits -/

theorem Binomial_Bound_loop_ge (M : Int) (returns : Int → Bool) :
    ∀ (fuel : Nat) (n : Int), n ≤ M →
      n ≤ Binomial_Bound_loop M returns fuel n ∧ Binomial_Bound_loop M returns fuel n ≤ M := by
  intro fuel
  induction fuel with
  | zero => intro n h; simp [Binomial_Bound_loop, h]
  | succ fuel ih =>
    intro n h
    unfold Binomial_Bound_loop
    split_ifs with h1 h2
    · exact ⟨le_refl _, h⟩
    · have := ih (n + 1) (by omega)
      omega
    · exact ⟨h, le_refl _⟩

theorem Binomial_Bound_le (M : Int) (returns : Int → Int → Bool) (e Start : Int) :
    Binomial_Bound M returns e Start ≤ M := by
  unfold Binomial_Bound
  simp only []
  generalize (if Start < e then e else Start) = s
  by_cases h : s ≤ M
  · exact (Binomial_Bound_loop_ge M (returns e) _ s h).2
  · have : (M - s).toNat = 0 := by omega
    rw [this]; simp [Binomial_Bound_loop]

theorem Binomial_Bound_ge (M : Int) (returns : Int → Int → Bool) (e Start : Int)
    (hS : Start ≤ M) : Start ≤ Binomial_Bound M returns e Start := by
  unfold Binomial_Bound
  simp only []
  by_cases h : Start < e
  · rw [if_pos h]
    by_cases h2 : e ≤ M
    · have := (Binomial_Bound_loop_ge M (returns e) (M - e).toNat e h2).1
      omega
    · have : (M - e).toNat = 0 := by omega
      rw [this]; simpa [Binomial_Bound_loop] using hS
  · rw [if_neg h]
    exact (Binomial_Bound_loop_ge M (returns e) (M - Start).toNat Start hS).1

theorem Edit_Match_Limit_loop_succ (M E : Int) (returns : Int → Int → Bool) (fuel : Nat)
    (e start : Int) (tbl tbl2 : Int → Int)
    (h : tbl2 = fun i => if i = e then
      Binomial_Bound M returns (e - ERRORS_FOR_FREE) start - 1 else tbl i) :
    Edit_Match_Limit_loop M E returns (fuel + 1) e start tbl =
      if e < E then
        if tbl2 e ≥ tbl2 (e - 1) then
          Edit_Match_Limit_loop M E returns fuel (e + 1)
            (Binomial_Bound M returns (e - ERRORS_FOR_FREE) start) tbl2
        else none
      else some tbl := by
  subst h; rfl

theorem Edit_Match_Limit_loop_spec (M E : Int) (returns : Int → Int → Bool) :
    ∀ (fuel : Nat) (e start : Int) (tbl : Int → Int), E - e ≤ fuel → start ≤ M →
      tbl (e - 1) = start - 1 → (∀ k, 1 ≤ k → k < e → tbl (k - 1) ≤ tbl k) →
      ∃ tbl', Edit_Match_Limit_loop M E returns fuel e start tbl = some tbl' ∧
        ((∀ k, k < e → tbl' k = tbl k) ∧
        (∀ k, 1 ≤ k → k < E → tbl' (k - 1) ≤ tbl' k)) := by
  intro fuel
  induction fuel with
  | zero =>
    intro e start tbl hf hs ht hmono
    refine ⟨tbl, rfl, fun k _ => rfl, fun k h1 h2 => hmono k h1 (by push_cast at hf; omega)⟩
  | succ fuel ih =>
    intro e start tbl hf hs ht hmono
    obtain ⟨tbl2, htbl2⟩ : ∃ t : Int → Int, t = fun i => if i = e then
      Binomial_Bound M returns (e - ERRORS_FOR_FREE) start - 1 else tbl i := ⟨_, rfl⟩
    rw [Edit_Match_Limit_loop_succ M E returns fuel e start tbl tbl2 htbl2]
    by_cases he : e < E
    · rw [if_pos he]
      have hge := Binomial_Bound_ge M returns (e - ERRORS_FOR_FREE) start hs
      have hle := Binomial_Bound_le M returns (e - ERRORS_FOR_FREE) start
      have hself : ∀ tbl2 : Int → Int,
          tbl2 = (fun i => if i = e then
            Binomial_Bound M returns (e - ERRORS_FOR_FREE) start - 1 else tbl i) →
          tbl2 e = Binomial_Bound M returns (e - ERRORS_FOR_FREE) start - 1 ∧
          ∀ k, k ≠ e → tbl2 k = tbl k := by
        intro tbl2 h
        subst h
        exact ⟨if_pos rfl, fun k hk => if_neg hk⟩
      obtain ⟨hs1, hs2⟩ := hself tbl2 htbl2
      rw [if_pos (by rw [hs1, hs2 (e - 1) (by omega), ht]; omega)]
      obtain ⟨tbl', h1, h2, h3⟩ := ih (e + 1) _ tbl2 (by push_cast at hf; omega) hle
        (by rw [show e + 1 - 1 = e by ring, hs1]) (by
          intro k hk1 hk2
          by_cases hke : k = e
          · subst hke
            rw [hs1, hs2 (k - 1) (by omega), ht]; omega
          · rw [hs2 k hke, hs2 (k - 1) (by omega)]
            exact hmono k hk1 (by omega))
      refine ⟨tbl', h1, ?_, h3⟩
      intro k hk
      rw [h2 k (by omega), hs2 k (by omega)]
    · rw [if_neg he]
      exact ⟨tbl, rfl, fun k _ => rfl, fun k h1 h2 => hmono k h1 (by omega)⟩

/-- C23: whatever the floating-point tests of `Binomial_Bound` decide,
`Binomial_Bound` returns at least `Start` when `Start` is at most
`AS_READ_MAX_NORMAL_LEN`; the initialisation loop of `Initialize_Globals`
passes every `assert` and the table `Edit_Match_Limit` it builds has
`Edit_Match_Limit [e - 1] <= Edit_Match_Limit [e]` for `1 <= e < MAX_ERRORS`. -/
theorem Edit_Match_Limit_monotone (AS_READ_MAX_NORMAL_LEN MAX_ERRORS : Int)
    (returns : Int → Int → Bool) (hlen : 1 ≤ AS_READ_MAX_NORMAL_LEN) :
    (∀ e Start, Start ≤ AS_READ_MAX_NORMAL_LEN →
      Start ≤ Binomial_Bound AS_READ_MAX_NORMAL_LEN returns e Start) ∧
    ∃ tbl, Initialize_Edit_Match_Limit AS_READ_MAX_NORMAL_LEN MAX_ERRORS returns = some tbl ∧
      tbl 0 = 0 ∧ tbl 1 = 0 ∧
      ∀ e, 1 ≤ e → e < MAX_ERRORS → tbl (e - 1) ≤ tbl e := by
  refine ⟨fun e Start h => Binomial_Bound_ge _ returns e Start h, ?_⟩
  unfold Initialize_Edit_Match_Limit
  obtain ⟨tbl, h1, h2, h3⟩ := Edit_Match_Limit_loop_spec AS_READ_MAX_NORMAL_LEN MAX_ERRORS
    returns (MAX_ERRORS - (ERRORS_FOR_FREE + 1)).toNat (ERRORS_FOR_FREE + 1) 1
    (fun _ => 0) (by omega) hlen (by simp) (by intro k _ _; simp)
  refine ⟨tbl, h1, ?_, ?_, h3⟩
  · rw [h2 0 (by unfold ERRORS_FOR_FREE; omega)]
  · rw [h2 1 (by unfold ERRORS_FOR_FREE; omega)]

set_option maxRecDepth 100000 in
theorem Edit_Match_Limit_monotone_witness :
    ∃ tbl, Initialize_Edit_Match_Limit 40 5 (fun e n => decide (7 * e + 2 ≤ n)) = some tbl ∧
      tbl 0 = 0 ∧ tbl 1 = 0 ∧ ∀ e, 1 ≤ e → e < 5 → tbl (e - 1) ≤ tbl e :=
  (Edit_Match_Limit_monotone 40 5 (fun e n => decide (7 * e + 2 ≤ n)) (by decide)).2

/-! ## Theorems: the rows of the displayed alignment -/

theorem for_loop_iterate {σ : Type} (f : σ → σ) (k : Nat) (s : σ) :
    for_loop 1 ((k : Int) + 1) (fun _ s => f s) s = f^[k] s := by
  unfold for_loop
  have : ((k : Int) + 1 - 1).toNat = k := by omega
  rw [this]
  induction k with
  | zero => rfl
  | succ k ih =>
    have hk : ((k : Int) + 1 - 1).toNat = k := by omega
    rw [List.range_succ, List.foldl_append, ih hk, Function.iterate_succ_apply']
    rfl

theorem toUpper_ne_gap (c : Char) (h : c ≠ '-') : c.toUpper ≠ '-' := by
  unfold Char.toUpper
  simp only [ge_iff_le]
  split_ifs with hc
  · intro he
    have := congrArg Char.toNat he
    have e : (Char.ofNat (c.toNat - 32)).toNat = c.toNat - 32 := by
      unfold Char.ofNat
      rw [dif_pos (Or.inl (by omega))]
      simp [Char.ofNatAux, Char.toNat, UInt32.toNat]
    rw [e] at this
    have h45 : ('-' : Char).toNat = 45 := by decide
    omega
  · exact h

theorem toLower_toUpper (c : Char) : c.toUpper.toLower = c.toLower := by
  unfold Char.toUpper
  simp only [ge_iff_le]
  split_ifs with hc
  · have e : (Char.ofNat (c.toNat - 32)).toNat = c.toNat - 32 := by
      unfold Char.ofNat
      rw [dif_pos (Or.inl (by omega))]
      simp [Char.ofNatAux, Char.toNat, UInt32.toNat]
    unfold Char.toLower
    simp only [ge_iff_le]
    rw [e, if_pos (by omega), if_neg (by omega)]
    have e2 : c.toNat - 32 + 32 = c.toNat := by omega
    rw [e2]
    apply Char.ext
    apply UInt32.ext
    show (Char.ofNat c.toNat).toNat = c.toNat
    unfold Char.ofNat
    rw [dif_pos (Or.inl (by omega))]
    simp [Char.ofNatAux, Char.toNat, UInt32.toNat]
  · rfl

theorem Top_Inv.push_top_char {a : Int → Char} {cap : Int} {s : Row_State} {len : Int}
    (h : Top_Inv a cap s len) (hc : top_char a cap s.i ≠ '-') (j : Int) :
    Top_Inv a cap ⟨s.i + 1, j, s.row ++ [top_char a cap s.i]⟩ (len + 1) := by
  obtain ⟨h0, h1, h2⟩ := h
  refine ⟨by show 0 ≤ s.i + 1; omega, ?_, by simp only [List.length_append, List.length_singleton]; push_cast; omega⟩
  show List.filter _ (s.row ++ [_]) = List.map _ (List.range (s.i + 1).toNat)
  have e : (s.i + 1).toNat = s.i.toNat + 1 := by omega
  rw [e, List.range_succ, List.map_append, List.filter_append, h1]
  have e2 : ((s.i.toNat : Nat) : Int) = s.i := Int.toNat_of_nonneg h0
  simp [hc, e2]

theorem Top_Inv.push_top_gap {a : Int → Char} {cap : Int} {s : Row_State} {len : Int}
    (h : Top_Inv a cap s len) (j : Int) :
    Top_Inv a cap ⟨s.i, j, s.row ++ ['-']⟩ (len + 1) := by
  obtain ⟨h0, h1, h2⟩ := h
  refine ⟨h0, ?_, by simp only [List.length_append, List.length_singleton]; push_cast; omega⟩
  show List.filter _ (s.row ++ [_]) = _
  rw [List.filter_append, h1]
  simp

theorem top_run_spec (a : Int → Char) (cap : Int) (k : Nat) : ∀ (s : Row_State) (len : Int),
    Top_Inv a cap s len → (∀ x, s.i ≤ x → x < s.i + k → top_char a cap x ≠ '-') →
    Top_Inv a cap ((fun s : Row_State =>
      (⟨s.i + 1, s.j + 1, s.row ++ [top_char a cap s.i]⟩ : Row_State))^[k] s) (len + k) ∧
    ((fun s : Row_State =>
      (⟨s.i + 1, s.j + 1, s.row ++ [top_char a cap s.i]⟩ : Row_State))^[k] s).i = s.i + k ∧
    ((fun s : Row_State =>
      (⟨s.i + 1, s.j + 1, s.row ++ [top_char a cap s.i]⟩ : Row_State))^[k] s).j = s.j + k := by
  induction k with
  | zero => intro s len h _; simpa using h
  | succ k ih =>
    intro s len h hc
    rw [Function.iterate_succ_apply]
    obtain ⟨i1, i2, i3⟩ := ih ⟨s.i + 1, s.j + 1, s.row ++ [top_char a cap s.i]⟩ (len + 1)
      (h.push_top_char (hc s.i (le_refl _) (by omega)) _)
      (fun x h1 h2 => hc x (by simp only at h1; omega) (by simp only at h2; push_cast; omega))
    refine ⟨?_, ?_, ?_⟩
    · have e : len + ((k + 1 : Nat) : Int) = len + 1 + k := by push_cast; ring
      rw [e]; exact i1
    · rw [i2]; push_cast; ring
    · rw [i3]; push_cast; ring

theorem top_entry_spec (a : Int → Char) (cap : Int) (s : Row_State) (len d : Int)
    (hd : d ≠ 0) (h : Top_Inv a cap s len)
    (hc : ∀ x, s.i ≤ x → x < s.i + ((d.natAbs : Int) - 1) + (if d > 0 then 1 else 0) →
      top_char a cap x ≠ '-') :
    Top_Inv a cap (top_entry a cap s d) (len + d.natAbs) ∧
    (top_entry a cap s d).i = s.i + ((d.natAbs : Int) - 1) + (if d > 0 then 1 else 0) ∧
    (top_entry a cap s d).j = s.j + ((d.natAbs : Int) - 1) + (if d < 0 then 1 else 0) := by
  obtain ⟨k, hk⟩ : ∃ k : Nat, d.natAbs = k + 1 := ⟨d.natAbs - 1, by omega⟩
  unfold top_entry
  rw [hk]
  push_cast
  rw [for_loop_iterate]
  obtain ⟨i1, i2, i3⟩ := top_run_spec a cap k s len h (fun x h1 h2 => hc x h1 (by
    split_ifs <;> omega))
  by_cases hneg : d < 0
  · rw [if_pos hneg, if_neg (by omega), if_pos hneg]
    refine ⟨?_, ?_, ?_⟩
    · have := i1.push_top_gap (((fun s : Row_State =>
        (⟨s.i + 1, s.j + 1, s.row ++ [top_char a cap s.i]⟩ : Row_State))^[k] s).j + 1)
      have e : len + (↑k + 1) = len + ↑k + 1 := by ring
      rw [e]; exact this
    · show _ = s.i + (↑k + 1 - 1) + 0
      rw [i2]; ring
    · show _ + 1 = s.j + (↑k + 1 - 1) + 1
      rw [i3]; ring
  · rw [if_neg hneg, if_pos (by omega), if_neg hneg]
    refine ⟨?_, ?_, ?_⟩
    · have := i1.push_top_char (hc _ (by rw [i2]; omega) (by
        rw [i2, if_pos (by omega)]; omega)) (((fun s : Row_State =>
        (⟨s.i + 1, s.j + 1, s.row ++ [top_char a cap s.i]⟩ : Row_State))^[k] s).j)
      have e : len + (↑k + 1) = len + ↑k + 1 := by ring
      rw [e]; exact this
    · show _ + 1 = s.i + (↑k + 1 - 1) + 1
      rw [i2]; ring
    · show _ = s.j + (↑k + 1 - 1) + 0
      rw [i3]; ring

theorem delta_A_span_nonneg (delta : List Int) (h : ∀ d ∈ delta, d ≠ 0) :
    0 ≤ delta_A_span delta ∧ 0 ≤ delta_T_span delta := by
  induction delta with
  | nil => simp [delta_A_span, delta_T_span]
  | cons d ds ih =>
    have := ih (fun x hx => h x (List.mem_cons_of_mem _ hx))
    have hd := h d (List.mem_cons_self _ _)
    rw [(delta_span_cons d ds).1, (delta_span_cons d ds).2]
    constructor <;> split_ifs <;> omega

theorem top_fold_spec (a : Int → Char) (cap : Int) (a_len : Int) :
    ∀ (delta : List Int) (s : Row_State) (len : Int), (∀ d ∈ delta, d ≠ 0) →
      Top_Inv a cap s len → s.i + delta_A_span delta ≤ a_len →
      (∀ x, 0 ≤ x → x < a_len → top_char a cap x ≠ '-') →
      Top_Inv a cap (delta.foldl (top_entry a cap) s) (len + delta_abs delta) ∧
      (delta.foldl (top_entry a cap) s).i = s.i + delta_A_span delta ∧
      (delta.foldl (top_entry a cap) s).j = s.j + delta_T_span delta := by
  intro delta
  induction delta with
  | nil => intro s len _ h _ _; simpa [delta_abs, delta_A_span, delta_T_span] using h
  | cons d ds ih =>
    intro s len hnz h hle hc
    have hd := hnz d (List.mem_cons_self _ _)
    have hnz' := fun x hx => hnz x (List.mem_cons_of_mem _ hx)
    have hsp := delta_A_span_nonneg ds hnz'
    rw [(delta_span_cons d ds).1] at hle
    rw [(delta_span_cons d ds).1, (delta_span_cons d ds).2]
    obtain ⟨e1, e2, e3⟩ := top_entry_spec a cap s len d hd h (fun x h1 h2 =>
      hc x (by have := h.1; omega) (by omega))
    rw [List.foldl_cons]
    obtain ⟨f1, f2, f3⟩ := ih (top_entry a cap s d) _ hnz' e1 (by rw [e2]; omega) hc
    refine ⟨?_, by rw [f2, e2]; ring, by rw [f3, e3]; ring⟩
    have e : len + delta_abs (d :: ds) = len + ↑d.natAbs + delta_abs ds := by
      simp [delta_abs]; ring
    rw [e]; exact f1

theorem top_rest_spec (a : Int → Char) (cap a_len b_len : Int)
    (hc : ∀ x, 0 ≤ x → x < a_len → top_char a cap x ≠ '-') :
    ∀ (fuel : Nat) (s : Row_State) (len : Int), Top_Inv a cap s len →
      a_len - s.i = b_len - s.j → 0 ≤ a_len - s.i → a_len - s.i ≤ fuel →
      Top_Inv a cap (top_rest a a_len b_len cap fuel s) (len + (a_len - s.i)) ∧
      (top_rest a a_len b_len cap fuel s).i = a_len := by
  intro fuel
  induction fuel with
  | zero =>
    intro s len h h1 h2 h3
    have : a_len - s.i = 0 := by push_cast at h3; omega
    rw [this]
    simp only [top_rest, add_zero]
    exact ⟨h, by omega⟩
  | succ fuel ih =>
    intro s len h h1 h2 h3
    unfold top_rest
    by_cases hlt : s.i < a_len ∧ s.j < b_len
    · rw [if_pos hlt]
      obtain ⟨i1, i2⟩ := ih ⟨s.i + 1, s.j + 1, s.row ++ [top_char a cap s.i]⟩ (len + 1)
        (h.push_top_char (hc s.i h.1 hlt.1) _) (by show a_len - (s.i + 1) = b_len - (s.j + 1); omega)
        (by show 0 ≤ a_len - (s.i + 1); omega)
        (by show a_len - (s.i + 1) ≤ fuel; push_cast at h3; omega)
      refine ⟨?_, i2⟩
      have e : len + (a_len - s.i) = len + 1 + (a_len - (s.i + 1)) := by ring
      rw [e]; exact i1
    · rw [if_neg hlt]
      have : a_len - s.i = 0 := by
        by_contra hne
        exact hlt ⟨by omega, by omega⟩
      rw [this, add_zero]
      exact ⟨h, by omega⟩

theorem Display_top_spec (a : Int → Char) (cap a_len b_len : Int) (delta : List Int)
    (hnz : ∀ d ∈ delta, d ≠ 0)
    (hend : a_len - delta_A_span delta = b_len - delta_T_span delta)
    (hpos : 0 ≤ a_len - delta_A_span delta)
    (hc : ∀ x, 0 ≤ x → x < a_len → a x ≠ '-') :
    (Display_top a a_len b_len delta cap).filter (fun c => decide (c ≠ '-')) =
      (List.range a_len.toNat).map (fun r => top_char a cap (r : Nat)) ∧
    ((Display_top a a_len b_len delta cap).length : Int) =
      delta_abs delta + (a_len - delta_A_span delta) := by
  have hc' : ∀ x, 0 ≤ x → x < a_len → top_char a cap x ≠ '-' := by
    intro x h0 h1
    unfold top_char
    split_ifs
    · exact toUpper_ne_gap _ (hc x h0 h1)
    · exact hc x h0 h1
  have h0 : Top_Inv a cap ⟨0, 0, []⟩ 0 := ⟨le_refl _, rfl, rfl⟩
  obtain ⟨f1, f2, f3⟩ := top_fold_spec a cap a_len delta ⟨0, 0, []⟩ 0 hnz h0
    (by show 0 + _ ≤ _; omega) hc'
  simp only [zero_add] at f1 f2 f3
  unfold Display_top
  simp only []
  obtain ⟨r1, r2⟩ := top_rest_spec a cap a_len b_len hc' (a_len -
    (delta.foldl (top_entry a cap) ⟨0, 0, []⟩).i).toNat _ _ f1 (by rw [f2, f3]; exact hend)
    (by rw [f2]; exact hpos) (by rw [f2]; omega)
  obtain ⟨_, q1, q2⟩ := r1
  rw [r2] at q1
  rw [f2] at q2 ⊢
  rw [f2] at q1
  exact ⟨q1, q2⟩

theorem Bottom_Inv.push_bottom_char {b : Int → Char} {s : Row_State} {len : Int}
    (h : Bottom_Inv b s len) (hc : b s.j ≠ '-') (i : Int) :
    Bottom_Inv b ⟨i, s.j + 1, s.row ++ [b s.j]⟩ (len + 1) := by
  obtain ⟨h0, h1, h2⟩ := h
  refine ⟨by show 0 ≤ s.j + 1; omega, ?_, by simp only [List.length_append, List.length_singleton]; push_cast; omega⟩
  show List.filter _ (s.row ++ [_]) = List.map _ (List.range (s.j + 1).toNat)
  have e : (s.j + 1).toNat = s.j.toNat + 1 := by omega
  rw [e, List.range_succ, List.map_append, List.filter_append, h1]
  have e2 : ((s.j.toNat : Nat) : Int) = s.j := Int.toNat_of_nonneg h0
  simp [hc, e2]

theorem Bottom_Inv.push_bottom_gap {b : Int → Char} {s : Row_State} {len : Int}
    (h : Bottom_Inv b s len) (i : Int) :
    Bottom_Inv b ⟨i, s.j, s.row ++ ['-']⟩ (len + 1) := by
  obtain ⟨h0, h1, h2⟩ := h
  refine ⟨h0, ?_, by simp only [List.length_append, List.length_singleton]; push_cast; omega⟩
  show List.filter _ (s.row ++ [_]) = _
  rw [List.filter_append, h1]
  simp

theorem bottom_run_spec (b : Int → Char) (k : Nat) : ∀ (s : Row_State) (len : Int),
    Bottom_Inv b s len → (∀ x, s.j ≤ x → x < s.j + k → b x ≠ '-') →
    Bottom_Inv b ((fun s : Row_State =>
      (⟨s.i + 1, s.j + 1, s.row ++ [b s.j]⟩ : Row_State))^[k] s) (len + k) ∧
    ((fun s : Row_State =>
      (⟨s.i + 1, s.j + 1, s.row ++ [b s.j]⟩ : Row_State))^[k] s).i = s.i + k ∧
    ((fun s : Row_State =>
      (⟨s.i + 1, s.j + 1, s.row ++ [b s.j]⟩ : Row_State))^[k] s).j = s.j + k := by
  induction k with
  | zero => intro s len h _; simpa using h
  | succ k ih =>
    intro s len h hc
    rw [Function.iterate_succ_apply]
    obtain ⟨i1, i2, i3⟩ := ih ⟨s.i + 1, s.j + 1, s.row ++ [b s.j]⟩ (len + 1)
      (h.push_bottom_char (hc s.j (le_refl _) (by omega)) _)
      (fun x h1 h2 => hc x (by simp only at h1; omega) (by simp only at h2; push_cast; omega))
    refine ⟨?_, ?_, ?_⟩
    · have e : len + ((k + 1 : Nat) : Int) = len + 1 + k := by push_cast; ring
      rw [e]; exact i1
    · rw [i2]; push_cast; ring
    · rw [i3]; push_cast; ring

theorem bottom_entry_spec (b : Int → Char) (s : Row_State) (len d : Int)
    (hd : d ≠ 0) (h : Bottom_Inv b s len)
    (hc : ∀ x, s.j ≤ x → x < s.j + ((d.natAbs : Int) - 1) + (if d < 0 then 1 else 0) →
      b x ≠ '-') :
    Bottom_Inv b (bottom_entry b s d) (len + d.natAbs) ∧
    (bottom_entry b s d).i = s.i + ((d.natAbs : Int) - 1) + (if d > 0 then 1 else 0) ∧
    (bottom_entry b s d).j = s.j + ((d.natAbs : Int) - 1) + (if d < 0 then 1 else 0) := by
  obtain ⟨k, hk⟩ : ∃ k : Nat, d.natAbs = k + 1 := ⟨d.natAbs - 1, by omega⟩
  unfold bottom_entry
  rw [hk]
  push_cast
  rw [for_loop_iterate]
  obtain ⟨i1, i2, i3⟩ := bottom_run_spec b k s len h (fun x h1 h2 => hc x h1 (by
    split_ifs <;> omega))
  by_cases hpos : d > 0
  · rw [if_pos hpos, if_pos hpos, if_neg (show ¬ d < 0 by omega)]
    refine ⟨?_, ?_, ?_⟩
    · have := i1.push_bottom_gap (((fun s : Row_State =>
        (⟨s.i + 1, s.j + 1, s.row ++ [b s.j]⟩ : Row_State))^[k] s).i + 1)
      have e : len + (↑k + 1) = len + ↑k + 1 := by ring
      rw [e]; exact this
    · show _ + 1 = s.i + (↑k + 1 - 1) + 1
      rw [i2]; ring
    · show _ = s.j + (↑k + 1 - 1) + 0
      rw [i3]; ring
  · rw [if_neg hpos, if_neg hpos, if_pos (show d < 0 by omega)]
    refine ⟨?_, ?_, ?_⟩
    · have := i1.push_bottom_char (hc _ (by rw [i3]; omega) (by
        rw [i3, if_pos (by omega)]; omega)) (((fun s : Row_State =>
        (⟨s.i + 1, s.j + 1, s.row ++ [b s.j]⟩ : Row_State))^[k] s).i)
      have e : len + (↑k + 1) = len + ↑k + 1 := by ring
      rw [e]; exact this
    · show _ = s.i + (↑k + 1 - 1) + 0
      rw [i2]; ring
    · show _ + 1 = s.j + (↑k + 1 - 1) + 1
      rw [i3]; ring

theorem bottom_fold_spec (b : Int → Char) (b_len : Int) :
    ∀ (delta : List Int) (s : Row_State) (len : Int), (∀ d ∈ delta, d ≠ 0) →
      Bottom_Inv b s len → s.j + delta_T_span delta ≤ b_len →
      (∀ x, 0 ≤ x → x < b_len → b x ≠ '-') →
      Bottom_Inv b (delta.foldl (bottom_entry b) s) (len + delta_abs delta) ∧
      (delta.foldl (bottom_entry b) s).i = s.i + delta_A_span delta ∧
      (delta.foldl (bottom_entry b) s).j = s.j + delta_T_span delta := by
  intro delta
  induction delta with
  | nil => intro s len _ h _ _; simpa [delta_abs, delta_A_span, delta_T_span] using h
  | cons d ds ih =>
    intro s len hnz h hle hc
    have hd := hnz d (List.mem_cons_self _ _)
    have hnz' := fun x hx => hnz x (List.mem_cons_of_mem _ hx)
    have hsp := delta_A_span_nonneg ds hnz'
    rw [(delta_span_cons d ds).2] at hle
    rw [(delta_span_cons d ds).1, (delta_span_cons d ds).2]
    obtain ⟨e1, e2, e3⟩ := bottom_entry_spec b s len d hd h (fun x h1 h2 =>
      hc x (by have := h.1; omega) (by omega))
    rw [List.foldl_cons]
    obtain ⟨f1, f2, f3⟩ := ih (bottom_entry b s d) _ hnz' e1 (by rw [e3]; omega) hc
    refine ⟨?_, by rw [f2, e2]; ring, by rw [f3, e3]; ring⟩
    have e : len + delta_abs (d :: ds) = len + ↑d.natAbs + delta_abs ds := by
      simp [delta_abs]; ring
    rw [e]; exact f1

theorem bottom_rest_spec (b : Int → Char) (a_len b_len : Int)
    (hc : ∀ x, 0 ≤ x → x < b_len → b x ≠ '-') :
    ∀ (fuel : Nat) (s : Row_State) (len : Int), Bottom_Inv b s len →
      a_len - s.i = b_len - s.j → 0 ≤ b_len - s.j → b_len - s.j ≤ fuel →
      Bottom_Inv b (bottom_rest b a_len b_len fuel s) (len + (b_len - s.j)) ∧
      (bottom_rest b a_len b_len fuel s).j = b_len := by
  intro fuel
  induction fuel with
  | zero =>
    intro s len h h1 h2 h3
    have : b_len - s.j = 0 := by push_cast at h3; omega
    rw [this]
    simp only [bottom_rest, add_zero]
    exact ⟨h, by omega⟩
  | succ fuel ih =>
    intro s len h h1 h2 h3
    unfold bottom_rest
    by_cases hlt : s.j < b_len ∧ s.i < a_len
    · rw [if_pos hlt]
      obtain ⟨i1, i2⟩ := ih ⟨s.i + 1, s.j + 1, s.row ++ [b s.j]⟩ (len + 1)
        (h.push_bottom_char (hc s.j h.1 hlt.1) _) (by show a_len - (s.i + 1) = b_len - (s.j + 1); omega)
        (by show 0 ≤ b_len - (s.j + 1); omega)
        (by show b_len - (s.j + 1) ≤ fuel; push_cast at h3; omega)
      refine ⟨?_, i2⟩
      have e : len + (b_len - s.j) = len + 1 + (b_len - (s.j + 1)) := by ring
      rw [e]; exact i1
    · rw [if_neg hlt]
      have : b_len - s.j = 0 := by
        by_contra hne
        exact hlt ⟨by omega, by omega⟩
      rw [this, add_zero]
      exact ⟨h, by omega⟩

theorem Display_bottom_spec (b : Int → Char) (a_len b_len : Int) (delta : List Int)
    (hnz : ∀ d ∈ delta, d ≠ 0)
    (hend : a_len - delta_A_span delta = b_len - delta_T_span delta)
    (hpos : 0 ≤ a_len - delta_A_span delta)
    (hc : ∀ x, 0 ≤ x → x < b_len → b x ≠ '-') :
    (Display_bottom b a_len b_len delta).filter (fun c => decide (c ≠ '-')) =
      (List.range b_len.toNat).map (fun r => b (r : Nat)) ∧
    ((Display_bottom b a_len b_len delta).length : Int) =
      delta_abs delta + (b_len - delta_T_span delta) := by
  have h0 : Bottom_Inv b ⟨0, 0, []⟩ 0 := ⟨le_refl _, rfl, rfl⟩
  obtain ⟨f1, f2, f3⟩ := bottom_fold_spec b b_len delta ⟨0, 0, []⟩ 0 hnz h0
    (by show 0 + _ ≤ _; omega) hc
  simp only [zero_add] at f1 f2 f3
  unfold Display_bottom
  simp only []
  obtain ⟨r1, r2⟩ := bottom_rest_spec b a_len b_len hc (b_len -
    (delta.foldl (bottom_entry b) ⟨0, 0, []⟩).j).toNat _ _ f1 (by rw [f2, f3]; exact hend)
    (by rw [f3]; omega) (by rw [f3]; omega)
  obtain ⟨_, q1, q2⟩ := r1
  rw [r2] at q1
  rw [f3] at q2 ⊢
  rw [f3] at q1
  exact ⟨q1, q2⟩

/-- C21: for reads without the gap character, the rows that
`Display_Alignment` builds from `A`, `T` and the delta returned by
`Prefix_Edit_Dist`, with `a_len = A_End` and `b_len = T_End`, have the same
length; without the gap characters the top row is `A [0 .. A_End)` with the
characters from `capitalize_start` on in upper case (so it is `A [0 .. A_End)`
up to letter case), and the bottom row is `T [0 .. T_End)`. -/
theorem display_round_trip (tb : Tables) (A : Int → Char) (m : Int) (T : Int → Char)
    (n : Int) (Error_Limit : Int) (edit_array : Edit_Array) (capitalize_start : Int)
    (hm : 0 ≤ m) (hn : 0 ≤ n)
    (hA : ∀ i, 0 ≤ i → i < m → A i ≠ '-') (hT : ∀ j, 0 ≤ j → j < n → T j ≠ '-') :
    ∃ r, Prefix_Edit_Dist tb A m T n Error_Limit edit_array = some r ∧
      (Display_top A r.A_End r.T_End r.Delta capitalize_start).length =
        (Display_bottom T r.A_End r.T_End r.Delta).length ∧
      (Display_top A r.A_End r.T_End r.Delta capitalize_start).filter
          (fun c => decide (c ≠ '-')) =
        (List.range r.A_End.toNat).map (fun i : Nat =>
          if (i : Int) ≥ capitalize_start then (A i).toUpper else A i) ∧
      ((Display_top A r.A_End r.T_End r.Delta capitalize_start).filter
          (fun c => decide (c ≠ '-'))).map Char.toLower =
        (List.range r.A_End.toNat).map (fun i : Nat => (A i).toLower) ∧
      (Display_bottom T r.A_End r.T_End r.Delta).filter (fun c => decide (c ≠ '-')) =
        (List.range r.T_End.toNat).map (fun j : Nat => T j) := by
  obtain ⟨r, hr, hpost⟩ := Prefix_Edit_Dist_spec tb A m T n Error_Limit edit_array hm hn
  obtain ⟨s, ⟨_, ha, ht⟩, _, hd⟩ := hpost.script
  obtain ⟨s1, s2, s3⟩ := script_spans s 0 (le_refl _)
  obtain ⟨z1, _⟩ := script_delta_signs s 0 (le_refl _)
  obtain ⟨b1, b2, b3, b4⟩ := hpost.bounds
  rw [← hd] at s1 s2 z1
  have hend : r.A_End - delta_A_span r.Delta = r.T_End - delta_T_span r.Delta := by omega
  have hpos : 0 ≤ r.A_End - delta_A_span r.Delta := by omega
  obtain ⟨t1, t2⟩ := Display_top_spec A capitalize_start r.A_End r.T_End r.Delta z1 hend hpos
    (fun x h0 h1 => hA x h0 (by omega))
  obtain ⟨u1, u2⟩ := Display_bottom_spec T r.A_End r.T_End r.Delta z1 hend hpos
    (fun x h0 h1 => hT x h0 (by omega))
  refine ⟨r, hr, by omega, t1, ?_, u1⟩
  rw [t1, List.map_map]
  apply List.map_congr_left
  intro i _
  simp only [Function.comp, top_char]
  split_ifs
  · exact toLower_toUpper _
  · rfl

theorem display_round_trip_witness :
    ∃ r, Prefix_Edit_Dist Tables_6 (charAt ['a', 'c', 'g']) 3 (charAt ['a', 'g']) 2 1
        Edit_Array.junk = some r ∧
      (Display_top (charAt ['a', 'c', 'g']) r.A_End r.T_End r.Delta 2).length =
        (Display_bottom (charAt ['a', 'g']) r.A_End r.T_End r.Delta).length ∧
      (Display_top (charAt ['a', 'c', 'g']) r.A_End r.T_End r.Delta 2).filter
          (fun c => decide (c ≠ '-')) =
        (List.range r.A_End.toNat).map (fun i : Nat =>
          if (i : Int) ≥ 2 then (charAt ['a', 'c', 'g'] i).toUpper
          else charAt ['a', 'c', 'g'] i) ∧
      ((Display_top (charAt ['a', 'c', 'g']) r.A_End r.T_End r.Delta 2).filter
          (fun c => decide (c ≠ '-'))).map Char.toLower =
        (List.range r.A_End.toNat).map (fun i : Nat => (charAt ['a', 'c', 'g'] i).toLower) ∧
      (Display_bottom (charAt ['a', 'g']) r.A_End r.T_End r.Delta).filter
          (fun c => decide (c ≠ '-')) =
        (List.range r.T_End.toNat).map (fun j : Nat => charAt ['a', 'g'] j) :=
  display_round_trip Tables_6 (charAt ['a', 'c', 'g']) 3 (charAt ['a', 'g']) 2 1
    Edit_Array.junk 2 (by decide) (by decide)
    (fun i h0 h1 => by
      have : i = 0 ∨ i = 1 ∨ i = 2 := by omega
      rcases this with rfl | rfl | rfl <;> decide)
    (fun j h0 h1 => by
      have : j = 0 ∨ j = 1 := by omega
      rcases this with rfl | rfl <;> decide)

/-! ## Theorems: the cells of the band storage -/

theorem trace_from_near (ea : Edit_Array) (k d : Int) :
    trace_from ea k d = d - 1 ∨ trace_from ea k d = d ∨ trace_from ea k d = d + 1 := by
  unfold trace_from
  split_ifs <;> simp

theorem Traced_diag {A T : Int → Char} {m n : Int} {ea : Edit_Array} :
    ∀ (k : Nat) (d v : Int), Traced A T m n ea k d v → -(k : Int) ≤ d ∧ d ≤ k := by
  intro k
  induction k with
  | zero =>
    intro d v h
    obtain ⟨rfl, _⟩ := h
    simp
  | succ k ih =>
    intro d v h
    have h5 := h.2.2.2.2.1
    have := ih _ _ h5
    have hn := trace_from_near ea k d
    push_cast
    omega

theorem Compute_Delta_step_d (ea : Edit_Array) (k : Nat) (s : Back_Trace) :
    (Compute_Delta_step ea ((k : Int) + 1) s).d = trace_from ea k s.d := by
  rw [Compute_Delta_step_eq]
  have hn := trace_from_near ea k s.d
  split_ifs with h1 h2
  · exact h1.symm
  · exact h2.symm
  · rcases hn with h | h | h
    · exact absurd h h1
    · exact h.symm
    · exact absurd h h2

/-- The cells that `Compute_Delta` reads on a traced path lie in the rows
below `k`, at most one diagonal outside the band of the row above. -/
theorem Compute_Delta_cells_band {A T : Int → Char} {m n : Int} {ea : Edit_Array} :
    ∀ (k : Nat) (s : Back_Trace) (v : Int), Traced A T m n ea k s.d v →
      ∀ c ∈ Compute_Delta_cells ea k s,
        0 ≤ c.1 ∧ c.1 < (k : Int) ∧ -(c.1 + 2) ≤ c.2 ∧ c.2 ≤ c.1 + 2 := by
  intro k
  induction k with
  | zero => intro s v _ c hc; simp [Compute_Delta_cells] at hc
  | succ k ih =>
    intro s v h c hc
    have hd := Traced_diag (k + 1) s.d v h
    have hn := trace_from_near ea k s.d
    have h5 := h.2.2.2.2.1
    rw [← Compute_Delta_step_d ea k s] at h5 hn
    unfold Compute_Delta_cells at hc
    simp only [List.mem_append, List.mem_cons, List.mem_singleton, List.not_mem_nil,
      or_false] at hc
    push_cast at hd ⊢
    rcases hc with ((h1 | h1 | h1) | h1) | h1
    · subst h1; simp only; omega
    · subst h1; simp only; omega
    · subst h1; simp only; omega
    · split_ifs at h1 with hne
      · simp only [List.mem_singleton] at h1
        subst h1; simp only; omega
      · simp at h1
    · have := ih _ _ h5 c h1
      omega

theorem fill_row_cells_band (A : Int → Char) (m : Int) (T : Int → Char) (n : Int)
    (e R : Int) (he : 1 ≤ e) (hR : R ≤ e) :
    ∀ (fuel : Nat) (d : Int) (ea : Edit_Array), -e ≤ d →
      ∀ c ∈ fill_row_cells A m T n e R fuel d ea,
        (0 ≤ c.1 ∧ c.1 ≤ e ∧ -(c.1 + 2) ≤ c.2 ∧ c.2 ≤ c.1 + 2) ∨
        ∃ r, fill_row A m T n e R fuel d ea = .returned r ∧ c ∈ result_cells r := by
  intro fuel
  induction fuel with
  | zero => intro d ea _ c hc; simp [fill_row_cells] at hc
  | succ fuel ih =>
    intro d ea hd0 c hc
    simp only [fill_row_cells] at hc
    simp only [fill_row]
    by_cases hd : d ≤ R
    · simp only [hd, if_true] at hc ⊢
      generalize extend_match A T m n d _ _ = Row at hc ⊢
      rw [List.mem_append] at hc
      rcases hc with hc | hc
      · left
        simp only [List.mem_cons, List.mem_singleton, List.not_mem_nil, or_false] at hc
        rcases hc with h | h | h | h <;> subst h <;> simp only <;> omega
      · by_cases hend : Row = m ∨ Row + d = n
        · rw [if_pos hend] at hc ⊢
          rw [List.mem_append] at hc
          rcases hc with hc | hc
          · left
            split_ifs at hc
            · simp only [List.mem_cons, List.mem_singleton, List.not_mem_nil, or_false] at hc
              rcases hc with h | h <;> subst h <;> simp only <;> omega
            · simp at hc
          · by_cases hshape : Row = m ∧ 1 + (ea.set e d Row) (e - 1) (d + 1) =
                (ea.set e d Row) e d ∧ d < R
            · rw [if_pos hshape] at hc ⊢
              rw [List.mem_append] at hc
              rcases hc with hc | hc
              · left
                simp only [List.mem_cons, List.mem_singleton, List.not_mem_nil, or_false] at hc
                rcases hc with h | h <;> subst h <;> simp only <;> omega
              · right
                refine ⟨_, rfl, ?_⟩
                unfold result_cells
                have e1 : Row + (d + 1) - Row = d + 1 := by ring
                simp only [e1]
                exact hc
            · rw [if_neg hshape] at hc ⊢
              right
              refine ⟨_, rfl, ?_⟩
              unfold result_cells
              have e1 : Row + d - Row = d := by ring
              simp only [e1]
              exact hc
        · rw [if_neg hend] at hc ⊢
          exact ih (d + 1) _ (by omega) c hc
    · simp only [hd, if_false] at hc
      simp at hc

theorem tighten_Left_neg_cells_band (ea : Edit_Array) (e lim R : Int) :
    ∀ (fuel : Nat) (L : Int), ∀ c ∈ tighten_Left_neg_cells ea e lim R fuel L,
      c.1 = e ∧ L ≤ c.2 ∧ c.2 ≤ R := by
  intro fuel
  induction fuel with
  | zero => intro L c hc; simp [tighten_Left_neg_cells] at hc
  | succ fuel ih =>
    intro L c hc
    simp only [tighten_Left_neg_cells] at hc
    split_ifs at hc with h1 h2
    · rcases List.mem_cons.1 hc with h | h
      · subst h; exact ⟨rfl, le_refl _, h1.1⟩
      · have := ih (L + 1) c h; omega
    · rcases List.mem_cons.1 hc with h | h
      · subst h; exact ⟨rfl, le_refl _, h1.1⟩
      · simp at h
    · simp at hc

theorem tighten_Left_pos_cells_band (ea : Edit_Array) (e lim R : Int) :
    ∀ (fuel : Nat) (L : Int), ∀ c ∈ tighten_Left_pos_cells ea e lim R fuel L,
      c.1 = e ∧ L ≤ c.2 ∧ c.2 ≤ R := by
  intro fuel
  induction fuel with
  | zero => intro L c hc; simp [tighten_Left_pos_cells] at hc
  | succ fuel ih =>
    intro L c hc
    simp only [tighten_Left_pos_cells] at hc
    split_ifs at hc with h1 h2
    · rcases List.mem_cons.1 hc with h | h
      · subst h; exact ⟨rfl, le_refl _, h1⟩
      · have := ih (L + 1) c h; omega
    · rcases List.mem_cons.1 hc with h | h
      · subst h; exact ⟨rfl, le_refl _, h1⟩
      · simp at h
    · simp at hc

theorem tighten_Left_cells_band (ea : Edit_Array) (e lim L R : Int) (h : L ≤ R + 1) :
    ∀ c ∈ tighten_Left_cells ea e lim L R, c.1 = e ∧ L ≤ c.2 ∧ c.2 ≤ R := by
  intro c hc
  unfold tighten_Left_cells at hc
  simp only [List.mem_append] at hc
  rcases hc with hc | hc
  · exact tighten_Left_neg_cells_band ea e lim R _ L c hc
  · split_ifs at hc
    · have := tighten_Left_pos_cells_band ea e lim R _ _ c hc
      have h1 := (tighten_Left_neg_spec ea e lim R (R - L + 1).toNat L h (le_refl _)).1
      omega
    · simp at hc

theorem tighten_Right_pos_cells_band (ea : Edit_Array) (e lim : Int) :
    ∀ (fuel : Nat) (R : Int), ∀ c ∈ tighten_Right_pos_cells ea e lim fuel R,
      c.1 = e ∧ 0 < c.2 ∧ c.2 ≤ R := by
  intro fuel
  induction fuel with
  | zero => intro R c hc; simp [tighten_Right_pos_cells] at hc
  | succ fuel ih =>
    intro R c hc
    simp only [tighten_Right_pos_cells] at hc
    split_ifs at hc with h1 h2
    · rcases List.mem_cons.1 hc with h | h
      · subst h; exact ⟨rfl, h1, le_refl _⟩
      · have := ih (R - 1) c h; omega
    · rcases List.mem_cons.1 hc with h | h
      · subst h; exact ⟨rfl, h1, le_refl _⟩
      · simp at h
    · simp at hc

theorem tighten_Right_neg_cells_band (ea : Edit_Array) (e lim : Int) :
    ∀ (fuel : Nat) (R R' : Int), tighten_Right_neg ea e lim fuel R = some R' →
      ∀ c ∈ tighten_Right_neg_cells ea e lim fuel R, c.1 = e ∧ R' ≤ c.2 ∧ c.2 ≤ R := by
  intro fuel
  induction fuel with
  | zero => intro R R' _ c hc; simp [tighten_Right_neg_cells] at hc
  | succ fuel ih =>
    intro R R' hR c hc
    simp only [tighten_Right_neg_cells] at hc
    simp only [tighten_Right_neg] at hR
    by_cases h1 : ea e R < lim
    · rw [if_pos h1] at hc hR
      have hle : R' ≤ R - 1 := by
        by_contra hgt
        have key : ∀ (f : Nat) (x y : Int), tighten_Right_neg ea e lim f x = some y → y ≤ x := by
          intro f
          induction f with
          | zero => intro x y h; simp [tighten_Right_neg] at h
          | succ f ihf =>
            intro x y h
            simp only [tighten_Right_neg] at h
            split_ifs at h
            · have := ihf _ _ h; omega
            · simp only [Option.some.injEq] at h; omega
        have := key _ _ _ hR
        omega
      rcases List.mem_cons.1 hc with h | h
      · subst h; exact ⟨rfl, by simp only; omega, le_refl _⟩
      · have := ih (R - 1) R' hR c h; omega
    · rw [if_neg h1] at hc hR
      simp only [Option.some.injEq] at hR
      rcases List.mem_cons.1 hc with h | h
      · subst h; exact ⟨rfl, by simp only; omega, le_refl _⟩
      · simp at h

theorem tighten_Right_cells_band (ea : Edit_Array) (e lim L R R' : Int)
    (h : tighten_Right ea e lim L R = some R') :
    ∀ c ∈ tighten_Right_cells ea e lim L R, c.1 = e ∧ (0 < c.2 ∨ R' ≤ c.2) ∧ c.2 ≤ R := by
  intro c hc
  unfold tighten_Right_cells at hc
  unfold tighten_Right at h
  simp only [List.mem_append] at hc
  simp only at h
  have hp := (tighten_Right_pos_spec ea e lim R.toNat R (le_refl _)).1
  rcases hc with hc | hc
  · have := tighten_Right_pos_cells_band ea e lim _ R c hc
    exact ⟨this.1, Or.inl this.2.1, this.2.2⟩
  · split_ifs at hc h with h1
    · have := tighten_Right_neg_cells_band ea e lim _ _ R' h c hc
      exact ⟨this.1, Or.inr this.2.1, by omega⟩
    · simp at hc

theorem scan_Longest_cells_band (e L R : Int) :
    ∀ c ∈ scan_Longest_cells e L R, c.1 = e ∧ L ≤ c.2 ∧ c.2 ≤ R := by
  intro c hc
  unfold scan_Longest_cells at hc
  simp only [List.mem_map, List.mem_range] at hc
  obtain ⟨k, hk, rfl⟩ := hc
  refine ⟨rfl, ?_, ?_⟩
  · show L ≤ L + (k : Int); omega
  · show L + (k : Int) ≤ R; omega

theorem branch_point_cells_eq (st : PED_State) :
    branch_point_cells st = result_cells (branch_point st) := by
  unfold branch_point_cells result_cells branch_point
  have e : st.Max_Score_Len + st.Max_Score_Best_d - st.Max_Score_Len = st.Max_Score_Best_d := by
    ring
  simp only [e]

theorem PED_levels_cells_band (tb : Tables) (A : Int → Char) (m : Int) (T : Int → Char)
    (n : Int) (Error_Limit : Int) : ∀ (fuel : Nat) (k : Nat)
    (st : PED_State), Level_Inv A T m n k st →
    ∀ c ∈ PED_levels_cells tb A m T n Error_Limit fuel ((k : Int) + 1) st,
      (0 ≤ c.1 ∧ c.1 ≤ Error_Limit ∧ -(c.1 + 2) ≤ c.2 ∧ c.2 ≤ c.1 + 2) ∨
      ∃ r, PED_levels tb A m T n Error_Limit fuel ((k : Int) + 1) st = some r ∧
        c ∈ result_cells r := by
  intro fuel
  induction fuel with
  | zero =>
    intro k st inv c hc
    simp only [PED_levels_cells] at hc
    right
    exact ⟨_, rfl, by rw [← branch_point_cells_eq]; exact hc⟩
  | succ fuel ih =>
    intro k st inv c hc
    simp only [PED_levels_cells] at hc
    simp only [PED_levels]
    by_cases he : (k : Int) + 1 ≤ Error_Limit
    · rw [if_pos he] at hc ⊢
      simp only [(OVL_band inv).1, (OVL_band inv).2] at hc ⊢
      have hready := inv.ready
      have hb := inv.band
      have hl := inv.left_ge
      have hr := inv.right_le
      have hfill := fill_row_spec k (st.Left - 1) (st.Right + 1) _
        hready he
        (st.Right + 1 - (st.Left - 1) + 1).toNat (st.Left - 1) _ (le_refl _) (by omega)
        (le_refl _) (fun _ _ _ => rfl) (fun x h1 h2 => by omega)
      have hcells := fill_row_cells_band A m T n ((k : Int) + 1) (st.Right + 1) (by omega)
        (by omega) (st.Right + 1 - (st.Left - 1) + 1).toNat (st.Left - 1)
        (set_sentinels st.edit_array ((k : Int) + 1) (st.Left - 1) (st.Right + 1)) (by omega) c
      simp only [List.mem_append] at hc
      rcases hc with (hc | hc) | hc
      · left
        simp only [List.mem_cons, List.mem_singleton, List.not_mem_nil, or_false] at hc
        rcases hc with h | h | h | h <;> subst h <;> simp only <;> omega
      · rcases hcells hc with h | ⟨r, h1, h2⟩
        · left; omega
        · right
          rw [h1]
          exact ⟨r, rfl, h2⟩
      · generalize fill_row A m T n ((k : Int) + 1) (st.Right + 1)
          (st.Right + 1 - (st.Left - 1) + 1).toNat (st.Left - 1)
          (set_sentinels st.edit_array ((k : Int) + 1) (st.Left - 1) (st.Right + 1)) = out
          at hfill hc ⊢
        cases out with
        | returned r => simp at hc
        | filled ea2 =>
          obtain ⟨hrows, hlive⟩ := hfill
          simp only at hc ⊢
          obtain ⟨l1, l2, l3⟩ := tighten_Left_spec ea2 ((k : Int) + 1)
            (tb.Edit_Match_Limit ((k : Int) + 1)) (st.Left - 1) (st.Right + 1) (by omega)
          have hlc := tighten_Left_cells_band ea2 ((k : Int) + 1)
            (tb.Edit_Match_Limit ((k : Int) + 1)) (st.Left - 1) (st.Right + 1) (by omega) c
          generalize tighten_Left ea2 ((k : Int) + 1) (tb.Edit_Match_Limit ((k : Int) + 1))
            (st.Left - 1) (st.Right + 1) = L2 at l1 l2 l3 hc ⊢
          rw [List.mem_append] at hc
          rcases hc with hc | hc
          · left
            have := hlc hc
            omega
          · by_cases hbrk : L2 > st.Right + 1
            · rw [if_pos hbrk] at hc ⊢
              right
              exact ⟨_, rfl, by rw [← branch_point_cells_eq]; exact hc⟩
            · rw [if_neg hbrk] at hc ⊢
              obtain ⟨R2, r1, r2, r3⟩ := tighten_Right_spec ea2 ((k : Int) + 1)
                (tb.Edit_Match_Limit ((k : Int) + 1)) L2 (st.Right + 1) (by omega)
                (l3 (by omega)).1 (l3 (by omega)).2
              have hrc := tighten_Right_cells_band ea2 ((k : Int) + 1)
                (tb.Edit_Match_Limit ((k : Int) + 1)) L2 (st.Right + 1) R2 r1 c
              rw [r1] at hc ⊢
              simp only at hc ⊢
              rw [if_pos r2] at hc ⊢
              simp only [List.mem_append] at hc
              rcases hc with hc | hc | hc
              · left
                have := hrc hc
                omega
              · left
                have := scan_Longest_cells_band _ _ _ c hc
                omega
              · obtain ⟨inv3, _⟩ := Level_Inv_step tb inv hrows hlive l1 r2 r3
                have := ih (k + 1) _ inv3 c (by push_cast; exact hc)
                push_cast at this
                exact this
    · rw [if_neg he] at hc ⊢
      right
      exact ⟨_, rfl, by rw [← branch_point_cells_eq]; exact hc⟩

theorem PED_Post.cells {A T : Int → Char} {m n Error_Limit : Int} {r : PED_Result}
    (h : PED_Post A T m n Error_Limit r) :
    ∀ c ∈ result_cells r, 0 ≤ c.1 ∧ c.1 < OVL_Max_int Error_Limit 1 ∧
      -(c.1 + 2) ≤ c.2 ∧ c.2 ≤ c.1 + 2 := by
  obtain ⟨k, he, hk, htr, _⟩ := h
  intro c hc
  unfold result_cells at hc
  rw [he] at hc
  simp only [Int.toNat_ofNat] at hc
  have := Compute_Delta_cells_band k ⟨r.T_End - r.A_End, r.A_End, []⟩ r.A_End htr c hc
  refine ⟨this.1, ?_, this.2.2⟩
  unfold OVL_Max_int
  split_ifs <;> omega

theorem Prefix_Edit_Dist_cells_band (tb : Tables) (A : Int → Char) (m : Int) (T : Int → Char)
    (n : Int) (Error_Limit : Int) (edit_array : Edit_Array) (hm : 0 ≤ m) (hn : 0 ≤ n) :
    ∀ c ∈ Prefix_Edit_Dist_cells tb A m T n Error_Limit edit_array,
      0 ≤ c.1 ∧ c.1 ≤ OVL_Max_int Error_Limit 0 ∧ -(c.1 + 2) ≤ c.2 ∧ c.2 ≤ c.1 + 2 := by
  intro c hc
  obtain ⟨r, hr, hpost⟩ := Prefix_Edit_Dist_spec tb A m T n Error_Limit edit_array hm hn
  have hmax : 0 ≤ OVL_Max_int Error_Limit 0 ∧ Error_Limit ≤ OVL_Max_int Error_Limit 0 ∧
      OVL_Max_int Error_Limit 1 ≤ OVL_Max_int Error_Limit 0 + 1 := by
    unfold OVL_Max_int; split_ifs <;> omega
  unfold Prefix_Edit_Dist_cells at hc
  unfold Prefix_Edit_Dist at hr
  simp only at hc hr
  have hs : 0 ≤ OVL_Min_int m n ∧ OVL_Min_int m n ≤ m ∧ OVL_Min_int m n ≤ n ∧
      (OVL_Min_int m n = m ∨ OVL_Min_int m n = n) := by
    unfold OVL_Min_int; split_ifs <;> omega
  generalize OVL_Min_int m n = shorter at hs hc hr
  obtain ⟨f1, f2, f3, f4⟩ := first_match_spec A T shorter shorter.toNat 0 hs.1 (by simp)
  generalize first_match A T shorter shorter.toNat 0 = Row at f1 f2 f3 f4 hc hr
  rcases List.mem_cons.1 hc with h | hc
  · subst h; simp only; omega
  · by_cases hx : Row = shorter
    · rw [if_pos hx] at hc; simp at hc
    · rw [if_neg hx] at hc hr
      have hne : A Row ≠ T Row := by
        rcases f4 with h | h
        · exact absurd h hx
        · exact h
      have hlt : Row < shorter := lt_of_le_of_ne f2 hx
      have inv : Level_Inv A T m n 0 ⟨edit_array.set 0 0 Row, 0, 0, 0, 0, 0, 0, 0, 0, 0⟩ := by
        refine ⟨le_refl _, by simp, by simp, ?_, ?_, ?_⟩
        · intro d h1 h2
          have hd : d = 0 := by simp only at h1 h2; omega
          subst hd
          have hc : (edit_array.set 0 0 Row) ((0 : Nat) : Int) 0 = Row := by
            rw [set_get]; simp
          unfold Live
          simp only
          rw [hc]
          refine ⟨⟨rfl, f1, by omega, by omega, f3⟩, f1, by omega, by omega, by omega, ?_⟩
          simpa using hne
        · simp only
          exact ⟨0, rfl, le_refl _, ⟨rfl, le_refl _, hm, hn, fun r h1 h2 => by omega⟩,
            by omega, by omega⟩
        · simp only
          exact ⟨0, rfl, le_refl _, ⟨rfl, le_refl _, hm, hn, fun r h1 h2 => by omega⟩,
            by omega, by omega⟩
      have := PED_levels_cells_band tb A m T n Error_Limit Error_Limit.toNat 0 _ inv c
        (by simpa using hc)
      rcases this with h | ⟨r', h1, h2⟩
      · omega
      · have e : PED_levels tb A m T n Error_Limit Error_Limit.toNat (((0 : Nat) : Int) + 1)
            ⟨edit_array.set 0 0 Row, 0, 0, 0, 0, 0, 0, 0, 0, 0⟩ = some r := by
          simpa using hr
        rw [e] at h1
        cases h1
        have := hpost.cells c h2
        omega

theorem row_offsets_get : ∀ (k : Nat) (offset del : Int) (i : Nat), i < k →
    (row_offsets k offset del).getD i 0 = offset + i * del + i * ((i : Int) - 1) := by
  intro k
  induction k with
  | zero => intro _ _ i h; omega
  | succ k ih =>
    intro offset del i h
    cases i with
    | zero => simp [row_offsets]
    | succ i =>
      simp only [row_offsets, List.getD_cons_succ]
      rw [ih (offset + del) (del + 2) i (by omega)]
      push_cast
      ring

theorem row_offsets_length : ∀ (k : Nat) (offset del : Int),
    (row_offsets k offset del).length = k := by
  intro k
  induction k with
  | zero => intro _ _; rfl
  | succ k ih => intro offset del; simp [row_offsets, ih]

theorem flat_index_eq (MAX_ERRORS : Int) (c : Cell) (h0 : 0 ≤ c.1) (h1 : c.1 < MAX_ERRORS) :
    flat_index MAX_ERRORS c = c.1 * c.1 + 5 * c.1 + 2 + c.2 := by
  unfold flat_index Init_Thread_Work_Area
  simp only
  rw [row_offsets_get _ _ _ _ (by omega)]
  have : ((c.1.toNat : Nat) : Int) = c.1 := Int.toNat_of_nonneg h0
  rw [this]
  ring

/-- C22: the aligner stays inside its band storage.  With the rows laid out
by `Init_Thread_Work_Area` (row `i` starts at offset `i * i + 5 * i + 2` of
`(MAX_ERRORS + 4) * MAX_ERRORS` ints), every cell `edit_array [e] [d]` that
`Prefix_Edit_Dist` and its call of `Compute_Delta` read or write for an
`Error_Limit` below `MAX_ERRORS` has `0 <= e < MAX_ERRORS` and
`|d| <= e + 2`; its index in `edit_space` is inside the allocation, and two
touched cells with the same index are the same cell, so cells of different
rows never share an index. -/
theorem band_storage_safe (tb : Tables) (A : Int → Char) (m : Int) (T : Int → Char)
    (n : Int) (Error_Limit : Int) (edit_array : Edit_Array) (MAX_ERRORS : Int)
    (hm : 0 ≤ m) (hn : 0 ≤ n) (hM : 1 ≤ MAX_ERRORS) (hE : Error_Limit < MAX_ERRORS) :
    ((Init_Thread_Work_Area MAX_ERRORS).1.length = MAX_ERRORS.toNat ∧
      ∀ i : Nat, (i : Int) < MAX_ERRORS →
        (Init_Thread_Work_Area MAX_ERRORS).1.getD i 0 = (i : Int) * i + 5 * i + 2) ∧
    (∀ c ∈ Prefix_Edit_Dist_cells tb A m T n Error_Limit edit_array,
      0 ≤ c.1 ∧ c.1 < MAX_ERRORS ∧ |c.2| ≤ c.1 + 2 ∧
      0 ≤ flat_index MAX_ERRORS c ∧
      flat_index MAX_ERRORS c < (Init_Thread_Work_Area MAX_ERRORS).2) ∧
    (∀ c ∈ Prefix_Edit_Dist_cells tb A m T n Error_Limit edit_array,
      ∀ c' ∈ Prefix_Edit_Dist_cells tb A m T n Error_Limit edit_array,
        (c.1 ≠ c'.1 → flat_index MAX_ERRORS c ≠ flat_index MAX_ERRORS c') ∧
        (flat_index MAX_ERRORS c = flat_index MAX_ERRORS c' → c = c')) := by
  have hband : ∀ c ∈ Prefix_Edit_Dist_cells tb A m T n Error_Limit edit_array,
      0 ≤ c.1 ∧ c.1 < MAX_ERRORS ∧ -(c.1 + 2) ≤ c.2 ∧ c.2 ≤ c.1 + 2 := by
    intro c hc
    have := Prefix_Edit_Dist_cells_band tb A m T n Error_Limit edit_array hm hn c hc
    have hmax : OVL_Max_int Error_Limit 0 < MAX_ERRORS := by
      unfold OVL_Max_int; split_ifs <;> omega
    exact ⟨this.1, by omega, this.2.2⟩
  have hinj : ∀ (e d e' d' : Int), 0 ≤ e → -(e + 2) ≤ d → d ≤ e + 2 → -(e' + 2) ≤ d' →
      d' ≤ e' + 2 → e < e' →
      e * e + 5 * e + 2 + d ≠ e' * e' + 5 * e' + 2 + d' := by
    intro e d e' d' h0 h1 h2 h3 h4 hlt heq
    nlinarith [mul_nonneg (show (0 : Int) ≤ e' - e - 1 by omega)
      (show (0 : Int) ≤ e' + e + 5 by omega)]
  refine ⟨⟨?_, ?_⟩, ?_, ?_⟩
  · unfold Init_Thread_Work_Area
    exact row_offsets_length _ _ _
  · intro i hi
    unfold Init_Thread_Work_Area
    simp only
    rw [row_offsets_get _ _ _ _ (by omega)]
    ring
  · intro c hc
    obtain ⟨b1, b2, b3, b4⟩ := hband c hc
    refine ⟨b1, b2, abs_le.2 ⟨by omega, b4⟩, ?_, ?_⟩
    · rw [flat_index_eq _ _ b1 b2]
      nlinarith [mul_nonneg b1 b1]
    · rw [flat_index_eq _ _ b1 b2]
      show _ < (MAX_ERRORS + 4) * MAX_ERRORS
      nlinarith [mul_nonneg (show (0 : Int) ≤ MAX_ERRORS - 1 - c.1 by omega)
        (show (0 : Int) ≤ MAX_ERRORS - 1 + c.1 + 6 by omega)]
  · intro c hc c' hc'
    obtain ⟨b1, b2, b3, b4⟩ := hband c hc
    obtain ⟨b1', b2', b3', b4'⟩ := hband c' hc'
    rw [flat_index_eq _ _ b1 b2, flat_index_eq _ _ b1' b2']
    have hrow : c.1 ≠ c'.1 → c.1 * c.1 + 5 * c.1 + 2 + c.2 ≠
        c'.1 * c'.1 + 5 * c'.1 + 2 + c'.2 := by
      intro hne
      rcases lt_or_gt_of_ne hne with h | h
      · exact hinj _ _ _ _ b1 b3 b4 b3' b4' h
      · exact fun heq => hinj _ _ _ _ b1' b3' b4' b3 b4 h heq.symm
    refine ⟨hrow, fun heq => ?_⟩
    have h1 : c.1 = c'.1 := by
      by_contra hne
      exact hrow hne heq
    have h2 : c.2 = c'.2 := by
      rw [h1] at heq
      omega
    exact Prod.ext h1 h2

set_option maxRecDepth 100000 in
theorem band_storage_safe_witness :
    0 ≤ ((1, -1) : Cell).1 ∧ ((1, -1) : Cell).1 < 2 ∧
      |((1, -1) : Cell).2| ≤ ((1, -1) : Cell).1 + 2 ∧
      0 ≤ flat_index 2 (1, -1) ∧ flat_index 2 (1, -1) < (Init_Thread_Work_Area 2).2 :=
  (band_storage_safe Tables_6 (charAt ['a', 'c', 'g']) 3 (charAt ['a', 'g']) 2 1
    Edit_Array.junk 2 (by decide) (by decide) (by decide) (by decide)).2.1 (1, -1) (by decide)

/-! ## Theorems: the aligner does not depend on the content of the work area -/

theorem trace_local {ea ea' : Edit_Array} {k d : Int} (h1 : ea k (d - 1) = ea' k (d - 1))
    (h2 : ea k d = ea' k d) (h3 : ea k (d + 1) = ea' k (d + 1)) :
    trace_from ea k d = trace_from ea' k d ∧ trace_max ea k d = trace_max ea' k d := by
  unfold trace_from trace_max trace_max1
  constructor <;> simp only [h1, h2, h3]

theorem Same_Trace_congr {ea ea' ea1 ea1' : Edit_Array} :
    ∀ (k : Nat) (d : Int), (∀ r : Int, r < k → ∀ x, ea1 r x = ea r x) →
      (∀ r : Int, r < k → ∀ x, ea1' r x = ea' r x) →
      Same_Trace ea ea' k d → Same_Trace ea1 ea1' k d := by
  intro k
  induction k with
  | zero => intro d _ _ _; trivial
  | succ k ih =>
    intro d h1 h2 h
    have e1 : ∀ x, ea1 k x = ea k x := h1 k (by push_cast; omega)
    have e2 : ∀ x, ea1' k x = ea' k x := h2 k (by push_cast; omega)
    obtain ⟨a1, a2, a3, a4⟩ := h
    have hf : trace_from ea1 k d = trace_from ea k d := (trace_congr e1 d).1
    refine ⟨by rw [e1, e2]; exact a1, by rw [e1, e2]; exact a2, by rw [e1, e2]; exact a3, ?_⟩
    rw [hf]
    exact ih _ (fun r hr => h1 r (by push_cast; omega)) (fun r hr => h2 r (by push_cast; omega)) a4

theorem Compute_Delta_step_same {ea ea' : Edit_Array} {k : Nat} (s : Back_Trace)
    (h1 : ea k (s.d - 1) = ea' k (s.d - 1))
    (h2 : ea k s.d = ea' k s.d) (h3 : ea k (s.d + 1) = ea' k (s.d + 1)) :
    Compute_Delta_step ea ((k : Int) + 1) s = Compute_Delta_step ea' ((k : Int) + 1) s := by
  rw [Compute_Delta_step_eq, Compute_Delta_step_eq]
  obtain ⟨e1, e2⟩ := trace_local h1 h2 h3
  rw [e1, e2, h1, h3]

theorem Compute_Delta_trace_same {ea ea' : Edit_Array} : ∀ (k : Nat) (s : Back_Trace),
    Same_Trace ea ea' k s.d → Compute_Delta_trace ea k s = Compute_Delta_trace ea' k s := by
  intro k
  induction k with
  | zero => intro s _; rfl
  | succ k ih =>
    intro s h
    obtain ⟨a1, a2, a3, a4⟩ := h
    simp only [Compute_Delta_trace]
    rw [← Compute_Delta_step_same s a1 a2 a3]
    apply ih
    rw [Compute_Delta_step_d]
    exact a4

theorem Compute_Delta_same {ea ea' : Edit_Array} (k : Nat) (d row : Int)
    (h : Same_Trace ea ea' k d) : Compute_Delta ea k d row = Compute_Delta ea' k d row := by
  unfold Compute_Delta
  simp only [Int.toNat_ofNat]
  rw [Compute_Delta_trace_same k ⟨d, row, []⟩ h]

theorem Same_Trace_ready {A T : Int → Char} {m n : Int} {k : Nat} {L R : Int}
    {ea0 ea0' ea ea' : Edit_Array}
    (hready : Row_Ready A T m n ea0 k L R)
    (hrow : ∀ x, L - 1 ≤ x → x ≤ R + 1 → ea0 k x = ea0' k x)
    (hin : ∀ x, L < x → x < R → Same_Trace ea0 ea0' k x)
    (h1 : ∀ r : Int, r ≠ (k : Int) + 1 → ∀ x, ea r x = ea0 r x)
    (h2 : ∀ r : Int, r ≠ (k : Int) + 1 → ∀ x, ea' r x = ea0' r x)
    (d : Int) (hd1 : L ≤ d) (hd2 : d ≤ R) : Same_Trace ea ea' (k + 1) d := by
  apply @Same_Trace_congr ea0 ea0' ea ea' (k + 1) d
    (fun r hr x => h1 r (by push_cast at hr; omega) x)
    (fun r hr x => h2 r (by push_cast at hr; omega) x)
  obtain ⟨s1, s2, _⟩ := hready.source hd1 hd2
  exact ⟨hrow _ (by omega) (by omega), hrow _ (by omega) (by omega),
    hrow _ (by omega) (by omega), hin _ s1 s2⟩

theorem fill_row_same {A T : Int → Char} {m n : Int} (k : Nat) (L R : Int)
    (ea0 ea0' : Edit_Array) (hready : Row_Ready A T m n ea0 k L R)
    (hrow : ∀ x, L - 1 ≤ x → x ≤ R + 1 → ea0 k x = ea0' k x)
    (hin : ∀ x, L < x → x < R → Same_Trace ea0 ea0' k x) :
    ∀ (fuel : Nat) (d : Int) (ea ea' : Edit_Array), L ≤ d → d ≤ R + 1 →
      (R - d + 1).toNat ≤ fuel →
      (∀ r : Int, r ≠ (k : Int) + 1 → ∀ x, ea r x = ea0 r x) →
      (∀ r : Int, r ≠ (k : Int) + 1 → ∀ x, ea' r x = ea0' r x) →
      (∀ x, L ≤ x → x < d → ea ((k : Int) + 1) x = ea' ((k : Int) + 1) x) →
      match fill_row A m T n ((k : Int) + 1) R fuel d ea,
          fill_row A m T n ((k : Int) + 1) R fuel d ea' with
      | .returned r, .returned r' => Same_Result r r'
      | .filled e1, .filled e1' =>
          (∀ r : Int, r ≠ (k : Int) + 1 → ∀ x, e1' r x = ea0' r x) ∧
          ∀ x, L ≤ x → x ≤ R → e1 ((k : Int) + 1) x = e1' ((k : Int) + 1) x
      | _, _ => False := by
  intro fuel
  induction fuel with
  | zero =>
    intro d ea ea' h1 h2 hf hr hr' hag
    simp only [fill_row]
    exact ⟨hr', fun x hx1 hx2 => hag x hx1 (by omega)⟩
  | succ fuel ih =>
    intro d ea ea' h1 h2 hf hr hr' hag
    simp only [fill_row]
    by_cases hd : d ≤ R
    · simp only [hd, if_true, add_sub_cancel_right]
      have hk : ∀ x, ea k x = ea0 k x := hr k (by omega)
      have hk' : ∀ x, L - 1 ≤ x → x ≤ R + 1 → ea' k x = ea0 k x := by
        intro x hx1 hx2
        rw [hr' k (by omega), hrow x hx1 hx2]
      rw [hk, hk, hk, hk' (d - 1) (by omega) (by omega), hk' d (by omega) (by omega),
        hk' (d + 1) (by omega) (by omega)]
      generalize extend_match A T m n d _ _ = Row
      have hr1 : ∀ r : Int, r ≠ (k : Int) + 1 → ∀ x,
          (ea.set ((k : Int) + 1) d Row) r x = ea0 r x := by
        intro r hne x
        rw [set_get]
        simp only [hne, false_and, if_false]
        exact hr r hne x
      have hr1' : ∀ r : Int, r ≠ (k : Int) + 1 → ∀ x,
          (ea'.set ((k : Int) + 1) d Row) r x = ea0' r x := by
        intro r hne x
        rw [set_get]
        simp only [hne, false_and, if_false]
        exact hr' r hne x
      have hcell : (ea.set ((k : Int) + 1) d Row) ((k : Int) + 1) d = Row := by
        rw [set_get]; simp
      have hcell' : (ea'.set ((k : Int) + 1) d Row) ((k : Int) + 1) d = Row := by
        rw [set_get]; simp
      by_cases hend : Row = m ∨ Row + d = n
      · rw [if_pos hend, if_pos hend]
        have hc1 : (ea.set ((k : Int) + 1) d Row) k (d + 1) = ea0 k (d + 1) :=
          hr1 k (by omega) _
        have hc1' : (ea'.set ((k : Int) + 1) d Row) k (d + 1) = ea0 k (d + 1) := by
          rw [hr1' k (by omega), hrow _ (by omega) (by omega)]
        rw [hc1, hc1', hcell, hcell']
        by_cases hshape : Row = m ∧ 1 + ea0 k (d + 1) = Row ∧ d < R
        · rw [if_pos hshape, if_pos hshape]
          refine ⟨rfl, rfl, rfl, rfl, ?_⟩
          have hr2 : ∀ r : Int, r ≠ (k : Int) + 1 → ∀ x,
              ((ea.set ((k : Int) + 1) d Row).set ((k : Int) + 1) (d + 1) Row) r x =
                ea0 r x := by
            intro r hne x
            rw [set_get]
            simp only [hne, false_and, if_false]
            exact hr1 r hne x
          have hr2' : ∀ r : Int, r ≠ (k : Int) + 1 → ∀ x,
              ((ea'.set ((k : Int) + 1) d Row).set ((k : Int) + 1) (d + 1) Row) r x =
                ea0' r x := by
            intro r hne x
            rw [set_get]
            simp only [hne, false_and, if_false]
            exact hr1' r hne x
          have hst := Same_Trace_ready hready hrow hin hr2 hr2' (d + 1) (by omega)
            (by omega)
          have := Compute_Delta_same (k + 1) (d + 1) Row hst
          push_cast at this
          exact this.symm
        · rw [if_neg hshape, if_neg hshape]
          refine ⟨rfl, rfl, rfl, rfl, ?_⟩
          have hst := Same_Trace_ready hready hrow hin hr1 hr1' d h1 hd
          have := Compute_Delta_same (k + 1) d Row hst
          push_cast at this
          exact this.symm
      · rw [if_neg hend, if_neg hend]
        exact ih (d + 1) _ _ (by omega) (by omega) (by omega) hr1 hr1' (by
          intro x hx1 hx2
          by_cases hxd : x = d
          · subst hxd; rw [hcell, hcell']
          · rw [set_get, set_get]
            have : ¬ ((k : Int) + 1 = (k : Int) + 1 ∧ x = d) := fun h => hxd h.2
            rw [if_neg this, if_neg this]
            exact hag x hx1 (by omega))
    · simp only [hd, if_false]
      exact ⟨hr', fun x hx1 hx2 => hag x hx1 (by omega)⟩

theorem tighten_Left_neg_same (ea ea' : Edit_Array) (e lim L0 R : Int)
    (h : ∀ x, L0 ≤ x → x ≤ R → ea e x = ea' e x) : ∀ (fuel : Nat) (L : Int), L0 ≤ L →
    tighten_Left_neg ea e lim R fuel L = tighten_Left_neg ea' e lim R fuel L := by
  intro fuel
  induction fuel with
  | zero => intro L _; rfl
  | succ fuel ih =>
    intro L hL
    simp only [tighten_Left_neg]
    by_cases hc : L ≤ R
    · rw [← h L hL hc, ih (L + 1) (by omega)]
    · have c1 : ¬ (L ≤ R ∧ L < 0 ∧ ea e L < lim) := fun h => hc h.1
      have c2 : ¬ (L ≤ R ∧ L < 0 ∧ ea' e L < lim) := fun h => hc h.1
      rw [if_neg c1, if_neg c2]

theorem tighten_Left_pos_same (ea ea' : Edit_Array) (e lim L0 R : Int)
    (h : ∀ x, L0 ≤ x → x ≤ R → ea e x = ea' e x) : ∀ (fuel : Nat) (L : Int), L0 ≤ L →
    tighten_Left_pos ea e lim R fuel L = tighten_Left_pos ea' e lim R fuel L := by
  intro fuel
  induction fuel with
  | zero => intro L _; rfl
  | succ fuel ih =>
    intro L hL
    simp only [tighten_Left_pos]
    by_cases hc : L ≤ R
    · rw [← h L hL hc, ih (L + 1) (by omega)]
    · have c1 : ¬ (L ≤ R ∧ ea e L + L < lim) := fun h => hc h.1
      have c2 : ¬ (L ≤ R ∧ ea' e L + L < lim) := fun h => hc h.1
      rw [if_neg c1, if_neg c2]

theorem tighten_Left_same (ea ea' : Edit_Array) (e lim L R : Int) (hLR : L ≤ R + 1)
    (h : ∀ x, L ≤ x → x ≤ R → ea e x = ea' e x) :
    tighten_Left ea e lim L R = tighten_Left ea' e lim L R := by
  unfold tighten_Left
  rw [← tighten_Left_neg_same ea ea' e lim L R h _ L (le_refl _)]
  have h1 := (tighten_Left_neg_spec ea e lim R (R - L + 1).toNat L hLR (le_refl _)).1
  simp only
  rw [← tighten_Left_pos_same ea ea' e lim L R h _ _ h1]

theorem tighten_Right_pos_same (ea ea' : Edit_Array) (e lim L R0 : Int)
    (h : ∀ x, L ≤ x → x ≤ R0 → ea e x = ea' e x) (hL : 0 ≤ L → lim ≤ ea e L + L) :
    ∀ (fuel : Nat) (R : Int), L ≤ R → R ≤ R0 →
    tighten_Right_pos ea e lim fuel R = tighten_Right_pos ea' e lim fuel R := by
  intro fuel
  induction fuel with
  | zero => intro R _ _; rfl
  | succ fuel ih =>
    intro R h1 h2
    simp only [tighten_Right_pos]
    rw [← h R h1 h2]
    by_cases hc : R > 0 ∧ ea e R + R < lim
    · rw [if_pos hc, if_pos hc]
      have hne : L ≠ R := by
        intro heq
        subst heq
        have := hL (by omega)
        omega
      exact ih (R - 1) (by omega) (by omega)
    · rw [if_neg hc, if_neg hc]

theorem tighten_Right_neg_same (ea ea' : Edit_Array) (e lim L R0 : Int)
    (h : ∀ x, L ≤ x → x ≤ R0 → ea e x = ea' e x) (hL : lim ≤ ea e L) :
    ∀ (fuel : Nat) (R : Int), L ≤ R → R ≤ R0 →
    tighten_Right_neg ea e lim fuel R = tighten_Right_neg ea' e lim fuel R := by
  intro fuel
  induction fuel with
  | zero => intro R _ _; rfl
  | succ fuel ih =>
    intro R h1 h2
    simp only [tighten_Right_neg]
    rw [← h R h1 h2]
    by_cases hc : ea e R < lim
    · rw [if_pos hc, if_pos hc]
      have hne : L ≠ R := by
        intro heq
        subst heq
        omega
      exact ih (R - 1) (by omega) (by omega)
    · rw [if_neg hc, if_neg hc]

theorem tighten_Right_same (ea ea' : Edit_Array) (e lim L R : Int) (hLR : L ≤ R)
    (h : ∀ x, L ≤ x → x ≤ R → ea e x = ea' e x)
    (h1 : L < 0 → lim ≤ ea e L) (h2 : 0 ≤ L → lim ≤ ea e L + L) :
    tighten_Right ea e lim L R = tighten_Right ea' e lim L R := by
  unfold tighten_Right
  rw [← tighten_Right_pos_same ea ea' e lim L R h h2 _ R hLR (le_refl _)]
  obtain ⟨a1, a2, a3, a4⟩ := tighten_Right_pos_spec ea e lim R.toNat R (le_refl _)
  generalize tighten_Right_pos ea e lim R.toNat R = R1 at a1 a2 a3 a4 ⊢
  simp only
  by_cases hc : R1 ≤ 0
  · rw [if_pos hc, if_pos hc]
    have hL0 : L ≤ 0 := by
      by_contra hL
      have := a2 L (by omega) hLR (h2 (by omega))
      omega
    have hLR1 : L ≤ R1 := by
      by_cases hR : 0 ≤ R
      · have := a3 hR; omega
      · have := a4 (by omega); omega
    have hx : lim ≤ ea e L := by
      by_cases hz : L < 0
      · exact h1 hz
      · have := h2 (by omega)
        have hz' : L = 0 := by omega
        rw [hz'] at this ⊢
        omega
    exact tighten_Right_neg_same ea ea' e lim L R h hx _ R1 hLR1 a1
  · rw [if_neg hc, if_neg hc]

theorem foldl_rel {α σ τ : Type} (Rel : σ → τ → Prop) (f : σ → α → σ) (g : τ → α → τ) :
    ∀ (l : List α) (s : σ) (t : τ), Rel s t →
      (∀ x ∈ l, ∀ s t, Rel s t → Rel (f s x) (g t x)) → Rel (l.foldl f s) (l.foldl g t) := by
  intro l
  induction l with
  | nil => intro s t h _; exact h
  | cons x l ih =>
    intro s t h hstep
    simp only [List.foldl_cons]
    exact ih _ _ (hstep x (List.mem_cons_self _ _) s t h)
      (fun y hy => hstep y (List.mem_cons_of_mem _ hy))

/-- The scan for the longest row treats two states alike when their local
variables agree and their work areas agree on the band of row `e`; the cell
it remembers is the old one or a cell of the band. -/
theorem scan_Longest_same (e : Int) (st st' : PED_State) (hl : Same_Locals st st')
    (hrow : ∀ d, st.Left ≤ d → d ≤ st.Right → st.edit_array e d = st'.edit_array e d) :
    Same_Locals (scan_Longest e st) (scan_Longest e st') ∧
    (scan_Longest e st).edit_array = st.edit_array ∧
    (scan_Longest e st').edit_array = st'.edit_array ∧
    (scan_Longest e st).Left = st.Left ∧ (scan_Longest e st).Right = st.Right ∧
    (scan_Longest e st).Max_Score_Best_e = st.Max_Score_Best_e ∧
    (scan_Longest e st).Max_Score_Best_d = st.Max_Score_Best_d ∧
    (((scan_Longest e st).Best_e = st.Best_e ∧ (scan_Longest e st).Best_d = st.Best_d) ∨
      ((scan_Longest e st).Best_e = e ∧ st.Left ≤ (scan_Longest e st).Best_d ∧
        (scan_Longest e st).Best_d ≤ st.Right)) := by
  unfold scan_Longest for_loop
  obtain ⟨hL, hR, _⟩ := id hl
  rw [hL, hR]
  apply foldl_rel (fun (s : PED_State) (s' : PED_State) =>
    Same_Locals s s' ∧ s.edit_array = st.edit_array ∧ s'.edit_array = st'.edit_array ∧
    s.Left = st.Left ∧ s.Right = st.Right ∧
    s.Max_Score_Best_e = st.Max_Score_Best_e ∧ s.Max_Score_Best_d = st.Max_Score_Best_d ∧
    ((s.Best_e = st.Best_e ∧ s.Best_d = st.Best_d) ∨
      (s.Best_e = e ∧ st.Left ≤ s.Best_d ∧ s.Best_d ≤ st.Right)))
  · exact ⟨hl, rfl, rfl, rfl, rfl, rfl, rfl, Or.inl ⟨rfl, rfl⟩⟩
  · intro x hx s s' ⟨p1, p2, p3, p4, p5, p6, p7, p8⟩
    have hx' := List.mem_range.1 hx
    have hcell : s.edit_array e (st.Left + x) = s'.edit_array e (st.Left + x) := by
      rw [p2, p3]; exact hrow _ (by omega) (by omega)
    obtain ⟨q1, q2, q3, q4, q5, q6, q7, q8, q9⟩ := p1
    simp only
    rw [← hcell, q5]
    by_cases hc : s.edit_array e (st.Left + x) > s.Longest
    · rw [if_pos hc, if_pos hc]
      exact ⟨⟨q1, q2, rfl, rfl, rfl, q6, q7, q8, q9⟩, p2, p3, p4, p5, p6, p7, Or.inr
        ⟨rfl, by show st.Left ≤ st.Left + x; omega, by show st.Left + (x : Int) ≤ st.Right; omega⟩⟩
    · rw [if_neg hc, if_neg hc]
      exact ⟨⟨q1, q2, q3, q4, q5, q6, q7, q8, q9⟩, p2, p3, p4, p5, p6, p7, p8⟩

theorem update_Max_Score_same (tb : Tables) (e : Int) (st st' : PED_State)
    (hl : Same_Locals st st') :
    Same_Locals (update_Max_Score tb e st) (update_Max_Score tb e st') ∧
    (update_Max_Score tb e st).edit_array = st.edit_array ∧
    (update_Max_Score tb e st').edit_array = st'.edit_array ∧
    (update_Max_Score tb e st).Left = st.Left ∧ (update_Max_Score tb e st).Right = st.Right ∧
    (update_Max_Score tb e st).Best_e = st.Best_e ∧
    (update_Max_Score tb e st).Best_d = st.Best_d ∧
    (((update_Max_Score tb e st).Max_Score_Best_e = st.Max_Score_Best_e ∧
        (update_Max_Score tb e st).Max_Score_Best_d = st.Max_Score_Best_d) ∨
      ((update_Max_Score tb e st).Max_Score_Best_e = st.Best_e ∧
        (update_Max_Score tb e st).Max_Score_Best_d = st.Best_d)) := by
  obtain ⟨q1, q2, q3, q4, q5, q6, q7, q8, q9⟩ := hl
  unfold update_Max_Score
  simp only
  rw [q3, q4, q5, q6]
  split_ifs
  · exact ⟨⟨q1, q2, rfl, rfl, rfl, rfl, rfl, rfl, rfl⟩, rfl, rfl, rfl, rfl, rfl, rfl,
      Or.inr ⟨rfl, rfl⟩⟩
  · exact ⟨⟨q1, q2, q3, q4, q5, q6, q7, q8, q9⟩, rfl, rfl, rfl, rfl, rfl, rfl,
      Or.inl ⟨rfl, rfl⟩⟩

theorem Compute_Delta_same_int {ea ea' : Edit_Array} (e d row : Int)
    (h : Same_Trace ea ea' e.toNat d) : Compute_Delta ea e d row = Compute_Delta ea' e d row := by
  unfold Compute_Delta
  rw [Compute_Delta_trace_same e.toNat ⟨d, row, []⟩ h]

theorem branch_point_same (st st' : PED_State) (hl : Same_Locals st st')
    (h : Same_Trace st.edit_array st'.edit_array st.Max_Score_Best_e.toNat st.Max_Score_Best_d) :
    Same_Result (branch_point st) (branch_point st') := by
  obtain ⟨q1, q2, q3, q4, q5, q6, q7, q8, q9⟩ := hl
  unfold Same_Result branch_point
  refine ⟨q9, q7, ?_, rfl, ?_⟩
  · show st'.Max_Score_Len + st'.Max_Score_Best_d = st.Max_Score_Len + st.Max_Score_Best_d
    rw [q7, q8]
  · show Compute_Delta st'.edit_array st'.Max_Score_Best_e st'.Max_Score_Best_d
      st'.Max_Score_Len = Compute_Delta st.edit_array st.Max_Score_Best_e st.Max_Score_Best_d
      st.Max_Score_Len
    rw [q7, q8, q9]
    exact (Compute_Delta_same_int _ _ _ h).symm

theorem PED_levels_same (tb : Tables) (A : Int → Char) (m : Int) (T : Int → Char) (n : Int)
    (Error_Limit : Int) : ∀ (fuel : Nat) (k : Nat) (st st' : PED_State),
    Level_Inv A T m n k st → Same_Level k st st' →
    ∃ r r', PED_levels tb A m T n Error_Limit fuel ((k : Int) + 1) st = some r ∧
      PED_levels tb A m T n Error_Limit fuel ((k : Int) + 1) st' = some r' ∧
      Same_Result r r' := by
  intro fuel
  induction fuel with
  | zero =>
    intro k st st' inv hs
    exact ⟨_, _, rfl, rfl, branch_point_same st st' hs.1 hs.2.2.2⟩
  | succ fuel ih =>
    intro k st st' inv hs
    obtain ⟨hloc, hband, hbest, hmax⟩ := hs
    obtain ⟨q1, q2, q3, q4, q5, q6, q7, q8, q9⟩ := id hloc
    simp only [PED_levels]
    rw [q1, q2]
    by_cases he : (k : Int) + 1 ≤ Error_Limit
    · rw [if_pos he, if_pos he]
      simp only [(OVL_band inv).1, (OVL_band inv).2]
      have hready := inv.ready
      have hb := inv.band
      have hrow : ∀ x, st.Left - 1 - 1 ≤ x → x ≤ st.Right + 1 + 1 →
          set_sentinels st.edit_array ((k : Int) + 1) (st.Left - 1) (st.Right + 1) k x =
          set_sentinels st'.edit_array ((k : Int) + 1) (st.Left - 1) (st.Right + 1) k x := by
        intro x hx1 hx2
        rw [set_sentinels_get, set_sentinels_get]
        by_cases hc : (k : Int) = (k : Int) + 1 - 1 ∧
            (x = st.Left - 1 ∨ x = st.Left - 1 - 1 ∨ x = st.Right + 1 ∨ x = st.Right + 1 + 1)
        · rw [if_pos hc, if_pos hc]
        · rw [if_neg hc, if_neg hc]
          have hx : st.Left ≤ x ∧ x ≤ st.Right := by
            constructor
            · by_contra hlt
              exact hc ⟨by ring, by omega⟩
            · by_contra hlt
              exact hc ⟨by ring, by omega⟩
          exact (hband x hx.1 hx.2).1
      have hsrow : ∀ (ea : Edit_Array) (r : Int), r < k → ∀ x,
          set_sentinels ea ((k : Int) + 1) (st.Left - 1) (st.Right + 1) r x = ea r x := by
        intro ea r hr x
        rw [set_sentinels_get]
        have : ¬ (r = (k : Int) + 1 - 1 ∧
            (x = st.Left - 1 ∨ x = st.Left - 1 - 1 ∨ x = st.Right + 1 ∨ x = st.Right + 1 + 1)) :=
          fun h => by omega
        rw [if_neg this]
      have hin : ∀ x, st.Left - 1 < x → x < st.Right + 1 →
          Same_Trace (set_sentinels st.edit_array ((k : Int) + 1) (st.Left - 1) (st.Right + 1))
            (set_sentinels st'.edit_array ((k : Int) + 1) (st.Left - 1) (st.Right + 1)) k x := by
        intro x hx1 hx2
        exact Same_Trace_congr k x (hsrow _) (hsrow _) (hband x (by omega) (by omega)).2
      have hfill := fill_row_spec k (st.Left - 1) (st.Right + 1) _
        hready he
        (st.Right + 1 - (st.Left - 1) + 1).toNat (st.Left - 1) _ (le_refl _) (by omega)
        (le_refl _) (fun _ _ _ => rfl) (fun x h1 h2 => by omega)
      have hsame := fill_row_same k (st.Left - 1) (st.Right + 1) _ _ hready hrow hin
        (st.Right + 1 - (st.Left - 1) + 1).toNat (st.Left - 1) _ _ (le_refl _) (by omega)
        (le_refl _) (fun _ _ _ => rfl) (fun _ _ _ => rfl) (fun x h1 h2 => by omega)
      generalize fill_row A m T n ((k : Int) + 1) (st.Right + 1)
        (st.Right + 1 - (st.Left - 1) + 1).toNat (st.Left - 1)
        (set_sentinels st.edit_array ((k : Int) + 1) (st.Left - 1) (st.Right + 1)) = out
        at hfill hsame ⊢
      generalize fill_row A m T n ((k : Int) + 1) (st.Right + 1)
        (st.Right + 1 - (st.Left - 1) + 1).toNat (st.Left - 1)
        (set_sentinels st'.edit_array ((k : Int) + 1) (st.Left - 1) (st.Right + 1)) = out'
        at hsame ⊢
      cases out with
      | returned r =>
        cases out' with
        | returned r' => exact ⟨r, r', rfl, rfl, hsame⟩
        | filled _ => exact hsame.elim
      | filled ea2 =>
        cases out' with
        | returned _ => exact hsame.elim
        | filled ea2' =>
          obtain ⟨hrows, hlive⟩ := hfill
          obtain ⟨hrows', hag⟩ := hsame
          simp only
          have htr : ∀ d, st.Left - 1 ≤ d → d ≤ st.Right + 1 →
              Same_Trace ea2 ea2' (k + 1) d :=
            fun d hd1 hd2 => Same_Trace_ready hready hrow hin hrows hrows' d hd1 hd2
          have hlow : ∀ (j : Nat) (d : Int), j ≤ k → Same_Trace st.edit_array st'.edit_array j d →
              Same_Trace ea2 ea2' j d := by
            intro j d hj h
            apply Same_Trace_congr j d _ _ h
            · intro r hr x
              rw [hrows r (by omega), hsrow _ r (by omega)]
            · intro r hr x
              rw [hrows' r (by omega), hsrow _ r (by omega)]
          rw [← tighten_Left_same ea2 ea2' ((k : Int) + 1) (tb.Edit_Match_Limit ((k : Int) + 1))
            (st.Left - 1) (st.Right + 1) (by omega) hag]
          obtain ⟨l1, l2, l3⟩ := tighten_Left_spec ea2 ((k : Int) + 1)
            (tb.Edit_Match_Limit ((k : Int) + 1)) (st.Left - 1) (st.Right + 1) (by omega)
          generalize tighten_Left ea2 ((k : Int) + 1) (tb.Edit_Match_Limit ((k : Int) + 1))
            (st.Left - 1) (st.Right + 1) = L2 at l1 l2 l3 ⊢
          obtain ⟨kb, hkb1, hkb2, _⟩ := inv.best
          obtain ⟨km, hkm1, hkm2, _⟩ := inv.max_score
          by_cases hbrk : L2 > st.Right + 1
          · rw [if_pos hbrk, if_pos hbrk]
            refine ⟨_, _, rfl, rfl, branch_point_same _ _ ⟨rfl, rfl, q3, q4, q5, q6, q7, q8, q9⟩ ?_⟩
            show Same_Trace ea2 ea2' st.Max_Score_Best_e.toNat st.Max_Score_Best_d
            exact hlow _ _ (by omega) hmax
          · rw [if_neg hbrk, if_neg hbrk]
            rw [← tighten_Right_same ea2 ea2' ((k : Int) + 1)
              (tb.Edit_Match_Limit ((k : Int) + 1)) L2 (st.Right + 1) (by omega)
              (fun x hx1 hx2 => hag x (by omega) hx2) (l3 (by omega)).1 (l3 (by omega)).2]
            obtain ⟨R2, r1, r2, r3⟩ := tighten_Right_spec ea2 ((k : Int) + 1)
              (tb.Edit_Match_Limit ((k : Int) + 1)) L2 (st.Right + 1) (by omega)
              (l3 (by omega)).1 (l3 (by omega)).2
            rw [r1]
            simp only
            rw [if_pos r2, if_pos r2]
            obtain ⟨inv3, _⟩ := Level_Inv_step tb inv hrows hlive l1 r2 r3
            have hloc2 : Same_Locals { st with edit_array := ea2, Left := L2, Right := R2 }
                { st' with edit_array := ea2', Left := L2, Right := R2 } :=
              ⟨rfl, rfl, q3, q4, q5, q6, q7, q8, q9⟩
            obtain ⟨s1, s2, s3, s4, s5, s6, s7, s8⟩ := scan_Longest_same ((k : Int) + 1)
              { st with edit_array := ea2, Left := L2, Right := R2 }
              { st' with edit_array := ea2', Left := L2, Right := R2 } hloc2
              (fun d hd1 hd2 => hag d (by simp only at hd1; omega) (by simp only at hd2; omega))
            obtain ⟨u1, u2, u3, u4, u5, u6, u7, u8⟩ := update_Max_Score_same tb ((k : Int) + 1)
              _ _ s1
            have hbest2 : Same_Trace ea2 ea2'
                (scan_Longest ((k : Int) + 1)
                  { st with edit_array := ea2, Left := L2, Right := R2 }).Best_e.toNat
                (scan_Longest ((k : Int) + 1)
                  { st with edit_array := ea2, Left := L2, Right := R2 }).Best_d := by
              rcases s8 with ⟨b1, b2⟩ | ⟨b1, b2, b3⟩
              · rw [b1, b2]
                exact hlow _ _ (by show st.Best_e.toNat ≤ k; omega) hbest
              · rw [b1]
                have : ((k : Int) + 1).toNat = k + 1 := by omega
                rw [this]
                exact htr _ (by simp only at b2; omega) (by simp only at b3; omega)
            have hs3 : Same_Level (k + 1)
                (update_Max_Score tb ((k : Int) + 1) (scan_Longest ((k : Int) + 1)
                  { st with edit_array := ea2, Left := L2, Right := R2 }))
                (update_Max_Score tb ((k : Int) + 1) (scan_Longest ((k : Int) + 1)
                  { st' with edit_array := ea2', Left := L2, Right := R2 })) := by
              refine ⟨u1, ?_, ?_, ?_⟩
              · intro d hd1 hd2
                rw [u4, s4] at hd1
                rw [u5, s5] at hd2
                rw [u2, u3, s2, s3]
                simp only at hd1 hd2 ⊢
                push_cast
                exact ⟨hag d (by omega) (by omega), htr d (by omega) (by omega)⟩
              · rw [u2, u3, s2, s3, u6, u7]
                exact hbest2
              · rw [u2, u3, s2, s3]
                rcases u8 with ⟨c1, c2⟩ | ⟨c1, c2⟩
                · rw [c1, c2, s6, s7]
                  exact hlow _ _ (by show st.Max_Score_Best_e.toNat ≤ k; omega) hmax
                · rw [c1, c2]
                  exact hbest2
            have := ih (k + 1) _ _ inv3 hs3
            push_cast at this
            exact this
    · rw [if_neg he, if_neg he]
      exact ⟨_, _, rfl, rfl, branch_point_same st st' hloc hmax⟩

/-- The values that `Prefix_Edit_Dist` returns do not depend on what the work
area holds at the call. -/
theorem Prefix_Edit_Dist_same (tb : Tables) (A : Int → Char) (m : Int) (T : Int → Char)
    (n : Int) (Error_Limit : Int) (edit_array edit_array' : Edit_Array)
    (hm : 0 ≤ m) (hn : 0 ≤ n) :
    ∃ r r', Prefix_Edit_Dist tb A m T n Error_Limit edit_array = some r ∧
      Prefix_Edit_Dist tb A m T n Error_Limit edit_array' = some r' ∧ Same_Result r r' := by
  unfold Prefix_Edit_Dist
  simp only
  have hs : 0 ≤ OVL_Min_int m n ∧ OVL_Min_int m n ≤ m ∧ OVL_Min_int m n ≤ n ∧
      (OVL_Min_int m n = m ∨ OVL_Min_int m n = n) := by
    unfold OVL_Min_int; split_ifs <;> omega
  generalize OVL_Min_int m n = shorter at hs ⊢
  obtain ⟨f1, f2, f3, f4⟩ := first_match_spec A T shorter shorter.toNat 0 hs.1 (by simp)
  generalize first_match A T shorter shorter.toNat 0 = Row at f1 f2 f3 f4 ⊢
  by_cases hx : Row = shorter
  · rw [if_pos hx, if_pos hx]
    exact ⟨_, _, rfl, rfl, rfl, rfl, rfl, rfl, rfl⟩
  · rw [if_neg hx, if_neg hx]
    have hne : A Row ≠ T Row := by
      rcases f4 with h | h
      · exact absurd h hx
      · exact h
    have hlt : Row < shorter := lt_of_le_of_ne f2 hx
    have inv : Level_Inv A T m n 0 ⟨edit_array.set 0 0 Row, 0, 0, 0, 0, 0, 0, 0, 0, 0⟩ := by
      refine ⟨le_refl _, by simp, by simp, ?_, ?_, ?_⟩
      · intro d h1 h2
        have hd : d = 0 := by simp only at h1 h2; omega
        subst hd
        have hc : (edit_array.set 0 0 Row) ((0 : Nat) : Int) 0 = Row := by
          rw [set_get]; simp
        unfold Live
        simp only
        rw [hc]
        refine ⟨⟨rfl, f1, by omega, by omega, f3⟩, f1, by omega, by omega, by omega, ?_⟩
        simpa using hne
      · simp only
        exact ⟨0, rfl, le_refl _, ⟨rfl, le_refl _, hm, hn, fun r h1 h2 => by omega⟩,
          by omega, by omega⟩
      · simp only
        exact ⟨0, rfl, le_refl _, ⟨rfl, le_refl _, hm, hn, fun r h1 h2 => by omega⟩,
          by omega, by omega⟩
    have hsl : Same_Level 0 ⟨edit_array.set 0 0 Row, 0, 0, 0, 0, 0, 0, 0, 0, 0⟩
        ⟨edit_array'.set 0 0 Row, 0, 0, 0, 0, 0, 0, 0, 0, 0⟩ := by
      refine ⟨⟨rfl, rfl, rfl, rfl, rfl, rfl, rfl, rfl, rfl⟩, ?_, trivial, trivial⟩
      intro d h1 h2
      have hd : d = 0 := by simp only at h1 h2; omega
      subst hd
      refine ⟨?_, trivial⟩
      show (edit_array.set 0 0 Row) ((0 : Nat) : Int) 0 = (edit_array'.set 0 0 Row) ((0 : Nat) : Int) 0
      rw [set_get, set_get]
      simp
    have := PED_levels_same tb A m T n Error_Limit Error_Limit.toNat 0 _ _ inv hsl
    simpa using this

/-! ## Theorems: what one overlap does to the fragment array -/

theorem ends_same (tb : Tables) (su su' : Olap_Setup) (ea ea' : Edit_Array)
    (hs : Same_Setup su su')
    (hcl : (su'.Frag su'.sub).clear_len = (su.Frag su.sub).clear_len)
    (ha : 0 ≤ su.a_part_len) (hb : 0 ≤ su.b_part_len) :
    ∃ al al', Process_Olap_ends tb su ea = some al ∧ Process_Olap_ends tb su' ea' = some al' ∧
      Same_Aligned al al' ∧ al.Frag = su.Frag ∧ al'.Frag = su'.Frag ∧
      al.rev_seq = su.rev_seq ∧ al.rev_id = su.rev_id ∧
      al'.rev_seq = su'.rev_seq ∧ al'.rev_id = su'.rev_id := by
  obtain ⟨F, sub, a_part, b_part, a_offset, a_len, b_len, rs, ri⟩ := su
  obtain ⟨F', sub', a_part', b_part', a_offset', a_len', b_len', rs', ri'⟩ := su'
  obtain ⟨h1, h2, h3, h4, h5, h6⟩ := hs
  simp only at h1 h2 h3 h4 h5 h6 hcl ha hb
  subst h1 h2 h3 h4 h5 h6
  unfold Process_Olap_ends
  simp only
  obtain ⟨r, r', e1, e2, s1, s2, s3, s4, s5⟩ := Prefix_Edit_Dist_same tb a_part' a_len'
    b_part' b_len' (tb.Error_Bound (OVL_Min_int a_len' b_len')) ea ea' ha hb
  obtain ⟨r0, hr0, hpost⟩ := Prefix_Edit_Dist_spec tb a_part' a_len' b_part' b_len'
    (tb.Error_Bound (OVL_Min_int a_len' b_len')) ea ha hb
  rw [e1] at hr0
  cases hr0
  obtain ⟨b1, b2, b3, b4⟩ := hpost.bounds
  simp only [e1, e2]
  rw [s2, s3, s4, s1, s5, hcl]
  have hne : ¬ (r.A_End < 0 ∨ r.A_End > a_len' ∨ r.T_End < 0 ∨ r.T_End > b_len') := by omega
  rw [if_neg hne, if_neg hne]
  exact ⟨_, _, rfl, rfl, ⟨rfl, rfl, rfl, rfl, rfl, rfl, rfl, rfl, rfl, rfl⟩,
    rfl, rfl, rfl, rfl, rfl, rfl⟩

theorem setup_same (cfg : Config) (rc : List Char → List Char) (olap : Olap_Info_t)
    (b_seq : List Char) (shredded : Bool) (st st' : Olap_State)
    (hr : Same_Reads st.Frag st'.Frag)
    (hc : Cache_Ok rc olap.b_iid b_seq st.rev_seq st.rev_id)
    (hc' : Cache_Ok rc olap.b_iid b_seq st'.rev_seq st'.rev_id) :
    (Process_Olap_setup cfg rc olap b_seq shredded st = none ∧
      Process_Olap_setup cfg rc olap b_seq shredded st' = none) ∨
    (Process_Olap_setup cfg rc olap b_seq shredded st = some none ∧
      Process_Olap_setup cfg rc olap b_seq shredded st' = some none) ∨
    ∃ su su', Process_Olap_setup cfg rc olap b_seq shredded st = some (some su) ∧
      Process_Olap_setup cfg rc olap b_seq shredded st' = some (some su') ∧
      Same_Setup su su' ∧
      su.Frag = bump_degrees st.Frag su.sub olap.a_hang olap.b_hang ∧
      su'.Frag = bump_degrees st'.Frag su.sub olap.a_hang olap.b_hang ∧
      Cache_Ok rc olap.b_iid b_seq su.rev_seq su.rev_id ∧
      Cache_Ok rc olap.b_iid b_seq su'.rev_seq su'.rev_id ∧
      0 ≤ su.a_part_len ∧ 0 ≤ su.b_part_len := by
  obtain ⟨r1, r2, r3⟩ := hr (olap.a_iid - cfg.Lo_Frag_IID)
  have hR : ∀ (rs : List Char) (ri : Int), Cache_Ok rc olap.b_iid b_seq rs ri →
      (if olap.orient = NORMAL ∨ ri = olap.b_iid then rs
        else rc (b_seq.takeWhile (fun c => c ≠ NUL))) =
      (if olap.orient = NORMAL then rs else rc (b_seq.takeWhile (fun c => c ≠ NUL))) := by
    intro rs ri h
    by_cases hN : olap.orient = NORMAL
    · simp [hN]
    · by_cases hi : ri = olap.b_iid
      · simp [hN, hi, h.2 hi]
      · simp [hN, hi]
  unfold Process_Olap_setup
  simp only
  rw [r1, r3, hR _ _ hc, hR _ _ hc']
  by_cases hskip : shredded = true ∧ (st.Frag (olap.a_iid - cfg.Lo_Frag_IID)).shredded = true
  · rw [if_pos hskip, if_pos hskip]
    exact Or.inr (Or.inl ⟨rfl, rfl⟩)
  · rw [if_neg hskip, if_neg hskip]
    cases hseq : (st.Frag (olap.a_iid - cfg.Lo_Frag_IID)).sequence with
    | none => exact Or.inl ⟨rfl, rfl⟩
    | some seq =>
      simp only
      by_cases hN : olap.orient = NORMAL
      · simp only [hN, if_true]
        have a1 : (charAt st.rev_seq 0).isAlpha = true := hc.1
        have a2 : (charAt st'.rev_seq 0).isAlpha = true := hc'.1
        by_cases hb : (charAt b_seq (if olap.a_hang < 0 then -olap.a_hang else 0)).isAlpha = false
        · rw [if_pos (Or.inl hb), if_pos (Or.inl hb)]
          exact Or.inl ⟨rfl, rfl⟩
        · have n1 : ¬ ((charAt b_seq (if olap.a_hang < 0 then -olap.a_hang else 0)).isAlpha
              = false ∨ (charAt st.rev_seq 0).isAlpha = false) := by
            rw [a1]; simpa using hb
          have n2 : ¬ ((charAt b_seq (if olap.a_hang < 0 then -olap.a_hang else 0)).isAlpha
              = false ∨ (charAt st'.rev_seq 0).isAlpha = false) := by
            rw [a2]; simpa using hb
          rw [if_neg n1, if_neg n2]
          refine Or.inr (Or.inr ⟨_, _, rfl, rfl, ⟨rfl, rfl, rfl, rfl, rfl, rfl⟩, rfl, rfl, ?_, ?_,
            strlen_nonneg _ _, strlen_nonneg _ _⟩)
          · exact hc
          · exact hc'
      · simp only [hN, if_false]
        by_cases hb : (charAt (rc (b_seq.takeWhile (fun c => c ≠ NUL)))
            (if olap.a_hang < 0 then -olap.a_hang else 0)).isAlpha = false ∨
            (charAt (rc (b_seq.takeWhile (fun c => c ≠ NUL))) 0).isAlpha = false
        · rw [if_pos hb, if_pos hb]
          exact Or.inl ⟨rfl, rfl⟩
        · rw [if_neg hb, if_neg hb]
          have a1 : (charAt (rc (b_seq.takeWhile (fun c => c ≠ NUL))) 0).isAlpha = true := by
            by_contra hne
            exact hb (Or.inr (by simpa using hne))
          exact Or.inr (Or.inr ⟨_, _, rfl, rfl, ⟨rfl, rfl, rfl, rfl, rfl, rfl⟩, rfl, rfl,
            ⟨a1, fun _ => rfl⟩, ⟨a1, fun _ => rfl⟩, strlen_nonneg _ _, strlen_nonneg _ _⟩)

theorem align_same (cfg : Config) (tb : Tables) (rc : List Char → List Char)
    (olap : Olap_Info_t) (b_seq : List Char) (shredded : Bool) (st st' : Olap_State)
    (hr : Same_Reads st.Frag st'.Frag)
    (hc : Cache_Ok rc olap.b_iid b_seq st.rev_seq st.rev_id)
    (hc' : Cache_Ok rc olap.b_iid b_seq st'.rev_seq st'.rev_id) :
    (Process_Olap_align cfg tb rc olap b_seq shredded st = none ∧
      Process_Olap_align cfg tb rc olap b_seq shredded st' = none) ∨
    (Process_Olap_align cfg tb rc olap b_seq shredded st = some none ∧
      Process_Olap_align cfg tb rc olap b_seq shredded st' = some none) ∨
    ∃ al al', Process_Olap_align cfg tb rc olap b_seq shredded st = some (some al) ∧
      Process_Olap_align cfg tb rc olap b_seq shredded st' = some (some al') ∧
      Same_Aligned al al' ∧
      al.Frag = bump_degrees st.Frag al.sub olap.a_hang olap.b_hang ∧
      al'.Frag = bump_degrees st'.Frag al.sub olap.a_hang olap.b_hang ∧
      Cache_Ok rc olap.b_iid b_seq al.rev_seq al.rev_id ∧
      Cache_Ok rc olap.b_iid b_seq al'.rev_seq al'.rev_id := by
  unfold Process_Olap_align
  rcases setup_same cfg rc olap b_seq shredded st st' hr hc hc' with ⟨h1, h2⟩ | ⟨h1, h2⟩ |
    ⟨su, su', h1, h2, hs, f1, f2, c1, c2, l1, l2⟩
  · rw [h1, h2]; exact Or.inl ⟨rfl, rfl⟩
  · rw [h1, h2]; exact Or.inr (Or.inl ⟨rfl, rfl⟩)
  · rw [h1, h2]
    simp only
    have hcl : (su'.Frag su'.sub).clear_len = (su.Frag su.sub).clear_len := by
      rw [hs.1, f1, f2, (bump_degrees_vote _ _ _ _ _).2.2.1, (bump_degrees_vote _ _ _ _ _).2.2.1]
      exact (hr su.sub).2.1
    obtain ⟨al, al', e1, e2, hsa, g1, g2, g3, g4, g5, g6⟩ :=
      ends_same tb su su' st.edit_array st'.edit_array hs hcl l1 l2
    rw [e1, e2]
    have hsub : al.sub = su.sub := (ends_some tb su _ al e1).2
    refine Or.inr (Or.inr ⟨al, al', rfl, rfl, hsa, ?_, ?_, ?_, ?_⟩)
    · rw [g1, f1, hsub]
    · rw [g2, f2, hsub]
    · rw [g3, g4]; exact c1
    · rw [g5, g6]; exact c2

theorem bumps_updates {f : Frag_t → Frag_t} (hf : Bumps f) {g : Frag_t → Frag_t}
    (hg : Updates g) : Updates (fun Frag => f (g Frag)) := by
  induction hf with
  | nil => exact hg
  | cons c p sub _ ih => exact Updates.bump c p sub ih

theorem Olap_Effect_updates (cfg : Config) (tb : Tables) (rc : List Char → List Char)
    (S : Frag_t) (olap : Olap_Info_t) (b_seq : List Char) (shredded : Bool)
    (g : Frag_t → Frag_t) (δ : Int)
    (h : Olap_Effect cfg tb rc S olap b_seq shredded = some (g, δ)) :
    Updates g ∧ 0 ≤ δ := by
  unfold Olap_Effect at h
  split at h
  · simp at h
  · simp only [Option.some.injEq, Prod.mk.injEq] at h
    obtain ⟨rfl, rfl⟩ := h
    exact ⟨Updates.nil, le_refl _⟩
  · rename_i al _
    split_ifs at h
    · cases hv : Build_Votes al.delta al.a_part al.b_part al.a_end al.b_end with
      | none => rw [hv] at h; simp at h
      | some vote =>
        rw [hv] at h
        simp only [Option.map_some', Option.some.injEq, Prod.mk.injEq] at h
        obtain ⟨rfl, rfl⟩ := h
        exact ⟨bumps_updates (bumps_Tally_Votes cfg al.a_part al.a_offset al.sub vote)
          (Updates.degree _ _ _ Updates.nil), le_refl _⟩
    · simp only [Option.some.injEq, Prod.mk.injEq] at h
      obtain ⟨rfl, rfl⟩ := h
      exact ⟨Updates.degree _ _ _ Updates.nil, by omega⟩

/-- What `Process_Olap` does in a state with the reads of `S` and a usable
buffer `rev_seq` is what `Olap_Effect` computes from `S`. -/
theorem Process_Olap_effect (cfg : Config) (tb : Tables) (rc : List Char → List Char)
    (S : Frag_t) (olap : Olap_Info_t) (b_seq : List Char) (shredded : Bool) (st : Olap_State)
    (hr : Same_Reads S st.Frag)
    (hc : Cache_Ok rc olap.b_iid b_seq st.rev_seq st.rev_id) :
    match Olap_Effect cfg tb rc S olap b_seq shredded with
    | none => Process_Olap cfg tb rc olap b_seq shredded st = none
    | some (g, δ) => ∃ out, Process_Olap cfg tb rc olap b_seq shredded st = some out ∧
        out.Frag = g st.Frag ∧ out.Failed_Olaps = st.Failed_Olaps + δ ∧
        Cache_Ok rc olap.b_iid b_seq out.rev_seq out.rev_id := by
  have hc0 : Cache_Ok rc olap.b_iid b_seq ['a'] (olap.b_iid - 1) :=
    ⟨by decide, fun h => by omega⟩
  unfold Olap_Effect Process_Olap
  rcases align_same cfg tb rc olap b_seq shredded
      ⟨S, 0, ['a'], olap.b_iid - 1, Edit_Array.junk⟩ st hr hc0 hc with ⟨h1, h2⟩ | ⟨h1, h2⟩ |
    ⟨al0, al, h1, h2, hsa, f1, f2, c1, c2⟩
  · rw [h1, h2]
  · rw [h1, h2]
    exact ⟨st, rfl, rfl, by simp, hc⟩
  · rw [h1, h2]
    simp only
    obtain ⟨a1, a2, a3, a4, a5, a6, a7, a8, a9, a10⟩ := hsa
    have hacc : al.accepted tb = al0.accepted tb := by
      unfold Olap_Aligned.accepted
      rw [a5, a9, a10]
    rw [hacc]
    by_cases ha : al0.accepted tb = true
    · rw [if_pos ha, if_pos ha]
      unfold Analyze_Alignment
      rw [a8, a2, a3, a6, a7, a4, a1]
      cases hv : Build_Votes al0.delta al0.a_part al0.b_part al0.a_end al0.b_end with
      | none => simp
      | some vote =>
        simp only [Option.map_some']
        refine ⟨_, rfl, ?_, by simp, c2⟩
        show Tally_Votes cfg al0.a_part al0.a_offset al0.sub vote al.Frag = _
        rw [f2]
    · rw [if_neg ha, if_neg ha]
      refine ⟨_, rfl, ?_, rfl, c2⟩
      show al.Frag = _
      rw [f2]

/-! ## Theorems: the threads and the single pass -/

theorem bump_degrees_bump_at (c : Counter) (p s1 : Int) (F : Frag_t) (sub a_hang b_hang : Int) :
    bump_degrees (bump_at c p s1 F) sub a_hang b_hang =
      bump_at c p s1 (bump_degrees F sub a_hang b_hang) := by
  funext s
  obtain ⟨v1, v2, v3, v4⟩ := bump_degrees_vote (bump_at c p s1 F) sub a_hang b_hang s
  obtain ⟨d1, d2⟩ := bump_degrees_degrees (bump_at c p s1 F) sub a_hang b_hang s
  obtain ⟨w1, w2, w3, w4⟩ := bump_degrees_vote F sub a_hang b_hang s
  obtain ⟨e1, e2⟩ := bump_degrees_degrees F sub a_hang b_hang s
  obtain ⟨f1, f2, f3, f4, f5⟩ := bump_at_fields c p s1 F s
  obtain ⟨g1, g2, g3, g4, g5⟩ := bump_at_fields c p s1 (bump_degrees F sub a_hang b_hang) s
  apply frag_info_ext
  · rw [v2, f1, g1, w2]
  · funext q
    rw [v1, bump_at_vote, bump_at_vote, w1]
  · rw [v3, f2, g2, w3]
  · rw [d1, f3, g3, e1]
  · rw [d2, f4, g4, e2]
  · rw [v4, f5, g5, w4]

theorem bump_degrees_comm (F : Frag_t) (s1 a1 b1 s2 a2 b2 : Int) :
    bump_degrees (bump_degrees F s1 a1 b1) s2 a2 b2 =
      bump_degrees (bump_degrees F s2 a2 b2) s1 a1 b1 := by
  funext s
  apply frag_info_ext
  · simp only [(bump_degrees_vote _ _ _ _ _).2.1]
  · simp only [(bump_degrees_vote _ _ _ _ _).1]
  · simp only [(bump_degrees_vote _ _ _ _ _).2.2.1]
  · simp only [(bump_degrees_degrees _ _ _ _ _).1]
    split_ifs <;> omega
  · simp only [(bump_degrees_degrees _ _ _ _ _).2]
    split_ifs <;> omega
  · simp only [(bump_degrees_vote _ _ _ _ _).2.2.2]

theorem updates_comm_bump {g : Frag_t → Frag_t} (hg : Updates g) (c : Counter) (p sub : Int)
    (F : Frag_t) : bump_at c p sub (g F) = g (bump_at c p sub F) := by
  induction hg with
  | nil => rfl
  | bump c1 p1 s1 _ ih =>
    show bump_at c p sub (bump_at c1 p1 s1 _) = _
    rw [bump_at_comm, ih]
  | degree s1 a1 b1 _ ih =>
    show bump_at c p sub (bump_degrees _ s1 a1 b1) = bump_degrees _ s1 a1 b1
    rw [← bump_degrees_bump_at, ih]

theorem updates_comm_degree {g : Frag_t → Frag_t} (hg : Updates g) (sub a_hang b_hang : Int)
    (F : Frag_t) :
    bump_degrees (g F) sub a_hang b_hang = g (bump_degrees F sub a_hang b_hang) := by
  induction hg with
  | nil => rfl
  | bump c1 p1 s1 _ ih =>
    show bump_degrees (bump_at c1 p1 s1 _) sub a_hang b_hang = bump_at c1 p1 s1 _
    rw [bump_degrees_bump_at, ih]
  | degree s1 a1 b1 _ ih =>
    show bump_degrees (bump_degrees _ s1 a1 b1) sub a_hang b_hang = bump_degrees _ s1 a1 b1
    rw [bump_degrees_comm, ih]

theorem updates_comm {f g : Frag_t → Frag_t} (hf : Updates f) (hg : Updates g) (F : Frag_t) :
    f (g F) = g (f F) := by
  induction hf generalizing F with
  | nil => rfl
  | bump c p sub _ ih =>
    show bump_at c p sub _ = g (bump_at c p sub _)
    rw [ih, updates_comm_bump hg]
  | degree sub a b _ ih =>
    show bump_degrees _ sub a b = g (bump_degrees _ sub a b)
    rw [ih, updates_comm_degree hg]

theorem updates_reads {g : Frag_t → Frag_t} (hg : Updates g) (S F : Frag_t)
    (h : Same_Reads S F) : Same_Reads S (g F) := by
  induction hg with
  | nil => exact h
  | bump c p sub _ ih =>
    intro s
    obtain ⟨f1, f2, _, _, f5⟩ := bump_at_fields c p sub (_ : Frag_t) s
    rw [f1, f2, f5]
    exact ih s
  | degree sub a b _ ih =>
    intro s
    obtain ⟨_, v2, v3, v4⟩ := bump_degrees_vote (_ : Frag_t) sub a b s
    rw [v2, v3, v4]
    exact ih s

theorem get_run_head (pre run post : List Olap_Info_t) (o : Olap_Info_t) :
    (pre ++ (o :: run) ++ post).get? pre.length = some o := by
  rw [List.append_assoc, List.get?_eq_getElem?, List.getElem?_append_right (le_refl _)]
  simp

theorem get_run_end (pre post : List Olap_Info_t) :
    (pre ++ [] ++ post).get? pre.length = post.head? := by
  rw [List.append_nil, List.get?_eq_getElem?, List.getElem?_append_right (le_refl _)]
  cases post <;> simp

theorem Olap_run_eq (cfg : Config) (tb : Tables) (rc : List Char → List Char)
    (pick : Olap_Info_t → Bool) (en : Frag_List_Entry) :
    ∀ (run pre post : List Olap_Info_t) (st : Olap_State) (fuel : Nat),
      (∀ o ∈ run, o.b_iid = en.id) → (∀ o ∈ post, o.b_iid ≠ en.id) → run.length ≤ fuel →
      Olap_run cfg tb rc pick (pre ++ run ++ post) en fuel pre.length st =
        (run_fold cfg tb rc pick en run st).map (fun st1 => (pre.length + run.length, st1)) := by
  intro run
  induction run with
  | nil =>
    intro pre post st fuel _ hpost _
    cases fuel with
    | zero => simp [Olap_run, run_fold]
    | succ fuel =>
      simp only [Olap_run, run_fold, get_run_end, Option.map_some', List.length_nil, add_zero]
      cases post with
      | nil => simp
      | cons x xs =>
        simp only [List.head?_cons]
        rw [if_neg (hpost x (List.mem_cons_self _ _))]
  | cons o os ih =>
    intro pre post st fuel hrun hpost hfuel
    cases fuel with
    | zero => simp at hfuel
    | succ fuel =>
      simp only [Olap_run, run_fold, get_run_head]
      rw [if_pos (hrun o (List.mem_cons_self _ _))]
      cases hP : (if pick o = true then Process_Olap cfg tb rc o en.seq en.shredded st
          else some st) with
      | none => simp
      | some st1 =>
        simp only
        have e : pre ++ o :: os ++ post = (pre ++ [o]) ++ os ++ post := by simp
        have hih := ih (pre ++ [o]) post st1 fuel
          (fun x hx => hrun x (List.mem_cons_of_mem _ hx)) hpost
          (by simp only [List.length_cons] at hfuel; omega)
        simp only [List.length_append, List.length_singleton] at hih
        rw [e, hih]
        have e3 : pre.length + 1 + os.length = pre.length + (o :: os).length := by
          simp only [List.length_cons]; omega
        rw [e3]

theorem Groups_Sorted.tail {g : Frag_List_Entry × List Olap_Info_t}
    {gs : List (Frag_List_Entry × List Olap_Info_t)} (h : Groups_Sorted (g :: gs)) :
    Groups_Sorted gs ∧ g.2 ≠ [] ∧ (∀ o ∈ g.2, o.b_iid = g.1.id) ∧
      ∀ o ∈ gs.flatMap (fun g => g.2), o.b_iid ≠ g.1.id := by
  obtain ⟨h1, h2⟩ := h
  simp only [List.map_cons, List.pairwise_cons] at h2
  refine ⟨⟨fun x hx => h1 x (List.mem_cons_of_mem _ hx), h2.2⟩,
    (h1 g (List.mem_cons_self _ _)).1, (h1 g (List.mem_cons_self _ _)).2, ?_⟩
  intro o ho
  simp only [List.mem_flatMap] at ho
  obtain ⟨g', hg', ho'⟩ := ho
  have := h2.1 g'.1.id (List.mem_map.2 ⟨g', hg', rfl⟩)
  rw [(h1 g' (List.mem_cons_of_mem _ hg')).2 o ho']
  omega

theorem Stream_Old_Frags_loop_eq (cfg : Config) (tb : Tables) (rc : List Char → List Char) :
    ∀ (groups : List (Frag_List_Entry × List Olap_Info_t)) (pre : List Olap_Info_t)
      (st : Olap_State), Groups_Sorted groups →
      Stream_Old_Frags_loop cfg tb rc (pre ++ groups.flatMap (fun g => g.2))
        (groups.map (fun g => g.1)) pre.length st =
      groups_fold cfg tb rc (fun _ => true) groups st := by
  intro groups
  induction groups with
  | nil => intro pre st _; rfl
  | cons g gs ih =>
    intro pre st hs
    obtain ⟨hs', hne, hrun, hpost⟩ := hs.tail
    obtain ⟨o, os, hg⟩ := List.exists_cons_of_ne_nil hne
    have hO : pre ++ (g :: gs).flatMap (fun g => g.2) =
        pre ++ g.2 ++ gs.flatMap (fun g => g.2) := by
      simp [List.flatMap_cons]
    simp only [List.map_cons, Stream_Old_Frags_loop, groups_fold]
    rw [hO]
    have hget : (pre ++ g.2 ++ gs.flatMap (fun g => g.2)).get? pre.length = some o := by
      rw [hg]; exact get_run_head _ _ _ _
    rw [hget]
    simp only
    rw [if_neg (by rw [hrun o (by rw [hg]; exact List.mem_cons_self _ _)]; omega)]
    rw [Olap_run_eq cfg tb rc _ g.1 g.2 pre _ _ _ hrun hpost
      (by simp only [List.length_append]; omega)]
    cases run_fold cfg tb rc (fun _ => true) g.1 g.2 { st with rev_id := -1 } with
    | none => rfl
    | some st1 =>
      simp only [Option.map_some']
      have := ih (pre ++ g.2) st1 hs'
      simp only [List.length_append] at this
      exact this

theorem Threaded_Process_Stream_loop_eq (cfg : Config) (tb : Tables)
    (rc : List Char → List Char) (N t : Int) :
    ∀ (groups : List (Frag_List_Entry × List Olap_Info_t)) (pre : List Olap_Info_t)
      (st : Olap_State), Groups_Sorted groups →
      Threaded_Process_Stream_loop cfg tb rc N t (pre ++ groups.flatMap (fun g => g.2))
        (groups.map (fun g => g.1)) pre.length st =
      groups_fold cfg tb rc (fun o => decide (o.a_iid.tmod N = t)) groups st := by
  intro groups
  induction groups with
  | nil => intro pre st _; rfl
  | cons g gs ih =>
    intro pre st hs
    obtain ⟨hs', hne, hrun, hpost⟩ := hs.tail
    obtain ⟨o, os, hg⟩ := List.exists_cons_of_ne_nil hne
    have hO : pre ++ (g :: gs).flatMap (fun g => g.2) =
        pre ++ g.2 ++ gs.flatMap (fun g => g.2) := by
      simp [List.flatMap_cons]
    simp only [List.map_cons, Threaded_Process_Stream_loop, groups_fold]
    rw [hO]
    have hget : (pre ++ g.2 ++ gs.flatMap (fun g => g.2)).get? pre.length = some o := by
      rw [hg]; exact get_run_head _ _ _ _
    have hid : o.b_iid = g.1.id := hrun o (by rw [hg]; exact List.mem_cons_self _ _)
    have hskip : skip_olaps (pre ++ g.2 ++ gs.flatMap (fun g => g.2)) g.1.id
        ((pre ++ g.2 ++ gs.flatMap (fun g => g.2)).length - pre.length + 1) pre.length =
        some pre.length := by
      simp only [skip_olaps, hget]
      rw [if_neg (by omega)]
    rw [hskip]
    simp only
    rw [hget]
    simp only
    rw [if_neg (by rw [hid]; simp)]
    rw [Olap_run_eq cfg tb rc _ g.1 g.2 pre _ _ _ hrun hpost
      (by simp only [List.length_append]; omega)]
    cases run_fold cfg tb rc (fun o => decide (o.a_iid.tmod N = t)) g.1 g.2
        { st with rev_id := -1 } with
    | none => rfl
    | some st1 =>
      simp only [Option.map_some']
      have := ih (pre ++ g.2) st1 hs'
      simp only [List.length_append] at this
      exact this

theorem apply_effects_append (l1 l2 : List (Option ((Frag_t → Frag_t) × Int)))
    (s : Frag_t × Int) :
    apply_effects (l1 ++ l2) s = (apply_effects l1 s).bind (apply_effects l2) := by
  induction l1 generalizing s with
  | nil => rfl
  | cons x xs ih =>
    cases x with
    | none => rfl
    | some e =>
      show apply_effects (xs ++ l2) (e.1 s.1, s.2 + e.2) = _
      rw [ih]
      rfl

theorem run_fold_effects (cfg : Config) (tb : Tables) (rc : List Char → List Char)
    (S : Frag_t) (pick : Olap_Info_t → Bool) (en : Frag_List_Entry) :
    ∀ (run : List Olap_Info_t) (st : Olap_State), Same_Reads S st.Frag →
      Cache_Ok rc en.id en.seq st.rev_seq st.rev_id → (∀ o ∈ run, o.b_iid = en.id) →
      (apply_effects (item_effects cfg tb rc S ((run.filter pick).map (fun o => (o, en))))
          (st.Frag, st.Failed_Olaps) = none →
        run_fold cfg tb rc pick en run st = none) ∧
      (∀ s, apply_effects (item_effects cfg tb rc S ((run.filter pick).map (fun o => (o, en))))
          (st.Frag, st.Failed_Olaps) = some s →
        ∃ out, run_fold cfg tb rc pick en run st = some out ∧
          (out.Frag, out.Failed_Olaps) = s ∧ Same_Reads S out.Frag ∧
          Cache_Ok rc en.id en.seq out.rev_seq out.rev_id) := by
  intro run
  induction run with
  | nil =>
    intro st hr hc _
    simp only [List.filter_nil, List.map_nil, item_effects, apply_effects, run_fold]
    refine ⟨fun h => by simp at h, fun s h => ?_⟩
    simp only [Option.some.injEq] at h
    exact ⟨st, rfl, h, hr, hc⟩
  | cons o os ih =>
    intro st hr hc hrun
    have hid := hrun o (List.mem_cons_self _ _)
    have hrun' := fun x hx => hrun x (List.mem_cons_of_mem _ hx)
    simp only [run_fold]
    by_cases hp : pick o = true
    · rw [List.filter_cons_of_pos hp, if_pos hp]
      simp only [List.map_cons, item_effects, apply_effects]
      have heff := Process_Olap_effect cfg tb rc S o en.seq en.shredded st hr (by rw [hid]; exact hc)
      cases he : Olap_Effect cfg tb rc S o en.seq en.shredded with
      | none =>
        rw [he] at heff
        simp only at heff
        rw [heff]
        simp [apply_effects]
      | some e =>
        rw [he] at heff
        obtain ⟨out, h1, h2, h3, h4⟩ := heff
        rw [h1]
        simp only [apply_effects]
        have hup := (Olap_Effect_updates cfg tb rc S o en.seq en.shredded e.1 e.2 he).1
        have := ih out (by rw [h2]; exact updates_reads hup S st.Frag hr)
          (by rw [← hid]; exact h4) hrun'
        rw [h2, h3] at this
        exact this
    · rw [List.filter_cons_of_neg hp, if_neg hp]
      exact ih st hr hc hrun'

theorem group_items_cons (g : Frag_List_Entry × List Olap_Info_t)
    (gs : List (Frag_List_Entry × List Olap_Info_t)) :
    group_items (g :: gs) = g.2.map (fun o => (o, g.1)) ++ group_items gs := by
  simp [group_items, List.flatMap_cons]

theorem filter_items (pick : Olap_Info_t → Bool) (en : Frag_List_Entry)
    (run : List Olap_Info_t) :
    (run.map (fun o => (o, en))).filter (fun it => pick it.1) =
      (run.filter pick).map (fun o => (o, en)) := by
  induction run with
  | nil => rfl
  | cons o os ih =>
    by_cases hp : pick o = true
    · simp [List.filter_cons, hp, ih]
    · simp [List.filter_cons, hp, ih]

theorem groups_fold_effects (cfg : Config) (tb : Tables) (rc : List Char → List Char)
    (S : Frag_t) (pick : Olap_Info_t → Bool) :
    ∀ (groups : List (Frag_List_Entry × List Olap_Info_t)) (st : Olap_State),
      Same_Reads S st.Frag → (charAt st.rev_seq 0).isAlpha = true →
      (∀ g ∈ groups, g.1.id ≠ -1 ∧ ∀ o ∈ g.2, o.b_iid = g.1.id) →
      (apply_effects (item_effects cfg tb rc S ((group_items groups).filter
          (fun it => pick it.1))) (st.Frag, st.Failed_Olaps) = none →
        groups_fold cfg tb rc pick groups st = none) ∧
      (∀ s, apply_effects (item_effects cfg tb rc S ((group_items groups).filter
          (fun it => pick it.1))) (st.Frag, st.Failed_Olaps) = some s →
        ∃ out, groups_fold cfg tb rc pick groups st = some out ∧
          (out.Frag, out.Failed_Olaps) = s ∧ Same_Reads S out.Frag) := by
  intro groups
  induction groups with
  | nil =>
    intro st hr ha _
    simp only [group_items, List.flatMap_nil, List.filter_nil, item_effects, List.map_nil,
      apply_effects, groups_fold]
    refine ⟨fun h => by simp at h, fun s h => ?_⟩
    simp only [Option.some.injEq] at h
    exact ⟨st, rfl, h, hr⟩
  | cons g gs ih =>
    intro st hr ha hg
    obtain ⟨hid, hrun⟩ := hg g (List.mem_cons_self _ _)
    have hg' := fun x hx => hg x (List.mem_cons_of_mem _ hx)
    simp only [groups_fold]
    rw [group_items_cons, List.filter_append, filter_items]
    unfold item_effects
    rw [List.map_append, apply_effects_append]
    have hc : Cache_Ok rc g.1.id g.1.seq ({ st with rev_id := -1 } : Olap_State).rev_seq
        ({ st with rev_id := -1 } : Olap_State).rev_id :=
      ⟨ha, fun h => absurd h.symm hid⟩
    obtain ⟨r1, r2⟩ := run_fold_effects cfg tb rc S pick g.1 g.2 { st with rev_id := -1 }
      hr hc hrun
    unfold item_effects at r1 r2
    cases hap : apply_effects (List.map (fun it => Olap_Effect cfg tb rc S it.1 it.2.seq
        it.2.shredded) (List.map (fun o => (o, g.1)) (List.filter pick g.2)))
        (st.Frag, st.Failed_Olaps) with
    | none =>
      rw [r1 hap]
      simp
    | some s =>
      obtain ⟨out, o1, o2, o3, o4⟩ := r2 s hap
      rw [o1]
      simp only [Option.some_bind]
      have := ih out o3 o4.1 hg'
      unfold item_effects at this
      rw [o2] at this
      exact this

theorem apply_effects_perm {l l' : List (Option ((Frag_t → Frag_t) × Int))}
    (h : l.Perm l') : (∀ e, some e ∈ l → Updates e.1) → ∀ s : Frag_t × Int,
    apply_effects l s = apply_effects l' s := by
  induction h with
  | nil => intro _ _; rfl
  | cons x _ ih =>
    intro hu s
    cases x with
    | none => rfl
    | some e =>
      simp only [apply_effects]
      exact ih (fun e' he' => hu e' (List.mem_cons_of_mem _ he')) _
  | swap x y l =>
    intro hu s
    cases x with
    | none => cases y <;> rfl
    | some e =>
      cases y with
      | none => rfl
      | some e' =>
        simp only [apply_effects]
        have h1 := hu e (List.mem_cons_of_mem _ (List.mem_cons_self _ _))
        have h2 := hu e' (List.mem_cons_self _ _)
        rw [updates_comm h1 h2 s.1]
        have : s.2 + e'.2 + e.2 = s.2 + e.2 + e'.2 := by ring
        rw [this]
  | trans h1 _ ih1 ih2 =>
    intro hu s
    rw [ih1 hu s, ih2 (fun e he => hu e (h1.mem_iff.2 he)) s]

theorem flatMap_filter_skip {α β : Type} [DecidableEq β] (cls : α → β) (x : α) (l : List α) :
    ∀ (ts : List β), cls x ∉ ts →
      ts.flatMap (fun t => (x :: l).filter (fun y => decide (cls y = t))) =
        ts.flatMap (fun t => l.filter (fun y => decide (cls y = t))) := by
  intro ts
  induction ts with
  | nil => intro _; rfl
  | cons t ts ih =>
    intro h
    simp only [List.mem_cons, not_or] at h
    simp only [List.flatMap_cons]
    rw [ih h.2, List.filter_cons_of_neg (by simpa using h.1)]

theorem flatMap_filter_cons {α β : Type} [DecidableEq β] (cls : α → β) (x : α) (l : List α) :
    ∀ (ts : List β), ts.Nodup → cls x ∈ ts →
      (ts.flatMap (fun t => (x :: l).filter (fun y => decide (cls y = t)))).Perm
        (x :: ts.flatMap (fun t => l.filter (fun y => decide (cls y = t)))) := by
  intro ts
  induction ts with
  | nil => intro _ h; simp at h
  | cons t ts ih =>
    intro hnd hmem
    simp only [List.nodup_cons] at hnd
    simp only [List.flatMap_cons]
    by_cases hx : cls x = t
    · rw [List.filter_cons_of_pos (by simpa using hx),
        flatMap_filter_skip cls x l ts (by rw [hx]; exact hnd.1)]
      exact List.Perm.refl _
    · rw [List.filter_cons_of_neg (by simpa using hx)]
      have hmem' : cls x ∈ ts := by
        rcases List.mem_cons.1 hmem with h | h
        · exact absurd h hx
        · exact h
      exact (List.Perm.append_left _ (ih hnd.2 hmem')).trans List.perm_middle

theorem flatMap_filter_perm {α β : Type} [DecidableEq β] (cls : α → β) (ts : List β)
    (hnd : ts.Nodup) : ∀ (l : List α), (∀ x ∈ l, cls x ∈ ts) →
      (ts.flatMap (fun t => l.filter (fun y => decide (cls y = t)))).Perm l := by
  intro l
  induction l with
  | nil =>
    intro _
    have : ∀ ts : List β, ts.flatMap (fun t => ([] : List α).filter
        (fun y => decide (cls y = t))) = [] := by
      intro ts
      induction ts with
      | nil => rfl
      | cons t ts ih =>
        rw [List.flatMap_cons, ih]
        rfl
    rw [this]
  | cons x l ih =>
    intro h
    exact (flatMap_filter_cons cls x l ts hnd (h x (List.mem_cons_self _ _))).trans
      (List.Perm.cons x (ih (fun y hy => h y (List.mem_cons_of_mem _ hy))))

theorem tmod_class (a N : Int) (ha : 0 < a) (hN : 1 ≤ N) :
    0 ≤ a.tmod N ∧ a.tmod N < N := by
  constructor
  · exact Int.tmod_nonneg _ (by omega)
  · exact Int.tmod_lt_of_pos _ (by omega)

theorem groups_fold_map (cfg : Config) (tb : Tables) (rc : List Char → List Char)
    (S : Frag_t) (pick : Olap_Info_t → Bool)
    (groups : List (Frag_List_Entry × List Olap_Info_t)) (st : Olap_State)
    (hr : Same_Reads S st.Frag) (ha : (charAt st.rev_seq 0).isAlpha = true)
    (hg : ∀ g ∈ groups, g.1.id ≠ -1 ∧ ∀ o ∈ g.2, o.b_iid = g.1.id) :
    (groups_fold cfg tb rc pick groups st).map (fun o => (o.Frag, o.Failed_Olaps)) =
      apply_effects (item_effects cfg tb rc S ((group_items groups).filter
        (fun it => pick it.1))) (st.Frag, st.Failed_Olaps) ∧
    ∀ s, apply_effects (item_effects cfg tb rc S ((group_items groups).filter
        (fun it => pick it.1))) (st.Frag, st.Failed_Olaps) = some s → Same_Reads S s.1 := by
  obtain ⟨h1, h2⟩ := groups_fold_effects cfg tb rc S pick groups st hr ha hg
  cases hap : apply_effects (item_effects cfg tb rc S ((group_items groups).filter
      (fun it => pick it.1))) (st.Frag, st.Failed_Olaps) with
  | none =>
    rw [h1 hap]
    exact ⟨rfl, fun s h => by simp at h⟩
  | some s =>
    obtain ⟨out, o1, o2, o3⟩ := h2 s hap
    rw [o1]
    refine ⟨by rw [← o2]; rfl, fun s' h => ?_⟩
    simp only [Option.some.injEq] at h
    rw [← h, ← o2]
    exact o3

theorem Threads_pass_effects (cfg : Config) (tb : Tables) (rc : List Char → List Char)
    (N : Int) (groups : List (Frag_List_Entry × List Olap_Info_t))
    (work : Int → Int × Edit_Array) (S : Frag_t) (hs : Groups_Sorted groups)
    (hid : ∀ g ∈ groups, g.1.id ≠ -1) :
    ∀ (order : List Int) (s : Frag_t × Int), Same_Reads S s.1 →
      Threads_pass cfg tb rc N (groups.flatMap (fun g => g.2)) (groups.map (fun g => g.1))
          work order s =
        apply_effects (item_effects cfg tb rc S (order.flatMap (fun t =>
          (group_items groups).filter (fun it => decide (it.1.a_iid.tmod N = t))))) s := by
  have hg : ∀ g ∈ groups, g.1.id ≠ -1 ∧ ∀ o ∈ g.2, o.b_iid = g.1.id :=
    fun g h => ⟨hid g h, (hs.1 g h).2⟩
  intro order
  induction order with
  | nil => intro s _; rfl
  | cons t rest ih =>
    intro s hr
    simp only [Threads_pass, List.flatMap_cons]
    unfold item_effects
    rw [List.map_append, apply_effects_append]
    have hloop := Threaded_Process_Stream_loop_eq cfg tb rc N t groups []
      ⟨s.1, s.2, ['a', 'c', 'g', 't'], (work t).1, (work t).2⟩ hs
    simp only [List.nil_append, List.length_nil] at hloop
    rw [hloop]
    obtain ⟨m1, m2⟩ := groups_fold_map cfg tb rc S (fun o => decide (o.a_iid.tmod N = t))
      groups ⟨s.1, s.2, ['a', 'c', 'g', 't'], (work t).1, (work t).2⟩ hr (show (charAt ['a', 'c', 'g', 't'] 0).isAlpha = true by decide) hg
    unfold item_effects at m1 m2
    simp only at m1 m2
    rw [← m1]
    cases hgf : groups_fold cfg tb rc (fun o => decide (o.a_iid.tmod N = t)) groups
        ⟨s.1, s.2, ['a', 'c', 'g', 't'], (work t).1, (work t).2⟩ with
    | none => rfl
    | some out =>
      simp only [Option.map_some', Option.some_bind]
      have hr' : Same_Reads S out.Frag := by
        have := m2 (out.Frag, out.Failed_Olaps) (by rw [← m1, hgf]; rfl)
        exact this
      have := ih (out.Frag, out.Failed_Olaps) hr'
      unfold item_effects at this
      exact this

theorem Single_pass_effects (cfg : Config) (tb : Tables) (rc : List Char → List Char)
    (groups : List (Frag_List_Entry × List Olap_Info_t)) (rev_id : Int)
    (edit_array : Edit_Array) (S : Frag_t) (hs : Groups_Sorted groups)
    (hid : ∀ g ∈ groups, g.1.id ≠ -1) (s : Frag_t × Int) (hr : Same_Reads S s.1) :
    Single_pass cfg tb rc (groups.flatMap (fun g => g.2)) (groups.map (fun g => g.1))
        rev_id edit_array s =
      apply_effects (item_effects cfg tb rc S (group_items groups)) s := by
  have hg : ∀ g ∈ groups, g.1.id ≠ -1 ∧ ∀ o ∈ g.2, o.b_iid = g.1.id :=
    fun g h => ⟨hid g h, (hs.1 g h).2⟩
  unfold Single_pass
  have hloop := Stream_Old_Frags_loop_eq cfg tb rc groups []
    ⟨s.1, s.2, ['a', 'c', 'g', 't'], rev_id, edit_array⟩ hs
  simp only [List.nil_append, List.length_nil] at hloop
  rw [hloop]
  obtain ⟨m1, _⟩ := groups_fold_map cfg tb rc S (fun _ => true)
    groups ⟨s.1, s.2, ['a', 'c', 'g', 't'], rev_id, edit_array⟩ hr (show (charAt ['a', 'c', 'g', 't'] 0).isAlpha = true by decide) hg
  rw [m1]
  simp

/-- Where the two modes agree: let the fragments that the single pass
streams be exactly the B reads of the overlaps, none of them deleted, so that
the array `Olap` consists of the runs of overlaps of these reads in increasing
order of `b_iid`, with positive identifiers.  Every overlap passes the test
`a_iid % Num_PThreads == thread_id` of exactly one thread
`0 <= thread_id < Num_PThreads`, and the threads of `Threaded_Process_Stream`,
run one after the other in any order, each with its own work area, end (or end
the program) exactly as the loop of `Stream_Old_Frags` does: same final `Frag`
(tallies and degrees of every A read) and same `Failed_Olaps`, hence the same
output of `Output_Corrections`.  With a deleted B read among those of the
overlaps the two differ; the last section has such a store. -/
theorem threads_same_as_single_pass (cfg : Config) (tb : Tables)
    (rc : List Char → List Char) (Num_PThreads : Int)
    (groups : List (Frag_List_Entry × List Olap_Info_t)) (order : List Int)
    (work : Int → Int × Edit_Array) (rev_id : Int) (edit_array : Edit_Array)
    (Frag : Frag_t) (Failed_Olaps : Int)
    (hN : 1 ≤ Num_PThreads) (hsorted : Groups_Sorted groups)
    (hpos : ∀ g ∈ groups, 0 < g.1.id ∧ ∀ o ∈ g.2, 0 < o.a_iid)
    (horder : order.Nodup ∧ ∀ t, t ∈ order ↔ 0 ≤ t ∧ t < Num_PThreads) :
    (∀ g ∈ groups, ∀ o ∈ g.2,
      ∃! t, (0 ≤ t ∧ t < Num_PThreads) ∧ o.a_iid.tmod Num_PThreads = t) ∧
    Threads_pass cfg tb rc Num_PThreads (groups.flatMap (fun g => g.2))
        (groups.map (fun g => g.1)) work order (Frag, Failed_Olaps) =
      Single_pass cfg tb rc (groups.flatMap (fun g => g.2)) (groups.map (fun g => g.1))
        rev_id edit_array (Frag, Failed_Olaps) ∧
    (∀ s s', Threads_pass cfg tb rc Num_PThreads (groups.flatMap (fun g => g.2))
        (groups.map (fun g => g.1)) work order (Frag, Failed_Olaps) = some s →
      Single_pass cfg tb rc (groups.flatMap (fun g => g.2)) (groups.map (fun g => g.1))
        rev_id edit_array (Frag, Failed_Olaps) = some s' →
      (∀ i, (s.1 i).vote = (s'.1 i).vote ∧ (s.1 i).left_degree = (s'.1 i).left_degree ∧
        (s.1 i).right_degree = (s'.1 i).right_degree) ∧
      Output_Corrections cfg s.1 = Output_Corrections cfg s'.1) := by
  have hid : ∀ g ∈ groups, g.1.id ≠ -1 := fun g h => by
    have := (hpos g h).1
    omega
  have hr : Same_Reads Frag Frag := fun _ => ⟨rfl, rfl, rfl⟩
  have hcls : ∀ it ∈ group_items groups, it.1.a_iid.tmod Num_PThreads ∈ order := by
    intro it hit
    unfold group_items at hit
    simp only [List.mem_flatMap, List.mem_map] at hit
    obtain ⟨g, hg, o, ho, rfl⟩ := hit
    exact (horder.2 _).2 (tmod_class _ _ ((hpos g hg).2 o ho) hN)
  have hperm := flatMap_filter_perm (fun it : Olap_Info_t × Frag_List_Entry =>
    it.1.a_iid.tmod Num_PThreads) order horder.1 (group_items groups) hcls
  have heq : Threads_pass cfg tb rc Num_PThreads (groups.flatMap (fun g => g.2))
        (groups.map (fun g => g.1)) work order (Frag, Failed_Olaps) =
      Single_pass cfg tb rc (groups.flatMap (fun g => g.2)) (groups.map (fun g => g.1))
        rev_id edit_array (Frag, Failed_Olaps) := by
    rw [Threads_pass_effects cfg tb rc Num_PThreads groups work Frag hsorted hid order _ hr,
      Single_pass_effects cfg tb rc groups rev_id edit_array Frag hsorted hid _ hr]
    apply apply_effects_perm
    · unfold item_effects
      exact hperm.map _
    · intro e he
      unfold item_effects at he
      obtain ⟨it, _, hit⟩ := List.mem_map.1 he
      exact (Olap_Effect_updates cfg tb rc Frag it.1 it.2.seq it.2.shredded e.1 e.2 hit).1
  refine ⟨?_, heq, ?_⟩
  · intro g hg o ho
    obtain ⟨c1, c2⟩ := tmod_class _ _ ((hpos g hg).2 o ho) hN
    exact ⟨o.a_iid.tmod Num_PThreads, ⟨⟨c1, c2⟩, rfl⟩, fun t ht => ht.2.symm⟩
  · intro s s' h1 h2
    rw [heq, h2] at h1
    simp only [Option.some.injEq] at h1
    subst h1
    exact ⟨fun i => ⟨rfl, rfl, rfl⟩, rfl⟩

theorem threads_same_as_single_pass_witness :
    Threads_pass (Config.default 1 1) Tables_6 List.reverse 2
        (groups_scenario.flatMap (fun g => g.2)) (groups_scenario.map (fun g => g.1))
        (fun _ => (0, Edit_Array.junk)) [1, 0] (Frag_scenario, 0) =
      Single_pass (Config.default 1 1) Tables_6 List.reverse
        (groups_scenario.flatMap (fun g => g.2)) (groups_scenario.map (fun g => g.1))
        0 Edit_Array.junk (Frag_scenario, 0) :=
  (threads_same_as_single_pass (Config.default 1 1) Tables_6 List.reverse 2
    groups_scenario [1, 0] (fun _ => (0, Edit_Array.junk)) 0
    Edit_Array.junk Frag_scenario 0 (by decide)
    ⟨by
      intro g hg
      simp only [groups_scenario, List.mem_singleton] at hg
      subst hg
      refine ⟨by simp, ?_⟩
      intro o ho
      simp only [List.mem_singleton] at ho
      subst ho
      rfl, by simp [groups_scenario]⟩
    (by
      intro g hg
      simp only [groups_scenario, List.mem_singleton] at hg
      subst hg
      refine ⟨by decide, ?_⟩
      intro o ho
      simp only [List.mem_singleton] at ho
      subst ho
      decide)
    ⟨by decide, by
      intro t
      simp only [List.mem_cons, List.mem_singleton, List.not_mem_nil, or_false]
      omega⟩).2.1

/-! ## Theorems: the exact-prefix return of the aligner -/

theorem first_match_agree (A T : Int → Char) (shorter : Int) (h0 : 0 ≤ shorter)
    (hagree : ∀ r, 0 ≤ r → r < shorter → A r = T r) :
    first_match A T shorter shorter.toNat 0 = shorter := by
  obtain ⟨f1, f2, _, f4⟩ := first_match_spec A T shorter shorter.toNat 0 h0 (by simp)
  rcases f4 with h | h
  · exact h
  · by_contra hne
    exact h (hagree _ f1 (lt_of_le_of_ne f2 hne))

theorem OVL_Min_int_eq (a b : Int) : OVL_Min_int a b = min a b := by
  unfold OVL_Min_int
  split_ifs with h
  · exact (min_eq_left (le_of_lt h)).symm
  · exact (min_eq_right (not_lt.mp h)).symm

/-- C31: when `A [0 .. m)` and `T [0 .. n)` agree on their first `min (m, n)`
characters (`m = 0` and `n = 0` included), `Prefix_Edit_Dist` returns 0 for
every `Error_Limit`, with `Delta_Len = 0`, `A_End = T_End = min (m, n)` and
`Match_To_End = TRUE`; the only cell of `edit_array` that it reads or writes
is `edit_array [0] [0]`, which receives `min (m, n)`, and every other cell is
left as it was. -/
theorem exact_prefix_fast_path (tb : Tables) (A : Int → Char) (m : Int) (T : Int → Char)
    (n : Int) (Error_Limit : Int) (edit_array : Edit_Array) (hm : 0 ≤ m) (hn : 0 ≤ n)
    (hagree : ∀ r, 0 ≤ r → r < min m n → A r = T r) :
    ∃ r, Prefix_Edit_Dist tb A m T n Error_Limit edit_array = some r ∧
      r.errors = 0 ∧ r.Delta = [] ∧ r.A_End = min m n ∧ r.T_End = min m n ∧
      r.Match_To_End = true ∧
      Prefix_Edit_Dist_cells tb A m T n Error_Limit edit_array = [(0, 0)] ∧
      r.edit_array 0 0 = min m n ∧
      ∀ e d, ¬ (e = 0 ∧ d = 0) → r.edit_array e d = edit_array e d := by
  have hrow : first_match A T (OVL_Min_int m n) (OVL_Min_int m n).toNat 0 = OVL_Min_int m n := by
    apply first_match_agree
    · rw [OVL_Min_int_eq]; exact le_min hm hn
    · rw [OVL_Min_int_eq]; exact hagree
  refine ⟨⟨0, OVL_Min_int m n, OVL_Min_int m n, true, [],
    edit_array.set 0 0 (OVL_Min_int m n)⟩, ?_, rfl, rfl, OVL_Min_int_eq m n, OVL_Min_int_eq m n,
    rfl, ?_, ?_, ?_⟩
  · unfold Prefix_Edit_Dist
    simp only [hrow, if_true]
  · unfold Prefix_Edit_Dist_cells
    simp only [hrow, if_true]
  · show (edit_array.set 0 0 (OVL_Min_int m n)) 0 0 = min m n
    rw [set_get, OVL_Min_int_eq]
    simp
  · intro e d hed
    show (edit_array.set 0 0 (OVL_Min_int m n)) e d = edit_array e d
    rw [set_get, if_neg hed]

set_option maxRecDepth 100000 in
theorem exact_prefix_fast_path_witness :
    ∃ r, Prefix_Edit_Dist Tables_6 (charAt ['a', 'c', 'g']) 3 (charAt ['a', 'c', 'g', 't']) 4 1
        Edit_Array.junk = some r ∧
      r.errors = 0 ∧ r.Delta = [] ∧ r.A_End = min 3 4 ∧ r.T_End = min 3 4 ∧
      r.Match_To_End = true ∧
      Prefix_Edit_Dist_cells Tables_6 (charAt ['a', 'c', 'g']) 3 (charAt ['a', 'c', 'g', 't']) 4 1
        Edit_Array.junk = [(0, 0)] ∧
      r.edit_array 0 0 = min 3 4 ∧
      ∀ e d, ¬ (e = 0 ∧ d = 0) → r.edit_array e d = Edit_Array.junk e d :=
  exact_prefix_fast_path Tables_6 (charAt ['a', 'c', 'g']) 3 (charAt ['a', 'c', 'g', 't']) 4 1
    Edit_Array.junk (by decide) (by decide) (by
      intro r h0 h1
      have h2 : r < 3 := by simpa using h1
      have h3 : r = 0 ∨ r = 1 ∨ r = 2 := by omega
      rcases h3 with h | h | h <;> subst h <;> decide)

/-! ## Theorems: consecutive insertion votes -/

theorem insert_actions_toInt (v : Vote_Value_t) (h : v ∈ insert_actions) :
    ¬ v.toInt ≤ Vote_Value_t.T_SUBST.toInt := by
  cases v <;> simp [insert_actions] at h <;> simp [Vote_Value_t.toInt]

theorem insert_actions_counter (v : Vote_Value_t) (h : v ∈ insert_actions) :
    v.counter = some .a_insert ∨ v.counter = some .c_insert ∨ v.counter = some .g_insert ∨
      v.counter = some .t_insert := by
  cases v <;> simp [insert_actions] at h <;> simp [Vote_Value_t.counter]

theorem Matching_Vote_counter (ch : Char) (c : Counter)
    (h : (Matching_Vote ch).counter = some c) :
    c = .a_subst ∨ c = .c_subst ∨ c = .g_subst ∨ c = .t_subst := by
  unfold Matching_Vote at h
  simp only at h
  split_ifs at h <;> simp [Vote_Value_t.counter] at h <;> simp [← h]

/-- C33: in `Analyze_Alignment`, when `V [i - 1]` and `V [i]` are both
insertion votes and stand in adjacent columns (`prev_match = 0`), the vote
`V [i]` is not cast: the statement that casts it leaves `Frag` as it is,
whatever `next_match`, `Vote_Qualify_Len` and the other settings are, and the
whole pass of the loop for `i` changes no insertion counter of any tally. -/
theorem consecutive_inserts_not_cast (cfg : Config) (a_part : Int → Char) (a_offset sub : Int)
    (vote : List Vote_t) (ct i : Nat) (Frag : Frag_t)
    (hprev : (vote_at vote (i - 1)).vote_val ∈ insert_actions)
    (hcur : (vote_at vote i).vote_val ∈ insert_actions)
    (hadj : prev_match vote i = 0) :
    Tally_Discrepancy cfg a_offset sub vote ct i Frag = Frag ∧
    (∀ (v : Vote_Value_t) (c : Counter) (s p : Int), v ∈ insert_actions → v.counter = some c →
      (((Tally_Vote cfg a_part a_offset sub vote ct i Frag) s).vote p).get c =
        ((Frag s).vote p).get c) := by
  have hdis : ∀ F : Frag_t, Tally_Discrepancy cfg a_offset sub vote ct i F = F := by
    intro F
    unfold Tally_Discrepancy
    unfold prev_match at hadj
    simp only [hadj]
    rw [if_neg]
    rintro ⟨_, h | h | h⟩
    · omega
    · exact insert_actions_toInt _ hprev h
    · exact insert_actions_toInt _ hcur h
  refine ⟨hdis Frag, ?_⟩
  intro v c s p hv hc
  unfold Tally_Vote
  rw [hdis]
  have hrun : Bumps_In (fun c _ _ => c = .confirmed ∨ c = .no_insert ∨ c = .a_subst ∨
      c = .c_subst ∨ c = .g_subst ∨ c = .t_subst)
      (Tally_Run cfg a_part a_offset sub vote ct i) := by
    apply bumps_in_Tally_Run
    · intro q c' _ _ hm
      rcases Matching_Vote_counter _ _ hm with h | h | h | h <;> simp [h]
    · intro q _ _ _
      exact ⟨Or.inl rfl, Or.inr (Or.inl rfl)⟩
  apply bumps_in_frame hrun
  rcases insert_actions_counter v hv with h | h | h | h <;>
    · rw [h] at hc
      simp only [Option.some.injEq] at hc
      subst hc
      simp

theorem consecutive_inserts_not_cast_witness :
    Tally_Discrepancy (Config.default 1 1) 0 0
        [⟨-1, -1, .A_SUBST⟩, ⟨1, 2, .G_INSERT⟩, ⟨1, 3, .T_INSERT⟩, ⟨13, 15, .NO_VOTE⟩] 3 2
        Frag_zero = Frag_zero ∧
    (∀ (v : Vote_Value_t) (c : Counter) (s p : Int), v ∈ insert_actions → v.counter = some c →
      (((Tally_Vote (Config.default 1 1) (charAt A_adjacent) 0 0
          [⟨-1, -1, .A_SUBST⟩, ⟨1, 2, .G_INSERT⟩, ⟨1, 3, .T_INSERT⟩, ⟨13, 15, .NO_VOTE⟩] 3 2
          Frag_zero) s).vote p).get c = ((Frag_zero s).vote p).get c) :=
  consecutive_inserts_not_cast (Config.default 1 1) (charAt A_adjacent) 0 0
    [⟨-1, -1, .A_SUBST⟩, ⟨1, 2, .G_INSERT⟩, ⟨1, 3, .T_INSERT⟩, ⟨13, 15, .NO_VOTE⟩] 3 2
    Frag_zero (by decide) (by decide) (by decide)

/-! ## Theorems: the winning count is the only largest one -/

theorem subst_count_le_max (t : Vote_Tally_t) (w : Vote_Value_t) (hw : w ∈ subst_actions) :
    subst_count t w ≤ max_count (subst_count t) subst_actions := by
  simp only [subst_actions, List.mem_cons, List.mem_singleton, List.not_mem_nil, or_false] at hw
  rcases hw with h | h | h | h | h <;> subst h <;>
    simp [max_count, subst_actions, subst_count, Nat.max_def] <;> split_ifs <;> omega

theorem insert_count_le_max (t : Vote_Tally_t) (w : Vote_Value_t) (hw : w ∈ insert_actions) :
    insert_count t w ≤ max_count (insert_count t) insert_actions := by
  simp only [insert_actions, List.mem_cons, List.mem_singleton, List.not_mem_nil, or_false] at hw
  rcases hw with h | h | h | h <;> subst h <;>
    simp [max_count, insert_actions, insert_count, Nat.max_def] <;> split_ifs <;> omega

theorem record_in_pos (cfg : Config) (Frag : Frag_t) (i j : Int) (v : Vote_Value_t)
    (hv : v ≠ .EXTENSION)
    (hrec : Correction_Output_t.corr j v ∈ Output_Corrections_frag cfg Frag i) :
    ∃ seq, (Frag i).sequence = some seq ∧ 0 ≤ j ∧ j ≤ last_conf cfg (Frag i) seq ∧
      Correction_Output_t.corr j v ∈
        Output_Corrections_pos cfg (charAt seq j) ((Frag i).vote j) j := by
  cases hseq : (Frag i).sequence with
  | none =>
    unfold Output_Corrections_frag at hrec
    simp [hseq] at hrec
  | some seq =>
    rcases (mem_Output_Corrections_frag cfg Frag i seq hseq j v).mp hrec with h | h
    · exact absurd h.2.2 hv
    · exact ⟨seq, rfl, h⟩

/-- C37: whenever `Output_Corrections` writes a deletion or substitution
record at a position, the count of the action it names is strictly greater
than the count of each of the other four actions; whenever it writes an
insertion record, the count of its action is strictly greater than each of the
other three insertion counts.  So the largest count is reached by one action
only, and an action whose count is at least every other count is the one that
is written: the order in which the source compares the counts has no part in
the choice. -/
theorem winning_count_unique (cfg : Config) (Frag : Frag_t) (i j : Int) (v : Vote_Value_t)
    (hrec : Correction_Output_t.corr j v ∈ Output_Corrections_frag cfg Frag i) :
    (v ∈ subst_actions →
      (∀ w ∈ subst_actions, w ≠ v →
        subst_count ((Frag i).vote j) w < subst_count ((Frag i).vote j) v) ∧
      (∀ w ∈ subst_actions, (∀ u ∈ subst_actions,
        subst_count ((Frag i).vote j) u ≤ subst_count ((Frag i).vote j) w) → w = v)) ∧
    (v ∈ insert_actions →
      (∀ w ∈ insert_actions, w ≠ v →
        insert_count ((Frag i).vote j) w < insert_count ((Frag i).vote j) v) ∧
      (∀ w ∈ insert_actions, (∀ u ∈ insert_actions,
        insert_count ((Frag i).vote j) u ≤ insert_count ((Frag i).vote j) w) → w = v)) := by
  constructor
  · intro hv
    have hne : v ≠ .EXTENSION := by
      rintro rfl
      simp [subst_actions] at hv
    obtain ⟨seq, _, _, _, hpos⟩ := record_in_pos cfg Frag i j v hne hrec
    unfold Output_Corrections_pos at hpos
    have hsub : Correction_Output_t.corr j v ∈
        Output_Corrections_subst cfg (charAt seq j) ((Frag i).vote j) j := by
      rcases List.mem_append.mp hpos with h | h
      · exact h
      · obtain ⟨_, h2, _⟩ := (mem_Output_Corrections_insert cfg _ j j v).mp h
        exact absurd (h2 ▸ (insert_scan_vote _).1) (fun hi => subst_insert_disjoint v hv hi)
    obtain ⟨_, h2, _, h4, _⟩ := (mem_Output_Corrections_subst cfg _ _ j j v).mp hsub
    have hmax : subst_count ((Frag i).vote j) v =
        max_count (subst_count ((Frag i).vote j)) subst_actions := by
      rw [h2, (subst_scan_vote _ _).2.1, subst_scan_max]
    rw [subst_scan_max, subst_scan_total] at h4
    have hstrict : ∀ w ∈ subst_actions, w ≠ v →
        subst_count ((Frag i).vote j) w < subst_count ((Frag i).vote j) v := by
      intro w hw hwv
      have hle := subst_count_le_max ((Frag i).vote j) w hw
      rcases Nat.lt_or_ge (subst_count ((Frag i).vote j) w) (subst_count ((Frag i).vote j) v)
        with h | h
      · exact h
      · exact absurd (subst_unique _ w v hw hv (by omega) hmax h4) hwv
    refine ⟨hstrict, ?_⟩
    intro w hw hall
    by_contra hwv
    have := hstrict w hw hwv
    have := hall v hv
    omega
  · intro hv
    have hne : v ≠ .EXTENSION := by
      rintro rfl
      simp [insert_actions] at hv
    obtain ⟨seq, _, _, _, hpos⟩ := record_in_pos cfg Frag i j v hne hrec
    unfold Output_Corrections_pos at hpos
    have hins : Correction_Output_t.corr j v ∈
        Output_Corrections_insert cfg ((Frag i).vote j) j := by
      rcases List.mem_append.mp hpos with h | h
      · obtain ⟨_, h2, _⟩ := (mem_Output_Corrections_subst cfg _ _ j j v).mp h
        exact absurd hv (fun hi => subst_insert_disjoint v (h2 ▸ (subst_scan_vote _ _).1) hi)
      · exact h
    obtain ⟨_, h2, _, h4, _⟩ := (mem_Output_Corrections_insert cfg _ j j v).mp hins
    have hmax : insert_count ((Frag i).vote j) v =
        max_count (insert_count ((Frag i).vote j)) insert_actions := by
      rw [h2, (insert_scan_vote _).2, insert_scan_max]
    rw [insert_scan_max, insert_scan_total] at h4
    have hstrict : ∀ w ∈ insert_actions, w ≠ v →
        insert_count ((Frag i).vote j) w < insert_count ((Frag i).vote j) v := by
      intro w hw hwv
      have hle := insert_count_le_max ((Frag i).vote j) w hw
      rcases Nat.lt_or_ge (insert_count ((Frag i).vote j) w) (insert_count ((Frag i).vote j) v)
        with h | h
      · exact h
      · exact absurd (insert_unique _ w v hw hv (by omega) hmax h4) hwv
    refine ⟨hstrict, ?_⟩
    intro w hw hall
    by_contra hwv
    have := hstrict w hw hwv
    have := hall v hv
    omega

theorem winning_count_unique_witness :
    (Vote_Value_t.DELETE ∈ subst_actions →
      (∀ w ∈ subst_actions, w ≠ .DELETE →
        subst_count ((Frag_two_records 0).vote 0) w <
          subst_count ((Frag_two_records 0).vote 0) .DELETE) ∧
      (∀ w ∈ subst_actions, (∀ u ∈ subst_actions,
        subst_count ((Frag_two_records 0).vote 0) u ≤
          subst_count ((Frag_two_records 0).vote 0) w) → w = .DELETE)) ∧
    (Vote_Value_t.DELETE ∈ insert_actions →
      (∀ w ∈ insert_actions, w ≠ .DELETE →
        insert_count ((Frag_two_records 0).vote 0) w <
          insert_count ((Frag_two_records 0).vote 0) .DELETE) ∧
      (∀ w ∈ insert_actions, (∀ u ∈ insert_actions,
        insert_count ((Frag_two_records 0).vote 0) u ≤
          insert_count ((Frag_two_records 0).vote 0) w) → w = .DELETE)) :=
  winning_count_unique (Config.default 1 1) Frag_two_records 0 0 .DELETE (by decide)

/-! ## Theorems: the order of the per-position records -/

theorem positions_pairwise (cfg : Config) (f : Frag_Info_t) (seq : List Char) :
    List.Pairwise (fun x y => x.pos < y.pos ∨
        (x.pos = y.pos ∧ x.is_subst = true ∧ y.is_insert = true))
      (Output_Corrections_positions cfg f seq) := by
  unfold Output_Corrections_positions
  rw [List.pairwise_flatMap]
  constructor
  · intro j _
    unfold Output_Corrections_pos
    rw [List.pairwise_append]
    refine ⟨?_, ?_, ?_⟩
    · unfold Output_Corrections_subst
      simp only
      split_ifs <;> simp
    · unfold Output_Corrections_insert
      simp only
      split_ifs <;> simp
    · intro x hx y hy
      obtain ⟨_, _, h3, h4⟩ := subst_records cfg _ _ _ x hx
      obtain ⟨_, _, h5, h6⟩ := insert_records cfg _ _ y hy
      exact Or.inr ⟨by rw [h3, h5], h4, h6⟩
  · refine (List.pairwise_lt_range _).imp ?_
    intro a b hab x hx y hy
    obtain ⟨_, _, h3⟩ := pos_records cfg _ _ _ x hx
    obtain ⟨_, _, h5⟩ := pos_records cfg _ _ _ y hy
    left
    rw [h3, h5]
    exact_mod_cast hab

theorem per_position_pairwise (cfg : Config) (Frag : Frag_t) (i : Int) :
    List.Pairwise (fun x y => x.pos < y.pos ∨
        (x.pos = y.pos ∧ x.is_subst = true ∧ y.is_insert = true))
      (per_position (Output_Corrections_frag cfg Frag i)) := by
  cases hseq : (Frag i).sequence with
  | none =>
    unfold Output_Corrections_frag per_position
    simp [hseq, Correction_Output_t.is_ID]
  | some seq =>
    rw [per_position_frag cfg Frag i seq hseq]
    exact positions_pairwise cfg (Frag i) seq

theorem not_subst_and_insert (x : Correction_Output_t) (h1 : x.is_subst = true)
    (h2 : x.is_insert = true) : False := by
  cases x with
  | frag _ _ _ => simp [Correction_Output_t.is_subst] at h1
  | corr p v =>
    simp only [Correction_Output_t.is_subst, decide_eq_true_eq] at h1
    simp only [Correction_Output_t.is_insert, decide_eq_true_eq] at h2
    exact subst_insert_disjoint v h1 h2

/-- C38: the per-position records that `Output_Corrections` writes for a read
carry positions that never decrease; at most two of them carry the same
position, and of two records with the same position the earlier is a deletion
or substitution record and the later an insertion record; every position lies
in `0 .. last_conf`. -/
theorem positions_never_decrease (cfg : Config) (Frag : Frag_t) (i : Int) :
    List.Pairwise (fun x y => x.pos ≤ y.pos)
      (per_position (Output_Corrections_frag cfg Frag i)) ∧
    (∀ p : Int, ((per_position (Output_Corrections_frag cfg Frag i)).filter
      (fun x => decide (x.pos = p))).length ≤ 2) ∧
    (∀ x y, List.Sublist [x, y] (per_position (Output_Corrections_frag cfg Frag i)) →
      x.pos = y.pos → x.is_subst = true ∧ y.is_insert = true) ∧
    (∀ seq, (Frag i).sequence = some seq →
      ∀ x ∈ per_position (Output_Corrections_frag cfg Frag i),
        0 ≤ x.pos ∧ x.pos ≤ last_conf cfg (Frag i) seq) := by
  have hpw := per_position_pairwise cfg Frag i
  refine ⟨?_, ?_, ?_, ?_⟩
  · refine hpw.imp ?_
    intro x y h
    rcases h with h | h
    · exact le_of_lt h
    · exact le_of_eq h.1
  · intro p
    have hs : List.Sublist ((per_position (Output_Corrections_frag cfg Frag i)).filter
        (fun x => decide (x.pos = p))) (per_position (Output_Corrections_frag cfg Frag i)) :=
      List.filter_sublist _
    have hf := hpw.sublist hs
    clear hs
    have hmem : ∀ x ∈ (per_position (Output_Corrections_frag cfg Frag i)).filter
        (fun x => decide (x.pos = p)), x.pos = p := by
      intro x hx
      simpa using (List.mem_filter.mp hx).2
    generalize (per_position (Output_Corrections_frag cfg Frag i)).filter
      (fun x => decide (x.pos = p)) = l at hf hmem
    match l, hf, hmem with
    | [], _, _ => simp
    | [_], _, _ => simp
    | [_, _], _, _ => simp
    | a :: b :: c :: rest, hf, hmem =>
      exfalso
      have ha := hmem a (by simp)
      have hb := hmem b (by simp)
      have hc := hmem c (by simp)
      rw [List.pairwise_cons, List.pairwise_cons] at hf
      have h1 := hf.1 b (by simp)
      have h2 := hf.2.1 c (by simp)
      rcases h1 with h1 | h1
      · omega
      · rcases h2 with h2 | h2
        · omega
        · exact not_subst_and_insert b h2.2.1 h1.2.2
  · intro x y hsub hxy
    have h := hpw.sublist hsub
    rw [List.pairwise_cons] at h
    rcases h.1 y (by simp) with h | h
    · omega
    · exact h.2
  · intro seq hseq x hx
    rw [per_position_frag cfg Frag i seq hseq] at hx
    unfold Output_Corrections_positions at hx
    obtain ⟨j, hj, hxj⟩ := List.mem_flatMap.mp hx
    obtain ⟨_, _, h3⟩ := pos_records cfg _ _ _ x hxj
    rw [h3]
    have := List.mem_range.mp hj
    omega

/-! ## Theorems: the test of the error count in `Process_Olap` -/

theorem fill_row_returned (A : Int → Char) (m : Int) (T : Int → Char) (n : Int) (e Right : Int) :
    ∀ (fuel : Nat) (d : Int) (ea : Edit_Array) (r : PED_Result),
    fill_row A m T n e Right fuel d ea = .returned r → r.Match_To_End = true ∧ r.errors = e := by
  intro fuel
  induction fuel with
  | zero =>
    intro d ea r h
    simp [fill_row] at h
  | succ fuel ih =>
    intro d ea r h
    simp only [fill_row] at h
    split_ifs at h <;>
      first
      | exact ih _ _ r h
      | (simp only [Row_Outcome.returned.injEq] at h
         subst h
         exact ⟨rfl, rfl⟩)

theorem scan_Longest_max_score (e : Int) (st : PED_State) :
    (scan_Longest e st).Max_Score_Len = st.Max_Score_Len ∧
    (scan_Longest e st).Max_Score_Best_d = st.Max_Score_Best_d ∧
    (scan_Longest e st).Max_Score_Best_e = st.Max_Score_Best_e := by
  unfold scan_Longest
  refine for_loop_induction (fun s : PED_State => s.Max_Score_Len = st.Max_Score_Len ∧
    s.Max_Score_Best_d = st.Max_Score_Best_d ∧ s.Max_Score_Best_e = st.Max_Score_Best_e)
    _ _ _ _ ⟨rfl, rfl, rfl⟩ ?_
  intro d s _ _ hs
  split_ifs
  · exact hs
  · exact hs

theorem update_Max_Score_bound (tb : Tables) (e : Int) (st : PED_State)
    (h : st.Max_Score_Best_e ≤
      tb.Error_Bound (OVL_Min_int st.Max_Score_Len (st.Max_Score_Len + st.Max_Score_Best_d))) :
    (update_Max_Score tb e st).Max_Score_Best_e ≤
      tb.Error_Bound (OVL_Min_int (update_Max_Score tb e st).Max_Score_Len
        ((update_Max_Score tb e st).Max_Score_Len + (update_Max_Score tb e st).Max_Score_Best_d)) := by
  unfold update_Max_Score
  simp only
  split_ifs with hc
  · exact hc.2
  · exact h

theorem PED_levels_branch_bound (tb : Tables) (A : Int → Char) (m : Int) (T : Int → Char)
    (n : Int) (Error_Limit : Int) : ∀ (fuel : Nat) (e : Int) (st : PED_State) (r : PED_Result),
    st.Max_Score_Best_e ≤
      tb.Error_Bound (OVL_Min_int st.Max_Score_Len (st.Max_Score_Len + st.Max_Score_Best_d)) →
    PED_levels tb A m T n Error_Limit fuel e st = some r → r.Match_To_End = false →
    r.errors ≤ tb.Error_Bound (OVL_Min_int r.A_End r.T_End) := by
  intro fuel
  induction fuel with
  | zero =>
    intro e st r hb h _
    simp only [PED_levels, Option.some.injEq] at h
    subst h
    exact hb
  | succ fuel ih =>
    intro e st r hb h hm
    simp only [PED_levels] at h
    split_ifs at h with he
    · split at h
      · rename_i r' hfill
        simp only [Option.some.injEq] at h
        subst h
        have := (fill_row_returned A m T n _ _ _ _ _ _ hfill).1
        rw [this] at hm
        simp at hm
      · rename_i ea hfill
        split_ifs at h with hbrk
        · simp only [Option.some.injEq] at h
          subst h
          exact hb
        · split at h
          · simp at h
          · rename_i R1 hR
            split_ifs at h with hLR
            · refine ih _ _ r ?_ h hm
              apply update_Max_Score_bound
              obtain ⟨s1, s2, s3⟩ := scan_Longest_max_score e
                { st with edit_array := ea,
                          Left := tighten_Left ea e (tb.Edit_Match_Limit e)
                            (OVL_Max_int (st.Left - 1) (-e)) (OVL_Min_int (st.Right + 1) e),
                          Right := R1 }
              rw [s1, s2, s3]
              exact hb
    · simp only [Option.some.injEq] at h
      subst h
      exact hb

theorem Prefix_Edit_Dist_branch_bound (tb : Tables) (A : Int → Char) (m : Int) (T : Int → Char)
    (n : Int) (Error_Limit : Int) (edit_array : Edit_Array) (r : PED_Result)
    (h0 : 0 ≤ tb.Error_Bound 0)
    (h : Prefix_Edit_Dist tb A m T n Error_Limit edit_array = some r)
    (hm : r.Match_To_End = false) :
    r.errors ≤ tb.Error_Bound (OVL_Min_int r.A_End r.T_End) := by
  unfold Prefix_Edit_Dist at h
  simp only at h
  split_ifs at h
  · simp only [Option.some.injEq] at h
    subst h
    simp at hm
  · refine PED_levels_branch_bound tb A m T n Error_Limit _ _ _ r ?_ h hm
    simpa [OVL_Min_int] using h0

theorem align_unfold (cfg : Config) (tb : Tables) (rc : List Char → List Char)
    (olap : Olap_Info_t) (b_seq : List Char) (shredded : Bool) (st : Olap_State)
    (al : Olap_Aligned)
    (h : Process_Olap_align cfg tb rc olap b_seq shredded st = some (some al)) :
    ∃ su r, Process_Olap_setup cfg rc olap b_seq shredded st = some (some su) ∧
      Prefix_Edit_Dist tb su.a_part su.a_part_len su.b_part su.b_part_len
        (tb.Error_Bound (OVL_Min_int su.a_part_len su.b_part_len)) st.edit_array = some r ∧
      al.errors = r.errors ∧
      al.olap_len = (if r.Match_To_End = false ∧
          r.A_End + su.a_offset ≥ ((su.Frag su.sub).clear_len : Int) - 1
        then OVL_Min_int r.A_End r.T_End else OVL_Min_int su.a_part_len su.b_part_len) ∧
      al.match_to_end = (if r.Match_To_End = false ∧
          r.A_End + su.a_offset ≥ ((su.Frag su.sub).clear_len : Int) - 1
        then true else r.Match_To_End) := by
  unfold Process_Olap_align at h
  split at h
  · simp at h
  · simp at h
  · rename_i su hsu
    refine ⟨su, ?_⟩
    cases he : Process_Olap_ends tb su st.edit_array with
    | none => rw [he] at h; simp at h
    | some al' =>
      rw [he] at h
      simp only [Option.map_some', Option.some.injEq] at h
      subst h
      unfold Process_Olap_ends at he
      simp only at he
      cases hr : Prefix_Edit_Dist tb su.a_part su.a_part_len su.b_part su.b_part_len
          (tb.Error_Bound (OVL_Min_int su.a_part_len su.b_part_len)) st.edit_array with
      | none => simp [hr] at he
      | some r =>
        simp only [hr] at he
        split at he
        · simp at he
        · simp only [Option.some.injEq] at he
          subst he
          exact ⟨r, hsu, rfl, rfl, rfl, rfl⟩

/-- C36: let `Error_Bound` hold no negative value (it holds the products
`(int) (i * AS_OVL_ERROR_RATE)`), and let `Process_Olap` reach its last test
with the values `al`, after the call of `Prefix_Edit_Dist` has returned `r`.
Then `errors <= Error_Bound [olap_len]` holds whenever `match_to_end` is true
after the promotion step: on a match-to-end return `errors` is within
`Error_Bound [min (a_part_len, b_part_len)]`, and on a branch-point return it
is within `Error_Bound [min (A_End, T_End)]`.  So the test is the test of
`match_to_end` alone, and `Process_Olap` returns with `Failed_Olaps` increased
by one if and only if the aligner returned `Match_To_End = FALSE` and
`a_end + a_offset < clear_len - 1`. -/
theorem error_test_redundant (cfg : Config) (tb : Tables) (rc : List Char → List Char)
    (olap : Olap_Info_t) (b_seq : List Char) (shredded : Bool) (st : Olap_State)
    (al : Olap_Aligned) (hEB : ∀ i : Int, 0 ≤ i → 0 ≤ tb.Error_Bound i)
    (h : Process_Olap_align cfg tb rc olap b_seq shredded st = some (some al)) :
    (al.match_to_end = true → al.errors ≤ tb.Error_Bound al.olap_len) ∧
    al.accepted tb = al.match_to_end ∧
    ∃ su r, Process_Olap_setup cfg rc olap b_seq shredded st = some (some su) ∧
      Prefix_Edit_Dist tb su.a_part su.a_part_len su.b_part su.b_part_len
        (tb.Error_Bound (OVL_Min_int su.a_part_len su.b_part_len)) st.edit_array = some r ∧
      (r.Match_To_End = true →
        r.errors ≤ tb.Error_Bound (OVL_Min_int su.a_part_len su.b_part_len)) ∧
      (r.Match_To_End = false → r.errors ≤ tb.Error_Bound (OVL_Min_int r.A_End r.T_End)) ∧
      ((∃ st', Process_Olap cfg tb rc olap b_seq shredded st = some st' ∧
          st'.Failed_Olaps = st.Failed_Olaps + 1) ↔
        (r.Match_To_End = false ∧
          r.A_End + su.a_offset < ((su.Frag su.sub).clear_len : Int) - 1)) := by
  obtain ⟨su, r, hsu, hr, e1, e2, e3⟩ := align_unfold cfg tb rc olap b_seq shredded st al h
  obtain ⟨_, _, _, l1, l2⟩ := setup_some cfg rc olap b_seq shredded st su hsu
  obtain ⟨r', hr', hpost⟩ := Prefix_Edit_Dist_spec tb su.a_part su.a_part_len su.b_part
    su.b_part_len (tb.Error_Bound (OVL_Min_int su.a_part_len su.b_part_len)) st.edit_array l1 l2
  rw [hr] at hr'
  simp only [Option.some.injEq] at hr'
  subst hr'
  have hlen : 0 ≤ OVL_Min_int su.a_part_len su.b_part_len := by
    unfold OVL_Min_int; split_ifs <;> assumption
  have hT : r.Match_To_End = true →
      r.errors ≤ tb.Error_Bound (OVL_Min_int su.a_part_len su.b_part_len) := by
    intro _
    obtain ⟨k, hk, hlim, _⟩ := hpost
    rcases hlim with hlim | hlim
    · rw [hk]; exact hlim
    · rw [hk, hlim]; exact hEB _ hlen
  have hF : r.Match_To_End = false → r.errors ≤ tb.Error_Bound (OVL_Min_int r.A_End r.T_End) :=
    Prefix_Edit_Dist_branch_bound tb _ _ _ _ _ _ r (hEB 0 (le_refl _)) hr
  have hmain : al.match_to_end = true → al.errors ≤ tb.Error_Bound al.olap_len := by
    intro hm
    rw [e1, e2]
    rw [e3] at hm
    by_cases hp : r.Match_To_End = false ∧
        r.A_End + su.a_offset ≥ ((su.Frag su.sub).clear_len : Int) - 1
    · rw [if_pos hp]
      exact hF hp.1
    · rw [if_neg hp] at hm ⊢
      exact hT hm
  have hacc : al.accepted tb = al.match_to_end := by
    unfold Olap_Aligned.accepted
    cases hm : al.match_to_end with
    | false => simp
    | true => simp [hmain hm]
  refine ⟨hmain, hacc, su, r, hsu, hr, hT, hF, ?_⟩
  have hP := Process_Olap_of_align cfg tb rc olap b_seq shredded st al h
  have hrej : al.match_to_end = false ↔ (r.Match_To_End = false ∧
      r.A_End + su.a_offset < ((su.Frag su.sub).clear_len : Int) - 1) := by
    rw [e3]
    by_cases hp : r.Match_To_End = false ∧
        r.A_End + su.a_offset ≥ ((su.Frag su.sub).clear_len : Int) - 1
    · rw [if_pos hp]
      simp only [Bool.true_eq_false, false_iff, not_and, not_lt]
      intro _
      exact hp.2
    · rw [if_neg hp]
      constructor
      · intro hm
        refine ⟨hm, ?_⟩
        by_contra hc
        exact hp ⟨hm, by omega⟩
      · intro hm
        exact hm.1
  rw [← hrej]
  constructor
  · rintro ⟨st', hst, hcount⟩
    by_contra hm
    have hm' : al.match_to_end = true := by simpa using hm
    rw [hP, if_pos (by rw [hacc, hm'])] at hst
    cases ha : Analyze_Alignment cfg al.Frag al.delta al.a_part al.b_part al.a_end al.b_end
        al.a_offset al.sub with
    | none => rw [ha] at hst; simp at hst
    | some F =>
      rw [ha] at hst
      simp only [Option.map_some', Option.some.injEq] at hst
      subst hst
      simp at hcount
  · intro hm
    rw [hP, if_neg (by rw [hacc, hm]; simp)]
    exact ⟨_, rfl, rfl⟩

theorem Tables_6_nonneg (i : Int) (h : 0 ≤ i) : 0 ≤ Tables_6.Error_Bound i := by
  show 0 ≤ (i * 6) / 100
  exact Int.ediv_nonneg (by omega) (by norm_num)

set_option maxRecDepth 100000 in
theorem error_test_redundant_witness :
    ∃ al, Process_Olap_align (Config.default 1 1) Tables_6 (fun s => s) olap_scenario
        B_unrelated false Olap_State.scenario = some (some al) ∧
      (al.match_to_end = true → al.errors ≤ Tables_6.Error_Bound al.olap_len) ∧
      al.accepted Tables_6 = al.match_to_end ∧
      ∃ su r, Process_Olap_setup (Config.default 1 1) (fun s => s) olap_scenario B_unrelated
          false Olap_State.scenario = some (some su) ∧
        Prefix_Edit_Dist Tables_6 su.a_part su.a_part_len su.b_part su.b_part_len
          (Tables_6.Error_Bound (OVL_Min_int su.a_part_len su.b_part_len))
          Olap_State.scenario.edit_array = some r ∧
        (r.Match_To_End = true →
          r.errors ≤ Tables_6.Error_Bound (OVL_Min_int su.a_part_len su.b_part_len)) ∧
        (r.Match_To_End = false →
          r.errors ≤ Tables_6.Error_Bound (OVL_Min_int r.A_End r.T_End)) ∧
        ((∃ st', Process_Olap (Config.default 1 1) Tables_6 (fun s => s) olap_scenario
            B_unrelated false Olap_State.scenario = some st' ∧
            st'.Failed_Olaps = Olap_State.scenario.Failed_Olaps + 1) ↔
          (r.Match_To_End = false ∧
            r.A_End + su.a_offset < ((su.Frag su.sub).clear_len : Int) - 1)) :=
  (align_returns (Config.default 1 1) Tables_6 (fun s => s) olap_scenario B_unrelated false
    Olap_State.scenario A_scenario (by decide) rfl (by decide) (by decide)).elim
    (fun al hal => ⟨al, hal,
      error_test_redundant (Config.default 1 1) Tables_6 (fun s => s) olap_scenario
        B_unrelated false Olap_State.scenario al Tables_6_nonneg hal⟩)

/-! ## Theorems: the steps of the aligner -/

variable {A T : Int → Char} {m n : Int}

theorem fill_row_events_spec (k : Nat) (L R : Int) (ea0 : Edit_Array)
    (hready : Row_Ready A T m n ea0 k L R) :
    ∀ (fuel : Nat) (d : Int) (ea : Edit_Array), L ≤ d →
    (∀ r : Int, r ≠ (k : Int) + 1 → ∀ x, ea r x = ea0 r x) →
    match fill_row A m T n ((k : Int) + 1) R fuel d ea with
    | .returned r =>
      ∀ ev ∈ fill_row_events A m T n ((k : Int) + 1) R fuel d ea, ev.Ok A T m n r
    | .filled _ =>
      ∀ ev ∈ fill_row_events A m T n ((k : Int) + 1) R fuel d ea, ∀ r, ev.Ok A T m n r := by
  intro fuel
  induction fuel with
  | zero =>
    intro d ea h1 hrows
    simp [fill_row, fill_row_events]
  | succ fuel ih =>
    intro d ea h1 hrows
    simp only [fill_row, fill_row_events]
    by_cases hd : d ≤ R
    · simp only [hd, if_true, add_sub_cancel_right, fill_row_max]
      have hk1 : ∀ x, ea k x = ea0 k x := hrows k (by omega)
      have htm : trace_max ea k d = trace_max ea0 k d := (trace_congr hk1 d).2
      obtain ⟨s1, s2, s3, s4, s5, s6, s7, s8, s9⟩ := hready.source h1 hd
      rw [htm]
      obtain ⟨e1, e2, e3, e4, e5⟩ := extend_match_spec A T m n d
        (m - trace_max ea0 k d).toNat (trace_max ea0 k d) s4 s5 (le_refl _)
      generalize extend_match A T m n d (m - trace_max ea0 k d).toNat (trace_max ea0 k d) = Row
        at e1 e2 e3 e4 e5 ⊢
      have hrows1 : ∀ r : Int, r ≠ (k : Int) + 1 → ∀ x,
          (ea.set ((k : Int) + 1) d Row) r x = ea0 r x := by
        intro r hr x
        rw [set_get]
        simp only [hr, false_and, if_false]
        exact hrows r hr x
      have hcell : (ea.set ((k : Int) + 1) d Row) ((k : Int) + 1) d = Row := by
        rw [set_get]; simp
      have hrow : ∀ r : PED_Result, (PED_Event.row_set ((k : Int) + 1) d Row).Ok A T m n r :=
        fun _ => ⟨by omega, e2, by omega, e3⟩
      by_cases hend : Row = m ∨ Row + d = n
      · rw [if_pos hend, if_pos hend]
        by_cases hshape : Row = m ∧ 1 + (ea.set ((k : Int) + 1) d Row) k (d + 1) =
            (ea.set ((k : Int) + 1) d Row) ((k : Int) + 1) d ∧ d < R
        · rw [if_pos hshape, if_pos hshape]
          obtain ⟨hRm, hsh, hdR⟩ := hshape
          rw [hcell, hrows1 k (by omega)] at hsh
          obtain ⟨t1, t2, t3, t4, t5, t6, t7, t8, t9⟩ := hready.source (d := d + 1)
            (by omega) (by omega)
          have hlt : d + 1 < R := by
            rcases lt_or_eq_of_le (show d + 1 ≤ R by omega) with h | h
            · exact h
            · exfalso
              have := hready.2.2.2.1
              rw [h] at hsh
              omega
          have hlive := hready.2.2.2.2.2 (d + 1) (by omega) hlt
          obtain ⟨_, l2, l3, l4, l5, l6⟩ := hlive
          have hrows2 : ∀ x,
              ((ea.set ((k : Int) + 1) d Row).set ((k : Int) + 1) (d + 1)
                ((ea.set ((k : Int) + 1) d Row) ((k : Int) + 1) d)) k x = ea0 k x := by
            intro x
            rw [set_get]
            have : ¬ ((k : Int) = (k : Int) + 1) := by omega
            simp only [this, false_and, if_false]
            exact hrows1 k (by omega) x
          have hcd := hready.cell d (by omega) (by omega)
          have hcd2 := hready.cell (d + 1 + 1) (by omega) (by omega)
          have hfrom : trace_from ea0 k (d + 1) = d + 1 ∧ trace_max ea0 k (d + 1) = m := by
            unfold trace_from trace_max trace_max1
            simp only [add_sub_cancel_right]
            have c1 : ¬ ea0 k d > 1 + ea0 k (d + 1) := by
              rcases hcd with h | h <;> omega
            have c2 : ¬ 1 + ea0 k (d + 1 + 1) > 1 + ea0 k (d + 1) := by
              rcases hcd2 with h | h <;> omega
            simp only [if_neg c1, if_neg c2]
            exact ⟨trivial, by omega⟩
          intro ev hev
          simp only [List.mem_cons, List.mem_singleton, List.not_mem_nil, or_false] at hev
          rcases hev with h | h | h
          · subst h; exact hrow _
          · subst h
            refine ⟨rfl, by omega, hRm, by simp only; omega, rfl, ?_, ?_, ?_⟩
            · have e : ea0 k (d + 1) = m - 1 := by omega
              rw [e] at l6
              have e2 : m - 1 + (d + 1) = m + d := by ring
              rw [e2] at l6
              exact l6
            · simp only [add_sub_cancel_right]
              rw [(trace_congr hrows2 (d + 1)).1]
              exact hfrom.1
            · simp only [add_sub_cancel_right]
              rw [(trace_congr hrows2 (d + 1)).2]
              exact hfrom.2
          · subst h
            rw [hcell]
            exact ⟨by omega, e2, by omega, by omega⟩
        · rw [if_neg hshape, if_neg hshape]
          intro ev hev
          simp only [List.mem_singleton] at hev
          subst hev
          exact hrow _
      · rw [if_neg hend, if_neg hend]
        have hih := ih (d + 1) _ (by omega) hrows1
        revert hih
        generalize fill_row A m T n ((k : Int) + 1) R fuel (d + 1)
          (ea.set ((k : Int) + 1) d Row) = out
        intro hih
        cases out with
        | returned r =>
          intro ev hev
          rcases List.mem_cons.1 hev with h | h
          · subst h; exact hrow _
          · exact hih ev h
        | filled ea' =>
          intro ev hev r
          rcases List.mem_cons.1 hev with h | h
          · subst h; exact hrow _
          · exact hih ev h r
    · simp only [hd, if_false]
      intro ev hev
      simp at hev

theorem PED_levels_events_spec (tb : Tables) (Error_Limit : Int) : ∀ (fuel : Nat) (k : Nat)
    (st : PED_State), Level_Inv A T m n k st → ((k : Int) ≤ Error_Limit ∨ k = 0) →
    ∃ r, PED_levels tb A m T n Error_Limit fuel ((k : Int) + 1) st = some r ∧
      PED_Post A T m n Error_Limit r ∧
      ∀ ev ∈ PED_levels_events tb A m T n Error_Limit fuel ((k : Int) + 1) st,
        ev.Ok A T m n r := by
  intro fuel
  induction fuel with
  | zero =>
    intro k st inv hk
    exact ⟨_, rfl, branch_point_post st k inv.max_score hk, by simp [PED_levels_events]⟩
  | succ fuel ih =>
    intro k st inv hk
    simp only [PED_levels, PED_levels_events]
    by_cases he : (k : Int) + 1 ≤ Error_Limit
    · rw [if_pos he, if_pos he]
      simp only [(OVL_band inv).1, (OVL_band inv).2]
      have hready := inv.ready
      have hb := inv.band
      have hfill := fill_row_spec k (st.Left - 1) (st.Right + 1) _ hready he
        (st.Right + 1 - (st.Left - 1) + 1).toNat (st.Left - 1) _ (le_refl _) (by omega)
        (le_refl _) (fun _ _ _ => rfl) (fun x h1 h2 => by omega)
      have hev := fill_row_events_spec k (st.Left - 1) (st.Right + 1) _ hready
        (st.Right + 1 - (st.Left - 1) + 1).toNat (st.Left - 1) _ (le_refl _) (fun _ _ _ => rfl)
      revert hfill hev
      generalize fill_row_events A m T n ((k : Int) + 1) (st.Right + 1)
        (st.Right + 1 - (st.Left - 1) + 1).toNat (st.Left - 1)
        (set_sentinels st.edit_array ((k : Int) + 1) (st.Left - 1) (st.Right + 1)) = evs
      generalize fill_row A m T n ((k : Int) + 1) (st.Right + 1)
        (st.Right + 1 - (st.Left - 1) + 1).toNat (st.Left - 1)
        (set_sentinels st.edit_array ((k : Int) + 1) (st.Left - 1) (st.Right + 1)) = out
      intro hfill hev
      cases out with
      | returned r =>
        refine ⟨r, rfl, hfill.1, ?_⟩
        intro ev h
        simp only [List.append_nil] at h
        exact hev ev h
      | filled ea2 =>
        obtain ⟨hrows, hlive⟩ := hfill
        simp only at hev ⊢
        obtain ⟨l1, l2, l3⟩ := tighten_Left_spec ea2 ((k : Int) + 1)
          (tb.Edit_Match_Limit ((k : Int) + 1)) (st.Left - 1) (st.Right + 1) (by omega)
        generalize tighten_Left ea2 ((k : Int) + 1) (tb.Edit_Match_Limit ((k : Int) + 1))
          (st.Left - 1) (st.Right + 1) = L2 at l1 l2 l3 ⊢
        by_cases hbrk : L2 > st.Right + 1
        · rw [if_pos hbrk, if_pos hbrk]
          refine ⟨_, rfl, branch_point_post _ k ?_ hk, ?_⟩
          · refine Marked_congr ?_ (le_refl _) inv.max_score
            intro r hr x
            show st.edit_array r x = ea2 r x
            rw [hrows r (by omega) x, set_sentinels_get]
            have : ¬ (r = (k : Int)) := by omega
            simp [this]
          · intro ev h
            rcases List.mem_append.1 h with h | h
            · exact hev ev h _
            · simp only [List.mem_singleton] at h
              subst h
              exact ⟨by omega, l1, by omega⟩
        · rw [if_neg hbrk, if_neg hbrk]
          obtain ⟨R2, r1, r2, r3⟩ := tighten_Right_spec ea2 ((k : Int) + 1)
            (tb.Edit_Match_Limit ((k : Int) + 1)) L2 (st.Right + 1) (by omega)
            (l3 (by omega)).1 (l3 (by omega)).2
          rw [r1]
          simp only
          rw [if_pos r2, if_pos r2]
          obtain ⟨inv3, _⟩ := Level_Inv_step tb inv hrows hlive l1 r2 r3
          obtain ⟨r, hr, hpost, hevs⟩ := ih (k + 1) _ inv3 (Or.inl (by push_cast; omega))
          push_cast at hr hevs
          refine ⟨r, hr, hpost, ?_⟩
          intro ev h
          rcases List.mem_append.1 h with h | h
          · exact hev ev h _
          · rcases List.mem_cons.1 h with h | h
            · subst h
              exact ⟨by omega, R2, rfl, l1, r2, r3⟩
            · exact hevs ev h
    · rw [if_neg he, if_neg he]
      exact ⟨_, rfl, branch_point_post st k inv.max_score hk, by simp⟩

theorem Prefix_Edit_Dist_events_spec (tb : Tables) (A : Int → Char) (m : Int) (T : Int → Char)
    (n : Int) (Error_Limit : Int) (edit_array : Edit_Array) (hm : 0 ≤ m) (hn : 0 ≤ n) :
    ∃ r, Prefix_Edit_Dist tb A m T n Error_Limit edit_array = some r ∧
      PED_Post A T m n Error_Limit r ∧
      ∀ ev ∈ Prefix_Edit_Dist_events tb A m T n Error_Limit edit_array, ev.Ok A T m n r := by
  unfold Prefix_Edit_Dist Prefix_Edit_Dist_events
  simp only
  have hs : 0 ≤ OVL_Min_int m n ∧ OVL_Min_int m n ≤ m ∧ OVL_Min_int m n ≤ n ∧
      (OVL_Min_int m n = m ∨ OVL_Min_int m n = n) := by
    unfold OVL_Min_int; split_ifs <;> omega
  generalize OVL_Min_int m n = shorter at hs ⊢
  obtain ⟨f1, f2, f3, f4⟩ := first_match_spec A T shorter shorter.toNat 0 hs.1 (by simp)
  generalize first_match A T shorter shorter.toNat 0 = Row at f1 f2 f3 f4 ⊢
  have hrow : ∀ r : PED_Result, (PED_Event.row_set 0 0 Row).Ok A T m n r :=
    fun _ => ⟨f1, by omega, by omega, by omega⟩
  by_cases hx : Row = shorter
  · rw [if_pos hx, if_pos hx]
    refine ⟨_, rfl, ⟨0, rfl, Or.inr rfl, ?_, ?_, ?_, ?_⟩, ?_⟩
    · simp only [sub_self]
      exact ⟨rfl, f1, by omega, by omega, f3⟩
    · simp only [sub_self, Nat.cast_zero, Compute_Delta_zero]
    · intro _; simp only; omega
    · intro h; simp at h
    · intro ev h
      simp only [List.mem_singleton] at h
      subst h
      exact hrow _
  · rw [if_neg hx, if_neg hx]
    have hne : A Row ≠ T Row := by
      rcases f4 with h | h
      · exact absurd h hx
      · exact h
    have hlt : Row < shorter := lt_of_le_of_ne f2 hx
    have inv : Level_Inv A T m n 0 ⟨edit_array.set 0 0 Row, 0, 0, 0, 0, 0, 0, 0, 0, 0⟩ := by
      refine ⟨le_refl _, by simp, by simp, ?_, ?_, ?_⟩
      · intro d h1 h2
        have hd : d = 0 := by simp only at h1 h2; omega
        subst hd
        have hc : (edit_array.set 0 0 Row) ((0 : Nat) : Int) 0 = Row := by
          rw [set_get]; simp
        unfold Live
        simp only
        rw [hc]
        refine ⟨⟨rfl, f1, by omega, by omega, f3⟩, f1, by omega, by omega, by omega, ?_⟩
        simpa using hne
      · simp only
        exact ⟨0, rfl, le_refl _, ⟨rfl, le_refl _, hm, hn, fun r h1 h2 => by omega⟩,
          by omega, by omega⟩
      · simp only
        exact ⟨0, rfl, le_refl _, ⟨rfl, le_refl _, hm, hn, fun r h1 h2 => by omega⟩,
          by omega, by omega⟩
    obtain ⟨r, hr, hpost, hevs⟩ :=
      PED_levels_events_spec tb Error_Limit Error_Limit.toNat 0 _ inv (Or.inr rfl)
    simp only [Nat.cast_zero, zero_add] at hr hevs
    refine ⟨r, hr, hpost, ?_⟩
    intro ev h
    rcases List.mem_cons.1 h with h | h
    · subst h; exact hrow _
    · exact hevs ev h

/-- C32: whenever `Prefix_Edit_Dist` reaches `Row = m` at level `e` on
diagonal `d` with `edit_array [e] [d] = 1 + edit_array [e - 1] [d + 1]` and
`d < Right`, so that it reports diagonal `d + 1` instead, the call returns `e`
with `A_End = m`, `T_End = m + d + 1 <= n` and `Match_To_End = TRUE`; the last
column of the reported alignment pairs `A [m - 1]` with `T [T_End - 1]`, two
different characters, the pass of `Compute_Delta` for level `e` adds no entry,
and the alignment that `Delta` describes ends with this mismatch and has
exactly `e` errors. -/
theorem last_error_is_mismatch (tb : Tables) (A : Int → Char) (m : Int) (T : Int → Char)
    (n : Int) (Error_Limit : Int) (edit_array : Edit_Array) (hm : 0 ≤ m) (hn : 0 ≤ n) :
    ∃ r, Prefix_Edit_Dist tb A m T n Error_Limit edit_array = some r ∧
      ∀ e d, PED_Event.last_forced e d ∈
          Prefix_Edit_Dist_events tb A m T n Error_Limit edit_array →
        r.errors = e ∧ r.A_End = m ∧ r.T_End = m + d + 1 ∧ r.T_End ≤ n ∧
        r.Match_To_End = true ∧ A (m - 1) ≠ T (r.T_End - 1) ∧
        Compute_Delta_step r.edit_array e ⟨d + 1, m, []⟩ = ⟨d + 1, m, []⟩ ∧
        ∃ s : List Edit_Op, Aligns A T (s ++ [.replace]) r.A_End r.T_End ∧
          script_cost (s ++ [.replace]) = e ∧ r.Delta = script_delta (s ++ [.replace]) 0 := by
  obtain ⟨r, hr, hpost, hev⟩ :=
    Prefix_Edit_Dist_events_spec tb A m T n Error_Limit edit_array hm hn
  refine ⟨r, hr, ?_⟩
  intro e d hmem
  obtain ⟨o1, o2, o3, o4, o5, o6, o7, o8⟩ := hev _ hmem
  obtain ⟨_, _, _, b4⟩ := hpost.bounds
  obtain ⟨k, hk, _, htr, hdel, _, _⟩ := hpost
  have hdiag : r.T_End - r.A_End = d + 1 := by rw [o3, o4]; ring
  rw [hdiag, o3] at htr hdel
  cases k with
  | zero => omega
  | succ k' =>
    have hek : e - 1 = (k' : Int) := by rw [← o1, hk]; push_cast; ring
    have hek' : e = (k' : Int) + 1 := by omega
    rw [hek] at o7 o8
    refine ⟨o1, o3, o4, b4, o5, ?_, ?_, ?_⟩
    · have e2 : r.T_End - 1 = m + d := by rw [o4]; ring
      rw [e2]; exact o6
    · rw [hek', Compute_Delta_step_eq]
      simp only [o7]
      rw [if_neg (by omega), if_neg (by omega)]
    · have hs : trace_script r.edit_array (k' + 1) (d + 1) m =
          trace_script r.edit_array k' (d + 1) (r.edit_array k' (d + 1)) ++ [.replace] := by
        simp only [trace_script, o7, o8, sub_self, Int.toNat_zero, List.replicate_zero]
        rw [if_neg (by omega), if_neg (by omega)]
      obtain ⟨hal, hc⟩ := Traced.aligns (k' + 1) _ _ htr
      rw [hs] at hal hc
      refine ⟨trace_script r.edit_array k' (d + 1) (r.edit_array k' (d + 1)), ?_, ?_, ?_⟩
      · rw [o3, o4]
        have e3 : m + d + 1 = m + (d + 1) := by ring
        rw [e3]
        exact hal
      · rw [hc, hek']; push_cast; ring
      · rw [hdel, Compute_Delta_eq_script htr, hs]

set_option maxRecDepth 100000 in
theorem last_error_is_mismatch_witness :
    PED_Event.last_forced 1 (-1) ∈
      Prefix_Edit_Dist_events Tables_6 (charAt ['a', 'c']) 2 (charAt ['a', 'g', 'g']) 3 1
        Edit_Array.junk ∧
    ∃ r, Prefix_Edit_Dist Tables_6 (charAt ['a', 'c']) 2 (charAt ['a', 'g', 'g']) 3 1
        Edit_Array.junk = some r ∧
      ∀ e d, PED_Event.last_forced e d ∈
          Prefix_Edit_Dist_events Tables_6 (charAt ['a', 'c']) 2 (charAt ['a', 'g', 'g']) 3 1
            Edit_Array.junk →
        r.errors = e ∧ r.A_End = 2 ∧ r.T_End = 2 + d + 1 ∧ r.T_End ≤ 3 ∧
        r.Match_To_End = true ∧ charAt ['a', 'c'] (2 - 1) ≠ charAt ['a', 'g', 'g'] (r.T_End - 1) ∧
        Compute_Delta_step r.edit_array e ⟨d + 1, 2, []⟩ = ⟨d + 1, 2, []⟩ ∧
        ∃ s : List Edit_Op, Aligns (charAt ['a', 'c']) (charAt ['a', 'g', 'g'])
            (s ++ [.replace]) r.A_End r.T_End ∧
          script_cost (s ++ [.replace]) = e ∧ r.Delta = script_delta (s ++ [.replace]) 0 :=
  ⟨by decide,
    last_error_is_mismatch Tables_6 (charAt ['a', 'c']) 2 (charAt ['a', 'g', 'g']) 3 1
      Edit_Array.junk (by decide) (by decide)⟩

/-- C34: for all strings `A [0 .. m)`, `T [0 .. n)` and every `Error_Limit`,
`Prefix_Edit_Dist` returns endpoints with `0 <= A_End <= m` and
`0 <= T_End <= n`, and every row that it stores in a cell
`edit_array [e] [d]` satisfies `0 <= Row <= m` and `0 <= Row + d <= n`.  So
the test in front of "Bad edit distance" in `Process_Olap` is false after the
call, and `Process_Olap` gets past it: for the setup of any overlap, the call
and the test end with the values for the promotion step, never with
`exit (1)`. -/
theorem endpoints_in_range (tb : Tables) (A : Int → Char) (m : Int) (T : Int → Char)
    (n : Int) (Error_Limit : Int) (edit_array : Edit_Array) (hm : 0 ≤ m) (hn : 0 ≤ n) :
    ∃ r, Prefix_Edit_Dist tb A m T n Error_Limit edit_array = some r ∧
      0 ≤ r.A_End ∧ r.A_End ≤ m ∧ 0 ≤ r.T_End ∧ r.T_End ≤ n ∧
      (∀ e d Row, PED_Event.row_set e d Row ∈
          Prefix_Edit_Dist_events tb A m T n Error_Limit edit_array →
        0 ≤ Row ∧ Row ≤ m ∧ 0 ≤ Row + d ∧ Row + d ≤ n) ∧
      ¬ (r.A_End < 0 ∨ r.A_End > m ∨ r.T_End < 0 ∨ r.T_End > n) ∧
      (∀ (Frag : Frag_t) (sub a_offset : Int) (rev_seq : List Char) (rev_id : Int),
        Error_Limit = tb.Error_Bound (OVL_Min_int m n) →
        ∃ al, Process_Olap_ends tb ⟨Frag, sub, A, T, a_offset, m, n, rev_seq, rev_id⟩
          edit_array = some al ∧ al.a_end = r.A_End ∧ al.b_end = r.T_End) ∧
      (∀ (cfg : Config) (rc : List Char → List Char) (olap : Olap_Info_t) (b_seq : List Char)
        (shredded : Bool) (st : Olap_State) (su : Olap_Setup),
        Process_Olap_setup cfg rc olap b_seq shredded st = some (some su) →
        ∃ al, Process_Olap_align cfg tb rc olap b_seq shredded st = some (some al)) := by
  obtain ⟨r, hr, hpost, hev⟩ :=
    Prefix_Edit_Dist_events_spec tb A m T n Error_Limit edit_array hm hn
  obtain ⟨b1, b2, b3, b4⟩ := hpost.bounds
  refine ⟨r, hr, b1, b2, b3, b4, ?_, by omega, ?_, ?_⟩
  · intro e d Row hmem
    exact hev _ hmem
  · intro Frag sub a_offset rev_seq rev_id hE
    unfold Process_Olap_ends
    simp only
    rw [← hE, hr]
    simp only
    rw [if_neg (by omega)]
    exact ⟨_, rfl, rfl, rfl⟩
  · intro cfg rc olap b_seq shredded st su hsu
    obtain ⟨_, _, _, l1, l2⟩ := setup_some cfg rc olap b_seq shredded st su hsu
    obtain ⟨al, hal⟩ := ends_returns tb su st.edit_array l1 l2
    refine ⟨al, ?_⟩
    unfold Process_Olap_align
    rw [hsu]
    simp only [hal, Option.map_some']

set_option maxRecDepth 100000 in
theorem endpoints_in_range_witness :
    ∃ r, Prefix_Edit_Dist Tables_6 (charAt A_scenario) 20 (charAt B_scenario) 20 1
        Edit_Array.junk = some r ∧
      0 ≤ r.A_End ∧ r.A_End ≤ 20 ∧ 0 ≤ r.T_End ∧ r.T_End ≤ 20 ∧
      (∀ e d Row, PED_Event.row_set e d Row ∈
          Prefix_Edit_Dist_events Tables_6 (charAt A_scenario) 20 (charAt B_scenario) 20 1
            Edit_Array.junk →
        0 ≤ Row ∧ Row ≤ 20 ∧ 0 ≤ Row + d ∧ Row + d ≤ 20) ∧
      ¬ (r.A_End < 0 ∨ r.A_End > 20 ∨ r.T_End < 0 ∨ r.T_End > 20) ∧
      (∀ (Frag : Frag_t) (sub a_offset : Int) (rev_seq : List Char) (rev_id : Int),
        1 = Tables_6.Error_Bound (OVL_Min_int 20 20) →
        ∃ al, Process_Olap_ends Tables_6
          ⟨Frag, sub, charAt A_scenario, charAt B_scenario, a_offset, 20, 20, rev_seq, rev_id⟩
          Edit_Array.junk = some al ∧ al.a_end = r.A_End ∧ al.b_end = r.T_End) ∧
      (∀ (cfg : Config) (rc : List Char → List Char) (olap : Olap_Info_t) (b_seq : List Char)
        (shredded : Bool) (st : Olap_State) (su : Olap_Setup),
        Process_Olap_setup cfg rc olap b_seq shredded st = some (some su) →
        ∃ al, Process_Olap_align cfg Tables_6 rc olap b_seq shredded st = some (some al)) :=
  endpoints_in_range Tables_6 (charAt A_scenario) 20 (charAt B_scenario) 20 1
    Edit_Array.junk (by decide) (by decide)

/-- C39: in every call of `Prefix_Edit_Dist`, at every level `e` at which the
row is filled without reaching an endpoint, the band `[Left, Right]` of the row
is not empty, and the statements that tighten it end in one of two ways: the
loops on `Left` end with `Left > Right` and the loop over `e` breaks, or they
end with a new `Left` at most `Right`, the loops on `Right` stop, and the new
band satisfies `old Left <= Left <= Right <= old Right`.  In particular the
loop `while (edit_array [e] [Right] < Edit_Match_Limit [e]) Right --`, which
tests no bound, stops at a diagonal that is at least `Left`, and
`assert (Left <= Right)` holds: the call returns.  The two ways are the only
ones whatever row `e` holds. -/
theorem band_tightening_safe (tb : Tables) (A : Int → Char) (m : Int) (T : Int → Char)
    (n : Int) (Error_Limit : Int) (edit_array : Edit_Array) (hm : 0 ≤ m) (hn : 0 ≤ n) :
    (∃ r, Prefix_Edit_Dist tb A m T n Error_Limit edit_array = some r) ∧
    (∀ e Left Right Left1, PED_Event.broke e Left Right Left1 ∈
        Prefix_Edit_Dist_events tb A m T n Error_Limit edit_array →
      Left ≤ Right ∧ Left ≤ Left1 ∧ Right < Left1) ∧
    (∀ e Left Right Left1 Right1, PED_Event.tightened e Left Right Left1 Right1 ∈
        Prefix_Edit_Dist_events tb A m T n Error_Limit edit_array →
      Left ≤ Right ∧
        ∃ R1, Right1 = some R1 ∧ Left ≤ Left1 ∧ Left1 ≤ R1 ∧ R1 ≤ Right) ∧
    (∀ (ea : Edit_Array) (e lim Left Right : Int), Left ≤ Right →
      Left ≤ tighten_Left ea e lim Left Right ∧
      (Right < tighten_Left ea e lim Left Right ∨
        ∃ R1, tighten_Right ea e lim (tighten_Left ea e lim Left Right) Right = some R1 ∧
          tighten_Left ea e lim Left Right ≤ R1 ∧ R1 ≤ Right)) := by
  obtain ⟨r, hr, _, hev⟩ :=
    Prefix_Edit_Dist_events_spec tb A m T n Error_Limit edit_array hm hn
  refine ⟨⟨r, hr⟩, ?_, ?_, ?_⟩
  · intro e Left Right Left1 hmem
    exact hev _ hmem
  · intro e Left Right Left1 Right1 hmem
    exact hev _ hmem
  · intro ea e lim Left Right hLR
    obtain ⟨l1, l2, l3⟩ := tighten_Left_spec ea e lim Left Right (by omega)
    refine ⟨l1, ?_⟩
    by_cases hb : Right < tighten_Left ea e lim Left Right
    · exact Or.inl hb
    · right
      exact tighten_Right_spec ea e lim _ Right (by omega) (l3 (by omega)).1 (l3 (by omega)).2

set_option maxRecDepth 100000 in
theorem band_tightening_safe_witness :
    PED_Event.tightened 1 (-1) 1 (-1) (some 1) ∈
      Prefix_Edit_Dist_events Tables_6 (charAt A_pruned) 15 (charAt T_pruned) 16 9
        Edit_Array.junk ∧
    (∃ r, Prefix_Edit_Dist Tables_6 (charAt A_pruned) 15 (charAt T_pruned) 16 9
      Edit_Array.junk = some r) ∧
    (∀ e Left Right Left1, PED_Event.broke e Left Right Left1 ∈
        Prefix_Edit_Dist_events Tables_6 (charAt A_pruned) 15 (charAt T_pruned) 16 9
          Edit_Array.junk →
      Left ≤ Right ∧ Left ≤ Left1 ∧ Right < Left1) ∧
    (∀ e Left Right Left1 Right1, PED_Event.tightened e Left Right Left1 Right1 ∈
        Prefix_Edit_Dist_events Tables_6 (charAt A_pruned) 15 (charAt T_pruned) 16 9
          Edit_Array.junk →
      Left ≤ Right ∧
        ∃ R1, Right1 = some R1 ∧ Left ≤ Left1 ∧ Left1 ≤ R1 ∧ R1 ≤ Right) ∧
    (∀ (ea : Edit_Array) (e lim Left Right : Int), Left ≤ Right →
      Left ≤ tighten_Left ea e lim Left Right ∧
      (Right < tighten_Left ea e lim Left Right ∨
        ∃ R1, tighten_Right ea e lim (tighten_Left ea e lim Left Right) Right = some R1 ∧
          tighten_Left ea e lim Left Right ≤ R1 ∧ R1 ≤ Right)) :=
  ⟨by decide,
    band_tightening_safe Tables_6 (charAt A_pruned) 15 (charAt T_pruned) 16 9
      Edit_Array.junk (by decide) (by decide)⟩

/-! ## Theorems: an insertion in the first column -/

set_option maxRecDepth 100000 in
/-- C35 fails on the code.  `Prefix_Edit_Dist` aligns `A_scenario` with
`B_leading_base` with one error, the delta `[-1]`: the first column is an
insertion.  For this alignment `Analyze_Alignment` records the vote
`T_INSERT` with `frag_sub = i - 1 = -1`, and with `a_offset = 0` it casts the
vote at `vote [-1]`, in front of the first tally of the read: `t_insert` at
index `-1` goes from 0 to 1. -/
theorem first_column_insert_votes_before_read :
    (Prefix_Edit_Dist Tables_6 (charAt A_scenario) 20 (charAt B_leading_base) 21 1
        Edit_Array.junk).map
      (fun r => (r.errors, r.A_End, r.T_End, r.Match_To_End, r.Delta)) =
        some (1, 20, 21, true, [-1]) ∧
    Build_Votes [-1] (charAt A_scenario) (charAt B_leading_base) 20 21 =
      some [⟨-1, -1, .A_SUBST⟩, ⟨-1, 0, .T_INSERT⟩, ⟨20, 21, .NO_VOTE⟩] ∧
    ((Frag_scenario 0).vote (-1)).t_insert = 0 ∧
    (Analyze_Alignment (Config.default 1 1) Frag_scenario [-1] (charAt A_scenario)
      (charAt B_leading_base) 20 21 0 0).map (fun F => ((F 0).vote (-1)).t_insert) = some 1 := by
  decide

/-! ## Theorems: a deleted read that has overlaps -/

theorem Stream_Old_Frags_stream_end (cfg : Config) (tb : Tables) (rc : List Char → List Char)
    (Olap : List Olap_Info_t) (stream : List Store_Frag) (next_olap : Nat) (st : Olap_State)
    (h : Olap.get? next_olap = none) :
    Stream_Old_Frags_stream cfg tb rc Olap stream next_olap st = some st := by
  cases stream with
  | nil => rfl
  | cons f rest =>
    unfold Stream_Old_Frags_stream
    rw [h]

theorem Stream_Old_Frags_stream_live (cfg : Config) (tb : Tables) (rc : List Char → List Char)
    (Olap : List Olap_Info_t) : ∀ (stream : List Store_Frag) (next_olap : Nat) (st : Olap_State),
    Stream_Old_Frags_stream cfg tb rc Olap stream next_olap st =
      Stream_Old_Frags_loop cfg tb rc Olap
        ((stream.filter (fun f => !f.deleted)).map (fun f => ⟨f.id, f.seq, f.shredded⟩))
        next_olap st := by
  intro stream
  induction stream with
  | nil =>
    intro next_olap st
    rfl
  | cons f rest ih =>
    intro next_olap st
    cases ho : Olap.get? next_olap with
    | none =>
      rw [Stream_Old_Frags_stream_end cfg tb rc Olap _ next_olap st ho]
      generalize List.map (fun f : Store_Frag => (⟨f.id, f.seq, f.shredded⟩ : Frag_List_Entry))
        (List.filter (fun f => !f.deleted) (f :: rest)) = l
      cases l with
      | nil => rfl
      | cons e l' =>
        unfold Stream_Old_Frags_loop
        rw [ho]
    | some olap =>
      cases hd : f.deleted with
      | true =>
        rw [List.filter_cons_of_neg (by simp [hd]), ← ih]
        conv_lhs => unfold Stream_Old_Frags_stream
        simp only [ho, hd, if_true]
        split_ifs <;> rfl
      | false =>
        rw [List.filter_cons_of_pos (by simp [hd]), List.map_cons]
        conv_lhs => unfold Stream_Old_Frags_stream
        conv_rhs => unfold Stream_Old_Frags_loop
        simp only [ho, hd]
        by_cases h1 : f.id < olap.b_iid
        · rw [if_pos h1, if_pos h1]
          exact ih next_olap st
        · rw [if_neg h1, if_neg h1, if_neg (by simp)]
          cases hrun : Olap_run cfg tb rc (fun _ => true) Olap ⟨f.id, f.seq, f.shredded⟩
              (Olap.length - next_olap) next_olap { st with rev_id := -1 } with
          | none => rfl
          | some p =>
            obtain ⟨n1, st1⟩ := p
            exact ih n1 st1

set_option maxRecDepth 1000000 in
/-- C30 fails on the code.  In the store `store_deleted` read 2 is deleted, and
the sorted array `Olap_deleted` holds the overlaps of read 1 with the reads 2,
3 and 4.  `Extract_Needed_Frags` passes over the overlap with the deleted read
and lists the reads 3 and 4 for the one batch; the two threads, in either
order, process the overlaps with these reads: both degrees of read 1 end at 2
and `Failed_Olaps` at 2, and `Output_Corrections` writes the ID record with
`keep_left` and `keep_right` false.  `Stream_Old_Frags` leaves `next_olap` at
the overlap with the deleted read, so that no later fragment of the stream
matches it and no overlap is processed: the degrees and `Failed_Olaps` stay 0,
and the ID record has `keep_left` and `keep_right` true. -/
theorem deleted_read_stalls_single_pass :
    Extract_Needed_Frags store_deleted 4 Olap_deleted 0 =
      some ([⟨3, B_unrelated, false⟩, ⟨4, B_unrelated, false⟩], 3) ∧
    (Threads_pass (Config.default 1 1) Tables_6 (fun s => s) 2 Olap_deleted
        [⟨3, B_unrelated, false⟩, ⟨4, B_unrelated, false⟩] (fun _ => (0, Edit_Array.junk))
        [0, 1] (Frag_scenario, 0)).map
      (fun s => ((s.1 0).left_degree, (s.1 0).right_degree, s.2,
        Output_Corrections (Config.default 1 1) s.1)) =
      some (2, 2, 2, [Correction_Output_t.frag false false 1]) ∧
    (Threads_pass (Config.default 1 1) Tables_6 (fun s => s) 2 Olap_deleted
        [⟨3, B_unrelated, false⟩, ⟨4, B_unrelated, false⟩] (fun _ => (0, Edit_Array.junk))
        [1, 0] (Frag_scenario, 0)).map
      (fun s => ((s.1 0).left_degree, (s.1 0).right_degree, s.2,
        Output_Corrections (Config.default 1 1) s.1)) =
      some (2, 2, 2, [Correction_Output_t.frag false false 1]) ∧
    (Stream_Old_Frags (Config.default 1 1) Tables_6 (fun s => s) store_deleted Olap_deleted 0
        Edit_Array.junk (Frag_scenario, 0)).map
      (fun s => ((s.1 0).left_degree, (s.1 0).right_degree, s.2,
        Output_Corrections (Config.default 1 1) s.1)) =
      some (0, 0, 0, [Correction_Output_t.frag true true 1]) := by
  refine ⟨by decide, by decide, by decide, by decide⟩

end FragCorrectOVL
